import Mathlib

/-!
# SmartCalc v2: the expression engine and the credit model

A shallow embedding of `model/polish_notation.cc` (class `ReversePolishNotation`),
`model/model_calculator.cc` (class `ModelCalculator`), `model/model_credit.cc` (class
`CreditModel`), the calendar helpers of `model/model_deposit.cc` and the loop of
`view/graphview.cpp` that reads the output of the sampler.

Modelling conventions.

* `std::string` is `List Char`; the operator stack `std::stack<std::string>` only
  ever holds one-character strings (`String(1, c)`), so it is a `List Char` whose
  head is the top of the stack.
* A `double` is the rational `ℚ` it stands for. In the expression engine and the sampler
  the result of `+ - * /` is the exact result rounded by the parameter `Platform.fl`
  (IEEE 754 round to nearest on a real machine); comparison with `0.0` and `std::fmod`
  are exact, as they are on `double`. Infinities are outside the model, and NaN appears
  only as the marker `none` of the sampler. The credit model is embedded in exact
  arithmetic (`fl` is not applied there).
* What the C++ toolchain supplies and the repository does not define is a parameter
  (`Platform`): the order in which the `std::unordered_map` of function names is
  traversed, the two library number readers (`iss >> d`, `std::stod`), the rounding of
  the arithmetic operations and the `<cmath>` functions.
* A thrown `std::invalid_argument` is a value of `Error` in `Except`.
* An `int` is an integer `ℤ` (no operation of the embedded code overflows on the values
  a calendar or a loan term takes); a read of a `std::vector` past its end, which is
  undefined behaviour, is `none`.
-/

namespace SmartCalc

/-! ## Errors -/

/-- The exceptions the engine throws, one constructor per `throw` site. -/
inductive Error where
  /-- `getOperatorPriority`: "Unknown operator". -/
  | unknownPriority
  /-- `processExponent`: "Invalid format: expected digit after 'e' and sign". -/
  | expectedDigitAfterSign
  /-- `processExponent`: "Invalid format: expected digit after 'e'". -/
  | expectedDigitAfterE
  /-- `evaluateRPN`: "Invalid RPN expression: not enough operands". -/
  | notEnoughOperands
  /-- `evaluateRPN`: "Unknown token: " followed by the token. -/
  | unknownToken (token : List Char)
  /-- `evaluateRPN`: "Invalid RPN expression" (the stack does not hold exactly one value). -/
  | invalidRPN
  /-- `applyBinaryOperator`: "Division by zero". -/
  | divisionByZero
  /-- `applyBinaryOperator`: "Unknown operator". -/
  | unknownBinaryOperator
  /-- `applyUnaryOperator`: "The expression under the root cannot be negative". -/
  | negativeRoot
  /-- `applyUnaryOperator`: "The expression under the logarithm cannot be zero or negative.". -/
  | nonPositiveLog
  /-- `applyUnaryOperator`: "Unknown unary operator". -/
  | unknownUnaryOperator
  /-- `std::stod` threw on the token. -/
  | stodFailed (token : List Char)
  /-- `calculateGraf`: the x- or y-range is inverted. -/
  | invalidRange
  /-- `calculateGraf`: no point lies in the requested window. -/
  | noPointInRange
  /-- The scan of `toRPN` was cut by its iteration bound. The bound is the length of
  the text and every iteration consumes a character, so this is never produced
  (`toRPNLoop_fuel`). -/
  | scanBound
  deriving DecidableEq, Repr

deriving instance DecidableEq for Except

/-! ## polish_notation.h: enumerations and tables -/

/-- The `enum OperatorPriority`. -/
def OP_PARENTHESIS : Nat := 0

def OP_ADDITIVE : Nat := 1

def OP_MULTIPLICATIVE : Nat := 2

def OP_FUNCTION : Nat := 3

def OP_EXPONENTIAL : Nat := 4

def OP_UNARY_MINUS : Nat := 5

/-- The `enum isOperandOrOperatorOrFunction`. -/
inductive CharClass where
  | BRACKETS
  | OPERAND
  | OPERATOR
  | FUNCTION
  deriving DecidableEq, Repr

/-- The map `ReversePolishNotation::operatorPriority`. -/
def operatorPriority : List (Char × Nat) :=
  [('(', OP_PARENTHESIS), (')', OP_PARENTHESIS),
   ('+', OP_ADDITIVE), ('-', OP_ADDITIVE),
   ('*', OP_MULTIPLICATIVE), ('/', OP_MULTIPLICATIVE),
   ('%', OP_MULTIPLICATIVE), ('s', OP_FUNCTION),
   ('c', OP_FUNCTION), ('t', OP_FUNCTION),
   ('i', OP_FUNCTION), ('o', OP_FUNCTION),
   ('n', OP_FUNCTION), ('q', OP_FUNCTION),
   ('l', OP_FUNCTION), ('g', OP_FUNCTION),
   ('^', OP_EXPONENTIAL), ('~', OP_UNARY_MINUS)]

/-- The map `ReversePolishNotation::functions`, in the order of its initializer list. -/
def functions : List (List Char × Char) :=
  [(['s', 'i', 'n'], 's'), (['c', 'o', 's'], 'c'), (['t', 'a', 'n'], 't'),
   (['a', 's', 'i', 'n'], 'i'), (['a', 'c', 'o', 's'], 'o'),
   (['a', 't', 'a', 'n'], 'n'), (['s', 'q', 'r', 't'], 'q'),
   (['l', 'n'], 'l'), (['l', 'o', 'g'], 'g')]

/-! ## polish_notation.cc: character classes -/

/-- `ReversePolishNotation::isFunction`. -/
def isFunction (fn : Char) : Bool :=
  fn == 's' || fn == 'c' || fn == 't' || fn == 'i' || fn == 'o' ||
  fn == 'n' || fn == 'q' || fn == 'l' || fn == 'g'

/-- `ReversePolishNotation::getOperatorPriority`. -/
def getOperatorPriority (op : Char) : Except Error Nat :=
  match operatorPriority.lookup op with
  | some p => .ok p
  | none => .error .unknownPriority

/-- `ReversePolishNotation::isOperand`. -/
def isOperand (c : Char) : Bool :=
  c.isDigit || c == '.' || c == 'x'

/-- `ReversePolishNotation::isOperator`. -/
def isOperator (op : Char) : Bool :=
  op == '+' || op == '-' || op == '*' || op == '/' ||
  op == '^' || op == '%' || op == '~'

/-- `ReversePolishNotation::isOperandOrOperatorOrFunction`, on the character `infix[i]`. -/
def isOperandOrOperatorOrFunction (c : Char) : CharClass :=
  if isOperand c then .OPERAND
  else if isOperator c then .OPERATOR
  else if isFunction c then .FUNCTION
  else .BRACKETS

/-- `ReversePolishNotation::isPartOfExponent`. -/
def isPartOfExponent (c : Char) : Bool :=
  c == 'e' || c == 'E'

/-! ## polish_notation.cc: the preprocessor -/

/-- The inner `while` of `renameFunctions` for one table entry: every occurrence of
`name` found by `result.find(name, pos)` is replaced by `sym` and the search resumes
right after the inserted symbol. `skip` counts the characters of an occurrence just
replaced that are still to be passed over. -/
def replaceName (name : List Char) (sym : Char) : Nat → List Char → List Char
  | _, [] => []
  | skip + 1, _ :: rest => replaceName name sym skip rest
  | 0, c :: rest =>
    if name.isPrefixOf (c :: rest) then sym :: replaceName name sym (name.length - 1) rest
    else c :: replaceName name sym 0 rest

/-- `ReversePolishNotation::renameFunctions`; `order` is the sequence in which the
range-for visits the entries of the unordered map `functions`. -/
def renameFunctions (order : List (List Char × Char)) (expr : List Char) : List Char :=
  order.foldl (fun result pair => replaceName pair.1 pair.2 0 result) expr

/-- `ReversePolishNotation::isUnaryMinus`; `prev` is `none` when `i == 0` and
`infix[i - 1]` otherwise. -/
def isUnaryMinus (prev : Option Char) : Bool :=
  match prev with
  | none => true
  | some p => p == '(' || (isOperator p && p != 'e' && p != 'E')

/-- The loop of `replaceUnaryMinus` from index `i` on; `prev` is the character now
stored at `i - 1` (already rewritten, as the loop works in place). -/
def replaceUnaryMinusFrom : Option Char → List Char → List Char
  | _, [] => []
  | prev, c :: rest =>
    if c == '-' && isUnaryMinus prev then '~' :: replaceUnaryMinusFrom (some '~') rest
    else c :: replaceUnaryMinusFrom (some c) rest

/-- `ReversePolishNotation::replaceUnaryMinus`. -/
def replaceUnaryMinus (expr : List Char) : List Char :=
  replaceUnaryMinusFrom none expr

/-- `ReversePolishNotation::processedInfix`. -/
def processedInfix (order : List (List Char × Char)) (expr : List Char) : List Char :=
  replaceUnaryMinus (renameFunctions order expr)

/-! ## polish_notation.cc: the converter -/

/-- The three locals of `toRPN` that the handlers update. -/
structure Conv where
  /-- The stack `operators`, top first. -/
  operators : List Char
  /-- The string `output`. -/
  output : List Char
  /-- The string `token`. -/
  token : List Char
  deriving DecidableEq, Repr

/-- `ReversePolishNotation::processOperand`. -/
def processOperand (output token : List Char) : List Char :=
  output ++ (token ++ [' '])

/-- `ReversePolishNotation::flushToken`. -/
def flushToken (st : Conv) : Conv :=
  if st.token ≠ [] then { st with output := processOperand st.output st.token, token := [] }
  else st

/-- `ReversePolishNotation::popAndAppendOperator`. -/
def popAndAppendOperator (st : Conv) : Conv :=
  match st.operators with
  | top :: ops => { st with output := st.output ++ [top, ' '], operators := ops }
  | [] => st

/-- The loop of `flushOperators` on the stack `ops`, returning the output; each step is
`popAndAppendOperator` on a non-empty stack (`popAndAppendOperator_cons`). -/
def flushOperatorsLoop : List Char → List Char → List Char
  | [], output => output
  | top :: ops, output => flushOperatorsLoop ops (output ++ [top, ' '])

/-- `ReversePolishNotation::flushOperators`. -/
def flushOperators (st : Conv) : Conv :=
  { st with output := flushOperatorsLoop st.operators st.output, operators := [] }

/-- `ReversePolishNotation::processExponent`, called with `infix[i]` the exponent
marker already appended to `token`; `rest` is the text from index `i + 1` on. Returns
the token and the text after the last character consumed. -/
def processExponent (rest token : List Char) : Except Error (List Char × List Char) :=
  match rest with
  | s :: rest1 =>
    if s == '+' || s == '-' then
      match rest1 with
      | d :: rest2 =>
        if d.isDigit then .ok (token ++ [s] ++ [d], rest2)
        else .error .expectedDigitAfterSign
      | [] => .error .expectedDigitAfterSign
    else if s.isDigit then .ok (token ++ [s], rest1)
    else .error .expectedDigitAfterE
  | [] => .error .expectedDigitAfterE

/-- `ReversePolishNotation::findScientificNumber` on the text from index `i` on, with
the call of `processExponent` unfolded in place (`findScientificNumber_exponent`
relates the two). Returns the token and the text that follows the run. -/
def findScientificNumber :
    List Char → List Char → Bool → Except Error (List Char × List Char)
  | [], token, _ => .ok (token, [])
  | c :: rest, token, hasExponent =>
    if isOperand c || isPartOfExponent c then
      if isPartOfExponent c && !hasExponent then
        match rest with
        | s :: rest1 =>
          if s == '+' || s == '-' then
            match rest1 with
            | d :: rest2 =>
              if d.isDigit then findScientificNumber rest2 (token ++ [c] ++ [s] ++ [d]) true
              else .error .expectedDigitAfterSign
            | [] => .error .expectedDigitAfterSign
          else if s.isDigit then findScientificNumber rest1 (token ++ [c] ++ [s]) true
          else .error .expectedDigitAfterE
        | [] => .error .expectedDigitAfterE
      else findScientificNumber rest (token ++ [c]) hasExponent
    else .ok (token, c :: rest)

/-- `ReversePolishNotation::handleOperand` on the text from index `i` on. -/
def handleOperand (st : Conv) (text : List Char) : Except Error (Conv × List Char) :=
  match text with
  | c :: rest =>
    if isOperand c then
      match findScientificNumber (c :: rest) st.token false with
      | .ok (token, rest1) => .ok (flushToken { st with token := token }, rest1)
      | .error e => .error e
    else .ok (flushToken st, rest)
  | [] => .ok (st, [])

/-- `ReversePolishNotation::handleUnaryMinus`. -/
def handleUnaryMinus (st : Conv) : Conv :=
  let st1 := flushToken st
  { st1 with operators := '~' :: st1.operators }

/-- The `while` loop of `handleOperator`, returning the stack and the output; the pop is
`popAndAppendOperator` on a non-empty stack. -/
def popHigherPriority (c : Char) : List Char → List Char → Except Error (List Char × List Char)
  | [], output => .ok ([], output)
  | topOperator :: ops, output =>
    match getOperatorPriority topOperator, getOperatorPriority c with
    | .ok topPriority, .ok currentPriority =>
      if topPriority ≥ currentPriority then popHigherPriority c ops (output ++ [topOperator, ' '])
      else .ok (topOperator :: ops, output)
    | .error e, _ => .error e
    | _, .error e => .error e

/-- `ReversePolishNotation::handleOperator`. -/
def handleOperator (st : Conv) (c : Char) : Except Error Conv :=
  let st1 := flushToken st
  match popHigherPriority c st1.operators st1.output with
  | .ok (ops, output) => .ok { st1 with operators := c :: ops, output := output }
  | .error e => .error e

/-- `ReversePolishNotation::handleFunction`. -/
def handleFunction (st : Conv) (c : Char) : Conv :=
  let st1 := flushToken st
  { st1 with operators := c :: st1.operators }

/-- The first loop of `handleParenthesis` for `)`: pop to the output (`popAndAppendOperator`)
until the stack is empty or its top is `(`. -/
def popToParenthesis : List Char → List Char → List Char × List Char
  | [], output => ([], output)
  | top :: ops, output =>
    if top ≠ '(' then popToParenthesis ops (output ++ [top, ' '])
    else (top :: ops, output)

/-- `ReversePolishNotation::handleParenthesis`. -/
def handleParenthesis (st : Conv) (c : Char) : Conv :=
  if c == '(' then { st with operators := c :: st.operators }
  else if c == ')' then
    let st1 := flushToken st
    match popToParenthesis st1.operators st1.output with
    | ('(' :: ops, output) => { st1 with operators := ops, output := output }
    | (ops, output) => { st1 with operators := ops, output := output }
  else st

/-- The `for` loop of `toRPN` on the text from index `i` on. Each iteration consumes at
least one character; `fuel` bounds the number of iterations. -/
def toRPNLoop : Nat → List Char → Conv → Except Error Conv
  | _, [], st => .ok st
  | 0, _ :: _, _ => .error .scanBound
  | fuel + 1, c :: rest, st =>
    match isOperandOrOperatorOrFunction c with
    | .OPERAND =>
      match handleOperand st (c :: rest) with
      | .ok (st1, rest1) => toRPNLoop fuel rest1 st1
      | .error e => .error e
    | .OPERATOR =>
      if c == '~' then toRPNLoop fuel rest (handleUnaryMinus st)
      else
        match handleOperator st c with
        | .ok st1 => toRPNLoop fuel rest st1
        | .error e => .error e
    | .FUNCTION => toRPNLoop fuel rest (handleFunction st c)
    | .BRACKETS => toRPNLoop fuel rest (handleParenthesis st c)

/-- `ReversePolishNotation::trim`. -/
def trim (str : List Char) : List Char :=
  ((str.dropWhile (· == ' ')).reverse.dropWhile (· == ' ')).reverse

/-- `ReversePolishNotation::toRPN`. -/
def toRPN (order : List (List Char × Char)) (expr : List Char) : Except Error (List Char) :=
  let processed_infix := processedInfix order expr
  match toRPNLoop processed_infix.length processed_infix ⟨[], [], []⟩ with
  | .ok st => .ok (trim (flushOperators (flushToken st)).output)
  | .error e => .error e

/-! ## What the C++ toolchain supplies -/

/-- The parts of the C++ implementation the engine calls and the repository does not
define. -/
structure Platform where
  /-- The order in which a range-for visits the unordered map `functions`. -/
  functionOrder : List (List Char × Char)
  /-- Whether `std::istringstream iss(token); iss >> d` leaves the stream good. -/
  streamReadsDouble : List Char → Bool
  /-- The value `std::stod(token)`, or `none` when it throws. -/
  stod : List Char → Option ℚ
  /-- The function `std::pow`. -/
  pow : ℚ → ℚ → ℚ
  /-- The function `std::sin`. -/
  sin : ℚ → ℚ
  /-- The function `std::cos`. -/
  cos : ℚ → ℚ
  /-- The function `std::tan`. -/
  tan : ℚ → ℚ
  /-- The function `std::asin`. -/
  asin : ℚ → ℚ
  /-- The function `std::acos`. -/
  acos : ℚ → ℚ
  /-- The function `std::atan`. -/
  atan : ℚ → ℚ
  /-- The function `std::sqrt`. -/
  sqrt : ℚ → ℚ
  /-- The function `std::log`. -/
  log : ℚ → ℚ
  /-- The function `std::log10`. -/
  log10 : ℚ → ℚ
  /-- The `double` nearest to a number: the rounding of the exact result of `+`, `-`, `*`,
  `/` on two `double`s to the `double` the operation returns (IEEE 754, round to
  nearest). -/
  fl : ℚ → ℚ

/-- The number written by a string of decimal digits. -/
def natOfDigits (ds : List Char) : ℕ :=
  ds.foldl (fun n d => 10 * n + (d.toNat - '0'.toNat)) 0

/-- A non-empty string of decimal digits. -/
def IsDigits (ds : List Char) : Prop :=
  ds ≠ [] ∧ ∀ c ∈ ds, c.isDigit = true

/-- `NumLit N v`: the text `N` is a numeric literal in fixed notation (a non-empty digit
string, optionally followed by `.` and a non-empty digit string) and `v` is its value. -/
inductive NumLit : List Char → ℚ → Prop where
  | whole (ds : List Char) : IsDigits ds → NumLit ds (natOfDigits ds)
  | fraction (ds fs : List Char) : IsDigits ds → IsDigits fs →
      NumLit (ds ++ '.' :: fs) (natOfDigits ds + (natOfDigits fs : ℚ) / 10 ^ fs.length)

/-- What the theorems assume of the parameters: the range-for visits each entry of
`functions` once; a fixed-notation literal is read in full by both number readers, with
its exact value (the `double` of the model neither rounds nor overflows); a single
character that is not a digit is not read as a number. -/
structure Platform.Conforming (P : Platform) : Prop where
  order_perm : P.functionOrder.Perm functions
  reads_literal : ∀ N v, NumLit N v → P.streamReadsDouble N = true ∧ P.stod N = some v
  rejects_symbol : ∀ c : Char, c.isDigit = false → P.streamReadsDouble [c] = false

/-- What the theorems that name the literals read assume of the parameters: the range-for
visits each entry of `functions` once, and a single character that is not a digit is not
read as a number. Nothing is assumed of the literals the readers accept, of the values they
return or of the rounding. -/
structure Platform.Basic (P : Platform) : Prop where
  order_perm : P.functionOrder.Perm functions
  rejects_symbol : ∀ c : Char, c.isDigit = false → P.streamReadsDouble [c] = false

/-! ## model_calculator.cc -/

/-- The `enum TokenType`. -/
inductive TokenType where
  | TYPE_OPERAND
  | TYPE_BINARY_OPERATOR
  | TYPE_UNARY_OPERATOR
  | TYPE_UNKNOWN
  deriving DecidableEq, Repr

/-- The state of a `ModelCalculator` object: its member `answer_`. -/
structure ModelCalculator where
  answer_ : ℚ
  deriving DecidableEq

namespace ModelCalculator

/-- `ModelCalculator::isOperand`. -/
def isOperand (P : Platform) (token : List Char) : Bool :=
  if token = ['x'] then true
  else P.streamReadsDouble token

/-- `ModelCalculator::isBinaryOperator`. -/
def isBinaryOperator (b_op : Char) : Bool :=
  b_op == '+' || b_op == '-' || b_op == '*' || b_op == '/' || b_op == '^' || b_op == '%'

/-- `ModelCalculator::isUnaryOperator`. -/
def isUnaryOperator (u_op : Char) : Bool :=
  u_op == 's' || u_op == 'c' || u_op == 't' || u_op == 'i' || u_op == 'o' ||
  u_op == 'n' || u_op == 'q' || u_op == 'l' || u_op == 'g' || u_op == '~'

/-- The character `token[0]` of a `std::string` (the terminating null for an empty one). -/
def firstChar (token : List Char) : Char :=
  token.headD (Char.ofNat 0)

/-- `ModelCalculator::tokenType`. -/
def tokenType (P : Platform) (token : List Char) : TokenType :=
  if isOperand P token then .TYPE_OPERAND
  else if isBinaryOperator (firstChar token) then .TYPE_BINARY_OPERATOR
  else if isUnaryOperator (firstChar token) then .TYPE_UNARY_OPERATOR
  else .TYPE_UNKNOWN

/-- The integer nearest to `q` among those not larger in magnitude. -/
def truncate (q : ℚ) : ℤ :=
  if 0 ≤ q then ⌊q⌋ else ⌈q⌉

/-- `std::fmod(a, b)` for `b ≠ 0`: `a - n * b` with `n` the quotient `a / b` truncated
towards zero (an exact operation on `double`). -/
def fmod (a b : ℚ) : ℚ :=
  a - truncate (a / b) * b

/-- `ModelCalculator::applyBinaryOperator`. -/
def applyBinaryOperator (P : Platform) (b_op : Char) (a b : ℚ) : Except Error ℚ :=
  if b_op = '+' then .ok (P.fl (a + b))
  else if b_op = '-' then .ok (P.fl (a - b))
  else if b_op = '*' then .ok (P.fl (a * b))
  else if b_op = '/' then
    if b = 0 then .error .divisionByZero else .ok (P.fl (a / b))
  else if b_op = '^' then .ok (P.pow a b)
  else if b_op = '%' then
    if b = 0 then .error .divisionByZero else .ok (fmod a b)
  else .error .unknownBinaryOperator

/-- `ModelCalculator::applyUnaryOperator`. -/
def applyUnaryOperator (P : Platform) (u_op : Char) (a : ℚ) : Except Error ℚ :=
  if u_op = 's' then .ok (P.sin a)
  else if u_op = 'c' then .ok (P.cos a)
  else if u_op = 't' then .ok (P.tan a)
  else if u_op = 'i' then .ok (P.asin a)
  else if u_op = 'o' then .ok (P.acos a)
  else if u_op = 'n' then .ok (P.atan a)
  else if u_op = 'q' then
    if a < 0 then .error .negativeRoot else .ok (P.sqrt a)
  else if u_op = 'l' then
    if a ≤ 0 then .error .nonPositiveLog else .ok (P.log a)
  else if u_op = 'g' then
    if a ≤ 0 then .error .nonPositiveLog else .ok (P.log10 a)
  else if u_op = '~' then .ok (-a)
  else .error .unknownUnaryOperator

/-- The white space that `iss >> token` skips (`std::isspace` in the "C" locale). -/
def isSpace (c : Char) : Bool :=
  c == ' ' || c == '\t' || c == '\n' || c == '\x0b' || c == '\x0c' || c == '\r'

/-- The successive strings that `iss >> token` extracts from the text; `cur` is the
token being read. -/
def splitTokens : List Char → List Char → List (List Char)
  | [], cur => if cur ≠ [] then [cur] else []
  | c :: rest, cur =>
    if isSpace c then
      if cur ≠ [] then cur :: splitTokens rest [] else splitTokens rest []
    else splitTokens rest (cur ++ [c])

/-- The `while (iss >> token)` loop of `evaluateRPN` on the tokens still to be read;
`stack` has its top first. -/
def evaluateLoop (P : Platform) (x : ℚ) : List (List Char) → List ℚ → Except Error (List ℚ)
  | [], stack => .ok stack
  | token :: rest, stack =>
    match tokenType P token with
    | .TYPE_OPERAND =>
      if token = ['x'] then evaluateLoop P x rest (x :: stack)
      else
        match P.stod token with
        | some v => evaluateLoop P x rest (v :: stack)
        | none => .error (.stodFailed token)
    | .TYPE_BINARY_OPERATOR =>
      match stack with
      | b :: a :: stack1 =>
        match applyBinaryOperator P (firstChar token) a b with
        | .ok r => evaluateLoop P x rest (r :: stack1)
        | .error e => .error e
      | _ => .error .notEnoughOperands
    | .TYPE_UNARY_OPERATOR =>
      match stack with
      | a :: stack1 =>
        match applyUnaryOperator P (firstChar token) a with
        | .ok r => evaluateLoop P x rest (r :: stack1)
        | .error e => .error e
      | [] => .error .notEnoughOperands
    | .TYPE_UNKNOWN => .error (.unknownToken token)

/-- `ModelCalculator::evaluateRPN`. -/
def evaluateRPN (P : Platform) (rpn : List Char) (x : ℚ) : Except Error ℚ :=
  match evaluateLoop P x (splitTokens rpn []) [] with
  | .ok [top] => .ok top
  | .ok _ => .error .invalidRPN
  | .error e => .error e

/-- `ModelCalculator::calculate`: the returned number or the exception, and the object
afterwards (`answer_` is assigned only when `evaluateRPN` returns). -/
def calculate (P : Platform) (self : ModelCalculator) (expression : List Char) (x : ℚ) :
    Except Error ℚ × ModelCalculator :=
  match toRPN P.functionOrder expression with
  | .ok rpn =>
    match evaluateRPN P rpn x with
    | .ok answer => (.ok answer, { self with answer_ := answer })
    | .error e => (.error e, self)
  | .error e => (.error e, self)

end ModelCalculator

/-! ## A platform instance -/

/-- The order in which the range-for of `renameFunctions` visits the table `functions` in
a build with GCC and libstdc++ (printed by a range-for over the same map). -/
def observedOrder : List (List Char × Char) :=
  [(['l', 'n'], 'l'), (['a', 't', 'a', 'n'], 'n'), (['a', 'c', 'o', 's'], 'o'),
   (['l', 'o', 'g'], 'g'), (['t', 'a', 'n'], 't'), (['s', 'q', 'r', 't'], 'q'),
   (['a', 's', 'i', 'n'], 'i'), (['c', 'o', 's'], 'c'), (['s', 'i', 'n'], 's')]

/-- The fixed-notation literal written by `token`, if it is one. -/
def readFixed (token : List Char) : Option ℚ :=
  let ds := token.takeWhile Char.isDigit
  match token.dropWhile Char.isDigit with
  | [] => if ds ≠ [] then some (natOfDigits ds) else none
  | c :: fs =>
    if c = '.' ∧ ds ≠ [] ∧ fs ≠ [] ∧ fs.all Char.isDigit = true then
      some (natOfDigits ds + (natOfDigits fs : ℚ) / 10 ^ fs.length)
    else none

/-- A conforming platform in exact arithmetic, used to instantiate the theorems that
assume one: the function table is visited in the observed order, the number readers accept
exactly the fixed-notation literals and return their exact value, nothing is rounded, `pow`
is exact for integral exponents and the other `<cmath>` entries are rational stand-ins. The
instance with the number semantics of `double` is `doublePlatform`. -/
def samplePlatform : Platform where
  functionOrder := observedOrder
  streamReadsDouble := fun token => (readFixed token).isSome
  stod := readFixed
  pow := fun a b => if b.den = 1 then a ^ b.num else 0
  sin := fun _ => 0
  cos := fun _ => 1
  tan := fun _ => 0
  asin := fun _ => 0
  acos := fun _ => 0
  atan := fun _ => 0
  sqrt := fun a => Rat.sqrt a
  log := fun _ => 0
  log10 := fun _ => 0
  fl := fun q => q

/-! ## A platform instance with the number semantics of `double` -/

/-- The integer nearest to `q`, the even one of the two when `q` lies halfway. -/
def roundHalfEven (q : ℚ) : ℤ :=
  if q - ⌊q⌋ < 1 / 2 then ⌊q⌋
  else if 1 / 2 < q - ⌊q⌋ then ⌊q⌋ + 1
  else if ⌊q⌋ % 2 = 0 then ⌊q⌋ else ⌊q⌋ + 1

/-- The `double` nearest to `q` (IEEE 754 binary64, round to nearest, ties to even): a
multiple of `2 ^ (e - 52)` where `2 ^ e ≤ |q| < 2 ^ (e + 1)`, and of `2 ^ (-1074)` when
`|q| < 2 ^ (-1022)`. A magnitude beyond the largest `double` is rounded the same way (the
model has no infinity). -/
def roundToDouble (q : ℚ) : ℚ :=
  if q = 0 then 0
  else (roundHalfEven (q / 2 ^ (max (Int.log 2 |q|) (-1022) - 52)) : ℚ) *
    2 ^ (max (Int.log 2 |q|) (-1022) - 52)

/-- The least magnitude that rounds beyond the largest `double`: `2 ^ 1024 - 2 ^ 970`,
halfway between the largest `double` and `2 ^ 1024`. -/
def overflowThreshold : ℚ :=
  2 ^ 1024 - 2 ^ 970

/-- The power of ten written by an exponent part at the start of the text (`e` or `E`, an
optional sign, digits): `none` when the marker is followed by no digit, 1 when the text does
not begin with a marker. -/
def readExponent : List Char → Option ℚ
  | [] => some 1
  | c :: rest =>
    if c = 'e' ∨ c = 'E' then
      match rest with
      | '-' :: r =>
        if r.takeWhile Char.isDigit = [] then none
        else some (1 / 10 ^ natOfDigits (r.takeWhile Char.isDigit))
      | '+' :: r =>
        if r.takeWhile Char.isDigit = [] then none
        else some (10 ^ natOfDigits (r.takeWhile Char.isDigit))
      | r =>
        if r.takeWhile Char.isDigit = [] then none
        else some (10 ^ natOfDigits (r.takeWhile Char.isDigit))
    else some 1

/-- The digits, optional `.` and digits at the start of the text, with what follows them:
`none` when there is no digit at all. -/
def readMantissa (token : List Char) : Option (ℚ × List Char) :=
  match token.dropWhile Char.isDigit with
  | '.' :: rest =>
    if token.takeWhile Char.isDigit = [] ∧ rest.takeWhile Char.isDigit = [] then none
    else
      some ((natOfDigits (token.takeWhile Char.isDigit) : ℚ) +
          (natOfDigits (rest.takeWhile Char.isDigit) : ℚ) /
            10 ^ (rest.takeWhile Char.isDigit).length,
        rest.dropWhile Char.isDigit)
  | rest =>
    if token.takeWhile Char.isDigit = [] then none
    else some ((natOfDigits (token.takeWhile Char.isDigit) : ℚ), rest)

/-- The number an unsigned text in decimal notation begins with. -/
def readUnsigned (token : List Char) : Option ℚ :=
  match readMantissa token with
  | none => none
  | some (m, rest) =>
    match readExponent rest with
    | none => none
    | some p => some (m * p)

/-- The number in decimal notation that stream extraction takes from the start of the
token, before any rounding: an optional sign, digits with an optional `.`, an optional
exponent; what follows is ignored (`1.2.3` gives 1.2, `2x` gives 2, `.5` gives 0.5, `5.`
gives 5, `1e2e` gives 100), and there is no number when there is no digit or when an
exponent marker is followed by no digit (`1e`). -/
def readDecimal : List Char → Option ℚ
  | '-' :: rest => (readUnsigned rest).map (fun v => -v)
  | '+' :: rest => readUnsigned rest
  | token => readUnsigned token

/-- A platform with the number semantics of a build with GCC, libstdc++ and glibc, for
tokens in decimal notation: the function table is visited in the observed order; `iss >> d`
accepts a token that begins with a decimal number unless the number rounds beyond the
largest `double` (it then sets `failbit`); `std::stod` returns the `double` nearest to the
number and throws when it overflows or when it is not zero, smaller than the least normal
`double` and not a `double` itself; `+ - * /` round to nearest. The `<cmath>` entries are
the stand-ins of `samplePlatform`. (A token that begins with `0x`, which `std::stod` reads
in base 16, is read here in base 10, as `iss >> d` does.) -/
def doublePlatform : Platform :=
  { samplePlatform with
    functionOrder := observedOrder
    streamReadsDouble := fun token =>
      match readDecimal token with
      | some v => decide (|v| < overflowThreshold)
      | none => false
    stod := fun token =>
      match readDecimal token with
      | some v =>
        if overflowThreshold ≤ |v| then none
        else if v ≠ 0 ∧ |v| < 2 ^ (-1022 : ℤ) ∧ roundToDouble v ≠ v then none
        else some (roundToDouble v)
      | none => none
    fl := roundToDouble }

/-- The literal made of the digit 1 followed by 400 zeros: its value, `10 ^ 400`, is beyond
the range of `double`. -/
def hugeLiteral : List Char :=
  '1' :: List.replicate 400 '0'

/-! ## Auxiliary notions used by the statements -/

/-- A character of a fixed-notation literal: a digit or the decimal point. -/
def isLitChar (c : Char) : Bool :=
  c.isDigit || c == '.'

/-- The first letters of the function names. -/
def isNameStart (c : Char) : Bool :=
  c == 's' || c == 'c' || c == 't' || c == 'a' || c == 'l'

/-- The character at `i - 1` after the loop of `replaceUnaryMinus` has passed over `a`
unchanged. -/
def lastOr (prev : Option Char) (a : List Char) : Option Char :=
  match a.getLast? with
  | some c => some c
  | none => prev

/-- The text `rest` does not continue an operand run. -/
def RunEnds (rest : List Char) : Prop :=
  ∀ d ∈ rest.head?, (isOperand d || isPartOfExponent d) = false

/-- The scan of `toRPN` on the text from index `i` on, with the bound `toRPN` gives it. -/
def scan (text : List Char) (st : Conv) : Except Error Conv :=
  toRPNLoop text.length text st

/-- An operand token made of operand characters only (digits, `.`, `x`): no exponent
marker. -/
def OperandRun (t : List Char) : Prop :=
  t ≠ [] ∧ ∀ c ∈ t, isOperand c = true

/-- The operand token `t` stands for the value `v` when the variable is bound to `x`:
it is the variable `x` itself, or a numeric literal of value `v`. -/
def OperandValue (x : ℚ) (t : List Char) (v : ℚ) : Prop :=
  (t = ['x'] ∧ v = x) ∨ NumLit t v

/-- What the loop of `evaluateRPN` does with a token that is a fixed-notation literal: the
value it pushes, or the exception it throws, "Unknown token" when `iss >> d` fails (`isOperand`
is false and the first character is no operator) and the exception of `std::stod` when that
throws. -/
def readLiteral (P : Platform) (token : List Char) : Except Error ℚ :=
  if P.streamReadsDouble token = true then
    match P.stod token with
    | some v => .ok v
    | none => .error (.stodFailed token)
  else .error (.unknownToken token)

/-- What the loop of `evaluateRPN` does with an operand token: the bound value for `x`,
and for a literal what `readLiteral` says. -/
def readOperand (P : Platform) (x : ℚ) (token : List Char) : Except Error ℚ :=
  if token = ['x'] then .ok x else readLiteral P token

/-- The text is an operand: the variable `x` or a fixed-notation literal. -/
def IsOperandText (t : List Char) : Prop :=
  t = ['x'] ∨ ∃ w, NumLit t w

/-- The function names none of which contains another name: all but `asin`, `acos`,
`atan`. -/
def plainFunctions : List (List Char × Char) :=
  [(['s', 'i', 'n'], 's'), (['c', 'o', 's'], 'c'), (['t', 'a', 'n'], 't'),
   (['s', 'q', 'r', 't'], 'q'), (['l', 'n'], 'l'), (['l', 'o', 'g'], 'g')]

/-- Whether the traversal `order` visits the entry `a`, and visits it before any visit of
the entry `b`. -/
def visitedBefore (a b : List Char × Char) : List (List Char × Char) → Bool
  | [] => false
  | p :: rest => if p = a then true else if p = b then false else visitedBefore a b rest

/-- The traversal visits `asin` before `sin`, `acos` before `cos` and `atan` before `tan`:
each name that contains another one is replaced first. -/
def InverseFirst (order : List (List Char × Char)) : Prop :=
  visitedBefore (['a', 's', 'i', 'n'], 'i') (['s', 'i', 'n'], 's') order = true ∧
  visitedBefore (['a', 'c', 'o', 's'], 'o') (['c', 'o', 's'], 'c') order = true ∧
  visitedBefore (['a', 't', 'a', 'n'], 'n') (['t', 'a', 'n'], 't') order = true

/-- The characters `toRPN` ever pushes on the operator stack. -/
def isStackChar (c : Char) : Bool :=
  isOperator c || isFunction c || c == '('

/-- The invariant of the scan of `toRPN`: between two iterations the token is empty and
the stack holds pushed characters only. -/
def ScanInv (st : Conv) : Prop :=
  st.token = [] ∧ ∀ s ∈ st.operators, isStackChar s = true

/-- Where a left-to-right reading of the normalized text stands with respect to operand
runs. -/
inductive RunState where
  /-- Not inside an operand run. -/
  | outside
  /-- Inside an operand run; `marked` tells whether the run already holds an exponent
  marker. -/
  | inRun (marked : Bool)
  /-- On the sign that follows the first exponent marker of the run. -/
  | onSign
  deriving DecidableEq, Repr

/-- Some operand run of the text has a first exponent marker that is not immediately
followed by a digit or by `+`/`-` and then a digit, where a run begins with a digit, `.`
or `x` and continues over digits, `.`, `x`, `e`, `E` and over the sign and digit that
complete its first exponent marker (they are part of the token). -/
def malformedExponent : RunState → List Char → Bool
  | _, [] => false
  | .outside, c :: rest =>
    if c.isDigit || c == '.' || c == 'x' then malformedExponent (.inRun false) rest
    else malformedExponent .outside rest
  | .onSign, _ :: rest => malformedExponent (.inRun true) rest
  | .inRun marked, c :: rest =>
    if c == 'e' || c == 'E' then
      if marked then malformedExponent (.inRun true) rest
      else
        match rest with
        | [] => true
        | d :: rest1 =>
          if d.isDigit then malformedExponent (.inRun true) rest
          else if d == '+' || d == '-' then
            match rest1 with
            | [] => true
            | d2 :: _ => if d2.isDigit then malformedExponent .onSign rest else true
          else true
    else if c.isDigit || c == '.' || c == 'x' then malformedExponent (.inRun marked) rest
    else malformedExponent .outside rest

/-- The output text made of the one-character tokens `cs`, each followed by a space. -/
def symbolsText : List Char → List Char
  | [] => []
  | c :: cs => c :: ' ' :: symbolsText cs

/-- Follows the words of the claim on `toRPN` failures to the letter: a run begins with a
digit, `.` or `x` and continues over digits, `.`, `x`, `e`, `E` only, so that the sign
after an exponent marker ends the run; the state is `none` outside a run and
`some marked` inside one. -/
def malformedExponentLiteral : Option Bool → List Char → Bool
  | _, [] => false
  | none, c :: rest =>
    if c.isDigit || c == '.' || c == 'x' then malformedExponentLiteral (some false) rest
    else malformedExponentLiteral none rest
  | some marked, c :: rest =>
    if c == 'e' || c == 'E' then
      if marked then malformedExponentLiteral (some true) rest
      else
        match rest with
        | [] => true
        | d :: rest1 =>
          if d.isDigit then malformedExponentLiteral (some true) rest
          else if d == '+' || d == '-' then
            match rest1 with
            | [] => true
            | d2 :: _ => if d2.isDigit then malformedExponentLiteral (some true) rest else true
          else true
    else if c.isDigit || c == '.' || c == 'x' then malformedExponentLiteral (some marked) rest
    else malformedExponentLiteral none rest

/-! ## model_calculator.cc: the sampler `calculateGraf` -/

/-- The body of the `for` loop of `calculateGraf` at the abscissa `vX`: the outputs
`vXYOutPut[0]` (abscissas) and `vXYOutPut[1]` (ordinates) after the iteration. An entry is
`some` number, or `none` for the `NAN` pushed by the `catch` clause. -/
def calculateGrafStep (P : Platform) (rpn : List Char) (yRange : ℚ × ℚ) (vX : ℚ)
    (out : List (Option ℚ) × List (Option ℚ)) : List (Option ℚ) × List (Option ℚ) :=
  match ModelCalculator.evaluateRPN P rpn vX with
  | .ok vY =>
    if vY ≥ yRange.1 ∧ vY ≤ yRange.2 then (out.1 ++ [some vX], out.2 ++ [some vY])
    else out
  | .error _ => (out.1 ++ [none], out.2 ++ [none])

/-- The `for` loop of `calculateGraf` with `remaining` iterations still to run. -/
def calculateGrafLoop (P : Platform) (rpn : List Char) (yRange : ℚ × ℚ) (vXStep : ℚ) :
    Nat → ℚ → List (Option ℚ) × List (Option ℚ) → List (Option ℚ) × List (Option ℚ)
  | 0, _, out => out
  | remaining + 1, vX, out =>
    calculateGrafLoop P rpn yRange vXStep remaining (P.fl (vX + vXStep))
      (calculateGrafStep P rpn yRange vX out)

/-- `ModelCalculator::calculateGraf`: the pair of `vXYOutPut[0]` and `vXYOutPut[1]`, or
the exception. The count `pAmount` is an `unsigned`; the loop counter stays below it. The
object is not touched. -/
def calculateGraf (P : Platform) (xRange yRange : ℚ × ℚ) (pAmount : Nat)
    (infixText : List Char) : Except Error (List (Option ℚ) × List (Option ℚ)) :=
  let vXStep := P.fl (P.fl (xRange.2 - xRange.1) / (pAmount : ℚ))
  if xRange.2 < xRange.1 ∨ yRange.2 < yRange.1 then .error .invalidRange
  else
    match toRPN P.functionOrder infixText with
    | .ok rpn =>
      let vXYOutPut := calculateGrafLoop P rpn yRange vXStep pAmount xRange.1 ([], [])
      if vXYOutPut.1 = [] then .error .noPointInRange
      else .ok vXYOutPut
    | .error e => .error e

/-! ## Auxiliary notions used by the statements on the sampler -/

/-- The value of `vX` after `i` executions of `vX += vXStep`, each sum rounded to
`double`. -/
def accumulatedAbscissa (P : Platform) (vXStep vX : ℚ) : Nat → ℚ
  | 0 => vX
  | i + 1 => P.fl (accumulatedAbscissa P vXStep vX i + vXStep)

/-- The abscissa the claim on the window filter names for the sample of index `i`:
`xmin + i * (xmax - xmin) / pAmount`, in exact arithmetic. -/
def formulaAbscissa (xRange : ℚ × ℚ) (pAmount i : Nat) : ℚ :=
  xRange.1 + (i : ℚ) * ((xRange.2 - xRange.1) / (pAmount : ℚ))

/-- The abscissa of the sample of index `i`, as the loop of `calculateGraf` reaches it:
`xmin` for the first sample, then the abscissa before it plus the step, the step and each
sum being rounded to `double`. -/
def sampleAbscissa (P : Platform) (xRange : ℚ × ℚ) (pAmount : Nat) (i : Nat) : ℚ :=
  accumulatedAbscissa P (P.fl (P.fl (xRange.2 - xRange.1) / (pAmount : ℚ))) xRange.1 i

/-- What the sample at the abscissa `vX` adds to the output, as pairs (abscissa,
ordinate): the marker pair when the evaluation fails, the point when its value lies in the
window, nothing otherwise. -/
def samplePairs (P : Platform) (rpn : List Char) (yRange : ℚ × ℚ) (vX : ℚ) :
    List (Option ℚ × Option ℚ) :=
  match ModelCalculator.evaluateRPN P rpn vX with
  | .ok vY => if yRange.1 ≤ vY ∧ vY ≤ yRange.2 then [(some vX, some vY)] else []
  | .error _ => [(none, none)]

/-- The pairs of all samples of indices `0 .. pAmount - 1`, in the order of the indices. -/
def graphPairs (P : Platform) (rpn : List Char) (xRange yRange : ℚ × ℚ) (pAmount : Nat) :
    List (Option ℚ × Option ℚ) :=
  (List.range pAmount).flatMap
    (fun i => samplePairs P rpn yRange (sampleAbscissa P xRange pAmount i))

/-- Whether the evaluation of `rpn` at `vX` throws. -/
def evaluationFails (P : Platform) (rpn : List Char) (vX : ℚ) : Bool :=
  match ModelCalculator.evaluateRPN P rpn vX with
  | .ok _ => false
  | .error _ => true

/-- The point the sample at `vX` keeps: its abscissa and its value, when the evaluation
returns a value inside the window. -/
def keptPoint (P : Platform) (rpn : List Char) (yRange : ℚ × ℚ) (vX : ℚ) : Option (ℚ × ℚ) :=
  match ModelCalculator.evaluateRPN P rpn vX with
  | .ok vY => if yRange.1 ≤ vY ∧ vY ≤ yRange.2 then some (vX, vY) else none
  | .error _ => none

/-- The pairs of numbers among pairs of output entries. -/
def numericPairs (pairs : List (Option ℚ × Option ℚ)) : List (ℚ × ℚ) :=
  pairs.filterMap (fun p =>
    match p with
    | (some a, some b) => some (a, b)
    | _ => none)

/-! ## Auxiliary notions used by the statements on valid expressions and on parentheses -/

/-- A letter that occurs in a function name. -/
def isNameLetter (c : Char) : Bool :=
  c == 's' || c == 'i' || c == 'n' || c == 'c' || c == 'o' || c == 't' || c == 'a' ||
    c == 'q' || c == 'r' || c == 'l' || c == 'g'

/-- What `renameFunctions` can leave of a function name: the symbol of a function, alone
or after the letter `a` (the case of `asin`, `acos`, `atan` when the shorter name is
replaced first). -/
def callPrefixes : List (List Char) :=
  [['s'], ['c'], ['t'], ['i'], ['o'], ['n'], ['q'], ['l'], ['g'],
   ['a', 's'], ['a', 'c'], ['a', 't']]

/-- `SciLit N`: the text `N` is a numeric literal in scientific notation, a fixed-notation
literal followed by `e` or `E`, an optional sign and a non-empty digit string. -/
inductive SciLit : List Char → Prop where
  | unsigned (m d : List Char) (e : Char) (w : ℚ) : NumLit m w → isPartOfExponent e = true →
      IsDigits d → SciLit (m ++ e :: d)
  | signed (m d : List Char) (e sg : Char) (w : ℚ) : NumLit m w → isPartOfExponent e = true →
      (sg = '+' ∨ sg = '-') → IsDigits d → SciLit (m ++ e :: sg :: d)

/-- A numeric literal, in fixed or scientific notation. -/
def Literal (N : List Char) : Prop :=
  (∃ v, NumLit N v) ∨ SciLit N

/-- The grammar of the valid expressions:
`E ::= literal | x | (E) | -E | f(E) | E op E`, with `f` one of the nine function names
and `op` one of `+ - * / ^ %`; a literal is a numeric literal in fixed or scientific
notation. -/
inductive ValidExpr : List Char → Prop where
  | literal (N : List Char) : Literal N → ValidExpr N
  | var : ValidExpr ['x']
  | group (E : List Char) : ValidExpr E → ValidExpr ('(' :: (E ++ [')']))
  | negation (E : List Char) : ValidExpr E → ValidExpr ('-' :: E)
  | call (f : List Char × Char) (E : List Char) : f ∈ functions → ValidExpr E →
      ValidExpr (f.1 ++ '(' :: (E ++ [')']))
  | binary (op : Char) (E1 E2 : List Char) : ModelCalculator.isBinaryOperator op = true →
      ValidExpr E1 → ValidExpr E2 → ValidExpr (E1 ++ op :: E2)

/-- The texts the preprocessor makes of the valid expressions: a unary minus is `~` and a
function name is one of `callPrefixes`. -/
inductive NormalExpr : List Char → Prop where
  | literal (N : List Char) : Literal N → NormalExpr N
  | var : NormalExpr ['x']
  | group (E : List Char) : NormalExpr E → NormalExpr ('(' :: (E ++ [')']))
  | negation (E : List Char) : NormalExpr E → NormalExpr ('~' :: E)
  | call (pre : List Char) (E : List Char) : pre ∈ callPrefixes → NormalExpr E →
      NormalExpr (pre ++ '(' :: (E ++ [')']))
  | binary (op : Char) (E1 E2 : List Char) : ModelCalculator.isBinaryOperator op = true →
      NormalExpr E1 → NormalExpr E2 → NormalExpr (E1 ++ op :: E2)

/-- A token of a text in reverse Polish notation: an operand (a literal or `x`) or a
one-character symbol. -/
inductive RpnToken where
  | operand (t : List Char)
  | symbol (c : Char)

/-- The characters of a token. -/
def RpnToken.text : RpnToken → List Char
  | .operand t => t
  | .symbol c => [c]

/-- An operand token is a numeric literal or `x`; a symbol token is one of the operators
the evaluator applies. -/
def RpnToken.Valid : RpnToken → Prop
  | .operand t => t = ['x'] ∨ Literal t
  | .symbol c => (ModelCalculator.isBinaryOperator c || ModelCalculator.isUnaryOperator c) = true

/-- The text made of the tokens, each followed by a space: what the converter appends to
its output. -/
def joinTokens : List (List Char) → List Char
  | [] => []
  | t :: ts => t ++ ' ' :: joinTokens ts

/-- The number of values on the evaluator's stack after it has read the tokens, starting
with `h` values and failures of the operations set aside; `none` when a token finds too
few values, or is no operator. -/
def stackHeight : List RpnToken → Nat → Option Nat
  | [], h => some h
  | .operand _ :: ts, h => stackHeight ts (h + 1)
  | .symbol c :: ts, h =>
    if ModelCalculator.isBinaryOperator c then
      if 2 ≤ h then stackHeight ts (h - 1) else none
    else if ModelCalculator.isUnaryOperator c then
      if 1 ≤ h then stackHeight ts h else none
    else none

/-- The exceptions of the operations themselves: division by zero and the domain errors
of `sqrt`, `ln`, `log`. -/
def DomainError (e : Error) : Prop :=
  e = .divisionByZero ∨ e = .negativeRoot ∨ e = .nonPositiveLog

/-- The number of binary operators on a stack. -/
def binCount (ops : List Char) : Nat :=
  ops.countP ModelCalculator.isBinaryOperator

/-- A stack segment of operators and function symbols only: no `(`. -/
def Pending (above : List Char) : Prop :=
  ∀ c ∈ above, (isOperator c || isFunction c) = true

/-- The part of the stack below the segment in work: empty, or topped by a `(`. -/
def FrameBase (rest : List Char) : Prop :=
  ∀ c ∈ rest.head?, c = '('

/-- The number of `(` still open after the text when `d` are open before it: a `)` closes
the most recent open `(`, if there is one. -/
def openDepth : Nat → List Char → Nat
  | d, [] => d
  | d, c :: rest =>
    if c = '(' then openDepth (d + 1) rest
    else if c = ')' then openDepth (d - 1) rest
    else openDepth d rest

/-- Whether some `)` of the text has no earlier `(` left to close, `d` being open before
the text. -/
def hasUnmatchedClose : Nat → List Char → Bool
  | _, [] => false
  | d, c :: rest =>
    if c = '(' then hasUnmatchedClose (d + 1) rest
    else if c = ')' then d == 0 || hasUnmatchedClose (d - 1) rest
    else hasUnmatchedClose d rest

/-- A character that `findScientificNumber` can append to a token. -/
def isRunChar (c : Char) : Bool :=
  isOperand c || isPartOfExponent c || c == '+' || c == '-'

/-- The tokens are non-empty and hold no white space. -/
def TokenText (toks : List (List Char)) : Prop :=
  ∀ t ∈ toks, t ≠ [] ∧ ∀ c ∈ t, ModelCalculator.isSpace c = false

/-! ## Auxiliary notions used by the statements on the preprocessor and on operand tokens -/

/-- The index `i` is where a minus sign is unary: `i = 0`, or the character at `i - 1` is
`(` or one of `+ - * / ^ % ~`. -/
def UnaryPosition (s : List Char) (i : Nat) : Prop :=
  i = 0 ∨ ∃ p, s[i - 1]? = some p ∧ p ∈ ['(', '+', '-', '*', '/', '^', '%', '~']

/-- A number reader that converts the longest prefix of the token written in fixed
notation and ignores what follows it, as stream extraction and `strtod` do: `1.2.3` reads
as 1.2 and `2x` as 2. -/
def readLeadingNumber (token : List Char) : Option ℚ :=
  let ds := token.takeWhile Char.isDigit
  if ds = [] then none
  else
    match token.dropWhile Char.isDigit with
    | '.' :: rest =>
      let fs := rest.takeWhile Char.isDigit
      some (natOfDigits ds + (natOfDigits fs : ℚ) / 10 ^ fs.length)
    | _ => some (natOfDigits ds)

/-- A conforming platform whose number readers accept a token that begins with a number:
`samplePlatform` with `readLeadingNumber` for both readers. -/
def prefixPlatform : Platform :=
  { samplePlatform with
    streamReadsDouble := fun token => (readLeadingNumber token).isSome
    stod := readLeadingNumber }

/-- The parentheses of the text are balanced: every `)` closes an earlier `(` and every
`(` is closed. -/
def Balanced (s : List Char) : Prop :=
  openDepth 0 s = 0 ∧ hasUnmatchedClose 0 s = false

/-- The text `B` cannot continue an operand run: it is empty or begins with a character
that `findScientificNumber` never appends to a token. -/
def RunBreak (B : List Char) : Prop :=
  ∀ d ∈ B.head?, isRunChar d = false

/-! ## model_credit.h, model_credit.cc -/

/-- The `enum TypeOfMonthlyPayments`. -/
inductive TypeOfMonthlyPayments where
  | ANNUITY
  | DIFFERENTIAL
  deriving DecidableEq, Repr

/-- The `struct CrInput`. -/
structure CrInput where
  credit : ℚ
  term : ℤ
  rate : ℚ

/-- The `struct CrOutput`. -/
structure CrOutput where
  total : ℚ
  overpayment : ℚ

/-- The `struct Payment`. -/
structure Payment where
  monthly_pay : ℚ
  interest_pay : ℚ
  date : List Char
  total_reminder : ℚ
  const_payment : ℚ

/-- The three objects `calculateCredit` receives by reference: `monthly_pay`, `out` and
`payments`. -/
structure CreditRefs where
  monthly_pay : ℚ
  out : CrOutput
  payments : List Payment

/-- The locals of `calculateDifferential` that its loop updates. -/
structure DifferentialLoop where
  total_reminder : ℚ
  out : CrOutput
  payments : List Payment
  current_day : ℤ
  current_month : ℤ
  current_year : ℤ

/-- `std::round`: the nearest integer, halfway cases away from zero. -/
def roundHalfAway (q : ℚ) : ℤ :=
  if 0 ≤ q then ⌊q + 1 / 2⌋ else ⌈q - 1 / 2⌉

/-- `CreditModel::calculateAnnuity`: the new `monthly_pay` and `out`. -/
def CreditModel.calculateAnnuity (P : Platform) (inp : CrInput) : ℚ × CrOutput :=
  let monthly_pay : ℚ :=
    (roundHalfAway (inp.credit * (inp.rate / 1200) /
      (1 - P.pow (1 + inp.rate / 1200) (-(inp.term : ℚ))) * 100) : ℚ) / 100
  let total := monthly_pay * (inp.term : ℚ)
  (monthly_pay, { total := total, overpayment := total - inp.credit })

/-- `CreditModel::calculateMonthlyPayment`: the new `total_reminder`, `monthly_pay`,
`interest_pay` and `out`. -/
def CreditModel.calculateMonthlyPayment (total_reminder const_payment const_rate : ℚ)
    (out : CrOutput) : ℚ × ℚ × ℚ × CrOutput :=
  let interest_pay := total_reminder * const_rate
  let monthly_pay := const_payment + interest_pay
  (total_reminder - const_payment, monthly_pay, interest_pay,
    { out with total := out.total + monthly_pay })

/-- `CreditModel::calculateFirstMonthPayment`. -/
def CreditModel.calculateFirstMonthPayment (total_reminder const_rate const_payment : ℚ) : ℚ :=
  const_payment + total_reminder * const_rate

/-- `CreditModel::isLeapYear`; `%` is the remainder of the truncated division. -/
def CreditModel.isLeapYear (year : ℤ) : Bool :=
  (year.tmod 4 == 0 && year.tmod 100 != 0) || year.tmod 400 == 0

/-- `CreditModel::getDaysInMonth`; the `enum Month` counts from `UNKNOWN = 0`,
`JANUARY = 1`. -/
def CreditModel.getDaysInMonth (month year : ℤ) : ℤ :=
  if month = 1 ∨ month = 3 ∨ month = 5 ∨ month = 7 ∨ month = 8 ∨ month = 10 ∨ month = 12 then 31
  else if month = 4 ∨ month = 6 ∨ month = 9 ∨ month = 11 then 30
  else if month = 2 then (if CreditModel.isLeapYear year then 29 else 28)
  else 0

/-- What `oss << std::setw(w) << std::setfill('0') << n` writes: the decimal digits of
`n`, after a `-` when it is negative, filled on the left with `0` up to the width. -/
def writePadded (width : Nat) (n : ℤ) : List Char :=
  let digits := (if n < 0 then ['-'] else []) ++ Nat.toDigits 10 n.natAbs
  List.replicate (width - digits.length) '0' ++ digits

/-- `CreditModel::formatDate`. -/
def CreditModel.formatDate (day month year : ℤ) : List Char :=
  writePadded 2 day ++ ['.'] ++ writePadded 2 month ++ ['.'] ++ writePadded 4 year

/-- `CreditModel::incrementMonthAndYear`: the new day, month and year. -/
def CreditModel.incrementMonthAndYear (current_day current_month current_year : ℤ) :
    ℤ × ℤ × ℤ :=
  let month1 := current_month + 1
  let month2 := if month1 > 12 then 1 else month1
  let year2 := if month1 > 12 then current_year + 1 else current_year
  let days_in_month := CreditModel.getDaysInMonth month2 year2
  (if current_day > days_in_month then days_in_month else current_day, month2, year2)

/-- The `for` loop of `calculateDifferential` with `remaining` iterations still to run. -/
def CreditModel.calculateDifferentialLoop (const_payment const_rate : ℚ) :
    Nat → DifferentialLoop → DifferentialLoop
  | 0, st => st
  | remaining + 1, st =>
    let r := CreditModel.calculateMonthlyPayment st.total_reminder const_payment const_rate st.out
    let formatted_date := CreditModel.formatDate st.current_day st.current_month st.current_year
    let d := CreditModel.incrementMonthAndYear st.current_day st.current_month st.current_year
    CreditModel.calculateDifferentialLoop const_payment const_rate remaining
      { total_reminder := r.1
        out := r.2.2.2
        payments := st.payments ++ [⟨r.2.1, r.2.2.1, formatted_date, r.1, const_payment⟩]
        current_day := d.1
        current_month := d.2.1
        current_year := d.2.2 }

/-- `CreditModel::calculateDifferential`: the returned vector, the new `first_month_pay`
and the new `out`. The date `today` (day, month, year) is what `getCurrentDateAndTime`
reads from the clock. -/
def CreditModel.calculateDifferential (today : ℤ × ℤ × ℤ) (inp : CrInput) (out : CrOutput) :
    List Payment × ℚ × CrOutput :=
  let total_reminder := inp.credit
  let const_payment := inp.credit / (inp.term : ℚ)
  let const_rate := inp.rate / 12 / 100
  let out1 : CrOutput := { out with total := 0 }
  let first_month_pay :=
    CreditModel.calculateFirstMonthPayment total_reminder const_rate const_payment
  let st := CreditModel.calculateDifferentialLoop const_payment const_rate inp.term.toNat
    ⟨total_reminder, out1, [], today.1, today.2.1, today.2.2⟩
  (st.payments, first_month_pay, { st.out with overpayment := st.out.total - inp.credit })

/-- `CreditModel::calculateCredit`. -/
def CreditModel.calculateCredit (P : Platform) (today : ℤ × ℤ × ℤ)
    (type : TypeOfMonthlyPayments) (inp : CrInput) (refs : CreditRefs) : CreditRefs :=
  match type with
  | .ANNUITY =>
    let r := CreditModel.calculateAnnuity P inp
    { refs with monthly_pay := r.1, out := r.2 }
  | .DIFFERENTIAL =>
    let r := CreditModel.calculateDifferential today inp refs.out
    { monthly_pay := r.2.1, out := r.2.2, payments := r.1 }

/-! ## model_deposit.cc: the calendar helpers -/

/-- `DepositModel::isLeapYear`. -/
def DepositModel.isLeapYear (year : ℤ) : Bool :=
  year.tmod 4 == 0 && (year.tmod 100 != 0 || year.tmod 400 == 0)

/-- `DepositModel::getDaysInMonth`. -/
def DepositModel.getDaysInMonth (month year : ℤ) : ℤ :=
  if month = 1 ∨ month = 3 ∨ month = 5 ∨ month = 7 ∨ month = 8 ∨ month = 10 ∨ month = 12 then 31
  else if month = 4 ∨ month = 6 ∨ month = 9 ∨ month = 11 then 30
  else if month = 2 then (if DepositModel.isLeapYear year then 29 else 28)
  else 0

/-! ## Auxiliary notions used by the statements on the credit model -/

/-- The Gregorian rule: a year is a leap year when it is divisible by 4 and not by 100, or
divisible by 400. -/
def GregorianLeap (year : ℤ) : Prop :=
  (4 ∣ year ∧ ¬ 100 ∣ year) ∨ 400 ∣ year

/-- The interest part of the month of index `i` of a differential schedule: the monthly
rate applied to what is left of the credit after `i` equal principal parts. -/
def interestPart (credit rate : ℚ) (n i : Nat) : ℚ :=
  (credit - (i : ℚ) * (credit / (n : ℚ))) * (rate / 1200)

/-! ## Auxiliary notions used by the statements on what the conversion conserves -/

/-- Where a left-to-right reading of a normalized text stands, with the operand run read
so far. -/
inductive RunPhase where
  /-- Not inside an operand run. -/
  | outside
  /-- Inside the run `cur`; `marked` tells whether it already holds an exponent marker. -/
  | inRun (cur : List Char) (marked : Bool)
  /-- Right after the first exponent marker of the run `cur`. -/
  | afterMarker (cur : List Char)
  /-- Right after the sign that follows the first exponent marker of the run `cur`. -/
  | afterSign (cur : List Char)

/-- The operand runs of the text still to be read, left to right. A run begins with a
digit, `.` or `x` and continues over digits, `.`, `x`, `e`, `E` and over the sign that
follows its first exponent marker and the digit after that sign; any other character ends
it. -/
def operandRunsFrom : RunPhase → List Char → List (List Char)
  | .outside, [] => []
  | .inRun cur _, [] => [cur]
  | .afterMarker cur, [] => [cur]
  | .afterSign cur, [] => [cur]
  | .outside, c :: rest =>
    if isOperand c then operandRunsFrom (.inRun [c] false) rest
    else operandRunsFrom .outside rest
  | .inRun cur marked, c :: rest =>
    if isPartOfExponent c then
      if marked then operandRunsFrom (.inRun (cur ++ [c]) true) rest
      else operandRunsFrom (.afterMarker (cur ++ [c])) rest
    else if isOperand c then operandRunsFrom (.inRun (cur ++ [c]) marked) rest
    else cur :: operandRunsFrom .outside rest
  | .afterMarker cur, c :: rest =>
    if c == '+' || c == '-' then operandRunsFrom (.afterSign (cur ++ [c])) rest
    else if isOperand c || isPartOfExponent c then operandRunsFrom (.inRun (cur ++ [c]) true) rest
    else cur :: operandRunsFrom .outside rest
  | .afterSign cur, c :: rest =>
    if c.isDigit then operandRunsFrom (.inRun (cur ++ [c]) true) rest
    else if isOperand c then cur :: operandRunsFrom (.inRun [c] false) rest
    else cur :: operandRunsFrom .outside rest

/-- The operand runs of a normalized infix text, in their left-to-right order. -/
def operandRuns (text : List Char) : List (List Char) :=
  operandRunsFrom .outside text

/-- A token of a postfix text is an operand token when it begins with a digit, `.` or
`x`; the other tokens are one-character symbols. -/
def isOperandToken (t : List Char) : Bool :=
  match t with
  | c :: _ => isOperand c
  | [] => false

/-- The operand tokens of a postfix text, read left to right. -/
def operandTokens (rpn : List Char) : List (List Char) :=
  (ModelCalculator.splitTokens rpn []).filter isOperandToken

/-- An operator symbol `+ - * / ^ % ~` or a function symbol. -/
def isOperatorOrFunction (c : Char) : Bool :=
  isOperator c || isFunction c

/-! ## view/graphview.cpp: how `build_graf` reads the output of the sampler -/

/-- The `for` loop of `GraphView::build_graf`, at index `i` with `remaining` iterations
still to run: `x.push_back(answer[0][i]); y.push_back(answer[1][i]);`. Reading a
`std::vector` past its end with `operator[]` is undefined behaviour: `none`. -/
def GraphView.copyLoop (answer : List (Option ℚ) × List (Option ℚ)) :
    Nat → Nat → List (Option ℚ) × List (Option ℚ) → Option (List (Option ℚ) × List (Option ℚ))
  | 0, _, xy => some xy
  | remaining + 1, i, xy =>
    match answer.1[i]?, answer.2[i]? with
    | some a, some b => GraphView.copyLoop answer remaining (i + 1) (xy.1 ++ [a], xy.2 ++ [b])
    | _, _ => none

/-- `GraphView::build_graf`, up to the vectors `x` and `y` it hands to the plot: the four
bounds and the number of points are the values of the spin boxes, `text` is the line edit.
An exception of `calculateGraf` is caught and leaves `x` and `y` empty. -/
def GraphView.build_graf (P : Platform) (vXMin vXMax vYMin vYMax : ℚ) (points : Nat)
    (text : List Char) : Option (List (Option ℚ) × List (Option ℚ)) :=
  if text ≠ [] then
    match calculateGraf P (vXMin, vXMax) (vYMin, vYMax) points text with
    | .ok answer => GraphView.copyLoop answer points 0 ([], [])
    | .error _ => some ([], [])
  else some ([], [])

/-! ## Auxiliary notions used by the statement on expression trees -/

/-- The nine function names of the calculator. -/
inductive FunctionName where
  | sin | cos | tan | asin | acos | atan | sqrt | ln | log
  deriving DecidableEq, Repr

/-- The name as it is written in an expression. -/
def FunctionName.text : FunctionName → List Char
  | .sin => ['s', 'i', 'n']
  | .cos => ['c', 'o', 's']
  | .tan => ['t', 'a', 'n']
  | .asin => ['a', 's', 'i', 'n']
  | .acos => ['a', 'c', 'o', 's']
  | .atan => ['a', 't', 'a', 'n']
  | .sqrt => ['s', 'q', 'r', 't']
  | .ln => ['l', 'n']
  | .log => ['l', 'o', 'g']

/-- The symbol the table `functions` gives to the name. -/
def FunctionName.symbol : FunctionName → Char
  | .sin => 's'
  | .cos => 'c'
  | .tan => 't'
  | .asin => 'i'
  | .acos => 'o'
  | .atan => 'n'
  | .sqrt => 'q'
  | .ln => 'l'
  | .log => 'g'

theorem popAndAppendOperator_cons (top : Char) (ops out token : List Char) :
    popAndAppendOperator ⟨top :: ops, out, token⟩ = ⟨ops, out ++ [top, ' '], token⟩ := rfl

theorem isLitChar_of_isDigit {c : Char} (h : c.isDigit = true) : isLitChar c = true := by
  simp [isLitChar, h]

theorem isOperand_of_isLitChar {c : Char} (h : isLitChar c = true) : isOperand c = true := by
  simp only [isLitChar, Bool.or_eq_true] at h
  simp only [isOperand, Bool.or_eq_true]
  tauto

theorem isLitChar_ne {c d : Char} (h : isLitChar c = true) (hd : isLitChar d = false) : c ≠ d := by
  intro hcd; subst hcd; simp [h] at hd

theorem isOperator_of_isLitChar {c : Char} (h : isLitChar c = true) : isOperator c = false := by
  cases hop : isOperator c with
  | false => rfl
  | true =>
    simp only [isOperator, Bool.or_eq_true, beq_iff_eq] at hop
    rcases hop with ((((((h1 | h1) | h1) | h1) | h1) | h1) | h1) <;> subst h1 <;>
      exact absurd h (by decide)

theorem isPartOfExponent_of_isOperand {c : Char} (h : isOperand c = true) :
    isPartOfExponent c = false := by
  cases hop : isPartOfExponent c with
  | false => rfl
  | true =>
    simp only [isPartOfExponent, Bool.or_eq_true, beq_iff_eq] at hop
    rcases hop with h1 | h1 <;> subst h1 <;> exact absurd h (by decide)

/-! ## The preprocessor -/
theorem functions_head : ∀ p ∈ functions, ∃ a t, p.1 = a :: t ∧ isNameStart a = true := by
  intro p hp
  simp only [functions, List.mem_cons, List.mem_singleton, List.not_mem_nil, or_false] at hp
  rcases hp with h | h | h | h | h | h | h | h | h <;> subst h <;>
    exact ⟨_, _, rfl, by decide⟩

theorem replaceName_of_head_not_mem (a : Char) (t : List Char) (sym : Char) (s : List Char)
    (hs : a ∉ s) : replaceName (a :: t) sym 0 s = s := by
  induction s with
  | nil => rfl
  | cons c rest ih =>
    have hc : a ≠ c := fun h => hs (by simp [h])
    have hrest : a ∉ rest := fun h => hs (by simp [h])
    simp [replaceName, List.isPrefixOf, hc, ih hrest]

theorem renameFunctions_of_no_nameStart (order : List (List Char × Char))
    (horder : ∀ p ∈ order, p ∈ functions) (s : List Char)
    (hs : ∀ c ∈ s, isNameStart c = false) : renameFunctions order s = s := by
  unfold renameFunctions
  induction order with
  | nil => rfl
  | cons p order ih =>
    obtain ⟨a, t, hp, ha⟩ := functions_head p (horder p (by simp))
    have hmem : a ∉ s := fun h => by simp [hs a h] at ha
    simp only [List.foldl_cons, hp, replaceName_of_head_not_mem a t p.2 s hmem]
    exact ih (fun q hq => horder q (by simp [hq]))

theorem lastOr_cons (prev : Option Char) (c : Char) (a : List Char) :
    lastOr prev (c :: a) = lastOr (some c) a := by
  cases a with
  | nil => rfl
  | cons d a =>
    have h : (d :: a).getLast? = some ((d :: a).getLast (by simp)) := List.getLast?_eq_getLast _ _
    simp only [lastOr, List.getLast?_cons_cons, h]

theorem replaceUnaryMinusFrom_append (prev : Option Char) (a rest : List Char)
    (ha : '-' ∉ a) :
    replaceUnaryMinusFrom prev (a ++ rest) = a ++ replaceUnaryMinusFrom (lastOr prev a) rest := by
  induction a generalizing prev with
  | nil => rfl
  | cons c a ih =>
    have hc : c ≠ '-' := fun h => ha (by simp [h])
    have hrest : '-' ∉ a := fun h => ha (by simp [h])
    simp [replaceUnaryMinusFrom, hc, ih (some c) hrest, lastOr_cons]

theorem replaceUnaryMinusFrom_of_no_minus (prev : Option Char) (a : List Char)
    (ha : '-' ∉ a) : replaceUnaryMinusFrom prev a = a := by
  have h := replaceUnaryMinusFrom_append prev a [] ha
  simpa [replaceUnaryMinusFrom] using h

/-! ## The operand run -/
theorem findScientificNumber_nil (token : List Char) (hasExponent : Bool) :
    findScientificNumber [] token hasExponent = .ok (token, []) := by
  rfl

theorem findScientificNumber_cons (c : Char) (rest token : List Char) (hasExponent : Bool) :
    findScientificNumber (c :: rest) token hasExponent =
      if isOperand c || isPartOfExponent c then
        if isPartOfExponent c && !hasExponent then
          match rest with
          | s :: rest1 =>
            if s == '+' || s == '-' then
              match rest1 with
              | d :: rest2 =>
                if d.isDigit then findScientificNumber rest2 (token ++ [c] ++ [s] ++ [d]) true
                else .error .expectedDigitAfterSign
              | [] => .error .expectedDigitAfterSign
            else if s.isDigit then findScientificNumber rest1 (token ++ [c] ++ [s]) true
            else .error .expectedDigitAfterE
          | [] => .error .expectedDigitAfterE
        else findScientificNumber rest (token ++ [c]) hasExponent
      else .ok (token, c :: rest) := by
  conv_lhs => unfold findScientificNumber

theorem findScientificNumber_run (N rest token : List Char) (hasExponent : Bool)
    (hN : ∀ c ∈ N, isOperand c = true) (hrest : RunEnds rest) :
    findScientificNumber (N ++ rest) token hasExponent = .ok (token ++ N, rest) := by
  induction N generalizing token with
  | nil =>
    cases rest with
    | nil => simp [findScientificNumber_nil]
    | cons d r =>
      have hd := hrest d (by simp)
      simp only [Bool.or_eq_false_iff] at hd
      simp [findScientificNumber_cons, hd.1, hd.2]
  | cons c N ih =>
    have hc := hN c (by simp)
    have hce := isPartOfExponent_of_isOperand hc
    have := ih (token ++ [c]) (fun d hd => hN d (by simp [hd]))
    simp [findScientificNumber_cons, hc, hce, this]

theorem findScientificNumber_length (s token : List Char) (hasExponent : Bool)
    (t r : List Char) (h : findScientificNumber s token hasExponent = .ok (t, r)) :
    r.length ≤ s.length := by
  generalize hn : s.length = n
  induction n using Nat.strong_induction_on generalizing s token hasExponent with
  | _ n ih =>
    subst hn
    cases s with
    | nil =>
      simp [findScientificNumber_nil] at h
      simp [h.2]
    | cons c rest =>
      rw [findScientificNumber_cons] at h
      split at h
      · split at h
        · split at h
          · split at h
            · split at h
              · split at h
                · have := ih _ (by simp only [List.length_cons]; omega) _ _ _ h rfl
                  simp at this ⊢; omega
                · cases h
              · cases h
            · split at h
              · have := ih _ (by simp only [List.length_cons]; omega) _ _ _ h rfl
                simp at this ⊢; omega
              · cases h
          · cases h
        · have := ih _ (by simp only [List.length_cons]; omega) _ _ _ h rfl
          simp at this ⊢; omega
      · cases h
        simp

theorem findScientificNumber_length_cons (c : Char) (rest token : List Char)
    (hasExponent : Bool) (t r : List Char) (hc : (isOperand c || isPartOfExponent c) = true)
    (h : findScientificNumber (c :: rest) token hasExponent = .ok (t, r)) :
    r.length ≤ rest.length := by
  rw [findScientificNumber_cons, if_pos hc] at h
  split at h
  · split at h
    · split at h
      · split at h
        · split at h
          · have := findScientificNumber_length _ _ _ _ _ h
            simp at this ⊢; omega
          · cases h
        · cases h
      · split at h
        · have := findScientificNumber_length _ _ _ _ _ h
          simp at this ⊢; omega
        · cases h
    · cases h
  · exact findScientificNumber_length _ _ _ _ _ h

theorem findScientificNumber_exponent (c : Char) (rest token : List Char)
    (hc : isPartOfExponent c = true) :
    findScientificNumber (c :: rest) token false =
      match processExponent rest (token ++ [c]) with
      | .ok (token1, rest1) => findScientificNumber rest1 token1 true
      | .error e => .error e := by
  rw [findScientificNumber_cons]
  unfold processExponent
  simp only [hc, Bool.or_true, if_true, Bool.not_false, Bool.and_self]
  cases rest with
  | nil => rfl
  | cons s rest1 =>
    by_cases hs : (s == '+' || s == '-') = true
    · simp only [hs, if_true]
      cases rest1 with
      | nil => rfl
      | cons d rest2 =>
        by_cases hd : d.isDigit = true
        · simp [hd]
        · simp [hd]
    · simp only [hs]
      by_cases hd : s.isDigit = true
      · simp [hd]
      · simp [hd]

/-! ## The scan of `toRPN` -/
theorem handleOperand_length (st : Conv) (c : Char) (rest : List Char) (st1 : Conv)
    (rest1 : List Char) (h : handleOperand st (c :: rest) = .ok (st1, rest1)) :
    rest1.length ≤ rest.length := by
  unfold handleOperand at h
  simp only at h
  split at h
  · rename_i hc
    split at h
    · rename_i token r hf
      cases h
      exact findScientificNumber_length_cons c rest _ false _ _ (by simp [hc]) hf
    · cases h
  · cases h
    exact le_refl _

theorem toRPNLoop_nil (fuel : Nat) (st : Conv) : toRPNLoop fuel [] st = .ok st := by
  cases fuel <;> rfl

theorem toRPNLoop_succ_cons (fuel : Nat) (c : Char) (rest : List Char) (st : Conv) :
    toRPNLoop (fuel + 1) (c :: rest) st =
      match isOperandOrOperatorOrFunction c with
      | .OPERAND =>
        match handleOperand st (c :: rest) with
        | .ok (st1, rest1) => toRPNLoop fuel rest1 st1
        | .error e => .error e
      | .OPERATOR =>
        if c == '~' then toRPNLoop fuel rest (handleUnaryMinus st)
        else
          match handleOperator st c with
          | .ok st1 => toRPNLoop fuel rest st1
          | .error e => .error e
      | .FUNCTION => toRPNLoop fuel rest (handleFunction st c)
      | .BRACKETS => toRPNLoop fuel rest (handleParenthesis st c) := by
  rfl

/-- The scan of `toRPN` does not depend on its iteration bound once the bound is at least
the length of the text. -/
theorem toRPNLoop_fuel_irrelevant (n m : Nat) (text : List Char) (st : Conv)
    (hn : text.length ≤ n) (hm : text.length ≤ m) :
    toRPNLoop n text st = toRPNLoop m text st := by
  induction n generalizing m text st with
  | zero =>
    have : text = [] := List.eq_nil_of_length_eq_zero (by omega)
    subst this
    simp [toRPNLoop_nil]
  | succ n ih =>
    cases text with
    | nil => simp [toRPNLoop_nil]
    | cons c rest =>
      cases m with
      | zero => simp at hm
      | succ m =>
        simp only [List.length_cons, Nat.add_le_add_iff_right] at hn hm
        rw [toRPNLoop_succ_cons, toRPNLoop_succ_cons]
        cases isOperandOrOperatorOrFunction c with
        | OPERAND =>
          simp only
          cases hh : handleOperand st (c :: rest) with
          | error e => rfl
          | ok p =>
            obtain ⟨st1, rest1⟩ := p
            have hl := handleOperand_length st c rest st1 rest1 hh
            exact ih m rest1 st1 (by omega) (by omega)
        | OPERATOR =>
          simp only
          split
          · exact ih m rest _ hn hm
          · cases handleOperator st c with
            | error e => rfl
            | ok st1 => exact ih m rest st1 hn hm
        | FUNCTION => exact ih m rest _ hn hm
        | BRACKETS => exact ih m rest _ hn hm

theorem toRPNLoop_fuel (n : Nat) (text : List Char) (st : Conv) (hn : text.length ≤ n) :
    toRPNLoop n text st = scan text st :=
  toRPNLoop_fuel_irrelevant n text.length text st hn (le_refl _)

theorem scan_nil (st : Conv) : scan [] st = .ok st := rfl

theorem scan_cons (c : Char) (rest : List Char) (st : Conv) :
    scan (c :: rest) st =
      match isOperandOrOperatorOrFunction c with
      | .OPERAND =>
        match handleOperand st (c :: rest) with
        | .ok (st1, rest1) => scan rest1 st1
        | .error e => .error e
      | .OPERATOR =>
        if c == '~' then scan rest (handleUnaryMinus st)
        else
          match handleOperator st c with
          | .ok st1 => scan rest st1
          | .error e => .error e
      | .FUNCTION => scan rest (handleFunction st c)
      | .BRACKETS => scan rest (handleParenthesis st c) := by
  unfold scan
  simp only [List.length_cons]
  rw [toRPNLoop_succ_cons]
  cases isOperandOrOperatorOrFunction c with
  | OPERAND =>
    simp only
    cases hh : handleOperand st (c :: rest) with
    | error e => rfl
    | ok p =>
      obtain ⟨st1, rest1⟩ := p
      exact toRPNLoop_fuel_irrelevant _ _ rest1 st1
        (handleOperand_length st c rest st1 rest1 hh) (le_refl _)
  | OPERATOR => rfl
  | FUNCTION => rfl
  | BRACKETS => rfl

theorem toRPN_eq (order : List (List Char × Char)) (expr : List Char) :
    toRPN order expr =
      match scan (processedInfix order expr) ⟨[], [], []⟩ with
      | .ok st => .ok (trim (flushOperators (flushToken st)).output)
      | .error e => .error e := rfl

/-! ## Numeric literals -/
theorem IsDigits.digits_isLitChar {ds : List Char} (h : IsDigits ds) :
    ∀ c ∈ ds, isLitChar c = true :=
  fun c hc => isLitChar_of_isDigit (h.2 c hc)

theorem NumLit.lit_isLitChar {N : List Char} {v : ℚ} (h : NumLit N v) :
    ∀ c ∈ N, isLitChar c = true := by
  cases h with
  | whole ds hd => exact hd.digits_isLitChar
  | fraction ds fs hd hf =>
    intro c hc
    simp only [List.mem_append, List.mem_cons] at hc
    rcases hc with hc | hc | hc
    · exact hd.digits_isLitChar c hc
    · subst hc; decide
    · exact hf.digits_isLitChar c hc

theorem NumLit.lit_ne_nil {N : List Char} {v : ℚ} (h : NumLit N v) : N ≠ [] := by
  cases h with
  | whole ds hd => exact hd.1
  | fraction ds fs hd hf => simp

theorem IsDigits.digits_getLast {ds : List Char} (h : IsDigits ds) :
    ∃ c, ds.getLast? = some c ∧ c.isDigit = true :=
  ⟨ds.getLast h.1, List.getLast?_eq_getLast _ _, h.2 _ (List.getLast_mem h.1)⟩

theorem NumLit.lit_getLast {N : List Char} {v : ℚ} (h : NumLit N v) :
    ∃ c, N.getLast? = some c ∧ c.isDigit = true := by
  cases h with
  | whole ds hd => exact hd.digits_getLast
  | fraction ds fs hd hf =>
    obtain ⟨c, hc, hcd⟩ := hf.digits_getLast
    refine ⟨c, ?_, hcd⟩
    rw [List.getLast?_append, show ('.' :: fs).getLast? = some c from ?_]
    · rfl
    · cases fs with
      | nil => exact absurd rfl hf.1
      | cons f fs => rw [List.getLast?_cons_cons]; exact hc

theorem IsDigits.digits_head {ds : List Char} (h : IsDigits ds) :
    ∃ c rest, ds = c :: rest ∧ c.isDigit = true := by
  cases ds with
  | nil => exact absurd rfl h.1
  | cons c rest => exact ⟨c, rest, rfl, h.2 c (by simp)⟩

theorem NumLit.lit_head {N : List Char} {v : ℚ} (h : NumLit N v) :
    ∃ c rest, N = c :: rest ∧ c.isDigit = true := by
  cases h with
  | whole _ hd => exact hd.digits_head
  | fraction ds fs hd hf =>
    obtain ⟨c, rest, hds, hc⟩ := hd.digits_head
    exact ⟨c, rest ++ '.' :: fs, by simp [hds], hc⟩

theorem isNameStart_of_isLitChar {c : Char} (h : isLitChar c = true) : isNameStart c = false := by
  cases hop : isNameStart c with
  | false => rfl
  | true =>
    simp only [isNameStart, Bool.or_eq_true, beq_iff_eq] at hop
    rcases hop with (((h1 | h1) | h1) | h1) | h1 <;> subst h1 <;> exact absurd h (by decide)

theorem isSpace_of_isLitChar {c : Char} (h : isLitChar c = true) :
    ModelCalculator.isSpace c = false := by
  cases hop : ModelCalculator.isSpace c with
  | false => rfl
  | true =>
    simp only [ModelCalculator.isSpace, Bool.or_eq_true, beq_iff_eq] at hop
    rcases hop with ((((h1 | h1) | h1) | h1) | h1) | h1 <;> subst h1 <;>
      exact absurd h (by decide)

theorem ne_minus_of_isLitChar {c : Char} (h : isLitChar c = true) : c ≠ '-' :=
  fun h1 => by subst h1; exact absurd h (by decide)

theorem ne_x_of_isLitChar {c : Char} (h : isLitChar c = true) : c ≠ 'x' :=
  fun h1 => by subst h1; exact absurd h (by decide)

theorem NumLit.lit_ne_x {N : List Char} {v : ℚ} (h : NumLit N v) : N ≠ ['x'] := by
  intro hx
  have := h.lit_isLitChar 'x' (by simp [hx])
  exact absurd this (by decide)

theorem NumLit.lit_isOperand {N : List Char} {v : ℚ} (h : NumLit N v) :
    ∀ c ∈ N, isOperand c = true :=
  fun c hc => isOperand_of_isLitChar (h.lit_isLitChar c hc)

theorem NumLit.lit_no_minus {N : List Char} {v : ℚ} (h : NumLit N v) : '-' ∉ N :=
  fun hc => ne_minus_of_isLitChar (h.lit_isLitChar _ hc) rfl

theorem NumLit.lit_no_nameStart {N : List Char} {v : ℚ} (h : NumLit N v) :
    ∀ c ∈ N, isNameStart c = false :=
  fun c hc => isNameStart_of_isLitChar (h.lit_isLitChar c hc)

theorem NumLit.lit_no_space {N : List Char} {v : ℚ} (h : NumLit N v) :
    ∀ c ∈ N, ModelCalculator.isSpace c = false :=
  fun c hc => isSpace_of_isLitChar (h.lit_isLitChar c hc)

theorem NumLit.lit_firstChar_digit {N : List Char} {v : ℚ} (h : NumLit N v) :
    ModelCalculator.isBinaryOperator (ModelCalculator.firstChar N) = false ∧
      ModelCalculator.isUnaryOperator (ModelCalculator.firstChar N) = false := by
  obtain ⟨c, rest, rfl, hc⟩ := h.lit_head
  constructor
  · cases hop : ModelCalculator.isBinaryOperator (ModelCalculator.firstChar (c :: rest)) with
    | false => rfl
    | true =>
      simp only [ModelCalculator.firstChar, List.headD_cons, ModelCalculator.isBinaryOperator,
        Bool.or_eq_true, beq_iff_eq] at hop
      rcases hop with ((((h1 | h1) | h1) | h1) | h1) | h1 <;> subst h1 <;>
        exact absurd hc (by decide)
  · cases hop : ModelCalculator.isUnaryOperator (ModelCalculator.firstChar (c :: rest)) with
    | false => rfl
    | true =>
      simp only [ModelCalculator.firstChar, List.headD_cons, ModelCalculator.isUnaryOperator,
        Bool.or_eq_true, beq_iff_eq] at hop
      rcases hop with ((((((((h1 | h1) | h1) | h1) | h1) | h1) | h1) | h1) | h1) | h1 <;>
        subst h1 <;> exact absurd hc (by decide)

/-! ## Steps of the scan on a state with an empty token -/
theorem scan_run (N rest ops out : List Char) (hne : N ≠ [])
    (hN : ∀ c ∈ N, isOperand c = true) (hrest : RunEnds rest) :
    scan (N ++ rest) ⟨ops, out, []⟩ = scan rest ⟨ops, out ++ (N ++ [' ']), []⟩ := by
  cases N with
  | nil => exact absurd rfl hne
  | cons c N =>
    have hc := hN c (by simp)
    have hf := findScientificNumber_run (c :: N) rest [] false hN hrest
    simp only [List.cons_append, List.nil_append] at hf
    rw [List.cons_append, scan_cons]
    simp [isOperandOrOperatorOrFunction, hc, handleOperand, hf, flushToken, processOperand]

theorem scan_unaryMinus (rest ops out : List Char) :
    scan ('~' :: rest) ⟨ops, out, []⟩ = scan rest ⟨'~' :: ops, out, []⟩ := by
  rw [scan_cons]
  rfl

theorem scan_binary (c : Char) (rest ops out : List Char)
    (hc : ModelCalculator.isBinaryOperator c = true) :
    scan (c :: rest) ⟨ops, out, []⟩ =
      match popHigherPriority c ops out with
      | .ok (ops1, out1) => scan rest ⟨c :: ops1, out1, []⟩
      | .error e => .error e := by
  rw [scan_cons]
  simp only [ModelCalculator.isBinaryOperator, Bool.or_eq_true, beq_iff_eq] at hc
  rcases hc with ((((h | h) | h) | h) | h) | h <;> subst h <;>
    simp [isOperandOrOperatorOrFunction, isOperand, isOperator, handleOperator, flushToken] <;>
    cases popHigherPriority _ ops out <;> rfl

theorem scan_function (c : Char) (rest ops out : List Char) (hc : isFunction c = true) :
    scan (c :: rest) ⟨ops, out, []⟩ = scan rest ⟨c :: ops, out, []⟩ := by
  rw [scan_cons]
  simp only [isFunction, Bool.or_eq_true, beq_iff_eq] at hc
  rcases hc with (((((((h | h) | h) | h) | h) | h) | h) | h) | h <;> subst h <;> rfl

theorem scan_open (rest ops out : List Char) :
    scan ('(' :: rest) ⟨ops, out, []⟩ = scan rest ⟨'(' :: ops, out, []⟩ := by
  rw [scan_cons]
  rfl

theorem scan_close (rest ops out : List Char) :
    scan (')' :: rest) ⟨ops, out, []⟩ =
      match popToParenthesis ops out with
      | ('(' :: ops1, out1) => scan rest ⟨ops1, out1, []⟩
      | (ops1, out1) => scan rest ⟨ops1, out1, []⟩ := by
  rw [scan_cons]
  simp [isOperandOrOperatorOrFunction, isOperand, isOperator, isFunction, handleParenthesis,
    flushToken]
  split <;> simp_all

/-! ## `trim` and the token reader -/
theorem dropWhile_space_of_head (t : List Char) (h : ∀ c ∈ t.head?, c ≠ ' ') :
    t.dropWhile (· == ' ') = t := by
  cases t with
  | nil => rfl
  | cons c t =>
    have hc := h c (by simp)
    simp [List.dropWhile_cons, hc]

theorem trim_append_space (t : List Char) (h1 : ∀ c ∈ t.head?, c ≠ ' ')
    (h2 : ∀ c ∈ t.getLast?, c ≠ ' ') : trim (t ++ [' ']) = t := by
  unfold trim
  cases t with
  | nil => rfl
  | cons c t =>
    have hc := h1 c (by simp)
    have e1 : (c :: t ++ [' ']).dropWhile (· == ' ') = c :: t ++ [' '] :=
      dropWhile_space_of_head _ (by simpa using hc)
    have e2 : (c :: t ++ [' ']).reverse = ' ' :: (c :: t).reverse := by simp
    have e3 : ((c :: t).reverse).dropWhile (· == ' ') = (c :: t).reverse := by
      apply dropWhile_space_of_head
      intro d hd
      rw [List.head?_reverse] at hd
      exact h2 d hd
    rw [e1, e2, List.dropWhile_cons]
    simp only [beq_self_eq_true, if_true]
    rw [e3, List.reverse_reverse]

namespace ModelCalculator

theorem splitTokens_token (t rest cur : List Char) (ht : ∀ c ∈ t, isSpace c = false)
    (hne : cur ++ t ≠ []) :
    splitTokens (t ++ ' ' :: rest) cur = (cur ++ t) :: splitTokens rest [] := by
  induction t generalizing cur with
  | nil =>
    simp only [List.append_nil] at hne
    simp [splitTokens, isSpace, hne]
  | cons c t ih =>
    have hc := ht c (by simp)
    have := ih (cur ++ [c]) (fun d hd => ht d (by simp [hd])) (by simp)
    simp [splitTokens, hc, this]

theorem splitTokens_last (t cur : List Char) (ht : ∀ c ∈ t, isSpace c = false)
    (hne : cur ++ t ≠ []) : splitTokens t cur = [cur ++ t] := by
  induction t generalizing cur with
  | nil =>
    simp only [List.append_nil] at hne
    simp [splitTokens, hne]
  | cons c t ih =>
    have hc := ht c (by simp)
    have := ih (cur ++ [c]) (fun d hd => ht d (by simp [hd])) (by simp)
    simp [splitTokens, hc, this]

/-! ## Steps of the evaluator -/
theorem evaluateLoop_literal (P : Platform) (hP : P.Conforming) (x : ℚ) (N : List Char)
    (v : ℚ) (hN : NumLit N v) (rest : List (List Char)) (stack : List ℚ) :
    evaluateLoop P x (N :: rest) stack = evaluateLoop P x rest (v :: stack) := by
  obtain ⟨h1, h2⟩ := hP.reads_literal N v hN
  simp [evaluateLoop, tokenType, isOperand, hN.lit_ne_x, h1, h2]

theorem evaluateLoop_x (P : Platform) (x : ℚ) (rest : List (List Char)) (stack : List ℚ) :
    evaluateLoop P x (['x'] :: rest) stack = evaluateLoop P x rest (x :: stack) := by
  simp [evaluateLoop, tokenType, isOperand]

theorem tokenType_binary_basic (P : Platform) (hP : P.Basic) (c : Char)
    (hc : isBinaryOperator c = true) : tokenType P [c] = .TYPE_BINARY_OPERATOR := by
  have hd : c.isDigit = false := by
    simp only [isBinaryOperator, Bool.or_eq_true, beq_iff_eq] at hc
    rcases hc with ((((h | h) | h) | h) | h) | h <;> subst h <;> rfl
  have hx : c ≠ 'x' := by
    intro h; subst h; exact absurd hc (by decide)
  simp [tokenType, isOperand, hx, hP.rejects_symbol c hd, firstChar, hc]

theorem tokenType_unary_basic (P : Platform) (hP : P.Basic) (c : Char)
    (hc : isUnaryOperator c = true) : tokenType P [c] = .TYPE_UNARY_OPERATOR := by
  have hd : c.isDigit = false := by
    simp only [isUnaryOperator, Bool.or_eq_true, beq_iff_eq] at hc
    rcases hc with ((((((((h | h) | h) | h) | h) | h) | h) | h) | h) | h <;> subst h <;> rfl
  have hx : c ≠ 'x' := by
    intro h; subst h; exact absurd hc (by decide)
  have hb : isBinaryOperator c = false := by
    simp only [isUnaryOperator, Bool.or_eq_true, beq_iff_eq] at hc
    rcases hc with ((((((((h | h) | h) | h) | h) | h) | h) | h) | h) | h <;> subst h <;> rfl
  simp [tokenType, isOperand, hx, hP.rejects_symbol c hd, firstChar, hc, hb]

theorem evaluateLoop_binary_basic (P : Platform) (hP : P.Basic) (x : ℚ) (c : Char)
    (hc : isBinaryOperator c = true) (rest : List (List Char)) (a b : ℚ) (stack : List ℚ) :
    evaluateLoop P x ([c] :: rest) (b :: a :: stack) =
      match applyBinaryOperator P c a b with
      | .ok r => evaluateLoop P x rest (r :: stack)
      | .error e => .error e := by
  cases h : applyBinaryOperator P c a b <;>
    simp [evaluateLoop, tokenType_binary_basic P hP c hc, firstChar, h]

theorem evaluateLoop_unary_basic (P : Platform) (hP : P.Basic) (x : ℚ) (c : Char)
    (hc : isUnaryOperator c = true) (rest : List (List Char)) (a : ℚ) (stack : List ℚ) :
    evaluateLoop P x ([c] :: rest) (a :: stack) =
      match applyUnaryOperator P c a with
      | .ok r => evaluateLoop P x rest (r :: stack)
      | .error e => .error e := by
  cases h : applyUnaryOperator P c a <;>
    simp [evaluateLoop, tokenType_unary_basic P hP c hc, firstChar, h]

theorem evaluateLoop_binary (P : Platform) (hP : P.Conforming) (x : ℚ) (c : Char)
    (hc : isBinaryOperator c = true) (rest : List (List Char)) (a b : ℚ) (stack : List ℚ) :
    evaluateLoop P x ([c] :: rest) (b :: a :: stack) =
      match applyBinaryOperator P c a b with
      | .ok r => evaluateLoop P x rest (r :: stack)
      | .error e => .error e :=
  evaluateLoop_binary_basic P ⟨hP.order_perm, hP.rejects_symbol⟩ x c hc rest a b stack

theorem calculate_of_toRPN (P : Platform) (self : ModelCalculator) (expression rpn : List Char)
    (x : ℚ) (h : toRPN P.functionOrder expression = .ok rpn) :
    (calculate P self expression x).1 = evaluateRPN P rpn x := by
  unfold calculate
  rw [h]
  cases he : evaluateRPN P rpn x <;> simp [he]

/-- The step of the evaluator on a fixed-notation literal. -/
theorem evaluateLoop_readLiteral (P : Platform) (x : ℚ) (N : List Char) (w : ℚ)
    (hN : NumLit N w) (rest : List (List Char)) (stack : List ℚ) :
    evaluateLoop P x (N :: rest) stack =
      match readLiteral P N with
      | .ok v => evaluateLoop P x rest (v :: stack)
      | .error e => .error e := by
  have h1 : isBinaryOperator (firstChar N) = false := hN.lit_firstChar_digit.1
  have h2 : isUnaryOperator (firstChar N) = false := hN.lit_firstChar_digit.2
  cases hs : P.streamReadsDouble N with
  | false => simp [evaluateLoop, tokenType, isOperand, hN.lit_ne_x, hs, h1, h2, readLiteral]
  | true =>
    cases hv : P.stod N with
    | none => simp [evaluateLoop, tokenType, isOperand, hN.lit_ne_x, hs, hv, readLiteral]
    | some v => simp [evaluateLoop, tokenType, isOperand, hN.lit_ne_x, hs, hv, readLiteral]

/-- The step of the evaluator on an operand token. -/
theorem evaluateLoop_readOperand (P : Platform) (x : ℚ) (t : List Char) (ht : IsOperandText t)
    (rest : List (List Char)) (stack : List ℚ) :
    evaluateLoop P x (t :: rest) stack =
      match readOperand P x t with
      | .ok v => evaluateLoop P x rest (v :: stack)
      | .error e => .error e := by
  rcases ht with rfl | ⟨w, hw⟩
  · rw [evaluateLoop_x]
    simp [readOperand]
  · rw [evaluateLoop_readLiteral P x t w hw, readOperand, if_neg hw.lit_ne_x]

end ModelCalculator

theorem RunEnds_nil : RunEnds [] := by
  intro d hd
  simp at hd

theorem RunEnds_cons (d : Char) (r : List Char)
    (h : (isOperand d || isPartOfExponent d) = false) : RunEnds (d :: r) := by
  intro e he
  simp only [List.head?_cons, Option.mem_def, Option.some.injEq] at he
  subst he
  exact h

theorem processedInfix_of_plain (order : List (List Char × Char))
    (horder : ∀ p ∈ order, p ∈ functions) (s : List Char)
    (hs : ∀ c ∈ s, isNameStart c = false) (hm : '-' ∉ s) : processedInfix order s = s := by
  unfold processedInfix replaceUnaryMinus
  rw [renameFunctions_of_no_nameStart order horder s hs, replaceUnaryMinusFrom_of_no_minus _ _ hm]

theorem Platform.Conforming.order_mem {P : Platform} (hP : P.Conforming) :
    ∀ p ∈ P.functionOrder, p ∈ functions :=
  fun _ hp => hP.order_perm.subset hp

theorem scan_run_end (N ops out : List Char) (hne : N ≠ [])
    (hN : ∀ c ∈ N, isOperand c = true) :
    scan N ⟨ops, out, []⟩ = .ok ⟨ops, out ++ (N ++ [' ']), []⟩ := by
  have h := scan_run N [] ops out hne hN RunEnds_nil
  rw [List.append_nil, scan_nil] at h
  exact h

theorem flushToken_empty (ops out : List Char) :
    flushToken ⟨ops, out, []⟩ = ⟨ops, out, []⟩ := by
  simp [flushToken]

theorem NumLit.lit_head_ne_space {N : List Char} {v : ℚ} (h : NumLit N v) (rest : List Char) :
    ∀ c ∈ (N ++ rest).head?, c ≠ ' ' := by
  obtain ⟨d, N1, hN, hd⟩ := h.lit_head
  subst hN
  intro c hc
  simp only [List.cons_append, List.head?_cons, Option.mem_def, Option.some.injEq] at hc
  subst hc
  intro h1
  subst h1
  exact absurd hd (by decide)

theorem trim_snoc_space (t : List Char) (l : Char) (h1 : ∀ c ∈ (t ++ [l]).head?, c ≠ ' ')
    (hl : l ≠ ' ') : trim (t ++ [l] ++ [' ']) = t ++ [l] := by
  apply trim_append_space _ h1
  intro c hc
  rw [List.getLast?_concat] at hc
  simp only [Option.mem_def, Option.some.injEq] at hc
  subst hc
  exact hl

theorem C1_toRPN_sum_product (order : List (List Char × Char))
    (horder : ∀ p ∈ order, p ∈ functions)
    (a b c : List Char) (va vb vc : ℚ) (ha : NumLit a va) (hb : NumLit b vb) (hc : NumLit c vc) :
    toRPN order (a ++ '+' :: (b ++ '*' :: c)) =
      .ok (a ++ ' ' :: (b ++ ' ' :: (c ++ [' ', '*', ' ', '+']))) := by
  rw [toRPN_eq, processedInfix_of_plain order horder]
  · rw [scan_run a _ _ _ ha.lit_ne_nil ha.lit_isOperand (RunEnds_cons _ _ (by decide))]
    rw [scan_binary '+' _ _ _ (by decide)]
    simp only [popHigherPriority]
    rw [scan_run b _ _ _ hb.lit_ne_nil hb.lit_isOperand (RunEnds_cons _ _ (by decide))]
    rw [scan_binary '*' _ _ _ (by decide)]
    have hp : popHigherPriority '*' ['+'] ([] ++ (a ++ [' ']) ++ (b ++ [' '])) =
        .ok (['+'], [] ++ (a ++ [' ']) ++ (b ++ [' '])) := by
      simp [popHigherPriority, getOperatorPriority, operatorPriority, List.lookup,
        OP_ADDITIVE, OP_MULTIPLICATIVE]
    rw [hp]
    simp only
    rw [scan_run_end c _ _ hc.lit_ne_nil hc.lit_isOperand]
    simp only [flushToken_empty, flushOperators, flushOperatorsLoop]
    have e : [] ++ (a ++ [' ']) ++ (b ++ [' ']) ++ (c ++ [' ']) ++ ['*', ' '] ++ ['+', ' '] =
        (a ++ ' ' :: (b ++ ' ' :: (c ++ [' ', '*', ' ']))) ++ ['+'] ++ [' '] := by simp
    rw [e, trim_snoc_space _ _ (by rw [List.append_assoc]; exact ha.lit_head_ne_space _)
      (by decide)]
    simp
  · intro ch hch
    simp only [List.mem_append, List.mem_cons] at hch
    rcases hch with h | rfl | h | rfl | h
    · exact ha.lit_no_nameStart _ h
    · rfl
    · exact hb.lit_no_nameStart _ h
    · rfl
    · exact hc.lit_no_nameStart _ h
  · intro hch
    simp only [List.mem_append, List.mem_cons] at hch
    rcases hch with h | h | h | h | h
    · exact ha.lit_no_minus h
    · exact absurd h (by decide)
    · exact hb.lit_no_minus h
    · exact absurd h (by decide)
    · exact hc.lit_no_minus h

theorem C1_toRPN_parenthesized (order : List (List Char × Char))
    (horder : ∀ p ∈ order, p ∈ functions)
    (a b c : List Char) (va vb vc : ℚ) (ha : NumLit a va) (hb : NumLit b vb) (hc : NumLit c vc) :
    toRPN order ('(' :: (a ++ '+' :: (b ++ ')' :: '*' :: c))) =
      .ok (a ++ ' ' :: (b ++ ' ' :: '+' :: ' ' :: (c ++ [' ', '*']))) := by
  rw [toRPN_eq, processedInfix_of_plain order horder]
  · rw [scan_open]
    rw [scan_run a _ _ _ ha.lit_ne_nil ha.lit_isOperand (RunEnds_cons _ _ (by decide))]
    rw [scan_binary '+' _ _ _ (by decide)]
    have hp : popHigherPriority '+' ['('] ([] ++ (a ++ [' '])) =
        .ok (['('], [] ++ (a ++ [' '])) := by
      simp [popHigherPriority, getOperatorPriority, operatorPriority, List.lookup,
        OP_ADDITIVE, OP_PARENTHESIS]
    rw [hp]
    simp only
    rw [scan_run b _ _ _ hb.lit_ne_nil hb.lit_isOperand (RunEnds_cons _ _ (by decide))]
    rw [scan_close]
    simp only [popToParenthesis, ne_eq, not_true_eq_false, if_false, if_true,
      show ('+' : Char) ≠ '(' from by decide, not_false_eq_true]
    rw [scan_binary '*' _ _ _ (by decide)]
    simp only [popHigherPriority]
    rw [scan_run_end c _ _ hc.lit_ne_nil hc.lit_isOperand]
    simp only [flushToken_empty, flushOperators, flushOperatorsLoop]
    have e : [] ++ (a ++ [' ']) ++ (b ++ [' ']) ++ ['+', ' '] ++ (c ++ [' ']) ++ ['*', ' '] =
        (a ++ ' ' :: (b ++ ' ' :: '+' :: ' ' :: (c ++ [' ']))) ++ ['*'] ++ [' '] := by simp
    rw [e, trim_snoc_space _ _ (by rw [List.append_assoc]; exact ha.lit_head_ne_space _)
      (by decide)]
    simp
  · intro ch hch
    simp only [List.mem_append, List.mem_cons] at hch
    rcases hch with rfl | h | rfl | h | rfl | rfl | h
    · rfl
    · exact ha.lit_no_nameStart _ h
    · rfl
    · exact hb.lit_no_nameStart _ h
    · rfl
    · rfl
    · exact hc.lit_no_nameStart _ h
  · intro hch
    simp only [List.mem_append, List.mem_cons] at hch
    rcases hch with h | h | h | h | h | h | h
    · exact absurd h (by decide)
    · exact ha.lit_no_minus h
    · exact absurd h (by decide)
    · exact hb.lit_no_minus h
    · exact absurd h (by decide)
    · exact absurd h (by decide)
    · exact hc.lit_no_minus h

open ModelCalculator in

theorem C1_eval_sum_product (P : Platform) (hP : P.Basic) (x : ℚ)
    (a b c : List Char) (wa wb wc : ℚ) (ha : NumLit a wa) (hb : NumLit b wb) (hc : NumLit c wc) :
    evaluateRPN P (a ++ ' ' :: (b ++ ' ' :: (c ++ [' ', '*', ' ', '+']))) x =
      (readLiteral P a).bind fun va => (readLiteral P b).bind fun vb =>
        (readLiteral P c).bind fun vc => .ok (P.fl (va + P.fl (vb * vc))) := by
  unfold evaluateRPN
  rw [splitTokens_token a _ [] ha.lit_no_space (by simpa using ha.lit_ne_nil)]
  rw [splitTokens_token b _ [] hb.lit_no_space (by simpa using hb.lit_ne_nil)]
  rw [show c ++ [' ', '*', ' ', '+'] = c ++ ' ' :: ['*', ' ', '+'] from rfl]
  rw [splitTokens_token c _ [] hc.lit_no_space (by simpa using hc.lit_ne_nil)]
  have ht : splitTokens ['*', ' ', '+'] [] = [['*'], ['+']] := by decide
  rw [ht]
  simp only [List.nil_append]
  rw [evaluateLoop_readLiteral P x a wa ha]
  cases readLiteral P a with
  | error e => rfl
  | ok va =>
    simp only [Except.bind]
    rw [evaluateLoop_readLiteral P x b wb hb]
    cases readLiteral P b with
    | error e => rfl
    | ok vb =>
      simp only
      rw [evaluateLoop_readLiteral P x c wc hc]
      cases readLiteral P c with
      | error e => rfl
      | ok vc =>
        simp only
        rw [evaluateLoop_binary_basic P hP x '*' (by decide)]
        simp only [applyBinaryOperator, Char.reduceEq, if_false, if_true]
        rw [evaluateLoop_binary_basic P hP x '+' (by decide)]
        simp only [applyBinaryOperator, if_true, evaluateLoop]

open ModelCalculator in

theorem C1_eval_parenthesized (P : Platform) (hP : P.Basic) (x : ℚ)
    (a b c : List Char) (wa wb wc : ℚ) (ha : NumLit a wa) (hb : NumLit b wb) (hc : NumLit c wc) :
    evaluateRPN P (a ++ ' ' :: (b ++ ' ' :: '+' :: ' ' :: (c ++ [' ', '*']))) x =
      (readLiteral P a).bind fun va => (readLiteral P b).bind fun vb =>
        (readLiteral P c).bind fun vc => .ok (P.fl (P.fl (va + vb) * vc)) := by
  unfold evaluateRPN
  rw [splitTokens_token a _ [] ha.lit_no_space (by simpa using ha.lit_ne_nil)]
  rw [splitTokens_token b _ [] hb.lit_no_space (by simpa using hb.lit_ne_nil)]
  rw [show '+' :: ' ' :: (c ++ [' ', '*']) = ['+'] ++ ' ' :: (c ++ ' ' :: ['*']) from rfl]
  rw [splitTokens_token ['+'] _ [] (by decide) (by simp)]
  rw [splitTokens_token c _ [] hc.lit_no_space (by simpa using hc.lit_ne_nil)]
  have ht : splitTokens ['*'] [] = [['*']] := by decide
  rw [ht]
  simp only [List.nil_append]
  rw [evaluateLoop_readLiteral P x a wa ha]
  cases readLiteral P a with
  | error e => rfl
  | ok va =>
    simp only [Except.bind]
    rw [evaluateLoop_readLiteral P x b wb hb]
    cases readLiteral P b with
    | error e => rfl
    | ok vb =>
      simp only
      rw [evaluateLoop_binary_basic P hP x '+' (by decide)]
      simp only [applyBinaryOperator, if_true]
      rw [evaluateLoop_readLiteral P x c wc hc]
      cases readLiteral P c with
      | error e => rfl
      | ok vc =>
        simp only
        rw [evaluateLoop_binary_basic P hP x '*' (by decide)]
        simp only [applyBinaryOperator, Char.reduceEq, if_false, if_true, evaluateLoop]

theorem Platform.Basic.basic_order_mem {P : Platform} (hP : P.Basic) :
    ∀ p ∈ P.functionOrder, p ∈ functions :=
  fun _ hp => hP.order_perm.subset hp

theorem calculate_sum_product (P : Platform) (hP : P.Basic) (self : ModelCalculator) (x : ℚ)
    (a b c : List Char) (wa wb wc : ℚ) (ha : NumLit a wa) (hb : NumLit b wb) (hc : NumLit c wc) :
    (ModelCalculator.calculate P self (a ++ '+' :: (b ++ '*' :: c)) x).1 =
      ((readLiteral P a).bind fun va => (readLiteral P b).bind fun vb =>
        (readLiteral P c).bind fun vc => .ok (P.fl (va + P.fl (vb * vc)))) := by
  rw [ModelCalculator.calculate_of_toRPN P self _ _ x
      (C1_toRPN_sum_product P.functionOrder hP.basic_order_mem a b c wa wb wc ha hb hc),
    C1_eval_sum_product P hP x a b c wa wb wc ha hb hc]

theorem calculate_parenthesized_sum (P : Platform) (hP : P.Basic) (self : ModelCalculator)
    (x : ℚ) (a b c : List Char) (wa wb wc : ℚ) (ha : NumLit a wa) (hb : NumLit b wb)
    (hc : NumLit c wc) :
    (ModelCalculator.calculate P self ('(' :: (a ++ '+' :: (b ++ ')' :: '*' :: c))) x).1 =
      ((readLiteral P a).bind fun va => (readLiteral P b).bind fun vb =>
        (readLiteral P c).bind fun vc => .ok (P.fl (P.fl (va + vb) * vc))) := by
  rw [ModelCalculator.calculate_of_toRPN P self _ _ x
      (C1_toRPN_parenthesized P.functionOrder hP.basic_order_mem a b c wa wb wc ha hb hc),
    C1_eval_parenthesized P hP x a b c wa wb wc ha hb hc]

/-- C1 (amended). Multiplication binds tighter than addition and parentheses override it:
for all numeric literals `a`, `b`, `c`, `toRPN` turns `a+b*c` into `a b c * +` and `(a+b)*c`
into `a b + c *`; `calculate` reads the three literals in this order, throwing at the first
one that is not read ("Unknown token" when `iss >> d` rejects it, the exception of
`std::stod` when that throws), and returns `fl (va + fl (vb * vc))` and
`fl (fl (va + vb) * vc)`, where `va`, `vb`, `vc` are the values `std::stod` reads and `fl`
rounds a result to `double`. -/
theorem C1_precedence (P : Platform) (hP : P.Basic) (self : ModelCalculator) (x : ℚ)
    (a b c : List Char) (wa wb wc : ℚ) (ha : NumLit a wa) (hb : NumLit b wb) (hc : NumLit c wc) :
    toRPN P.functionOrder (a ++ "+".toList ++ b ++ "*".toList ++ c) =
        .ok (a ++ " ".toList ++ b ++ " ".toList ++ c ++ " * +".toList) ∧
      toRPN P.functionOrder ("(".toList ++ a ++ "+".toList ++ b ++ ")*".toList ++ c) =
        .ok (a ++ " ".toList ++ b ++ " + ".toList ++ c ++ " *".toList) ∧
      (ModelCalculator.calculate P self (a ++ "+".toList ++ b ++ "*".toList ++ c) x).1 =
        ((readLiteral P a).bind fun va => (readLiteral P b).bind fun vb =>
          (readLiteral P c).bind fun vc => .ok (P.fl (va + P.fl (vb * vc)))) ∧
      (ModelCalculator.calculate P self
        ("(".toList ++ a ++ "+".toList ++ b ++ ")*".toList ++ c) x).1 =
        ((readLiteral P a).bind fun va => (readLiteral P b).bind fun vb =>
          (readLiteral P c).bind fun vc => .ok (P.fl (P.fl (va + vb) * vc))) := by
  have e1 : a ++ "+".toList ++ b ++ "*".toList ++ c = a ++ '+' :: (b ++ '*' :: c) := by
    simp
  have e2 : "(".toList ++ a ++ "+".toList ++ b ++ ")*".toList ++ c =
      '(' :: (a ++ '+' :: (b ++ ')' :: '*' :: c)) := by simp
  have r1 : a ++ " ".toList ++ b ++ " ".toList ++ c ++ " * +".toList =
      a ++ ' ' :: (b ++ ' ' :: (c ++ [' ', '*', ' ', '+'])) := by simp
  have r2 : a ++ " ".toList ++ b ++ " + ".toList ++ c ++ " *".toList =
      a ++ ' ' :: (b ++ ' ' :: '+' :: ' ' :: (c ++ [' ', '*'])) := by simp
  rw [e1, e2, r1, r2]
  exact ⟨C1_toRPN_sum_product P.functionOrder hP.basic_order_mem a b c wa wb wc ha hb hc,
    C1_toRPN_parenthesized P.functionOrder hP.basic_order_mem a b c wa wb wc ha hb hc,
    calculate_sum_product P hP self x a b c wa wb wc ha hb hc,
    calculate_parenthesized_sum P hP self x a b c wa wb wc ha hb hc⟩

/-! ## The sample platform conforms -/
theorem readFixed_whole (ds : List Char) (h : IsDigits ds) :
    readFixed ds = some (natOfDigits ds : ℚ) := by
  have h1 : ds.takeWhile Char.isDigit = ds := List.takeWhile_eq_self_iff.mpr h.2
  have h2 : ds.dropWhile Char.isDigit = [] := List.dropWhile_eq_nil_iff.mpr h.2
  simp [readFixed, h1, h2, h.1]

theorem readFixed_fraction (ds fs : List Char) (hd : IsDigits ds) (hf : IsDigits fs) :
    readFixed (ds ++ '.' :: fs) =
      some ((natOfDigits ds : ℚ) + (natOfDigits fs : ℚ) / 10 ^ fs.length) := by
  have h1 : (ds ++ '.' :: fs).takeWhile Char.isDigit = ds := by
    rw [List.takeWhile_append_of_pos hd.2]
    simp [List.takeWhile_cons]
  have h2 : (ds ++ '.' :: fs).dropWhile Char.isDigit = '.' :: fs := by
    rw [List.dropWhile_append_of_pos hd.2]
    simp [List.dropWhile_cons]
  have h3 : fs.all Char.isDigit = true := List.all_eq_true.mpr hf.2
  simp only [readFixed, h1, h2]
  simp [hd.1, hf.1, h3]

theorem readFixed_of_numLit (N : List Char) (v : ℚ) (h : NumLit N v) : readFixed N = some v := by
  cases h with
  | whole _ hd => exact readFixed_whole _ hd
  | fraction ds fs hd hf => exact readFixed_fraction ds fs hd hf

theorem readFixed_symbol (c : Char) (h : c.isDigit = false) : readFixed [c] = none := by
  simp [readFixed, List.takeWhile_cons, List.dropWhile_cons, h]

theorem samplePlatform_conforming : samplePlatform.Conforming where
  order_perm := by decide
  reads_literal := fun N v h => by
    simp [samplePlatform, readFixed_of_numLit N v h]
  rejects_symbol := fun c h => by
    simp [samplePlatform, readFixed_symbol c h]

/-- A one-digit literal. -/
theorem numLit_digit (d : Char) (h : d.isDigit = true) :
    NumLit [d] ((d.toNat - '0'.toNat : ℕ) : ℚ) := by
  have := NumLit.whole [d] ⟨by simp, by simpa using h⟩
  simpa [natOfDigits] using this

theorem numLit_of_digit (d : Char) (n : ℕ) (h : d.isDigit = true)
    (hn : d.toNat - '0'.toNat = n) : NumLit [d] (n : ℚ) := by
  have := numLit_digit d h
  rw [hn] at this
  exact this

/-! ## The platform with the number semantics of `double` -/
theorem roundHalfEven_of_lt (q : ℚ) (m : ℤ) (h1 : (m : ℚ) - 1 / 2 < q) (h2 : q < m + 1 / 2) :
    roundHalfEven q = m := by
  unfold roundHalfEven
  by_cases hm : (m : ℚ) ≤ q
  · have hf : ⌊q⌋ = m := by
      rw [Int.floor_eq_iff]
      constructor
      · exact hm
      · linarith
    rw [hf, if_pos (by linarith)]
  · have hf : ⌊q⌋ = m - 1 := by
      rw [Int.floor_eq_iff]
      push_cast
      constructor
      · linarith
      · push_neg at hm; linarith
    rw [hf]
    push_cast
    rw [if_neg (by linarith), if_pos (by linarith)]
    ring
theorem roundHalfEven_tie_even (q : ℚ) (m : ℤ) (h : q = m + 1 / 2) (he : m % 2 = 0) :
    roundHalfEven q = m := by
  unfold roundHalfEven
  have hf : ⌊q⌋ = m := by
    rw [Int.floor_eq_iff]
    constructor <;> linarith
  rw [hf, if_neg (by linarith), if_neg (by linarith), if_pos he]
theorem roundHalfEven_tie_odd (q : ℚ) (m : ℤ) (h : q = m + 1 / 2) (ho : m % 2 = 1) :
    roundHalfEven q = m + 1 := by
  unfold roundHalfEven
  have hf : ⌊q⌋ = m := by
    rw [Int.floor_eq_iff]
    constructor <;> linarith
  rw [hf, if_neg (by linarith), if_neg (by linarith), if_neg (by omega)]
/-- The rounding of a number whose binade and nearest multiple of the spacing are given. -/
theorem roundToDouble_eq (q : ℚ) (k m : ℤ) (hk : -1022 ≤ k) (h1 : (2 : ℚ) ^ k ≤ |q|)
    (h2 : |q| < (2 : ℚ) ^ (k + 1)) (hm : roundHalfEven (q / 2 ^ (k - 52)) = m) :
    roundToDouble q = (m : ℚ) * 2 ^ (k - 52) := by
  have hpos : 0 < |q| := lt_of_lt_of_le (by positivity) h1
  have hq : q ≠ 0 := by
    intro h
    rw [h, abs_zero] at hpos
    exact lt_irrefl _ hpos
  have hlog : Int.log 2 |q| = k := by
    apply le_antisymm
    · have := (Int.lt_zpow_iff_log_lt (b := 2) (by norm_num) hpos (x := k + 1)).1
        (by exact_mod_cast h2)
      omega
    · exact (Int.zpow_le_iff_le_log (b := 2) (by norm_num) hpos).1 (by exact_mod_cast h1)
  unfold roundToDouble
  rw [if_neg hq, hlog, max_eq_left hk, hm]
theorem roundToDouble_zero : roundToDouble 0 = 0 := by
  simp [roundToDouble]
theorem roundToDouble_1 : roundToDouble (1) = 1 := by
  rw [roundToDouble_eq (1) 0 4503599627370496 (by norm_num) (by norm_num [abs_of_pos])
    (by norm_num [abs_of_pos]) (roundHalfEven_of_lt _ _ (by norm_num) (by norm_num))]
  norm_num

theorem roundToDouble_2 : roundToDouble (2) = 2 := by
  rw [roundToDouble_eq (2) 1 4503599627370496 (by norm_num) (by norm_num [abs_of_pos])
    (by norm_num [abs_of_pos]) (roundHalfEven_of_lt _ _ (by norm_num) (by norm_num))]
  norm_num

theorem roundToDouble_3 : roundToDouble (3) = 3 := by
  rw [roundToDouble_eq (3) 1 6755399441055744 (by norm_num) (by norm_num [abs_of_pos])
    (by norm_num [abs_of_pos]) (roundHalfEven_of_lt _ _ (by norm_num) (by norm_num))]
  norm_num

theorem roundToDouble_4 : roundToDouble (4) = 4 := by
  rw [roundToDouble_eq (4) 2 4503599627370496 (by norm_num) (by norm_num [abs_of_pos])
    (by norm_num [abs_of_pos]) (roundHalfEven_of_lt _ _ (by norm_num) (by norm_num))]
  norm_num

theorem roundToDouble_7 : roundToDouble (7) = 7 := by
  rw [roundToDouble_eq (7) 2 7881299347898368 (by norm_num) (by norm_num [abs_of_pos])
    (by norm_num [abs_of_pos]) (roundHalfEven_of_lt _ _ (by norm_num) (by norm_num))]
  norm_num

theorem roundToDouble_8 : roundToDouble (8) = 8 := by
  rw [roundToDouble_eq (8) 3 4503599627370496 (by norm_num) (by norm_num [abs_of_pos])
    (by norm_num [abs_of_pos]) (roundHalfEven_of_lt _ _ (by norm_num) (by norm_num))]
  norm_num

theorem roundToDouble_11 : roundToDouble (11) = 11 := by
  rw [roundToDouble_eq (11) 3 6192449487634432 (by norm_num) (by norm_num [abs_of_pos])
    (by norm_num [abs_of_pos]) (roundHalfEven_of_lt _ _ (by norm_num) (by norm_num))]
  norm_num

theorem roundToDouble_14 : roundToDouble (14) = 14 := by
  rw [roundToDouble_eq (14) 3 7881299347898368 (by norm_num) (by norm_num [abs_of_pos])
    (by norm_num [abs_of_pos]) (roundHalfEven_of_lt _ _ (by norm_num) (by norm_num))]
  norm_num
theorem readDecimal_of_digit_head (c : Char) (rest : List Char) (hc : c.isDigit = true) :
    readDecimal (c :: rest) = readUnsigned (c :: rest) := by
  have h1 : c ≠ '-' := fun h => by subst h; exact absurd hc (by decide)
  have h2 : c ≠ '+' := fun h => by subst h; exact absurd hc (by decide)
  unfold readDecimal
  split
  · rename_i h; exact absurd (List.cons.inj h).1 h1
  · rename_i h; exact absurd (List.cons.inj h).1 h2
  · rfl
theorem readDecimal_whole (ds : List Char) (h : IsDigits ds) :
    readDecimal ds = some (natOfDigits ds : ℚ) := by
  obtain ⟨c, rest, rfl, hc⟩ := h.digits_head
  rw [readDecimal_of_digit_head c rest hc]
  have h1 : (c :: rest).takeWhile Char.isDigit = c :: rest := List.takeWhile_eq_self_iff.mpr h.2
  have h2 : (c :: rest).dropWhile Char.isDigit = [] := List.dropWhile_eq_nil_iff.mpr h.2
  simp only [readUnsigned, readMantissa, h1, h2]
  simp [readExponent]
theorem readDecimal_fraction (ds fs : List Char) (hd : IsDigits ds) (hf : IsDigits fs) :
    readDecimal (ds ++ '.' :: fs) =
      some ((natOfDigits ds : ℚ) + (natOfDigits fs : ℚ) / 10 ^ fs.length) := by
  obtain ⟨c, rest, rfl, hc⟩ := hd.digits_head
  rw [List.cons_append, readDecimal_of_digit_head c _ hc, ← List.cons_append]
  have h1 : ((c :: rest) ++ '.' :: fs).takeWhile Char.isDigit = c :: rest := by
    rw [List.takeWhile_append_of_pos hd.2]
    simp [List.takeWhile_cons]
  have h2 : ((c :: rest) ++ '.' :: fs).dropWhile Char.isDigit = '.' :: fs := by
    rw [List.dropWhile_append_of_pos hd.2]
    simp [List.dropWhile_cons]
  have h3 : fs.takeWhile Char.isDigit = fs := List.takeWhile_eq_self_iff.mpr hf.2
  have h4 : fs.dropWhile Char.isDigit = [] := List.dropWhile_eq_nil_iff.mpr hf.2
  simp only [readUnsigned, readMantissa, h1, h2, h3, h4]
  simp [readExponent, hf.1]
theorem readDecimal_of_numLit (N : List Char) (v : ℚ) (h : NumLit N v) :
    readDecimal N = some v := by
  cases h with
  | whole _ hd => exact readDecimal_whole _ hd
  | fraction ds fs hd hf => exact readDecimal_fraction ds fs hd hf
theorem readDecimal_symbol (c : Char) (h : c.isDigit = false) : readDecimal [c] = none := by
  by_cases h1 : c = '-'
  · subst h1; rfl
  by_cases h2 : c = '+'
  · subst h2; rfl
  by_cases h3 : c = '.'
  · subst h3; rfl
  have e : readDecimal [c] = readUnsigned [c] := by
    unfold readDecimal
    split
    · rename_i h; exact absurd (List.cons.inj h).1 h1
    · rename_i h; exact absurd (List.cons.inj h).1 h2
    · rfl
  rw [e]
  have hd : [c].dropWhile Char.isDigit = [c] := by simp [List.dropWhile_cons, h]
  have ht : [c].takeWhile Char.isDigit = [] := by simp [List.takeWhile_cons, h]
  have hm : readMantissa [c] = none := by
    unfold readMantissa
    rw [hd, ht]
    split
    · rename_i h; exact absurd (List.cons.inj h).1 h3
    · simp
  simp [readUnsigned, hm]
theorem NumLit.lit_value_nonneg {N : List Char} {v : ℚ} (h : NumLit N v) : 0 ≤ v := by
  cases h with
  | whole ds hd => positivity
  | fraction ds fs hd hf => positivity
theorem doublePlatform_basic : doublePlatform.Basic where
  order_perm := by decide
  rejects_symbol := by
    intro c h
    show (match readDecimal [c] with
      | some v => decide (|v| < overflowThreshold)
      | none => false) = false
    rw [readDecimal_symbol c h]
/-- On the platform with the semantics of `double`, a literal below the overflow threshold
that is zero or at least the least normal `double` is read as the nearest `double`. -/
theorem doublePlatform_readLiteral (N : List Char) (v : ℚ) (hN : NumLit N v)
    (hlo : v = 0 ∨ (2 : ℚ) ^ (-1022 : ℤ) ≤ v) (hhi : v < overflowThreshold) :
    readLiteral doublePlatform N = .ok (roundToDouble v) := by
  have h0 : 0 ≤ v := hN.lit_value_nonneg
  have hs : doublePlatform.streamReadsDouble N = true := by
    show (match readDecimal N with
      | some v => decide (|v| < overflowThreshold)
      | none => false) = true
    rw [readDecimal_of_numLit N v hN]
    simp [abs_of_nonneg h0, hhi]
  have hv : doublePlatform.stod N = some (roundToDouble v) := by
    show (match readDecimal N with
      | some v =>
        if overflowThreshold ≤ |v| then none
        else if v ≠ 0 ∧ |v| < 2 ^ (-1022 : ℤ) ∧ roundToDouble v ≠ v then none
        else some (roundToDouble v)
      | none => none) = some (roundToDouble v)
    rw [readDecimal_of_numLit N v hN]
    simp only [abs_of_nonneg h0]
    rw [if_neg (not_le.mpr hhi), if_neg]
    rintro ⟨hne, hlt, -⟩
    rcases hlo with h | h
    · exact hne h
    · exact absurd hlt (not_lt.mpr h)
  simp [readLiteral, hs, hv]
/-- On the platform with the semantics of `double`, a literal at or beyond the overflow
threshold is rejected by the stream reader: it is an unknown token. -/
theorem doublePlatform_rejects (N : List Char) (v : ℚ) (hN : NumLit N v)
    (hhi : overflowThreshold ≤ v) :
    readLiteral doublePlatform N = .error (.unknownToken N) := by
  have h0 : 0 ≤ v := hN.lit_value_nonneg
  have hs : doublePlatform.streamReadsDouble N = false := by
    show (match readDecimal N with
      | some v => decide (|v| < overflowThreshold)
      | none => false) = false
    rw [readDecimal_of_numLit N v hN]
    simp [abs_of_nonneg h0, hhi]
  simp [readLiteral, hs]
theorem natOfDigits_append_zeros (ds : List Char) (n : Nat) :
    natOfDigits (ds ++ List.replicate n '0') = natOfDigits ds * 10 ^ n := by
  induction n with
  | zero => simp
  | succ n ih =>
    rw [List.replicate_succ', ← List.append_assoc]
    unfold natOfDigits at ih ⊢
    rw [List.foldl_append, ih]
    simp [pow_succ]
    ring
theorem numLit_hugeLiteral : NumLit hugeLiteral (10 ^ 400) := by
  have hd : IsDigits hugeLiteral := by
    refine ⟨List.cons_ne_nil _ _, ?_⟩
    intro c hc
    rcases List.mem_cons.1 hc with rfl | h
    · rfl
    · rw [List.eq_of_mem_replicate h]
      rfl
  have hv : ∀ n : Nat, (natOfDigits ('1' :: List.replicate n '0') : ℚ) = 10 ^ n := by
    intro n
    have h1 : natOfDigits ['1'] = 1 := rfl
    have h := natOfDigits_append_zeros ['1'] n
    rw [h1, Nat.one_mul] at h
    rw [show '1' :: List.replicate n '0' = ['1'] ++ List.replicate n '0' from rfl, h]
    push_cast
    rfl
  have h := NumLit.whole hugeLiteral hd
  rw [show (natOfDigits hugeLiteral : ℚ) = 10 ^ 400 from hv 400] at h
  exact h
theorem overflowThreshold_le_huge : overflowThreshold ≤ (10 : ℚ) ^ 400 := by
  have h1 : (2 : ℚ) ^ 1024 ≤ 10 ^ 400 := by
    calc (2 : ℚ) ^ 1024 = ((2 : ℚ) ^ 8) ^ 128 := by rw [← pow_mul]
      _ ≤ ((10 : ℚ) ^ 3) ^ 128 := pow_le_pow_left₀ (by norm_num) (by norm_num) 128
      _ = (10 : ℚ) ^ 384 := by rw [← pow_mul]
      _ ≤ (10 : ℚ) ^ 400 := pow_le_pow_right₀ (by norm_num) (by norm_num)
  have h2 : overflowThreshold ≤ (2 : ℚ) ^ 1024 := by
    unfold overflowThreshold
    exact sub_le_self _ (by positivity)
  exact le_trans h2 h1
/-- The literal of 401 digits is an unknown token on the platform with the semantics of
`double`. -/
theorem readLiteral_hugeLiteral :
    readLiteral doublePlatform hugeLiteral = .error (.unknownToken hugeLiteral) :=
  doublePlatform_rejects hugeLiteral _ numLit_hugeLiteral overflowThreshold_le_huge
theorem doublePlatform_readLiteral_of (N : List Char) (v r : ℚ) (hN : NumLit N v)
    (hlo : v = 0 ∨ (2 : ℚ) ^ (-1022 : ℤ) ≤ v) (hhi : v < overflowThreshold)
    (hr : roundToDouble v = r) : readLiteral doublePlatform N = .ok r := by
  rw [doublePlatform_readLiteral N v hN hlo hhi, hr]

theorem numLit_tenths (d f : Char) (n m : ℕ) (hd : d.isDigit = true) (hf : f.isDigit = true)
    (hn : d.toNat - '0'.toNat = n) (hm : f.toNat - '0'.toNat = m) :
    NumLit [d, '.', f] ((n : ℚ) + (m : ℚ) / 10) := by
  have h := NumLit.fraction [d] [f] ⟨by simp, by simpa using hd⟩ ⟨by simp, by simpa using hf⟩
  simp only [natOfDigits, List.foldl_cons, List.foldl_nil, Nat.mul_zero, Nat.zero_add, hn, hm,
    List.length_singleton, pow_one] at h
  exact h
theorem numLit_0_1 : NumLit "0.1".toList (1 / 10) := by
  have h := numLit_tenths '0' '1' 0 1 (by decide) (by decide) (by decide) (by decide)
  rw [show ((0 : ℕ) : ℚ) + ((1 : ℕ) : ℚ) / 10 = 1 / 10 by norm_num] at h
  exact h
theorem numLit_0_2 : NumLit "0.2".toList (1 / 5) := by
  have h := numLit_tenths '0' '2' 0 2 (by decide) (by decide) (by decide) (by decide)
  rw [show ((0 : ℕ) : ℚ) + ((2 : ℕ) : ℚ) / 10 = 1 / 5 by norm_num] at h
  exact h
theorem numLit_0_3 : NumLit "0.3".toList (3 / 10) := by
  have h := numLit_tenths '0' '3' 0 3 (by decide) (by decide) (by decide) (by decide)
  rw [show ((0 : ℕ) : ℚ) + ((3 : ℕ) : ℚ) / 10 = 3 / 10 by norm_num] at h
  exact h
theorem least_normal_le_tenth (v : ℚ) (h : 1 / 10 ≤ v) : v = 0 ∨ (2 : ℚ) ^ (-1022 : ℤ) ≤ v := by
  right
  refine le_trans ?_ h
  rw [zpow_neg, inv_eq_one_div]
  apply div_le_div_of_nonneg_left (by norm_num) (by norm_num)
  calc (10 : ℚ) ≤ 2 ^ (4 : ℤ) := by norm_num
    _ ≤ 2 ^ (1022 : ℤ) := zpow_le_zpow_right₀ (by norm_num) (by norm_num)
theorem lt_overflowThreshold (v : ℚ) (h : v ≤ 1000) : v < overflowThreshold := by
  have h1 : (2 : ℚ) ^ 971 ≤ overflowThreshold := by
    unfold overflowThreshold
    have : (2 : ℚ) ^ 1024 = 2 ^ 971 * 2 ^ 53 := by rw [← pow_add]
    have h2 : (2 : ℚ) ^ 971 = 2 ^ 970 * 2 := by rw [← pow_succ]
    have h3 : (0 : ℚ) < 2 ^ 970 := by positivity
    have h4 : (4 : ℚ) ≤ 2 ^ 53 := by norm_num
    nlinarith
  have h2 : (1000 : ℚ) < 2 ^ 971 := by
    calc (1000 : ℚ) < 2 ^ 10 := by norm_num
      _ ≤ 2 ^ 971 := pow_le_pow_right₀ (by norm_num) (by norm_num)
  linarith
/-- The value the platform with the semantics of `double` reads for a literal between 0.1
and 1000. -/
theorem readLiteral_double (N : List Char) (v r : ℚ) (hN : NumLit N v) (h1 : 1 / 10 ≤ v)
    (h2 : v ≤ 1000) (hr : roundToDouble v = r) : readLiteral doublePlatform N = .ok r :=
  doublePlatform_readLiteral_of N v r hN (least_normal_le_tenth v h1) (lt_overflowThreshold v h2)
    hr
theorem roundToDouble_tenth : roundToDouble (1 / 10) = 3602879701896397 / 2 ^ 55 := by
  rw [roundToDouble_eq (1 / 10) (-4) 7205759403792794 (by norm_num) (by norm_num [abs_of_pos])
    (by norm_num [abs_of_pos]) (roundHalfEven_of_lt _ _ (by norm_num) (by norm_num))]
  norm_num
theorem roundToDouble_fifth : roundToDouble (1 / 5) = 3602879701896397 / 2 ^ 54 := by
  rw [roundToDouble_eq (1 / 5) (-3) 7205759403792794 (by norm_num) (by norm_num [abs_of_pos])
    (by norm_num [abs_of_pos]) (roundHalfEven_of_lt _ _ (by norm_num) (by norm_num))]
  norm_num
theorem roundToDouble_three_tenths : roundToDouble (3 / 10) = 5404319552844595 / 2 ^ 54 := by
  rw [roundToDouble_eq (3 / 10) (-2) 5404319552844595 (by norm_num) (by norm_num [abs_of_pos])
    (by norm_num [abs_of_pos]) (roundHalfEven_of_lt _ _ (by norm_num) (by norm_num))]
  norm_num
theorem readLiteral_double_digit (d : Char) (n : ℕ) (h : d.isDigit = true)
    (hn : d.toNat - '0'.toNat = n) (h1 : 1 ≤ n) (hr : roundToDouble (n : ℚ) = (n : ℚ)) :
    readLiteral doublePlatform [d] = .ok (n : ℚ) := by
  have h9 : n ≤ 9 := by
    have : d.toNat ≤ 57 := by
      simp only [Char.isDigit, Bool.and_eq_true, decide_eq_true_eq] at h
      exact_mod_cast h.2
    have e : '0'.toNat = 48 := rfl
    omega
  apply readLiteral_double [d] n n (numLit_of_digit d n h hn) _ _ hr
  · have : (1 : ℚ) ≤ n := by exact_mod_cast h1
    linarith
  · have : (n : ℚ) ≤ 9 := by exact_mod_cast h9
    linarith
theorem readLiteral_double_2 : readLiteral doublePlatform "2".toList = .ok 2 :=
  readLiteral_double_digit '2' 2 (by decide) (by decide) (by norm_num) roundToDouble_2
theorem readLiteral_double_3 : readLiteral doublePlatform "3".toList = .ok 3 :=
  readLiteral_double_digit '3' 3 (by decide) (by decide) (by norm_num) roundToDouble_3
theorem readLiteral_double_4 : readLiteral doublePlatform "4".toList = .ok 4 :=
  readLiteral_double_digit '4' 4 (by decide) (by decide) (by norm_num) roundToDouble_4
theorem readLiteral_double_1 : readLiteral doublePlatform "1".toList = .ok 1 :=
  readLiteral_double_digit '1' 1 (by decide) (by decide) (by norm_num) roundToDouble_1
theorem readLiteral_double_0_1 :
    readLiteral doublePlatform "0.1".toList = .ok (3602879701896397 / 2 ^ 55) :=
  readLiteral_double _ _ _ numLit_0_1 (by norm_num) (by norm_num) roundToDouble_tenth
theorem readLiteral_double_0_2 :
    readLiteral doublePlatform "0.2".toList = .ok (3602879701896397 / 2 ^ 54) :=
  readLiteral_double _ _ _ numLit_0_2 (by norm_num) (by norm_num) roundToDouble_fifth
theorem readLiteral_double_0_3 :
    readLiteral doublePlatform "0.3".toList = .ok (5404319552844595 / 2 ^ 54) :=
  readLiteral_double _ _ _ numLit_0_3 (by norm_num) (by norm_num) roundToDouble_three_tenths
/-- C1, witness: on the platform with the semantics of `double`, `3+4*2` converts to
`3 4 2 * +` and evaluates to 11, `(3+4)*2` converts to `3 4 + 2 *` and evaluates to 14. -/
theorem C1_precedence_witness :
    doublePlatform.Basic ∧ NumLit "3".toList 3 ∧ NumLit "4".toList 4 ∧
      NumLit "2".toList 2 ∧
      toRPN observedOrder "3+4*2".toList = .ok "3 4 2 * +".toList ∧
      toRPN observedOrder "(3+4)*2".toList = .ok "3 4 + 2 *".toList ∧
      (ModelCalculator.calculate doublePlatform ⟨0⟩ "3+4*2".toList 0).1 = .ok 11 ∧
      (ModelCalculator.calculate doublePlatform ⟨0⟩ "(3+4)*2".toList 0).1 = .ok 14 := by
  have h3 : NumLit "3".toList 3 := numLit_of_digit '3' 3 (by decide) (by decide)
  have h4 : NumLit "4".toList 4 := numLit_of_digit '4' 4 (by decide) (by decide)
  have h2 : NumLit "2".toList 2 := numLit_of_digit '2' 2 (by decide) (by decide)
  obtain ⟨t1, t2, c1, c2⟩ := C1_precedence doublePlatform doublePlatform_basic ⟨0⟩ 0
    "3".toList "4".toList "2".toList 3 4 2 h3 h4 h2
  refine ⟨doublePlatform_basic, h3, h4, h2, t1, t2, ?_, ?_⟩
  · rw [readLiteral_double_3, readLiteral_double_4, readLiteral_double_2] at c1
    refine c1.trans ?_
    show Except.ok (roundToDouble (3 + roundToDouble (4 * 2))) = Except.ok 11
    rw [show (4 : ℚ) * 2 = 8 by norm_num, roundToDouble_8,
      show (3 : ℚ) + 8 = 11 by norm_num, roundToDouble_11]
  · rw [readLiteral_double_3, readLiteral_double_4, readLiteral_double_2] at c2
    refine c2.trans ?_
    show Except.ok (roundToDouble (roundToDouble (3 + 4) * 2)) = Except.ok 14
    rw [show (3 : ℚ) + 4 = 7 by norm_num, roundToDouble_7,
      show (7 : ℚ) * 2 = 14 by norm_num, roundToDouble_14]
/-- C1, counterexample. On the platform with the semantics of `double` the claim fails for
two kinds of literals. With `a` the digit 1 followed by 400 zeros, `calculate` on `a+4*2`
does not return `a + 4 * 2`: the stream reader rejects `a` and the exception "Unknown token"
is thrown. And `0.1+0.2*3` evaluates to the `double` 0.7000000000000001, which is not the
number `0.1 + 0.2 * 3`. -/
theorem C1_precedence_counterexample :
    NumLit hugeLiteral (10 ^ 400) ∧ NumLit "4".toList 4 ∧ NumLit "2".toList 2 ∧
      (ModelCalculator.calculate doublePlatform ⟨0⟩ (hugeLiteral ++ "+4*2".toList) 0).1 =
        .error (.unknownToken hugeLiteral) ∧
      NumLit "0.1".toList (1 / 10) ∧ NumLit "0.2".toList (1 / 5) ∧ NumLit "3".toList 3 ∧
      (ModelCalculator.calculate doublePlatform ⟨0⟩ "0.1+0.2*3".toList 0).1 =
        .ok (6305039478318695 / 2 ^ 53) ∧
      (6305039478318695 / 2 ^ 53 : ℚ) ≠ 1 / 10 + 1 / 5 * 3 := by
  have h3 : NumLit "3".toList 3 := numLit_of_digit '3' 3 (by decide) (by decide)
  have h4 : NumLit "4".toList 4 := numLit_of_digit '4' 4 (by decide) (by decide)
  have h2 : NumLit "2".toList 2 := numLit_of_digit '2' 2 (by decide) (by decide)
  refine ⟨numLit_hugeLiteral, h4, h2, ?_, numLit_0_1, numLit_0_2, h3, ?_, by norm_num⟩
  · have h := calculate_sum_product doublePlatform doublePlatform_basic ⟨0⟩ 0 hugeLiteral
      "4".toList "2".toList _ 4 2 numLit_hugeLiteral h4 h2
    rw [readLiteral_hugeLiteral] at h
    exact h
  · have h := calculate_sum_product doublePlatform doublePlatform_basic ⟨0⟩ 0 "0.1".toList
      "0.2".toList "3".toList _ _ 3 numLit_0_1 numLit_0_2 h3
    rw [readLiteral_double_0_1, readLiteral_double_0_2, readLiteral_double_3] at h
    have hp : roundToDouble (3602879701896397 / 2 ^ 54 * 3) = 1351079888211149 / 2 ^ 51 := by
      rw [roundToDouble_eq (3602879701896397 / 2 ^ 54 * 3) (-1) 5404319552844596 (by norm_num)
        (by norm_num [abs_of_pos]) (by norm_num [abs_of_pos])
        (roundHalfEven_tie_odd _ 5404319552844595 (by norm_num) (by decide))]
      norm_num
    have hr : roundToDouble (3602879701896397 / 2 ^ 55 + 1351079888211149 / 2 ^ 51) = 6305039478318695 / 2 ^ 53 := by
      rw [roundToDouble_eq (3602879701896397 / 2 ^ 55 + 1351079888211149 / 2 ^ 51) (-1) 6305039478318695 (by norm_num)
        (by norm_num [abs_of_pos]) (by norm_num [abs_of_pos])
        (roundHalfEven_of_lt _ _ (by norm_num) (by norm_num))]
      norm_num
    rw [show "0.1+0.2*3".toList = "0.1".toList ++ '+' :: ("0.2".toList ++ '*' :: "3".toList)
      from rfl, h]
    show Except.ok (roundToDouble (3602879701896397 / 2 ^ 55 + roundToDouble (3602879701896397 / 2 ^ 54 * 3))) = _
    rw [hp, hr]

/-! ## Operand runs -/
theorem NumLit.lit_operandRun {N : List Char} {v : ℚ} (h : NumLit N v) : OperandRun N :=
  ⟨h.lit_ne_nil, h.lit_isOperand⟩

theorem operandRun_x : OperandRun ['x'] :=
  ⟨by simp, by decide⟩

theorem isNameStart_of_isOperand {c : Char} (h : isOperand c = true) : isNameStart c = false := by
  cases hop : isNameStart c with
  | false => rfl
  | true =>
    simp only [isNameStart, Bool.or_eq_true, beq_iff_eq] at hop
    rcases hop with (((h1 | h1) | h1) | h1) | h1 <;> subst h1 <;> exact absurd h (by decide)

theorem isSpace_of_isOperand {c : Char} (h : isOperand c = true) :
    ModelCalculator.isSpace c = false := by
  cases hop : ModelCalculator.isSpace c with
  | false => rfl
  | true =>
    simp only [ModelCalculator.isSpace, Bool.or_eq_true, beq_iff_eq] at hop
    rcases hop with ((((h1 | h1) | h1) | h1) | h1) | h1 <;> subst h1 <;>
      exact absurd h (by decide)

theorem isOperator_of_isOperand {c : Char} (h : isOperand c = true) : isOperator c = false := by
  cases hop : isOperator c with
  | false => rfl
  | true =>
    simp only [isOperator, Bool.or_eq_true, beq_iff_eq] at hop
    rcases hop with ((((((h1 | h1) | h1) | h1) | h1) | h1) | h1) <;> subst h1 <;>
      exact absurd h (by decide)

theorem ne_of_isOperand {c d : Char} (h : isOperand c = true) (hd : isOperand d = false) :
    c ≠ d := by
  intro hcd; subst hcd; simp [h] at hd

theorem isUnaryMinus_of_isOperand {c : Char} (h : isOperand c = true) :
    isUnaryMinus (some c) = false := by
  have h1 : c ≠ '(' := ne_of_isOperand h (by decide)
  simp [isUnaryMinus, h1, isOperator_of_isOperand h]

theorem OperandRun.run_no_nameStart {t : List Char} (h : OperandRun t) :
    ∀ c ∈ t, isNameStart c = false :=
  fun c hc => isNameStart_of_isOperand (h.2 c hc)

theorem OperandRun.run_no_minus {t : List Char} (h : OperandRun t) : '-' ∉ t :=
  fun hc => ne_of_isOperand (h.2 _ hc) (by decide) rfl

theorem OperandRun.run_no_space {t : List Char} (h : OperandRun t) :
    ∀ c ∈ t, ModelCalculator.isSpace c = false :=
  fun c hc => isSpace_of_isOperand (h.2 c hc)

theorem OperandRun.run_head_ne_space {t : List Char} (h : OperandRun t) (rest : List Char) :
    ∀ c ∈ (t ++ rest).head?, c ≠ ' ' := by
  obtain ⟨hne, hop⟩ := h
  cases t with
  | nil => exact absurd rfl hne
  | cons d t =>
    intro c hc
    simp only [List.cons_append, List.head?_cons, Option.mem_def, Option.some.injEq] at hc
    subst hc
    exact ne_of_isOperand (hop d (by simp)) (by decide)

theorem OperandRun.run_getLast {t : List Char} (h : OperandRun t) :
    ∃ l, t.getLast? = some l ∧ isOperand l = true :=
  ⟨t.getLast h.1, List.getLast?_eq_getLast _ _, h.2 _ (List.getLast_mem h.1)⟩

theorem OperandRun.run_lastOr {t : List Char} (h : OperandRun t) (prev : Option Char) :
    isUnaryMinus (lastOr prev t) = false := by
  obtain ⟨l, hl, hop⟩ := h.run_getLast
  simp only [SmartCalc.lastOr, hl]
  exact isUnaryMinus_of_isOperand hop

theorem OperandRun.run_trim {t : List Char} (h : OperandRun t) : trim (t ++ [' ']) = t := by
  apply trim_append_space
  · have := h.run_head_ne_space []
    simpa using this
  · obtain ⟨l, hl, hop⟩ := h.run_getLast
    intro c hc
    rw [hl] at hc
    simp only [Option.mem_def, Option.some.injEq] at hc
    subst hc
    exact ne_of_isOperand hop (by decide)

theorem isNameStart_of_isBinaryOperator {c : Char}
    (h : ModelCalculator.isBinaryOperator c = true) : isNameStart c = false := by
  simp only [ModelCalculator.isBinaryOperator, Bool.or_eq_true, beq_iff_eq] at h
  rcases h with ((((h | h) | h) | h) | h) | h <;> subst h <;> rfl

theorem replaceUnaryMinusFrom_binary (prev : Option Char) (rest : List Char) (o : Char)
    (hprev : isUnaryMinus prev = false) :
    replaceUnaryMinusFrom prev (o :: rest) = o :: replaceUnaryMinusFrom (some o) rest := by
  simp [replaceUnaryMinusFrom, hprev]

/-! ## Conversion of the basic shapes -/

/-- Everything `toRPN` does after the scan. -/
theorem toRPN_of_scan (order : List (List Char × Char)) (expr : List Char) (st : Conv)
    (h : scan (processedInfix order expr) ⟨[], [], []⟩ = .ok st) :
    toRPN order expr = .ok (trim (flushOperators (flushToken st)).output) := by
  rw [toRPN_eq, h]

theorem toRPN_single (order : List (List Char × Char)) (horder : ∀ p ∈ order, p ∈ functions)
    (a : List Char) (ha : OperandRun a) : toRPN order a = .ok a := by
  rw [toRPN_eq, processedInfix_of_plain order horder a ha.run_no_nameStart ha.run_no_minus,
    scan_run_end a _ _ ha.1 ha.2]
  simp only [flushToken_empty, flushOperators, flushOperatorsLoop, List.nil_append]
  rw [ha.run_trim]

theorem processedInfix_binary (order : List (List Char × Char))
    (horder : ∀ p ∈ order, p ∈ functions) (a b : List Char) (o : Char)
    (ha : OperandRun a) (hb : OperandRun b) (ho : ModelCalculator.isBinaryOperator o = true) :
    processedInfix order (a ++ o :: b) = a ++ o :: b := by
  unfold processedInfix replaceUnaryMinus
  rw [renameFunctions_of_no_nameStart order horder]
  · rw [replaceUnaryMinusFrom_append _ _ _ ha.run_no_minus,
      replaceUnaryMinusFrom_binary _ _ _ (ha.run_lastOr none),
      replaceUnaryMinusFrom_of_no_minus _ _ hb.run_no_minus]
  · intro c hc
    simp only [List.mem_append, List.mem_cons] at hc
    rcases hc with h | rfl | h
    · exact ha.run_no_nameStart c h
    · exact isNameStart_of_isBinaryOperator ho
    · exact hb.run_no_nameStart c h

theorem runEnds_of_isBinaryOperator (o : Char) (rest : List Char)
    (ho : ModelCalculator.isBinaryOperator o = true) : RunEnds (o :: rest) := by
  apply RunEnds_cons
  simp only [ModelCalculator.isBinaryOperator, Bool.or_eq_true, beq_iff_eq] at ho
  rcases ho with ((((h | h) | h) | h) | h) | h <;> subst h <;> rfl

theorem ne_space_of_isBinaryOperator {o : Char}
    (ho : ModelCalculator.isBinaryOperator o = true) : o ≠ ' ' := by
  intro h; subst h; exact absurd ho (by decide)

theorem popHigherPriority_nil (c : Char) (out : List Char) :
    popHigherPriority c [] out = .ok ([], out) := rfl

theorem toRPN_binary (order : List (List Char × Char)) (horder : ∀ p ∈ order, p ∈ functions)
    (a b : List Char) (o : Char) (ha : OperandRun a) (hb : OperandRun b)
    (ho : ModelCalculator.isBinaryOperator o = true) :
    toRPN order (a ++ o :: b) = .ok (a ++ ' ' :: (b ++ [' ', o])) := by
  rw [toRPN_eq, processedInfix_binary order horder a b o ha hb ho,
    scan_run a _ _ _ ha.1 ha.2 (runEnds_of_isBinaryOperator o b ho),
    scan_binary o _ _ _ ho, popHigherPriority_nil]
  simp only
  rw [scan_run_end b _ _ hb.1 hb.2]
  simp only [flushToken_empty, flushOperators, flushOperatorsLoop]
  have e : [] ++ (a ++ [' ']) ++ (b ++ [' ']) ++ [o, ' '] =
      (a ++ ' ' :: (b ++ [' '])) ++ [o] ++ [' '] := by simp
  rw [e, trim_snoc_space _ _ (by rw [List.append_assoc]; exact ha.run_head_ne_space _)
    (ne_space_of_isBinaryOperator ho)]
  simp

/-! ## Evaluation of the basic shapes -/
theorem OperandValue.value_operandRun {x : ℚ} {t : List Char} {v : ℚ} (h : OperandValue x t v) :
    OperandRun t := by
  rcases h with ⟨rfl, _⟩ | h
  · exact operandRun_x
  · exact h.lit_operandRun

namespace ModelCalculator

theorem evaluateLoop_operand (P : Platform) (hP : P.Conforming) (x : ℚ) (t : List Char)
    (v : ℚ) (ht : OperandValue x t v) (rest : List (List Char)) (stack : List ℚ) :
    evaluateLoop P x (t :: rest) stack = evaluateLoop P x rest (v :: stack) := by
  rcases ht with ⟨rfl, rfl⟩ | h
  · exact evaluateLoop_x P v rest stack
  · exact evaluateLoop_literal P hP x t v h rest stack

theorem evaluateLoop_nil (P : Platform) (x : ℚ) (stack : List ℚ) :
    evaluateLoop P x [] stack = .ok stack := rfl

theorem isSpace_of_isBinaryOperator {o : Char} (ho : isBinaryOperator o = true) :
    isSpace o = false := by
  simp only [isBinaryOperator, Bool.or_eq_true, beq_iff_eq] at ho
  rcases ho with ((((h | h) | h) | h) | h) | h <;> subst h <;> rfl

theorem isSpace_of_isUnaryOperator {o : Char} (ho : isUnaryOperator o = true) :
    isSpace o = false := by
  simp only [isUnaryOperator, Bool.or_eq_true, beq_iff_eq] at ho
  rcases ho with ((((((((h | h) | h) | h) | h) | h) | h) | h) | h) | h <;> subst h <;> rfl

theorem splitTokens_symbol (o : Char) (ho : isSpace o = false) :
    splitTokens [o] [] = [[o]] := by
  simp [splitTokens, ho]

theorem evaluateRPN_single (P : Platform) (hP : P.Conforming) (x : ℚ) (t : List Char) (v : ℚ)
    (ht : OperandValue x t v) : evaluateRPN P t x = .ok v := by
  unfold evaluateRPN
  rw [splitTokens_last t [] ht.value_operandRun.run_no_space (by simpa using ht.value_operandRun.1)]
  simp only [List.nil_append]
  rw [evaluateLoop_operand P hP x t v ht, evaluateLoop_nil]

theorem evaluateRPN_binary (P : Platform) (hP : P.Conforming) (x : ℚ) (a b : List Char)
    (va vb : ℚ) (o : Char) (ha : OperandValue x a va) (hb : OperandValue x b vb)
    (ho : isBinaryOperator o = true) :
    evaluateRPN P (a ++ ' ' :: (b ++ [' ', o])) x = applyBinaryOperator P o va vb := by
  unfold evaluateRPN
  rw [splitTokens_token a _ [] ha.value_operandRun.run_no_space (by simpa using ha.value_operandRun.1),
    show b ++ [' ', o] = b ++ ' ' :: [o] from rfl,
    splitTokens_token b _ [] hb.value_operandRun.run_no_space (by simpa using hb.value_operandRun.1),
    splitTokens_symbol o (isSpace_of_isBinaryOperator ho)]
  simp only [List.nil_append]
  rw [evaluateLoop_operand P hP x a va ha, evaluateLoop_operand P hP x b vb hb,
    evaluateLoop_binary P hP x o ho]
  cases applyBinaryOperator P o va vb <;> rfl

theorem operandText_run {t : List Char} (h : IsOperandText t) : OperandRun t := by
  rcases h with rfl | ⟨w, hw⟩
  · exact operandRun_x
  · exact hw.lit_operandRun

theorem evaluateRPN_single_read (P : Platform) (x : ℚ) (t : List Char) (ht : IsOperandText t) :
    evaluateRPN P t x = readOperand P x t := by
  unfold evaluateRPN
  rw [splitTokens_last t [] (operandText_run ht).run_no_space (by simpa using (operandText_run ht).1)]
  simp only [List.nil_append]
  rw [evaluateLoop_readOperand P x t ht]
  cases readOperand P x t <;> rfl

theorem evaluateRPN_binary_read (P : Platform) (hP : P.Basic) (x : ℚ) (a b : List Char)
    (o : Char) (ha : IsOperandText a) (hb : IsOperandText b) (ho : isBinaryOperator o = true) :
    evaluateRPN P (a ++ ' ' :: (b ++ [' ', o])) x =
      (readOperand P x a).bind fun va => (readOperand P x b).bind fun vb =>
        applyBinaryOperator P o va vb := by
  unfold evaluateRPN
  rw [splitTokens_token a _ [] (operandText_run ha).run_no_space (by simpa using (operandText_run ha).1),
    show b ++ [' ', o] = b ++ ' ' :: [o] from rfl,
    splitTokens_token b _ [] (operandText_run hb).run_no_space (by simpa using (operandText_run hb).1),
    splitTokens_symbol o (isSpace_of_isBinaryOperator ho)]
  simp only [List.nil_append]
  rw [evaluateLoop_readOperand P x a ha]
  cases readOperand P x a with
  | error e => rfl
  | ok va =>
    simp only [Except.bind]
    rw [evaluateLoop_readOperand P x b hb]
    cases readOperand P x b with
    | error e => rfl
    | ok vb =>
      simp only
      rw [evaluateLoop_binary_basic P hP x o ho]
      cases applyBinaryOperator P o va vb <;> rfl

theorem readOperand_literal (P : Platform) (x : ℚ) (N : List Char) (w : ℚ) (hN : NumLit N w) :
    readOperand P x N = readLiteral P N := by
  rw [readOperand, if_neg hN.lit_ne_x]

theorem readOperand_x (P : Platform) (x : ℚ) : readOperand P x ['x'] = .ok x := by
  simp [readOperand]

theorem calculate_literal (P : Platform) (hP : P.Basic) (self : ModelCalculator) (x : ℚ)
    (N : List Char) (w : ℚ) (hN : NumLit N w) : (calculate P self N x).1 = readLiteral P N := by
  rw [calculate_of_toRPN P self N N x (toRPN_single P.functionOrder hP.basic_order_mem N hN.lit_operandRun),
    evaluateRPN_single_read P x N (Or.inr ⟨w, hN⟩), readOperand_literal P x N w hN]

end ModelCalculator

open ModelCalculator

/-- C3 (amended). For every numeric literal `N` (a non-empty digit string, optionally with
a fractional part) and every bound value `x`, `toRPN` returns the single token `N`, and
`calculate` returns the value `std::stod` reads for `N` when `iss >> d` accepts `N`; it
throws "Unknown token" when `iss >> d` rejects `N`, and the exception of `std::stod` when
that throws. -/
theorem C3_literal (P : Platform) (hP : P.Basic) (self : ModelCalculator) (x : ℚ)
    (N : List Char) (w : ℚ) (hN : NumLit N w) :
    toRPN P.functionOrder N = .ok N ∧
      (calculate P self N x).1 =
        (if P.streamReadsDouble N = true then
          match P.stod N with
          | some v => .ok v
          | none => .error (.stodFailed N)
        else .error (.unknownToken N)) :=
  ⟨toRPN_single P.functionOrder hP.basic_order_mem N hN.lit_operandRun,
    calculate_literal P hP self x N w hN⟩

/-- C3, witness: on the platform with the semantics of `double` the literal `7` converts to
itself and evaluates to 7. -/
theorem C3_literal_witness :
    doublePlatform.Basic ∧ NumLit "7".toList 7 ∧
      toRPN observedOrder "7".toList = .ok "7".toList ∧
      (calculate doublePlatform ⟨0⟩ "7".toList 0).1 = .ok 7 := by
  have h7 : NumLit "7".toList 7 := numLit_of_digit '7' 7 (by decide) (by decide)
  have h := C3_literal doublePlatform doublePlatform_basic ⟨0⟩ 0 "7".toList 7 h7
  have hr : readLiteral doublePlatform "7".toList = .ok 7 :=
    readLiteral_double_digit '7' 7 (by decide) (by decide) (by norm_num) roundToDouble_7
  exact ⟨doublePlatform_basic, h7, h.1, h.2.trans hr⟩

/-- C3, counterexample. On the platform with the semantics of `double`, `calculate` on the
literal made of 1 and 400 zeros does not return its value `10 ^ 400`: the stream reader
rejects the literal and "Unknown token" is thrown. And `calculate` on the literal `0.1`
returns the `double` nearest to one tenth, which is not one tenth. -/
theorem C3_literal_counterexample :
    NumLit hugeLiteral (10 ^ 400) ∧
      (calculate doublePlatform ⟨0⟩ hugeLiteral 0).1 = .error (.unknownToken hugeLiteral) ∧
      NumLit "0.1".toList (1 / 10) ∧
      (calculate doublePlatform ⟨0⟩ "0.1".toList 0).1 = .ok (3602879701896397 / 2 ^ 55) ∧
      (3602879701896397 / 2 ^ 55 : ℚ) ≠ 1 / 10 :=
  ⟨numLit_hugeLiteral,
    (calculate_literal doublePlatform doublePlatform_basic ⟨0⟩ 0 hugeLiteral _
      numLit_hugeLiteral).trans readLiteral_hugeLiteral,
    numLit_0_1,
    (calculate_literal doublePlatform doublePlatform_basic ⟨0⟩ 0 "0.1".toList _
      numLit_0_1).trans readLiteral_double_0_1,
    by norm_num⟩

namespace ModelCalculator

theorem evaluateLoop_cons (P : Platform) (x : ℚ) (token : List Char)
    (rest : List (List Char)) (stack : List ℚ) :
    evaluateLoop P x (token :: rest) stack =
      match tokenType P token with
      | .TYPE_OPERAND =>
        if token = ['x'] then evaluateLoop P x rest (x :: stack)
        else
          match P.stod token with
          | some v => evaluateLoop P x rest (v :: stack)
          | none => .error (.stodFailed token)
      | .TYPE_BINARY_OPERATOR =>
        match stack with
        | b :: a :: stack1 =>
          match applyBinaryOperator P (firstChar token) a b with
          | .ok r => evaluateLoop P x rest (r :: stack1)
          | .error e => .error e
        | _ => .error .notEnoughOperands
      | .TYPE_UNARY_OPERATOR =>
        match stack with
        | a :: stack1 =>
          match applyUnaryOperator P (firstChar token) a with
          | .ok r => evaluateLoop P x rest (r :: stack1)
          | .error e => .error e
        | [] => .error .notEnoughOperands
      | .TYPE_UNKNOWN => .error (.unknownToken token) := by
  rfl

end ModelCalculator

namespace ModelCalculator

end ModelCalculator

/-! ## Folding of a function name in front of a parenthesis -/
theorem foldl_two_state {α β : Type} [DecidableEq α] (f : β → α → β) (l : List α) (s0 s1 : β)
    (p0 : α) (hp0 : p0 ∈ l) (h0 : ∀ q ∈ l, q ≠ p0 → f s0 q = s0) (h01 : f s0 p0 = s1)
    (h1 : ∀ q ∈ l, f s1 q = s1) : l.foldl f s0 = s1 := by
  have hfix : ∀ l1 : List α, (∀ q ∈ l1, f s1 q = s1) → l1.foldl f s1 = s1 := by
    intro l1
    induction l1 with
    | nil => intro _; rfl
    | cons q l1 ih =>
      intro h
      rw [List.foldl_cons, h q (by simp)]
      exact ih (fun r hr => h r (by simp [hr]))
  induction l with
  | nil => simp at hp0
  | cons q l ih =>
    rw [List.foldl_cons]
    by_cases hq : q = p0
    · subst hq
      rw [h01]
      exact hfix l (fun r hr => h1 r (by simp [hr]))
    · rw [h0 q (by simp) hq]
      have hp0l : p0 ∈ l := by
        simp only [List.mem_cons] at hp0
        rcases hp0 with h | h
        · exact absurd h.symm hq
        · exact h
      exact ih hp0l (fun r hr hne => h0 r (by simp [hr]) hne) (fun r hr => h1 r (by simp [hr]))

theorem replaceName_plain (q : List Char × Char) (hq : q ∈ functions) (s : List Char)
    (hs : ∀ c ∈ s, isNameStart c = false) : replaceName q.1 q.2 0 s = s := by
  obtain ⟨a, t, hp, ha⟩ := functions_head q hq
  rw [hp]
  exact replaceName_of_head_not_mem a t q.2 s (fun h => by simp [hs a h] at ha)

theorem replaceName_tail (tail : List Char) (htail : ∀ c ∈ tail, isNameStart c = false)
    (a : Char) (t : List Char) (sym : Char) (ha : isNameStart a = true) :
    replaceName (a :: t) sym 0 tail = tail :=
  replaceName_of_head_not_mem a t sym tail (fun h => by simp [htail a h] at ha)

theorem replaceName_call_other (p : List Char × Char) (hp : p ∈ plainFunctions)
    (q : List Char × Char) (hq : q ∈ functions) (hne : q ≠ p) (tail : List Char)
    (htail : ∀ c ∈ tail, isNameStart c = false) :
    replaceName q.1 q.2 0 (p.1 ++ '(' :: tail) = p.1 ++ '(' :: tail := by
  have ht := replaceName_tail tail htail
  simp only [plainFunctions, List.mem_cons, List.mem_singleton, List.not_mem_nil, or_false] at hp
  simp only [functions, List.mem_cons, List.mem_singleton, List.not_mem_nil, or_false] at hq
  rcases hp with rfl | rfl | rfl | rfl | rfl | rfl <;>
    rcases hq with rfl | rfl | rfl | rfl | rfl | rfl | rfl | rfl | rfl <;>
    first
    | exact absurd rfl hne
    | simp [replaceName, List.isPrefixOf, ht, isNameStart]

theorem replaceName_call_self (p : List Char × Char) (hp : p ∈ plainFunctions)
    (tail : List Char) (htail : ∀ c ∈ tail, isNameStart c = false) :
    replaceName p.1 p.2 0 (p.1 ++ '(' :: tail) = p.2 :: '(' :: tail := by
  have ht := replaceName_tail tail htail
  simp only [plainFunctions, List.mem_cons, List.mem_singleton, List.not_mem_nil, or_false] at hp
  rcases hp with rfl | rfl | rfl | rfl | rfl | rfl <;>
    simp [replaceName, List.isPrefixOf, ht, isNameStart]

theorem replaceName_call_done (p : List Char × Char) (hp : p ∈ plainFunctions)
    (q : List Char × Char) (hq : q ∈ functions) (tail : List Char)
    (htail : ∀ c ∈ tail, isNameStart c = false) :
    replaceName q.1 q.2 0 (p.2 :: '(' :: tail) = p.2 :: '(' :: tail := by
  have ht := replaceName_tail tail htail
  simp only [plainFunctions, List.mem_cons, List.mem_singleton, List.not_mem_nil, or_false] at hp
  simp only [functions, List.mem_cons, List.mem_singleton, List.not_mem_nil, or_false] at hq
  rcases hp with rfl | rfl | rfl | rfl | rfl | rfl <;>
    rcases hq with rfl | rfl | rfl | rfl | rfl | rfl | rfl | rfl | rfl <;>
    simp [replaceName, List.isPrefixOf, ht, isNameStart]

theorem plainFunctions_subset : ∀ p ∈ plainFunctions, p ∈ functions := by
  decide

theorem renameFunctions_call (order : List (List Char × Char)) (horder : order.Perm functions)
    (p : List Char × Char) (hp : p ∈ plainFunctions) (tail : List Char)
    (htail : ∀ c ∈ tail, isNameStart c = false) :
    renameFunctions order (p.1 ++ '(' :: tail) = p.2 :: '(' :: tail := by
  unfold renameFunctions
  apply foldl_two_state _ order _ _ p
  · exact horder.symm.subset (plainFunctions_subset p hp)
  · intro q hq hne
    exact replaceName_call_other p hp q (horder.subset hq) hne tail htail
  · exact replaceName_call_self p hp tail htail
  · intro q hq
    exact replaceName_call_done p hp q (horder.subset hq) tail htail

namespace ModelCalculator

end ModelCalculator

/-! ## The stack of `toRPN` -/
theorem isStackChar_cases {c : Char} (h : isStackChar c = true) :
    c ∈ ['+', '-', '*', '/', '^', '%', '~', 's', 'c', 't', 'i', 'o', 'n', 'q', 'l', 'g', '('] := by
  simp only [isStackChar, isOperator, isFunction, Bool.or_eq_true, beq_iff_eq] at h
  simp only [List.mem_cons, List.mem_singleton, List.not_mem_nil, or_false]
  tauto

theorem getOperatorPriority_of_isStackChar {c : Char} (h : isStackChar c = true) :
    ∃ p, getOperatorPriority c = .ok p := by
  have := isStackChar_cases h
  simp only [List.mem_cons, List.mem_singleton, List.not_mem_nil, or_false] at this
  rcases this with rfl | rfl | rfl | rfl | rfl | rfl | rfl | rfl | rfl | rfl | rfl | rfl | rfl |
    rfl | rfl | rfl | rfl <;> exact ⟨_, rfl⟩

theorem popHigherPriority_ok (c : Char) (hc : isStackChar c = true) (ops out : List Char)
    (hops : ∀ s ∈ ops, isStackChar s = true) :
    ∃ ops1 out1, popHigherPriority c ops out = .ok (ops1, out1) ∧
      ∀ s ∈ ops1, isStackChar s = true := by
  induction ops generalizing out with
  | nil => exact ⟨[], out, rfl, by simp⟩
  | cons top ops ih =>
    obtain ⟨pt, hpt⟩ := getOperatorPriority_of_isStackChar (hops top (by simp))
    obtain ⟨pc, hpc⟩ := getOperatorPriority_of_isStackChar hc
    unfold popHigherPriority
    simp only [hpt, hpc]
    by_cases hge : pt ≥ pc
    · simp only [hge, if_true]
      exact ih _ (fun s hs => hops s (by simp [hs]))
    · simp only [hge, if_false]
      exact ⟨_, _, rfl, hops⟩

theorem popToParenthesis_subset (ops out : List Char) :
    ∀ s ∈ (popToParenthesis ops out).1, s ∈ ops := by
  induction ops generalizing out with
  | nil => simp [popToParenthesis]
  | cons top ops ih =>
    unfold popToParenthesis
    split
    · intro s hs
      exact List.mem_cons_of_mem _ (ih _ s hs)
    · intro s hs
      exact hs

theorem ScanInv.inv_flushToken {st : Conv} (h : ScanInv st) : flushToken st = st := by
  simp [SmartCalc.flushToken, h.1]

theorem ScanInv.inv_handleUnaryMinus {st : Conv} (h : ScanInv st) : ScanInv (handleUnaryMinus st) := by
  unfold SmartCalc.handleUnaryMinus
  rw [h.inv_flushToken]
  refine ⟨h.1, ?_⟩
  intro s hs
  simp only [List.mem_cons] at hs
  rcases hs with rfl | hs
  · rfl
  · exact h.2 s hs

theorem ScanInv.inv_handleFunction {st : Conv} (h : ScanInv st) (c : Char)
    (hc : isFunction c = true) : ScanInv (handleFunction st c) := by
  unfold SmartCalc.handleFunction
  rw [h.inv_flushToken]
  refine ⟨h.1, ?_⟩
  intro s hs
  simp only [List.mem_cons] at hs
  rcases hs with rfl | hs
  · simp [isStackChar, hc]
  · exact h.2 s hs

theorem ScanInv.inv_handleOperator {st : Conv} (h : ScanInv st) (c : Char)
    (hc : isOperator c = true) : ∃ st1, handleOperator st c = .ok st1 ∧ ScanInv st1 := by
  have hsc : isStackChar c = true := by simp [isStackChar, hc]
  unfold SmartCalc.handleOperator
  rw [h.inv_flushToken]
  obtain ⟨ops1, out1, hp, hops1⟩ := popHigherPriority_ok c hsc st.operators st.output h.2
  simp only [hp]
  refine ⟨_, rfl, h.1, ?_⟩
  intro s hs
  simp only [List.mem_cons] at hs
  rcases hs with rfl | hs
  · exact hsc
  · exact hops1 s hs

theorem ScanInv.inv_handleParenthesis {st : Conv} (h : ScanInv st) (c : Char) :
    ScanInv (handleParenthesis st c) := by
  unfold SmartCalc.handleParenthesis
  by_cases h1 : c = '('
  · subst h1
    simp only [beq_self_eq_true, if_true]
    refine ⟨h.1, ?_⟩
    intro s hs
    simp only [List.mem_cons] at hs
    rcases hs with rfl | hs
    · rfl
    · exact h.2 s hs
  · by_cases h2 : c = ')'
    · subst h2
      simp only [beq_iff_eq, Char.reduceEq, if_false, if_true, h.inv_flushToken]
      have hsub := popToParenthesis_subset st.operators st.output
      generalize popToParenthesis st.operators st.output = r at hsub
      obtain ⟨ops1, out1⟩ := r
      split
      · rename_i heq
        simp only [Prod.mk.injEq] at heq
        refine ⟨h.1, ?_⟩
        intro s hs
        apply h.2 s
        apply hsub s
        simp only
        rw [heq.1]
        exact List.mem_cons_of_mem _ hs
      · rename_i ops2 out2 _ heq
        simp only [Prod.mk.injEq] at heq
        refine ⟨h.1, ?_⟩
        intro s hs
        apply h.2 s
        apply hsub s
        simp only
        rw [heq.1]
        exact hs
    · simp only [beq_iff_eq, h1, h2, if_false]
      exact h

theorem ScanInv.inv_handleOperand {st : Conv} (h : ScanInv st) (text : List Char) (st1 : Conv)
    (rest1 : List Char) (hh : handleOperand st text = .ok (st1, rest1)) : ScanInv st1 := by
  unfold SmartCalc.handleOperand at hh
  split at hh
  · split at hh
    · split at hh
      · rename_i token r hf
        simp only [Except.ok.injEq, Prod.mk.injEq] at hh
        rw [← hh.1]
        unfold SmartCalc.flushToken
        split
        · exact ⟨rfl, h.2⟩
        · rename_i hne
          simp only [ne_eq, not_not] at hne
          exact ⟨hne, h.2⟩
      · cases hh
    · simp only [Except.ok.injEq, Prod.mk.injEq] at hh
      rw [← hh.1, h.inv_flushToken]
      exact h
  · simp only [Except.ok.injEq, Prod.mk.injEq] at hh
    rw [← hh.1]
    exact h

/-! ## Operand runs and malformed exponents -/
theorem isDigit_of_sign {s : Char} (h : (s == '+' || s == '-') = true) : s.isDigit = false := by
  simp only [Bool.or_eq_true, beq_iff_eq] at h
  rcases h with rfl | rfl <;> rfl

theorem isPartOfExponent_of_isDigit {d : Char} (h : d.isDigit = true) :
    (d == 'e' || d == 'E') = false :=
  isPartOfExponent_of_isOperand (c := d) (by simp [isOperand, h])

theorem malformedExponent_inRun_digit (d : Char) (rest : List Char) (hd : d.isDigit = true) :
    malformedExponent (.inRun true) (d :: rest) = malformedExponent (.inRun true) rest := by
  have he := isPartOfExponent_of_isDigit hd
  simp only [malformedExponent, he, hd, Bool.true_or, if_true]
  simp

theorem findScientificNumber_spec (s token : List Char) (hasExponent : Bool) :
    (∀ t r, findScientificNumber s token hasExponent = .ok (t, r) →
        malformedExponent (.inRun hasExponent) s = malformedExponent .outside r) ∧
      (∀ e, findScientificNumber s token hasExponent = .error e →
        malformedExponent (.inRun hasExponent) s = true ∧
          (e = .expectedDigitAfterSign ∨ e = .expectedDigitAfterE)) := by
  generalize hn : s.length = n
  induction n using Nat.strong_induction_on generalizing s token hasExponent with
  | _ n ih =>
    subst hn
    cases s with
    | nil =>
      rw [findScientificNumber_nil]
      constructor
      · intro t r h
        simp only [Except.ok.injEq, Prod.mk.injEq] at h
        rw [← h.2]
        rfl
      · intro e h
        cases h
    | cons c rest =>
      rw [findScientificNumber_cons]
      by_cases hrun : (isOperand c || isPartOfExponent c) = true
      · rw [if_pos hrun]
        by_cases hexp : isPartOfExponent c = true
        · have hexp' : (c == 'e' || c == 'E') = true := hexp
          cases hasExponent with
          | true =>
            simp only [hexp, Bool.not_true, Bool.and_false, Bool.false_eq_true, if_false]
            have := ih rest.length (by simp) rest (token ++ [c]) true rfl
            simp only [malformedExponent, hexp', if_true]
            exact this
          | false =>
            simp only [hexp, Bool.not_false, Bool.and_self, if_true]
            cases rest with
            | nil =>
              simp [malformedExponent, hexp']
            | cons s rest1 =>
              by_cases hs : (s == '+' || s == '-') = true
              · have hsd := isDigit_of_sign hs
                simp only [hs, if_true]
                cases rest1 with
                | nil => simp [malformedExponent, hexp', hsd, hs]
                | cons d rest2 =>
                  by_cases hd : d.isDigit = true
                  · simp only [hd, if_true]
                    have := ih rest2.length (by simp only [List.length_cons]; omega) rest2
                      (token ++ [c] ++ [s] ++ [d]) true rfl
                    have hm : malformedExponent (.inRun false) (c :: s :: d :: rest2) =
                        malformedExponent (.inRun true) rest2 := by
                      rw [← malformedExponent_inRun_digit d rest2 hd]
                      simp [malformedExponent, hexp', hsd, hs, hd]
                    rw [hm]
                    exact this
                  · simp [malformedExponent, hexp', hsd, hs, hd]
              · simp only [hs]
                by_cases hd : s.isDigit = true
                · simp only [hd, if_true]
                  have := ih rest1.length (by simp only [List.length_cons]; omega) rest1
                    (token ++ [c] ++ [s]) true rfl
                  have hm : malformedExponent (.inRun false) (c :: s :: rest1) =
                      malformedExponent (.inRun true) rest1 := by
                    rw [← malformedExponent_inRun_digit s rest1 hd]
                    simp [malformedExponent, hexp', hd]
                  rw [hm]
                  exact this
                · simp [malformedExponent, hexp', hs, hd]
        · have hop : isOperand c = true := by
            simp only [Bool.or_eq_true] at hrun
            tauto
          have hop' : (c.isDigit || c == '.' || c == 'x') = true := hop
          have hexp' : (c == 'e' || c == 'E') = false := by
            simpa [isPartOfExponent] using hexp
          have hcond : (isPartOfExponent c && !hasExponent) = false := by
            simp [hexp]
          rw [hcond]
          simp only [Bool.false_eq_true, if_false]
          have := ih rest.length (by simp) rest (token ++ [c]) hasExponent rfl
          have hm : malformedExponent (.inRun hasExponent) (c :: rest) =
              malformedExponent (.inRun hasExponent) rest := by
            simp only [malformedExponent, hexp', hop', Bool.false_eq_true, if_false, if_true]
          rw [hm]
          exact this
      · rw [if_neg hrun]
        have hrun' : (isOperand c || isPartOfExponent c) = false := by simpa using hrun
        simp only [Bool.or_eq_false_iff] at hrun'
        have hop' : (c.isDigit || c == '.' || c == 'x') = false := hrun'.1
        have hexp' : (c == 'e' || c == 'E') = false := hrun'.2
        constructor
        · intro t r h
          simp only [Except.ok.injEq, Prod.mk.injEq] at h
          rw [← h.2]
          simp only [malformedExponent, hexp', hop', Bool.false_eq_true, if_false]
        · intro e h
          cases h

theorem malformedExponent_outside_cons (c : Char) (rest : List Char) :
    malformedExponent .outside (c :: rest) =
      if isOperand c then malformedExponent (.inRun false) rest
      else malformedExponent .outside rest := by
  simp only [malformedExponent, isOperand]

theorem malformedExponent_inRun_operand (c : Char) (rest : List Char) (marked : Bool)
    (hc : isOperand c = true) :
    malformedExponent (.inRun marked) (c :: rest) = malformedExponent (.inRun marked) rest := by
  have he : (c == 'e' || c == 'E') = false := isPartOfExponent_of_isOperand hc
  have hop : (c.isDigit || c == '.' || c == 'x') = true := hc
  simp only [malformedExponent, he, hop, Bool.false_eq_true, if_false, if_true]

/-- The scan of `toRPN` keeps its invariant, and it stops with an exception exactly on a
malformed exponent. -/
theorem scan_spec (text : List Char) (st : Conv) (h : ScanInv st) :
    (∀ st1, scan text st = .ok st1 →
        ScanInv st1 ∧ malformedExponent .outside text = false) ∧
      (∀ e, scan text st = .error e →
        malformedExponent .outside text = true ∧
          (e = .expectedDigitAfterSign ∨ e = .expectedDigitAfterE)) := by
  generalize hn : text.length = n
  induction n using Nat.strong_induction_on generalizing text st with
  | _ n ih =>
    subst hn
    cases text with
    | nil =>
      rw [scan_nil]
      constructor
      · intro st1 h1
        simp only [Except.ok.injEq] at h1
        rw [← h1]
        exact ⟨h, rfl⟩
      · intro e h1
        cases h1
    | cons c rest =>
      rw [scan_cons, malformedExponent_outside_cons]
      by_cases hop : isOperand c = true
      · simp only [isOperandOrOperatorOrFunction, hop, if_true]
        cases hh : handleOperand st (c :: rest) with
        | error e =>
          simp only
          have hf : findScientificNumber (c :: rest) [] false = .error e := by
            simp only [handleOperand, hop, if_true, h.1] at hh
            cases hfs : findScientificNumber (c :: rest) [] false with
            | error e1 => rw [hfs] at hh; simpa using hh
            | ok p => rw [hfs] at hh; simp at hh
          have := (findScientificNumber_spec (c :: rest) [] false).2 e hf
          rw [malformedExponent_inRun_operand c rest false hop] at this
          constructor
          · intro st1 h1
            cases h1
          · intro e1 h1
            simp only [Except.error.injEq] at h1
            rw [← h1]
            exact this
        | ok p =>
          obtain ⟨st1, rest1⟩ := p
          simp only
          have hinv := h.inv_handleOperand (c :: rest) st1 rest1 hh
          have hlen := handleOperand_length st c rest st1 rest1 hh
          have hf : ∃ t, findScientificNumber (c :: rest) [] false = .ok (t, rest1) := by
            simp only [handleOperand, hop, if_true, h.1] at hh
            cases hfs : findScientificNumber (c :: rest) [] false with
            | error e1 => rw [hfs] at hh; simp at hh
            | ok p =>
              rw [hfs] at hh
              simp only [Except.ok.injEq, Prod.mk.injEq] at hh
              exact ⟨p.1, by rw [← hh.2]⟩
          obtain ⟨t, hf⟩ := hf
          have hm := (findScientificNumber_spec (c :: rest) [] false).1 t rest1 hf
          rw [malformedExponent_inRun_operand c rest false hop] at hm
          rw [hm]
          exact ih rest1.length (by simp only [List.length_cons]; omega) rest1 st1 hinv rfl
      · have hop' : isOperand c = false := by simpa using hop
        simp only [hop', Bool.false_eq_true, if_false]
        have hrec := fun (st1 : Conv) (hinv : ScanInv st1) =>
          ih rest.length (by simp) rest st1 hinv rfl
        by_cases hor : isOperator c = true
        · simp only [isOperandOrOperatorOrFunction, hop', hor, Bool.false_eq_true, if_false,
            if_true]
          by_cases ht : c = '~'
          · simp only [ht, beq_self_eq_true, if_true]
            exact hrec _ h.inv_handleUnaryMinus
          · simp only [beq_iff_eq, ht, if_false]
            obtain ⟨st1, hst1, hinv⟩ := h.inv_handleOperator c hor
            rw [hst1]
            exact hrec st1 hinv
        · have hor' : isOperator c = false := by simpa using hor
          by_cases hfn : isFunction c = true
          · simp only [isOperandOrOperatorOrFunction, hop', hor', hfn, Bool.false_eq_true,
              if_false, if_true]
            exact hrec _ (h.inv_handleFunction c hfn)
          · have hfn' : isFunction c = false := by simpa using hfn
            simp only [isOperandOrOperatorOrFunction, hop', hor', hfn', Bool.false_eq_true,
              if_false]
            exact hrec _ (h.inv_handleParenthesis c)

theorem scanInv_init : ScanInv ⟨[], [], []⟩ :=
  ⟨rfl, by simp⟩

/-- C10, read to the letter, fails: in `1e+5e` the run `1e` is well formed and, the sign
ending the run, `5e` is a second run whose marker is followed by nothing; yet `toRPN`
returns the single token `1e+5e`, because the sign and digit after the first marker are
appended to the token and the run goes on. -/
theorem C10_literal_run_counterexample :
    toRPN functions "1e+5e".toList = .ok "1e+5e".toList ∧
      malformedExponentLiteral none (processedInfix functions "1e+5e".toList) = true ∧
      ¬ ((∃ e, toRPN functions "1e+5e".toList = .error e) ↔
        malformedExponentLiteral none (processedInfix functions "1e+5e".toList) = true) := by
  have h1 : toRPN functions "1e+5e".toList = .ok "1e+5e".toList := by decide
  have h2 : malformedExponentLiteral none (processedInfix functions "1e+5e".toList) = true := by
    decide
  refine ⟨h1, h2, ?_⟩
  rw [h1, h2]
  simp

/-- C10 (amended). `toRPN` fails exactly on malformed exponents: it raises if and only if
some operand run of the normalized text has a first exponent marker that is not
immediately followed by a digit or by a sign and then a digit, the sign and digit that
complete the first marker of a run belonging to that run; on every other input
(unbalanced parentheses and unknown characters included) it returns a postfix string; and
the exception is never the "Unknown operator" of the priority lookup. -/
theorem C10_toRPN_failure (order : List (List Char × Char)) (s : List Char) :
    ((∃ e, toRPN order s = .error e) ↔
        malformedExponent .outside (processedInfix order s) = true) ∧
      (malformedExponent .outside (processedInfix order s) = false →
        ∃ rpn, toRPN order s = .ok rpn) ∧
      toRPN order s ≠ .error .unknownPriority ∧ toRPN order s ≠ .error .scanBound := by
  have hspec := scan_spec (processedInfix order s) ⟨[], [], []⟩ scanInv_init
  rw [toRPN_eq]
  cases hsc : scan (processedInfix order s) ⟨[], [], []⟩ with
  | ok st =>
    have := (hspec.1 st hsc).2
    simp [this]
  | error e =>
    obtain ⟨hm, he⟩ := hspec.2 e hsc
    simp only [hm]
    refine ⟨by simp, by simp, ?_, ?_⟩
    · rcases he with rfl | rfl <;> simp
    · rcases he with rfl | rfl <;> simp

theorem flushOperatorsLoop_eq (ops out : List Char) :
    flushOperatorsLoop ops out = out ++ symbolsText ops := by
  induction ops generalizing out with
  | nil => simp [flushOperatorsLoop, symbolsText]
  | cons top ops ih => simp [flushOperatorsLoop, symbolsText, ih]

theorem mem_replaceName (name : List Char) (sym : Char) (skip : Nat) (s : List Char) :
    ∀ c ∈ replaceName name sym skip s, c = sym ∨ c ∈ s := by
  induction s generalizing skip with
  | nil => simp [replaceName]
  | cons d s ih =>
    intro c hc
    cases skip with
    | succ k =>
      simp only [replaceName] at hc
      rcases ih k c hc with h | h
      · exact Or.inl h
      · exact Or.inr (List.mem_cons_of_mem _ h)
    | zero =>
      simp only [replaceName] at hc
      split at hc
      · simp only [List.mem_cons] at hc
        rcases hc with h | h
        · exact Or.inl h
        · rcases ih _ c h with h | h
          · exact Or.inl h
          · exact Or.inr (List.mem_cons_of_mem _ h)
      · simp only [List.mem_cons] at hc
        rcases hc with h | h
        · exact Or.inr (by simp [h])
        · rcases ih _ c h with h | h
          · exact Or.inl h
          · exact Or.inr (List.mem_cons_of_mem _ h)

namespace ModelCalculator

theorem splitTokens_dropWhile (s : List Char) :
    splitTokens (s.dropWhile (· == ' ')) [] = splitTokens s [] := by
  induction s with
  | nil => rfl
  | cons c s ih =>
    by_cases hc : c = ' '
    · subst hc
      simp only [List.dropWhile_cons, beq_self_eq_true, if_true, ih]
      simp [splitTokens, isSpace]
    · simp [List.dropWhile_cons, hc]

theorem splitTokens_cons (c : Char) (rest cur : List Char) :
    splitTokens (c :: rest) cur =
      if isSpace c then
        if cur ≠ [] then cur :: splitTokens rest [] else splitTokens rest []
      else splitTokens rest (cur ++ [c]) := rfl

theorem splitTokens_append_space (s cur : List Char) :
    splitTokens (s ++ [' ']) cur = splitTokens s cur := by
  induction s generalizing cur with
  | nil =>
    by_cases hcur : cur = []
    · simp [splitTokens, isSpace, hcur]
    · simp [splitTokens, isSpace, hcur]
  | cons c s ih =>
    rw [List.cons_append, splitTokens_cons, splitTokens_cons, ih, ih]

theorem splitTokens_rdropWhile (s cur : List Char) :
    splitTokens (s.rdropWhile (· == ' ')) cur = splitTokens s cur := by
  induction s using List.reverseRecOn with
  | nil => rfl
  | append_singleton s c ih =>
    rw [List.rdropWhile_concat]
    by_cases hc : c = ' '
    · subst hc
      simp only [beq_self_eq_true, if_true, ih, splitTokens_append_space]
    · simp [hc]

theorem splitTokens_trim (s : List Char) : splitTokens (trim s) [] = splitTokens s [] := by
  have : trim s = (s.dropWhile (· == ' ')).rdropWhile (· == ' ') := rfl
  rw [this, splitTokens_rdropWhile, splitTokens_dropWhile]

theorem isSpace_of_isStackChar {c : Char} (h : isStackChar c = true) : isSpace c = false := by
  have := isStackChar_cases h
  simp only [List.mem_cons, List.mem_singleton, List.not_mem_nil, or_false] at this
  rcases this with rfl | rfl | rfl | rfl | rfl | rfl | rfl | rfl | rfl | rfl | rfl | rfl | rfl |
    rfl | rfl | rfl | rfl <;> rfl

end ModelCalculator

theorem calculateGrafStep_eq (P : Platform) (rpn : List Char) (yRange : ℚ × ℚ) (vX : ℚ)
    (out : List (Option ℚ) × List (Option ℚ)) :
    calculateGrafStep P rpn yRange vX out =
      (out.1 ++ (samplePairs P rpn yRange vX).map Prod.fst,
       out.2 ++ (samplePairs P rpn yRange vX).map Prod.snd) := by
  unfold calculateGrafStep samplePairs
  cases h : ModelCalculator.evaluateRPN P rpn vX with
  | error e => simp
  | ok vY =>
    by_cases hw : yRange.1 ≤ vY ∧ vY ≤ yRange.2
    · simp [hw, ge_iff_le]
    · have hw' : ¬ (vY ≥ yRange.1 ∧ vY ≤ yRange.2) := hw
      simp only [hw, hw', if_false, List.map_nil, List.append_nil]
theorem accumulatedAbscissa_shift (P : Platform) (vXStep vX : ℚ) (i : Nat) :
    accumulatedAbscissa P vXStep (P.fl (vX + vXStep)) i =
      accumulatedAbscissa P vXStep vX (i + 1) := by
  induction i with
  | zero => rfl
  | succ i ih =>
    show P.fl (accumulatedAbscissa P vXStep (P.fl (vX + vXStep)) i + vXStep) =
      P.fl (accumulatedAbscissa P vXStep vX (i + 1) + vXStep)
    rw [ih]
theorem accumulatedAbscissa_exact (P : Platform) (hfl : ∀ q, P.fl q = q) (vXStep vX : ℚ)
    (i : Nat) : accumulatedAbscissa P vXStep vX i = vX + (i : ℚ) * vXStep := by
  induction i with
  | zero => simp [accumulatedAbscissa]
  | succ i ih =>
    rw [accumulatedAbscissa, ih, hfl]
    push_cast
    ring
theorem sampleAbscissa_exact (P : Platform) (hfl : ∀ q, P.fl q = q) (xRange : ℚ × ℚ)
    (pAmount i : Nat) : sampleAbscissa P xRange pAmount i = formulaAbscissa xRange pAmount i := by
  unfold sampleAbscissa formulaAbscissa
  rw [accumulatedAbscissa_exact P hfl, hfl, hfl]
theorem sampleAbscissa_succ (P : Platform) (xRange : ℚ × ℚ) (pAmount i : Nat) :
    sampleAbscissa P xRange pAmount (i + 1) =
      P.fl (sampleAbscissa P xRange pAmount i +
        P.fl (P.fl (xRange.2 - xRange.1) / (pAmount : ℚ))) := rfl
theorem evaluateRPN_x (P : Platform) (v : ℚ) :
    ModelCalculator.evaluateRPN P ['x'] v = .ok v := by
  rw [ModelCalculator.evaluateRPN_single_read P v ['x'] (Or.inl rfl),
    ModelCalculator.readOperand_x]
theorem evaluateRPN_literal (P : Platform) (x : ℚ) (N : List Char) (w : ℚ) (hN : NumLit N w) :
    ModelCalculator.evaluateRPN P N x = readLiteral P N := by
  rw [ModelCalculator.evaluateRPN_single_read P x N (Or.inr ⟨w, hN⟩),
    ModelCalculator.readOperand_literal P x N w hN]
theorem flatMap_range_const {α : Type} (a : α) (n : Nat) :
    (List.range n).flatMap (fun _ => [a]) = List.replicate n a := by
  induction n with
  | zero => rfl
  | succ n ih =>
    rw [List.range_succ, List.flatMap_append, ih, List.replicate_succ']
    simp
theorem calculateGrafLoop_eq (P : Platform) (rpn : List Char) (yRange : ℚ × ℚ) (vXStep : ℚ) :
    ∀ (n : Nat) (vX : ℚ) (out : List (Option ℚ) × List (Option ℚ)),
      calculateGrafLoop P rpn yRange vXStep n vX out =
        (out.1 ++ ((List.range n).flatMap
            (fun i => samplePairs P rpn yRange (accumulatedAbscissa P vXStep vX i))).map Prod.fst,
         out.2 ++ ((List.range n).flatMap
            (fun i => samplePairs P rpn yRange (accumulatedAbscissa P vXStep vX i))).map Prod.snd) := by
  intro n
  induction n with
  | zero => intro vX out; simp [calculateGrafLoop]
  | succ n ih =>
    intro vX out
    have hr : (List.range (n + 1)).flatMap
          (fun i => samplePairs P rpn yRange (accumulatedAbscissa P vXStep vX i)) =
        samplePairs P rpn yRange vX ++ (List.range n).flatMap
          (fun i => samplePairs P rpn yRange
            (accumulatedAbscissa P vXStep (P.fl (vX + vXStep)) i)) := by
      rw [List.range_succ_eq_map, List.flatMap_cons, List.flatMap_map]
      congr 1
      congr 1
      funext i
      rw [accumulatedAbscissa_shift]
    rw [calculateGrafLoop, ih, calculateGrafStep_eq, hr]
    simp [List.append_assoc]
/-- The outcome of `calculateGraf` in terms of the sample pairs. -/
theorem calculateGraf_eq (P : Platform) (xRange yRange : ℚ × ℚ) (pAmount : Nat)
    (infixText rpn : List Char)
    (hx : xRange.1 ≤ xRange.2) (hy : yRange.1 ≤ yRange.2)
    (hrpn : toRPN P.functionOrder infixText = .ok rpn) :
    calculateGraf P xRange yRange pAmount infixText =
      if graphPairs P rpn xRange yRange pAmount = [] then .error .noPointInRange
      else .ok ((graphPairs P rpn xRange yRange pAmount).map Prod.fst,
                (graphPairs P rpn xRange yRange pAmount).map Prod.snd) := by
  have hr : ¬ (xRange.2 < xRange.1 ∨ yRange.2 < yRange.1) := by
    rintro (h | h)
    · exact absurd hx (not_le.mpr h)
    · exact absurd hy (not_le.mpr h)
  simp only [calculateGraf, hr, if_false, hrpn, calculateGrafLoop_eq, List.nil_append,
    List.map_eq_nil_iff]
  rfl

theorem toRPN_error_cases (order : List (List Char × Char)) (s : List Char) (e : Error)
    (h : toRPN order s = .error e) :
    e = .expectedDigitAfterSign ∨ e = .expectedDigitAfterE := by
  have hspec := scan_spec (processedInfix order s) ⟨[], [], []⟩ scanInv_init
  rw [toRPN_eq] at h
  cases hsc : scan (processedInfix order s) ⟨[], [], []⟩ with
  | ok st => rw [hsc] at h; cases h
  | error e1 =>
    rw [hsc] at h
    cases h
    exact (hspec.2 _ hsc).2
theorem samplePairs_length_le (P : Platform) (rpn : List Char) (yRange : ℚ × ℚ) (vX : ℚ) :
    (samplePairs P rpn yRange vX).length ≤ 1 := by
  unfold samplePairs
  cases ModelCalculator.evaluateRPN P rpn vX with
  | error e => simp
  | ok vY => by_cases hw : yRange.1 ≤ vY ∧ vY ≤ yRange.2 <;> simp [hw]
theorem samplePairs_shape (P : Platform) (rpn : List Char) (yRange : ℚ × ℚ) (vX : ℚ) :
    ∀ p ∈ samplePairs P rpn yRange vX, p = (none, none) ∨ ∃ a b, p = (some a, some b) := by
  unfold samplePairs
  cases ModelCalculator.evaluateRPN P rpn vX with
  | error e => simp
  | ok vY => by_cases hw : yRange.1 ≤ vY ∧ vY ≤ yRange.2 <;> simp [hw]
theorem flatMap_length_le {α β : Type} (f : α → List β) (h : ∀ a, (f a).length ≤ 1) :
    ∀ l : List α, (l.flatMap f).length ≤ l.length := by
  intro l
  induction l with
  | nil => simp
  | cons a l ih =>
    rw [List.flatMap_cons, List.length_append, List.length_cons]
    have := h a
    omega
theorem graphPairs_length_le (P : Platform) (rpn : List Char) (xRange yRange : ℚ × ℚ)
    (pAmount : Nat) : (graphPairs P rpn xRange yRange pAmount).length ≤ pAmount := by
  have := flatMap_length_le
    (fun i => samplePairs P rpn yRange (sampleAbscissa P xRange pAmount i))
    (fun i => samplePairs_length_le P rpn yRange _) (List.range pAmount)
  simpa [graphPairs] using this
theorem graphPairs_shape (P : Platform) (rpn : List Char) (xRange yRange : ℚ × ℚ)
    (pAmount : Nat) :
    ∀ p ∈ graphPairs P rpn xRange yRange pAmount,
      p = (none, none) ∨ ∃ a b, p = (some a, some b) := by
  intro p hp
  simp only [graphPairs, List.mem_flatMap] at hp
  obtain ⟨i, -, hi⟩ := hp
  exact samplePairs_shape P rpn yRange _ p hi
theorem count_marker_flatMap (P : Platform) (rpn : List Char) (yRange : ℚ × ℚ)
    (f : Nat → ℚ) (l : List Nat) :
    (l.flatMap (fun i => samplePairs P rpn yRange (f i))).count (none, none) =
      l.countP (fun i => evaluationFails P rpn (f i)) := by
  induction l with
  | nil => simp
  | cons i l ih =>
    rw [List.flatMap_cons, List.count_append, ih, List.countP_cons]
    unfold samplePairs evaluationFails
    cases ModelCalculator.evaluateRPN P rpn (f i) with
    | error e => simp; omega
    | ok vY => by_cases hw : yRange.1 ≤ vY ∧ vY ≤ yRange.2 <;> simp [hw]
theorem numericPairs_flatMap (P : Platform) (rpn : List Char) (yRange : ℚ × ℚ)
    (f : Nat → ℚ) (l : List Nat) :
    numericPairs (l.flatMap (fun i => samplePairs P rpn yRange (f i))) =
      l.filterMap (fun i => keptPoint P rpn yRange (f i)) := by
  induction l with
  | nil => simp [numericPairs]
  | cons i l ih =>
    unfold numericPairs at ih ⊢
    rw [List.flatMap_cons, List.filterMap_append, ih, List.filterMap_cons]
    unfold samplePairs keptPoint
    cases ModelCalculator.evaluateRPN P rpn (f i) with
    | error e => simp
    | ok vY => by_cases hw : yRange.1 ≤ vY ∧ vY ≤ yRange.2 <;> simp [hw]
theorem zip_map_fst_snd {α β : Type} (l : List (α × β)) :
    (l.map Prod.fst).zip (l.map Prod.snd) = l := by
  induction l with
  | nil => rfl
  | cons a l ih => simp [ih]
/-- What `calculateGraf` returns comes from the sample pairs. -/
theorem calculateGraf_ok (P : Platform) (xRange yRange : ℚ × ℚ) (pAmount : Nat)
    (infixText : List Char) (xs ys : List (Option ℚ))
    (h : calculateGraf P xRange yRange pAmount infixText = .ok (xs, ys)) :
    xRange.1 ≤ xRange.2 ∧ yRange.1 ≤ yRange.2 ∧
      ∃ rpn, toRPN P.functionOrder infixText = .ok rpn ∧
        graphPairs P rpn xRange yRange pAmount ≠ [] ∧
        xs = (graphPairs P rpn xRange yRange pAmount).map Prod.fst ∧
        ys = (graphPairs P rpn xRange yRange pAmount).map Prod.snd := by
  by_cases hr : xRange.2 < xRange.1 ∨ yRange.2 < yRange.1
  · simp [calculateGraf, hr] at h
  · have hx : xRange.1 ≤ xRange.2 := not_lt.mp (fun hlt => hr (Or.inl hlt))
    have hy : yRange.1 ≤ yRange.2 := not_lt.mp (fun hlt => hr (Or.inr hlt))
    refine ⟨hx, hy, ?_⟩
    cases hrpn : toRPN P.functionOrder infixText with
    | error e => simp [calculateGraf, hr, hrpn] at h
    | ok rpn =>
      rw [calculateGraf_eq P xRange yRange pAmount infixText rpn hx hy hrpn] at h
      by_cases he : graphPairs P rpn xRange yRange pAmount = []
      · simp [he] at h
      · simp only [he, if_false, Except.ok.injEq, Prod.mk.injEq] at h
        exact ⟨rpn, rfl, he, h.1.symm, h.2.symm⟩

/-- C14. Single evaluation has no hidden state: the outcome of `calculate` on a text and a
bound value (the returned number or the exception) is the same whatever `answer_` the
object holds; in particular a second call with the same inputs, made on the object the
first call leaves behind, gives the outcome of the first. -/
theorem C14_no_hidden_state (P : Platform) (self other : ModelCalculator)
    (expression : List Char) (x : ℚ) :
    (calculate P self expression x).1 = (calculate P other expression x).1 ∧
      (calculate P (calculate P self expression x).2 expression x).1 =
        (calculate P self expression x).1 := by
  have h : ∀ s t : ModelCalculator,
      (calculate P s expression x).1 = (calculate P t expression x).1 := by
    intro s t
    unfold calculate
    cases toRPN P.functionOrder expression with
    | error e => rfl
    | ok rpn =>
      simp only []
      cases he : evaluateRPN P rpn x <;> simp [he]
  exact ⟨h _ _, h _ _⟩
/-- C15. Sampler range precondition: when `xRange.second < xRange.first` or
`yRange.second < yRange.first`, `calculateGraf` fails with the range error for every text
(those on which `toRPN` fails included) and every point count; when neither holds (equal
bounds included) the outcome is never the range error: it is the exception of `toRPN`, or
what the samples give. -/
theorem C15_range_precondition (P : Platform) (xRange yRange : ℚ × ℚ) (pAmount : Nat)
    (infixText : List Char) :
    (xRange.2 < xRange.1 ∨ yRange.2 < yRange.1 →
        calculateGraf P xRange yRange pAmount infixText = .error .invalidRange) ∧
      (xRange.1 ≤ xRange.2 → yRange.1 ≤ yRange.2 →
        calculateGraf P xRange yRange pAmount infixText ≠ .error .invalidRange ∧
        calculateGraf P xRange yRange pAmount infixText =
          match toRPN P.functionOrder infixText with
          | .ok rpn =>
            if graphPairs P rpn xRange yRange pAmount = [] then .error .noPointInRange
            else .ok ((graphPairs P rpn xRange yRange pAmount).map Prod.fst,
                      (graphPairs P rpn xRange yRange pAmount).map Prod.snd)
          | .error e => .error e) := by
  constructor
  · intro h
    simp [calculateGraf, h]
  · intro hx hy
    have hr : ¬ (xRange.2 < xRange.1 ∨ yRange.2 < yRange.1) := by
      rintro (h | h)
      · exact absurd hx (not_le.mpr h)
      · exact absurd hy (not_le.mpr h)
    cases hrpn : toRPN P.functionOrder infixText with
    | error e =>
      have he := toRPN_error_cases _ _ _ hrpn
      have hc : calculateGraf P xRange yRange pAmount infixText = .error e := by
        simp [calculateGraf, hr, hrpn]
      rw [hc]
      refine ⟨?_, rfl⟩
      rcases he with rfl | rfl <;> simp
    | ok rpn =>
      rw [calculateGraf_eq P xRange yRange pAmount infixText rpn hx hy hrpn]
      refine ⟨?_, rfl⟩
      by_cases he : graphPairs P rpn xRange yRange pAmount = [] <;> simp [he]
theorem C15_range_precondition_witness :
    ((2 : ℚ), (1 : ℚ)).2 < ((2 : ℚ), (1 : ℚ)).1 ∧
      calculateGraf samplePlatform (2, 1) (0, 1) 5 "2e".toList = .error .invalidRange ∧
      calculateGraf samplePlatform (1, 1) (1, 1) 1 "x".toList = .ok ([some 1], [some 1]) ∧
      calculateGraf samplePlatform (1, 1) (1, 1) 1 "x".toList ≠ .error .invalidRange := by
  have h1 : ((2 : ℚ), (1 : ℚ)).2 < ((2 : ℚ), (1 : ℚ)).1 := by norm_num
  refine ⟨h1, (C15_range_precondition samplePlatform (2, 1) (0, 1) 5 "2e".toList).1
    (Or.inl h1), by decide,
    ((C15_range_precondition samplePlatform (1, 1) (1, 1) 1 "x".toList).2
      (le_refl _) (le_refl _)).1⟩
/-- C20. A failure of `toRPN` aborts the sampling: with valid ranges, when `toRPN` throws
on the text, `calculateGraf` throws that same exception for every point count, so it
returns no sequences and no failure markers; the exception is one of the two
malformed-exponent errors. -/
theorem C20_lex_failure_aborts (P : Platform) (xRange yRange : ℚ × ℚ) (pAmount : Nat)
    (infixText : List Char) (e : Error)
    (hx : xRange.1 ≤ xRange.2) (hy : yRange.1 ≤ yRange.2)
    (h : toRPN P.functionOrder infixText = .error e) :
    calculateGraf P xRange yRange pAmount infixText = .error e ∧
      (e = .expectedDigitAfterSign ∨ e = .expectedDigitAfterE) ∧
      ∀ xs ys, calculateGraf P xRange yRange pAmount infixText ≠ .ok (xs, ys) := by
  have hr : ¬ (xRange.2 < xRange.1 ∨ yRange.2 < yRange.1) := by
    rintro (h | h)
    · exact absurd hx (not_le.mpr h)
    · exact absurd hy (not_le.mpr h)
  have hc : calculateGraf P xRange yRange pAmount infixText = .error e := by
    simp [calculateGraf, hr, h]
  refine ⟨hc, toRPN_error_cases _ _ _ h, ?_⟩
  intro xs ys
  rw [hc]
  simp
theorem C20_lex_failure_aborts_witness :
    toRPN samplePlatform.functionOrder "2e".toList = .error .expectedDigitAfterE ∧
      toRPN samplePlatform.functionOrder "2e+".toList = .error .expectedDigitAfterSign ∧
      calculateGraf samplePlatform (0, 1) (0, 1) 3 "2e".toList =
        .error .expectedDigitAfterE ∧
      calculateGraf samplePlatform (0, 1) (0, 1) 3 "2e+".toList =
        .error .expectedDigitAfterSign :=
  ⟨by decide, by decide,
    (C20_lex_failure_aborts samplePlatform (0, 1) (0, 1) 3 "2e".toList _
      (by norm_num) (by norm_num) (by decide)).1,
    (C20_lex_failure_aborts samplePlatform (0, 1) (0, 1) 3 "2e+".toList _
      (by norm_num) (by norm_num) (by decide)).1⟩
/-- The sampler on a literal that is not read: every sample fails, the output is `pAmount`
markers. -/
theorem calculateGraf_unread_literal (P : Platform) (hP : P.Basic) (c : List Char) (w : ℚ)
    (hc : NumLit c w) (xRange yRange : ℚ × ℚ) (pAmount : Nat)
    (hx : xRange.1 ≤ xRange.2) (hy : yRange.1 ≤ yRange.2) (e : Error)
    (he : readLiteral P c = .error e) (hp : 0 < pAmount) :
    calculateGraf P xRange yRange pAmount c =
      .ok (List.replicate pAmount none, List.replicate pAmount none) := by
  have hrpn : toRPN P.functionOrder c = .ok c :=
    toRPN_single _ hP.basic_order_mem c hc.lit_operandRun
  rw [calculateGraf_eq P xRange yRange pAmount c c hx hy hrpn]
  have hs : ∀ vX, samplePairs P c yRange vX = [(none, none)] := by
    intro vX
    unfold samplePairs
    rw [evaluateRPN_literal P vX c w hc, he]
  have hg : graphPairs P c xRange yRange pAmount = List.replicate pAmount (none, none) := by
    unfold graphPairs
    simp only [hs]
    exact flatMap_range_const _ _
  rw [hg, if_neg]
  · simp
  · intro h
    have := congrArg List.length h
    simp at this
    omega
/-- The sampler on a literal that is read with a value outside the window: nothing is kept. -/
theorem calculateGraf_literal_outside (P : Platform) (hP : P.Basic) (c : List Char) (w : ℚ)
    (hc : NumLit c w) (xRange yRange : ℚ × ℚ) (pAmount : Nat)
    (hx : xRange.1 ≤ xRange.2) (hy : yRange.1 ≤ yRange.2) (v : ℚ)
    (hv : readLiteral P c = .ok v) (hout : v < yRange.1 ∨ yRange.2 < v) :
    calculateGraf P xRange yRange pAmount c = .error .noPointInRange := by
  have hrpn : toRPN P.functionOrder c = .ok c :=
    toRPN_single _ hP.basic_order_mem c hc.lit_operandRun
  rw [calculateGraf_eq P xRange yRange pAmount c c hx hy hrpn]
  have hw : ¬ (yRange.1 ≤ v ∧ v ≤ yRange.2) := by
    rintro ⟨h1, h2⟩
    rcases hout with h | h
    · exact absurd h1 (not_le.mpr h)
    · exact absurd h2 (not_le.mpr h)
  have hs : ∀ vX, samplePairs P c yRange vX = [] := by
    intro vX
    unfold samplePairs
    rw [evaluateRPN_literal P vX c w hc, hv]
    simp [hw]
  have hg : graphPairs P c xRange yRange pAmount = [] := by
    simp [graphPairs, hs]
  simp [hg]
/-- C18 (amended). Sampler emptiness: for every numeric literal `c`, every valid x-range,
every point count and every window `[ymin, ymax]`: when `c` is read, with the value `v` that
`std::stod` returns for it, and `v < ymin` or `v > ymax`, `calculateGraf` on the text `c`
fails with the error "no point within the requested range"; when `c` is not read (`iss >> d`
rejects it or `std::stod` throws) and there is at least one point, `calculateGraf` returns
`pAmount` markers NaN in each sequence. -/
theorem C18_sampler_emptiness (P : Platform) (hP : P.Basic) (c : List Char) (w : ℚ)
    (hc : NumLit c w) (xRange yRange : ℚ × ℚ) (pAmount : Nat)
    (hx : xRange.1 ≤ xRange.2) (hy : yRange.1 ≤ yRange.2) :
    (∀ v, readLiteral P c = .ok v → (v < yRange.1 ∨ yRange.2 < v) →
        calculateGraf P xRange yRange pAmount c = .error .noPointInRange) ∧
      (∀ e, readLiteral P c = .error e → 0 < pAmount →
        calculateGraf P xRange yRange pAmount c =
          .ok (List.replicate pAmount none, List.replicate pAmount none)) :=
  ⟨fun v hv hout =>
      calculateGraf_literal_outside P hP c w hc xRange yRange pAmount hx hy v hv hout,
    fun e he hp => calculateGraf_unread_literal P hP c w hc xRange yRange pAmount hx hy e he hp⟩
theorem roundToDouble_5 : roundToDouble (5) = 5 := by
  rw [roundToDouble_eq (5) 2 5629499534213120 (by norm_num) (by norm_num [abs_of_pos])
    (by norm_num [abs_of_pos]) (roundHalfEven_of_lt _ _ (by norm_num) (by norm_num))]
  norm_num
/-- C18, witness: on the platform with the semantics of `double`, the constant `5` sampled
with the window `[6, 7]` gives the no-point error, and the literal of 401 digits, which is
not read, gives four markers. -/
theorem C18_sampler_emptiness_witness :
    doublePlatform.Basic ∧ NumLit "5".toList 5 ∧
      calculateGraf doublePlatform (0, 1) (6, 7) 4 "5".toList = .error .noPointInRange ∧
      NumLit hugeLiteral (10 ^ 400) ∧
      calculateGraf doublePlatform (0, 1) (6, 7) 4 hugeLiteral =
        .ok ([none, none, none, none], [none, none, none, none]) :=
  ⟨doublePlatform_basic, numLit_of_digit '5' 5 (by decide) (by decide),
    (C18_sampler_emptiness doublePlatform doublePlatform_basic "5".toList 5
      (numLit_of_digit '5' 5 (by decide) (by decide)) (0, 1) (6, 7) 4
      (by norm_num) (by norm_num)).1 5
      (readLiteral_double_digit '5' 5 (by decide) (by decide) (by norm_num) roundToDouble_5)
      (Or.inl (by norm_num)),
    numLit_hugeLiteral,
    (C18_sampler_emptiness doublePlatform doublePlatform_basic hugeLiteral _
      numLit_hugeLiteral (0, 1) (6, 7) 4 (by norm_num) (by norm_num)).2 _
      readLiteral_hugeLiteral (by norm_num)⟩
/-- C18, counterexample. On the platform with the semantics of `double` the constant made
of 1 and 400 zeros, whose value is above the window `[0, 1]`, does not give the no-point
error: it is not read, every sample fails and four markers are returned. And the constant
`0.1`, whose value one tenth is below the lower bound of the window (the `double` nearest
to one tenth, which is larger), is not dropped: it is read as that `double` and the four
points are kept. -/
theorem C18_sampler_emptiness_counterexample :
    NumLit hugeLiteral (10 ^ 400) ∧ (1 : ℚ) < 10 ^ 400 ∧
      calculateGraf doublePlatform (0, 1) (0, 1) 4 hugeLiteral =
        .ok ([none, none, none, none], [none, none, none, none]) ∧
      NumLit "0.1".toList (1 / 10) ∧ (1 / 10 : ℚ) < 3602879701896397 / 2 ^ 55 ∧
      calculateGraf doublePlatform (0, 1) (3602879701896397 / 2 ^ 55, 1) 4 "0.1".toList =
        .ok ([some 0, some (1 / 4), some (1 / 2), some (3 / 4)],
          [some (3602879701896397 / 2 ^ 55), some (3602879701896397 / 2 ^ 55),
           some (3602879701896397 / 2 ^ 55), some (3602879701896397 / 2 ^ 55)]) := by
  refine ⟨numLit_hugeLiteral, ?_, ?_, numLit_0_1, by norm_num, ?_⟩
  · exact one_lt_pow₀ (by norm_num) (by norm_num)
  · exact calculateGraf_unread_literal doublePlatform doublePlatform_basic hugeLiteral _
      numLit_hugeLiteral (0, 1) (0, 1) 4 (by norm_num) (by norm_num) _
      readLiteral_hugeLiteral (by norm_num)
  · have hev : ∀ v : ℚ, evaluateRPN doublePlatform "0.1".toList v =
        .ok (3602879701896397 / 2 ^ 55) := fun v =>
      (evaluateRPN_literal doublePlatform v "0.1".toList _ numLit_0_1).trans
        readLiteral_double_0_1
    have hstep : doublePlatform.fl (doublePlatform.fl (((0 : ℚ), (1 : ℚ)).2 - ((0 : ℚ), (1 : ℚ)).1) / ((4 : ℕ) : ℚ)) =
        1 / 4 := by
      show roundToDouble (roundToDouble (1 - 0) / ((4 : ℕ) : ℚ)) = 1 / 4
      have h1 : roundToDouble (1 - 0) = 1 := by
        rw [roundToDouble_eq (1 - 0) 0 4503599627370496 (by norm_num)
          (by norm_num [abs_of_pos]) (by norm_num [abs_of_pos])
          (roundHalfEven_of_lt _ _ (by norm_num) (by norm_num))]
        norm_num
      rw [h1]
      rw [roundToDouble_eq (1 / ((4 : ℕ) : ℚ)) (-2) 4503599627370496 (by norm_num)
        (by norm_num [abs_of_pos]) (by norm_num [abs_of_pos])
        (roundHalfEven_of_lt _ _ (by norm_num) (by norm_num))]
      norm_num
    have hx0 : sampleAbscissa doublePlatform ((0 : ℚ), (1 : ℚ)) 4 0 = 0 := rfl
    have hx1 : sampleAbscissa doublePlatform ((0 : ℚ), (1 : ℚ)) 4 1 = 1 / 4 := by
      rw [sampleAbscissa_succ, hx0, hstep]
      show roundToDouble (0 + 1 / 4) = 1 / 4
      rw [roundToDouble_eq (0 + 1 / 4) (-2) 4503599627370496 (by norm_num)
        (by norm_num [abs_of_pos]) (by norm_num [abs_of_pos])
        (roundHalfEven_of_lt _ _ (by norm_num) (by norm_num))]
      norm_num
    have hx2 : sampleAbscissa doublePlatform ((0 : ℚ), (1 : ℚ)) 4 2 = 1 / 2 := by
      rw [sampleAbscissa_succ, hx1, hstep]
      show roundToDouble (1 / 4 + 1 / 4) = 1 / 2
      rw [roundToDouble_eq (1 / 4 + 1 / 4) (-1) 4503599627370496 (by norm_num)
        (by norm_num [abs_of_pos]) (by norm_num [abs_of_pos])
        (roundHalfEven_of_lt _ _ (by norm_num) (by norm_num))]
      norm_num
    have hx3 : sampleAbscissa doublePlatform ((0 : ℚ), (1 : ℚ)) 4 3 = 3 / 4 := by
      rw [sampleAbscissa_succ, hx2, hstep]
      show roundToDouble (1 / 2 + 1 / 4) = 3 / 4
      rw [roundToDouble_eq (1 / 2 + 1 / 4) (-1) 6755399441055744 (by norm_num)
        (by norm_num [abs_of_pos]) (by norm_num [abs_of_pos])
        (roundHalfEven_of_lt _ _ (by norm_num) (by norm_num))]
      norm_num
    rw [calculateGraf_eq doublePlatform (0, 1) (3602879701896397 / 2 ^ 55, 1) 4 "0.1".toList
      "0.1".toList (by norm_num) (by norm_num) (by decide)]
    have hr : List.range 4 = [0, 1, 2, 3] := by decide
    have hg : graphPairs doublePlatform "0.1".toList (0, 1) (3602879701896397 / 2 ^ 55, 1) 4 =
        [(some 0, some (3602879701896397 / 2 ^ 55)), (some (1 / 4), some (3602879701896397 / 2 ^ 55)),
         (some (1 / 2), some (3602879701896397 / 2 ^ 55)), (some (3 / 4), some (3602879701896397 / 2 ^ 55))] := by
      simp only [graphPairs, hr, List.flatMap_cons, List.flatMap_nil, samplePairs, hev, hx0, hx1,
        hx2, hx3, List.append_nil]
      norm_num
    rw [hg]
    simp

/-- C16. Sampler partial-failure policy: with valid ranges, at least one point and a text
that `toRPN` converts, the outcome of `calculateGraf` is fixed by the samples and is never
an exception of the evaluator; a sample whose evaluation throws adds exactly the marker
pair (NaN, NaN), the pairs follow the order of the indices, there are as many marker pairs
as failing indices, a call with some failing sample returns, and when every sample fails
the two sequences are `pAmount` markers. -/
theorem C16_partial_failure (P : Platform) (xRange yRange : ℚ × ℚ) (pAmount : Nat)
    (infixText rpn : List Char)
    (hx : xRange.1 ≤ xRange.2) (hy : yRange.1 ≤ yRange.2) (hn : 1 ≤ pAmount)
    (hrpn : toRPN P.functionOrder infixText = .ok rpn) :
    (calculateGraf P xRange yRange pAmount infixText =
        if graphPairs P rpn xRange yRange pAmount = [] then .error .noPointInRange
        else .ok ((graphPairs P rpn xRange yRange pAmount).map Prod.fst,
                  (graphPairs P rpn xRange yRange pAmount).map Prod.snd)) ∧
      (∀ vX, evaluationFails P rpn vX = true → samplePairs P rpn yRange vX = [(none, none)]) ∧
      (graphPairs P rpn xRange yRange pAmount).count (none, none) =
        (List.range pAmount).countP
          (fun i => evaluationFails P rpn (sampleAbscissa P xRange pAmount i)) ∧
      ((∃ i, i < pAmount ∧ evaluationFails P rpn (sampleAbscissa P xRange pAmount i) = true) →
        ∃ xs ys, calculateGraf P xRange yRange pAmount infixText = .ok (xs, ys)) ∧
      ((∀ i, i < pAmount → evaluationFails P rpn (sampleAbscissa P xRange pAmount i) = true) →
        calculateGraf P xRange yRange pAmount infixText =
          .ok (List.replicate pAmount none, List.replicate pAmount none)) := by
  have hfail : ∀ vX, evaluationFails P rpn vX = true →
      samplePairs P rpn yRange vX = [(none, none)] := by
    intro vX hf
    unfold evaluationFails at hf
    unfold samplePairs
    cases he : ModelCalculator.evaluateRPN P rpn vX with
    | error e => rfl
    | ok vY => rw [he] at hf; cases hf
  have heq := calculateGraf_eq P xRange yRange pAmount infixText rpn hx hy hrpn
  refine ⟨heq, hfail, ?_, ?_, ?_⟩
  · exact count_marker_flatMap P rpn yRange (sampleAbscissa P xRange pAmount) (List.range pAmount)
  · rintro ⟨i, hi, hf⟩
    have hmem : ((none, none) : Option ℚ × Option ℚ) ∈ graphPairs P rpn xRange yRange pAmount := by
      simp only [graphPairs, List.mem_flatMap]
      exact ⟨i, List.mem_range.mpr hi, by rw [hfail _ hf]; simp⟩
    have hne : graphPairs P rpn xRange yRange pAmount ≠ [] := List.ne_nil_of_mem hmem
    rw [heq]
    simp only [hne, if_false]
    exact ⟨_, _, rfl⟩
  · intro hall
    have hg : graphPairs P rpn xRange yRange pAmount = List.replicate pAmount (none, none) := by
      have h1 : ∀ l : List Nat, (∀ i ∈ l, i < pAmount) →
          l.flatMap (fun i => samplePairs P rpn yRange (sampleAbscissa P xRange pAmount i)) =
            List.replicate l.length (none, none) := by
        intro l
        induction l with
        | nil => intro _; rfl
        | cons i l ih =>
          intro hl
          rw [List.flatMap_cons, hfail _ (hall i (hl i (by simp))),
            ih (fun j hj => hl j (List.mem_cons_of_mem _ hj))]
          rfl
      have := h1 (List.range pAmount) (fun i hi => List.mem_range.mp hi)
      simpa [graphPairs] using this
    have hne : List.replicate pAmount ((none, none) : Option ℚ × Option ℚ) ≠ [] := by
      cases pAmount with
      | zero => omega
      | succ n => simp [List.replicate_succ]
    rw [heq, hg]
    simp only [hne, if_false, List.map_replicate]
theorem C16_partial_failure_witness :
    calculateGraf samplePlatform (-1, 1) (-10, 10) 2 "1/x".toList =
        .ok ([some (-1), none], [some (-1), none]) ∧
      calculateGraf samplePlatform (0, 1) (0, 1) 3 "2+".toList =
        .ok ([none, none, none], [none, none, none]) := by
  have h1 := (C16_partial_failure samplePlatform (-1, 1) (-10, 10) 2 "1/x".toList
    "1 x /".toList (by norm_num) (by norm_num) (by norm_num) (by decide)).1
  have h2 := (C16_partial_failure samplePlatform (0, 1) (0, 1) 3 "2+".toList
    "2 +".toList (by norm_num) (by norm_num) (by norm_num) (by decide)).2.2.2.2
    (by intro i _; rfl)
  have hev : ∀ v : ℚ, evaluateRPN samplePlatform "1 x /".toList v =
      applyBinaryOperator samplePlatform '/' 1 v := fun v =>
    evaluateRPN_binary samplePlatform samplePlatform_conforming v "1".toList "x".toList 1 v '/'
      (Or.inr (by simpa using numLit_of_digit '1' 1 (by decide) (by decide)))
      (Or.inl ⟨rfl, rfl⟩) (by decide)
  have hdiv : ∀ a b : ℚ, applyBinaryOperator samplePlatform '/' a b =
      if b = 0 then .error .divisionByZero else .ok (a / b) := by
    intro a b
    unfold applyBinaryOperator
    rw [if_neg (by decide), if_neg (by decide), if_neg (by decide), if_pos rfl]
    rfl
  have hx0 : sampleAbscissa samplePlatform ((-1 : ℚ), (1 : ℚ)) 2 0 = -1 := rfl
  have hx1 : sampleAbscissa samplePlatform ((-1 : ℚ), (1 : ℚ)) 2 1 = 0 := by
    rw [sampleAbscissa_exact samplePlatform (fun _ => rfl)]
    norm_num [formulaAbscissa]
  have hg : graphPairs samplePlatform "1 x /".toList (-1, 1) (-10, 10) 2 =
      [(some (-1), some (-1)), (none, none)] := by
    have hr : List.range 2 = [0, 1] := by decide
    simp only [graphPairs, hr, List.flatMap_cons, List.flatMap_nil, hx0, hx1, samplePairs, hev,
      hdiv, List.append_nil]
    norm_num
  refine ⟨?_, h2⟩
  rw [h1, hg]
  simp

/-- C17 (amended). Sampler value-window filter: with a text that `toRPN` converts,
whenever `calculateGraf` returns, the pairs of numbers of its output are the points
`(x_i, y_i)`, taken in increasing order of `i = 0 .. pAmount - 1`, of exactly the samples
whose evaluation returns a value `y_i` with `ymin ≤ y_i ≤ ymax`, where `x_i` is the abscissa
the loop accumulates in `double`: `x_0 = xmin` and `x_(i+1) = fl (x_i + step)` with
`step = fl (fl (xmax - xmin) / pAmount)`; so a pair of numbers is in the output if and only
if it is such a point, and a sample evaluated outside the window adds nothing. -/
theorem C17_window_filter (P : Platform) (xRange yRange : ℚ × ℚ) (pAmount : Nat)
    (infixText rpn : List Char) (xs ys : List (Option ℚ))
    (hrpn : toRPN P.functionOrder infixText = .ok rpn)
    (h : calculateGraf P xRange yRange pAmount infixText = .ok (xs, ys)) :
    numericPairs (xs.zip ys) =
        (List.range pAmount).filterMap
          (fun i => keptPoint P rpn yRange (sampleAbscissa P xRange pAmount i)) ∧
      (∀ a b : ℚ, (some a, some b) ∈ xs.zip ys ↔
        ∃ i, i < pAmount ∧ a = sampleAbscissa P xRange pAmount i ∧
          ModelCalculator.evaluateRPN P rpn a = .ok b ∧ yRange.1 ≤ b ∧ b ≤ yRange.2) ∧
      (∀ vX vY, ModelCalculator.evaluateRPN P rpn vX = .ok vY →
        ¬ (yRange.1 ≤ vY ∧ vY ≤ yRange.2) → samplePairs P rpn yRange vX = []) := by
  obtain ⟨-, -, rpn1, hrpn1, -, hxs, hys⟩ :=
    calculateGraf_ok P xRange yRange pAmount infixText xs ys h
  rw [hrpn] at hrpn1
  cases hrpn1
  have hzip : xs.zip ys = graphPairs P rpn xRange yRange pAmount := by
    rw [hxs, hys, zip_map_fst_snd]
  refine ⟨?_, ?_, ?_⟩
  · rw [hzip]
    exact numericPairs_flatMap P rpn yRange (sampleAbscissa P xRange pAmount) (List.range pAmount)
  · intro a b
    rw [hzip]
    simp only [graphPairs, List.mem_flatMap, List.mem_range]
    constructor
    · rintro ⟨i, hi, hm⟩
      refine ⟨i, hi, ?_⟩
      unfold samplePairs at hm
      cases he : ModelCalculator.evaluateRPN P rpn (sampleAbscissa P xRange pAmount i) with
      | error e => rw [he] at hm; simp at hm
      | ok vY =>
        rw [he] at hm
        by_cases hw : yRange.1 ≤ vY ∧ vY ≤ yRange.2
        · simp only [hw, and_self, if_true, List.mem_singleton, Prod.mk.injEq,
            Option.some.injEq] at hm
          obtain ⟨rfl, rfl⟩ := hm
          exact ⟨rfl, he, hw.1, hw.2⟩
        · simp [hw] at hm
    · rintro ⟨i, hi, rfl, he, hw1, hw2⟩
      refine ⟨i, hi, ?_⟩
      unfold samplePairs
      rw [he]
      simp [hw1, hw2]
  · intro vX vY he hw
    unfold samplePairs
    rw [he]
    simp [hw]
/-- On the platform with the semantics of `double`, sampling `x` at four points of
`[0, 4]` with the window `[1, 2]` keeps the points 1 and 2. -/
theorem calculateGraf_double_window :
    calculateGraf doublePlatform (0, 4) (1, 2) 4 "x".toList =
      .ok ([some 1, some 2], [some 1, some 2]) := by
  have hev : ∀ v : ℚ, evaluateRPN doublePlatform "x".toList v = .ok v :=
    evaluateRPN_x doublePlatform
  have hstep : doublePlatform.fl (doublePlatform.fl (((0 : ℚ), (4 : ℚ)).2 - ((0 : ℚ), (4 : ℚ)).1) / ((4 : ℕ) : ℚ)) =
      1 := by
    show roundToDouble (roundToDouble (4 - 0) / ((4 : ℕ) : ℚ)) = 1
    have h1 : roundToDouble (4 - 0) = 4 := by
      rw [roundToDouble_eq (4 - 0) 2 4503599627370496 (by norm_num)
        (by norm_num [abs_of_pos]) (by norm_num [abs_of_pos])
        (roundHalfEven_of_lt _ _ (by norm_num) (by norm_num))]
      norm_num
    rw [h1]
    rw [roundToDouble_eq (4 / ((4 : ℕ) : ℚ)) 0 4503599627370496 (by norm_num)
      (by norm_num [abs_of_pos]) (by norm_num [abs_of_pos])
      (roundHalfEven_of_lt _ _ (by norm_num) (by norm_num))]
    norm_num
  have hx0 : sampleAbscissa doublePlatform ((0 : ℚ), (4 : ℚ)) 4 0 = 0 := rfl
  have hx1 : sampleAbscissa doublePlatform ((0 : ℚ), (4 : ℚ)) 4 1 = 1 := by
    rw [sampleAbscissa_succ, hx0, hstep]
    show roundToDouble (0 + 1) = 1
    rw [roundToDouble_eq (0 + 1) 0 4503599627370496 (by norm_num)
      (by norm_num [abs_of_pos]) (by norm_num [abs_of_pos])
      (roundHalfEven_of_lt _ _ (by norm_num) (by norm_num))]
    norm_num
  have hx2 : sampleAbscissa doublePlatform ((0 : ℚ), (4 : ℚ)) 4 2 = 2 := by
    rw [sampleAbscissa_succ, hx1, hstep]
    show roundToDouble (1 + 1) = 2
    rw [roundToDouble_eq (1 + 1) 1 4503599627370496 (by norm_num)
      (by norm_num [abs_of_pos]) (by norm_num [abs_of_pos])
      (roundHalfEven_of_lt _ _ (by norm_num) (by norm_num))]
    norm_num
  have hx3 : sampleAbscissa doublePlatform ((0 : ℚ), (4 : ℚ)) 4 3 = 3 := by
    rw [sampleAbscissa_succ, hx2, hstep]
    show roundToDouble (2 + 1) = 3
    rw [roundToDouble_eq (2 + 1) 1 6755399441055744 (by norm_num)
      (by norm_num [abs_of_pos]) (by norm_num [abs_of_pos])
      (roundHalfEven_of_lt _ _ (by norm_num) (by norm_num))]
    norm_num
  rw [calculateGraf_eq doublePlatform (0, 4) (1, 2) 4 "x".toList "x".toList
    (by norm_num) (by norm_num) (by decide)]
  have hr : List.range 4 = [0, 1, 2, 3] := by decide
  have hg : graphPairs doublePlatform "x".toList (0, 4) (1, 2) 4 =
      [(some 1, some 1), (some 2, some 2)] := by
    simp only [graphPairs, hr, List.flatMap_cons, List.flatMap_nil, samplePairs, hev, hx0, hx1,
      hx2, hx3, List.append_nil]
    norm_num
  rw [hg]
  simp
/-- C17, witness: on the platform with the semantics of `double`, sampling `x` at four
points of `[0, 4]` with the window `[1, 2]` returns the points 1 and 2, the samples of
indices 1 and 2. -/
theorem C17_window_filter_witness :
    toRPN doublePlatform.functionOrder "x".toList = .ok "x".toList ∧
      calculateGraf doublePlatform (0, 4) (1, 2) 4 "x".toList =
        .ok ([some 1, some 2], [some 1, some 2]) ∧
      numericPairs ([some (1 : ℚ), some 2].zip [some (1 : ℚ), some 2]) =
        (List.range 4).filterMap
          (fun i => keptPoint doublePlatform "x".toList (1, 2)
            (sampleAbscissa doublePlatform (0, 4) 4 i)) :=
  ⟨by decide, calculateGraf_double_window,
    (C17_window_filter doublePlatform (0, 4) (1, 2) 4 "x".toList "x".toList _ _
      (by decide) calculateGraf_double_window).1⟩
/-- C17, counterexample. With the x-range `[0, 3]`, nine points and the window `[2, 2]`, the
abscissa the claim names for the index 6, `0 + 6 * (3 - 0) / 9`, is 2 (also when the
formula is evaluated in `double`), the expression `x` evaluates to 2 there, inside the
window; yet on the platform with the semantics of `double` the output does not contain the
pair (2, 2): the abscissa accumulated by the loop at index 6 is `2 - 2 ^ (-52)`, no sample
is kept and `calculateGraf` throws the no-point error. -/
theorem C17_window_filter_counterexample :
    formulaAbscissa (0, 3) 9 6 = 2 ∧
      doublePlatform.fl (0 + doublePlatform.fl
        (6 * doublePlatform.fl (doublePlatform.fl (3 - 0) / 9))) = 2 ∧
      evaluateRPN doublePlatform "x".toList 2 = .ok 2 ∧
      toRPN doublePlatform.functionOrder "x".toList = .ok "x".toList ∧
      sampleAbscissa doublePlatform (0, 3) 9 6 = 9007199254740991 / 2 ^ 52 ∧
      calculateGraf doublePlatform (0, 3) (2, 2) 9 "x".toList = .error .noPointInRange := by
  have hev : ∀ v : ℚ, evaluateRPN doublePlatform "x".toList v = .ok v :=
    evaluateRPN_x doublePlatform
  have hstep : doublePlatform.fl (doublePlatform.fl (((0 : ℚ), (3 : ℚ)).2 - ((0 : ℚ), (3 : ℚ)).1) / ((9 : ℕ) : ℚ)) =
      6004799503160661 / 2 ^ 54 := by
    show roundToDouble (roundToDouble (3 - 0) / ((9 : ℕ) : ℚ)) = 6004799503160661 / 2 ^ 54
    have h1 : roundToDouble (3 - 0) = 3 := by
      rw [roundToDouble_eq (3 - 0) 1 6755399441055744 (by norm_num)
        (by norm_num [abs_of_pos]) (by norm_num [abs_of_pos])
        (roundHalfEven_of_lt _ _ (by norm_num) (by norm_num))]
      norm_num
    rw [h1]
    rw [roundToDouble_eq (3 / ((9 : ℕ) : ℚ)) (-2) 6004799503160661 (by norm_num)
      (by norm_num [abs_of_pos]) (by norm_num [abs_of_pos])
      (roundHalfEven_of_lt _ _ (by norm_num) (by norm_num))]
    norm_num
  have hx0 : sampleAbscissa doublePlatform ((0 : ℚ), (3 : ℚ)) 9 0 = 0 := rfl
  have hx1 : sampleAbscissa doublePlatform ((0 : ℚ), (3 : ℚ)) 9 1 = 6004799503160661 / 2 ^ 54 := by
    rw [sampleAbscissa_succ, hx0, hstep]
    show roundToDouble (0 + 6004799503160661 / 2 ^ 54) = 6004799503160661 / 2 ^ 54
    rw [roundToDouble_eq (0 + 6004799503160661 / 2 ^ 54) (-2) 6004799503160661 (by norm_num)
      (by norm_num [abs_of_pos]) (by norm_num [abs_of_pos])
      (roundHalfEven_of_lt _ _ (by norm_num) (by norm_num))]
    norm_num
  have hx2 : sampleAbscissa doublePlatform ((0 : ℚ), (3 : ℚ)) 9 2 = 6004799503160661 / 2 ^ 53 := by
    rw [sampleAbscissa_succ, hx1, hstep]
    show roundToDouble (6004799503160661 / 2 ^ 54 + 6004799503160661 / 2 ^ 54) = 6004799503160661 / 2 ^ 53
    rw [roundToDouble_eq (6004799503160661 / 2 ^ 54 + 6004799503160661 / 2 ^ 54) (-1) 6004799503160661 (by norm_num)
      (by norm_num [abs_of_pos]) (by norm_num [abs_of_pos])
      (roundHalfEven_of_lt _ _ (by norm_num) (by norm_num))]
    norm_num
  have hx3 : sampleAbscissa doublePlatform ((0 : ℚ), (3 : ℚ)) 9 3 = 1 := by
    rw [sampleAbscissa_succ, hx2, hstep]
    show roundToDouble (6004799503160661 / 2 ^ 53 + 6004799503160661 / 2 ^ 54) = 1
    rw [roundToDouble_eq (6004799503160661 / 2 ^ 53 + 6004799503160661 / 2 ^ 54) (-1) 9007199254740992 (by norm_num)
      (by norm_num [abs_of_pos]) (by norm_num [abs_of_pos])
      (roundHalfEven_tie_odd _ 9007199254740991 (by norm_num) (by decide))]
    norm_num
  have hx4 : sampleAbscissa doublePlatform ((0 : ℚ), (3 : ℚ)) 9 4 = 6004799503160661 / 2 ^ 52 := by
    rw [sampleAbscissa_succ, hx3, hstep]
    show roundToDouble (1 + 6004799503160661 / 2 ^ 54) = 6004799503160661 / 2 ^ 52
    rw [roundToDouble_eq (1 + 6004799503160661 / 2 ^ 54) 0 6004799503160661 (by norm_num)
      (by norm_num [abs_of_pos]) (by norm_num [abs_of_pos])
      (roundHalfEven_of_lt _ _ (by norm_num) (by norm_num))]
    norm_num
  have hx5 : sampleAbscissa doublePlatform ((0 : ℚ), (3 : ℚ)) 9 5 = 3752999689475413 / 2 ^ 51 := by
    rw [sampleAbscissa_succ, hx4, hstep]
    show roundToDouble (6004799503160661 / 2 ^ 52 + 6004799503160661 / 2 ^ 54) = 3752999689475413 / 2 ^ 51
    rw [roundToDouble_eq (6004799503160661 / 2 ^ 52 + 6004799503160661 / 2 ^ 54) 0 7505999378950826 (by norm_num)
      (by norm_num [abs_of_pos]) (by norm_num [abs_of_pos])
      (roundHalfEven_of_lt _ _ (by norm_num) (by norm_num))]
    norm_num
  have hx6 : sampleAbscissa doublePlatform ((0 : ℚ), (3 : ℚ)) 9 6 = 9007199254740991 / 2 ^ 52 := by
    rw [sampleAbscissa_succ, hx5, hstep]
    show roundToDouble (3752999689475413 / 2 ^ 51 + 6004799503160661 / 2 ^ 54) = 9007199254740991 / 2 ^ 52
    rw [roundToDouble_eq (3752999689475413 / 2 ^ 51 + 6004799503160661 / 2 ^ 54) 0 9007199254740991 (by norm_num)
      (by norm_num [abs_of_pos]) (by norm_num [abs_of_pos])
      (roundHalfEven_of_lt _ _ (by norm_num) (by norm_num))]
    norm_num
  have hx7 : sampleAbscissa doublePlatform ((0 : ℚ), (3 : ℚ)) 9 7 = 2627099782632789 / 2 ^ 50 := by
    rw [sampleAbscissa_succ, hx6, hstep]
    show roundToDouble (9007199254740991 / 2 ^ 52 + 6004799503160661 / 2 ^ 54) = 2627099782632789 / 2 ^ 50
    rw [roundToDouble_eq (9007199254740991 / 2 ^ 52 + 6004799503160661 / 2 ^ 54) 1 5254199565265578 (by norm_num)
      (by norm_num [abs_of_pos]) (by norm_num [abs_of_pos])
      (roundHalfEven_of_lt _ _ (by norm_num) (by norm_num))]
    norm_num
  have hx8 : sampleAbscissa doublePlatform ((0 : ℚ), (3 : ℚ)) 9 8 = 6004799503160661 / 2 ^ 51 := by
    rw [sampleAbscissa_succ, hx7, hstep]
    show roundToDouble (2627099782632789 / 2 ^ 50 + 6004799503160661 / 2 ^ 54) = 6004799503160661 / 2 ^ 51
    rw [roundToDouble_eq (2627099782632789 / 2 ^ 50 + 6004799503160661 / 2 ^ 54) 1 6004799503160661 (by norm_num)
      (by norm_num [abs_of_pos]) (by norm_num [abs_of_pos])
      (roundHalfEven_of_lt _ _ (by norm_num) (by norm_num))]
    norm_num
  refine ⟨by norm_num [formulaAbscissa], ?_, hev 2, by decide, hx6, ?_⟩
  · show roundToDouble (0 + roundToDouble (6 * roundToDouble (roundToDouble (3 - 0) / 9))) = 2
    have h1 : roundToDouble (3 - 0) = 3 := by
      rw [roundToDouble_eq (3 - 0) 1 6755399441055744 (by norm_num)
        (by norm_num [abs_of_pos]) (by norm_num [abs_of_pos])
        (roundHalfEven_of_lt _ _ (by norm_num) (by norm_num))]
      norm_num
    have h2 : roundToDouble (3 / 9) = 6004799503160661 / 2 ^ 54 := by
      rw [roundToDouble_eq (3 / 9) (-2) 6004799503160661 (by norm_num)
        (by norm_num [abs_of_pos]) (by norm_num [abs_of_pos])
        (roundHalfEven_of_lt _ _ (by norm_num) (by norm_num))]
      norm_num
    have h3 : roundToDouble (6 * (6004799503160661 / 2 ^ 54)) = 2 := by
      rw [roundToDouble_eq (6 * (6004799503160661 / 2 ^ 54)) 0 9007199254740992 (by norm_num)
        (by norm_num [abs_of_pos]) (by norm_num [abs_of_pos])
        (roundHalfEven_tie_odd _ 9007199254740991 (by norm_num) (by decide))]
      norm_num
    have h4 : roundToDouble (0 + 2) = 2 := by
      rw [roundToDouble_eq (0 + 2) 1 4503599627370496 (by norm_num)
        (by norm_num [abs_of_pos]) (by norm_num [abs_of_pos])
        (roundHalfEven_of_lt _ _ (by norm_num) (by norm_num))]
      norm_num
    rw [h1, h2, h3, h4]
  · rw [calculateGraf_eq doublePlatform (0, 3) (2, 2) 9 "x".toList "x".toList
      (by norm_num) (by norm_num) (by decide)]
    have hr : List.range 9 = [0, 1, 2, 3, 4, 5, 6, 7, 8] := by decide
    have hg : graphPairs doublePlatform "x".toList (0, 3) (2, 2) 9 = [] := by
      simp only [graphPairs, hr, List.flatMap_cons, List.flatMap_nil, samplePairs, hev,
        hx0, hx1, hx2, hx3, hx4, hx5, hx6, hx7, hx8, List.append_nil]
      norm_num
    rw [hg]
    simp
/-- C19. Sampler output shape: whenever `calculateGraf` returns, its x-sequence and
y-sequence have the same length `n` with `1 ≤ n ≤ pAmount`, and an entry of one is the
marker NaN exactly when the entry of the same index of the other is; with `pAmount = 0`
the call never returns: it throws, and for valid ranges and a text that `toRPN` converts
the exception is the no-point error. -/
theorem C19_output_shape (P : Platform) (xRange yRange : ℚ × ℚ) (pAmount : Nat)
    (infixText : List Char) :
    (∀ xs ys, calculateGraf P xRange yRange pAmount infixText = .ok (xs, ys) →
        xs.length = ys.length ∧ 1 ≤ xs.length ∧ xs.length ≤ pAmount ∧
        ∀ i : Nat, xs[i]? = some none ↔ ys[i]? = some none) ∧
      (pAmount = 0 →
        (∃ e, calculateGraf P xRange yRange pAmount infixText = .error e) ∧
        (xRange.1 ≤ xRange.2 → yRange.1 ≤ yRange.2 →
          (∃ rpn, toRPN P.functionOrder infixText = .ok rpn) →
          calculateGraf P xRange yRange pAmount infixText = .error .noPointInRange)) := by
  have hshape : ∀ xs ys, calculateGraf P xRange yRange pAmount infixText = .ok (xs, ys) →
      xs.length = ys.length ∧ 1 ≤ xs.length ∧ xs.length ≤ pAmount ∧
      ∀ i : Nat, xs[i]? = some none ↔ ys[i]? = some none := by
    intro xs ys h
    obtain ⟨-, -, rpn, -, hne, hxs, hys⟩ :=
      calculateGraf_ok P xRange yRange pAmount infixText xs ys h
    have hlen := graphPairs_length_le P rpn xRange yRange pAmount
    have hpos : 1 ≤ (graphPairs P rpn xRange yRange pAmount).length := by
      cases hg : graphPairs P rpn xRange yRange pAmount with
      | nil => exact absurd hg hne
      | cons p l => simp
    refine ⟨by rw [hxs, hys, List.length_map, List.length_map],
      by rw [hxs, List.length_map]; exact hpos, by rw [hxs, List.length_map]; exact hlen, ?_⟩
    intro i
    rw [hxs, hys, List.getElem?_map, List.getElem?_map]
    cases hi : (graphPairs P rpn xRange yRange pAmount)[i]? with
    | none => simp
    | some p =>
      have hp := graphPairs_shape P rpn xRange yRange pAmount p (List.getElem?_mem hi)
      rcases hp with rfl | ⟨a, b, rfl⟩ <;> simp
  refine ⟨hshape, ?_⟩
  intro h0
  subst h0
  constructor
  · cases hc : calculateGraf P xRange yRange 0 infixText with
    | error e => exact ⟨e, rfl⟩
    | ok out =>
      obtain ⟨xs, ys⟩ := out
      have := (hshape xs ys hc).2
      omega
  · rintro hx hy ⟨rpn, hrpn⟩
    rw [calculateGraf_eq P xRange yRange 0 infixText rpn hx hy hrpn]
    simp [graphPairs]
/-- On the platform with the semantics of `double`, sampling `1/x` at two points of
`[-1, 1]` returns the point (-1, -1) and the marker pair of the division by zero. -/
theorem calculateGraf_double_reciprocal :
    calculateGraf doublePlatform (-1, 1) (-10, 10) 2 "1/x".toList =
      .ok ([some (-1), none], [some (-1), none]) := by
  have hev : ∀ v : ℚ, evaluateRPN doublePlatform "1 x /".toList v =
      applyBinaryOperator doublePlatform '/' 1 v := by
    intro v
    have h := evaluateRPN_binary_read doublePlatform doublePlatform_basic v "1".toList
      "x".toList '/' (Or.inr ⟨1, numLit_of_digit '1' 1 (by decide) (by decide)⟩)
      (Or.inl rfl) (by decide)
    rw [readOperand_literal doublePlatform v "1".toList 1
      (numLit_of_digit '1' 1 (by decide) (by decide)), readLiteral_double_1] at h
    have hx : readOperand doublePlatform v "x".toList = .ok v := readOperand_x doublePlatform v
    rw [hx] at h
    exact h
  have hdiv : ∀ a b : ℚ, applyBinaryOperator doublePlatform '/' a b =
      if b = 0 then .error .divisionByZero else .ok (roundToDouble (a / b)) := by
    intro a b
    unfold applyBinaryOperator
    rw [if_neg (by decide), if_neg (by decide), if_neg (by decide), if_pos rfl]
    rfl
  have hq : roundToDouble (-1) = -1 := by
    rw [roundToDouble_eq (-1) 0 (-4503599627370496) (by norm_num)
      (by norm_num [abs_of_neg]) (by norm_num [abs_of_neg])
      (roundHalfEven_of_lt _ _ (by norm_num) (by norm_num))]
    norm_num
  have hstep : doublePlatform.fl (doublePlatform.fl ((((-1) : ℚ), (1 : ℚ)).2 - (((-1) : ℚ), (1 : ℚ)).1) / ((2 : ℕ) : ℚ)) =
      1 := by
    show roundToDouble (roundToDouble (1 - (-1)) / ((2 : ℕ) : ℚ)) = 1
    have h1 : roundToDouble (1 - (-1)) = 2 := by
      rw [roundToDouble_eq (1 - (-1)) 1 4503599627370496 (by norm_num)
        (by norm_num [abs_of_pos]) (by norm_num [abs_of_pos])
        (roundHalfEven_of_lt _ _ (by norm_num) (by norm_num))]
      norm_num
    rw [h1]
    rw [roundToDouble_eq (2 / ((2 : ℕ) : ℚ)) 0 4503599627370496 (by norm_num)
      (by norm_num [abs_of_pos]) (by norm_num [abs_of_pos])
      (roundHalfEven_of_lt _ _ (by norm_num) (by norm_num))]
    norm_num
  have hx0 : sampleAbscissa doublePlatform (((-1) : ℚ), (1 : ℚ)) 2 0 = (-1) := rfl
  have hx1 : sampleAbscissa doublePlatform (((-1) : ℚ), (1 : ℚ)) 2 1 = 0 := by
    rw [sampleAbscissa_succ, hx0, hstep]
    show roundToDouble ((-1) + 1) = 0
    rw [show ((-1) + 1 : ℚ) = 0 by norm_num, roundToDouble_zero]
  rw [calculateGraf_eq doublePlatform (-1, 1) (-10, 10) 2 "1/x".toList "1 x /".toList
    (by norm_num) (by norm_num) (by decide)]
  have hr : List.range 2 = [0, 1] := by decide
  have hg : graphPairs doublePlatform "1 x /".toList (-1, 1) (-10, 10) 2 =
      [(some (-1), some (-1)), (none, none)] := by
    simp only [graphPairs, hr, List.flatMap_cons, List.flatMap_nil, hx0, hx1, samplePairs, hev,
      hdiv, List.append_nil]
    norm_num [hq]
  rw [hg]
  simp
/-- C19, witness: on the platform with the semantics of `double`, a call that returns two
kept points and a call that returns a point and a marker pair have the stated shape; with
no point the call throws, the no-point error when the ranges are valid. -/
theorem C19_output_shape_witness :
    calculateGraf doublePlatform (0, 4) (1, 2) 4 "x".toList =
        .ok ([some 1, some 2], [some 1, some 2]) ∧
      ([some 1, some 2] : List (Option ℚ)).length = ([some 1, some 2] : List (Option ℚ)).length ∧
      1 ≤ ([some 1, some 2] : List (Option ℚ)).length ∧
      ([some 1, some 2] : List (Option ℚ)).length ≤ 4 ∧
      calculateGraf doublePlatform (-1, 1) (-10, 10) 2 "1/x".toList =
        .ok ([some (-1), none], [some (-1), none]) ∧
      (∀ i : Nat, ([some (-1), none] : List (Option ℚ))[i]? = some none ↔
        ([some (-1), none] : List (Option ℚ))[i]? = some none) ∧
      calculateGraf doublePlatform (0, 4) (0, 4) 0 "x".toList = .error .noPointInRange ∧
      ∃ e, calculateGraf doublePlatform (4, 0) (0, 4) 0 "x".toList = .error e :=
  have h1 := (C19_output_shape doublePlatform (0, 4) (1, 2) 4 "x".toList).1 _ _
    calculateGraf_double_window
  have h2 := (C19_output_shape doublePlatform (-1, 1) (-10, 10) 2 "1/x".toList).1 _ _
    calculateGraf_double_reciprocal
  ⟨calculateGraf_double_window, h1.1, h1.2.1, h1.2.2.1, calculateGraf_double_reciprocal,
    h2.2.2.2,
    ((C19_output_shape doublePlatform (0, 4) (0, 4) 0 "x".toList).2 rfl).2
      (by norm_num) (by norm_num) ⟨"x".toList, by decide⟩,
    ((C19_output_shape doublePlatform (4, 0) (0, 4) 0 "x".toList).2 rfl).1⟩

/-! ## `renameFunctions` works between the characters that are in no name -/
theorem functions_letters : ∀ p ∈ functions, ∀ c ∈ p.1, isNameLetter c = true := by
  decide
theorem functions_ne_nil : ∀ p ∈ functions, p.1 ≠ [] := by
  decide
theorem isPrefixOf_append_delim (c : Char) (rest : List Char) :
    ∀ (name u : List Char), c ∉ name →
      (name.isPrefixOf (u ++ c :: rest) = name.isPrefixOf u) ∧
        (name.isPrefixOf u = true → name.length ≤ u.length) := by
  intro name
  induction name with
  | nil => intro u _; simp
  | cons a t ih =>
    intro u hc
    have hac : a ≠ c := fun h => hc (by simp [h])
    have htc : c ∉ t := fun h => hc (by simp [h])
    cases u with
    | nil => simp [List.isPrefixOf, hac]
    | cons d u =>
      obtain ⟨h1, h2⟩ := ih u htc
      constructor
      · show (a == d && t.isPrefixOf (u ++ c :: rest)) = (a == d && t.isPrefixOf u)
        rw [h1]
      · intro h
        have h3 : (a == d && t.isPrefixOf u) = true := h
        simp only [Bool.and_eq_true] at h3
        have := h2 h3.2
        simp only [List.length_cons]
        omega
theorem replaceName_zero_cons (name : List Char) (sym c : Char) (rest : List Char) :
    replaceName name sym 0 (c :: rest) =
      if name.isPrefixOf (c :: rest) then sym :: replaceName name sym (name.length - 1) rest
      else c :: replaceName name sym 0 rest := rfl
theorem replaceName_succ_cons (name : List Char) (sym c : Char) (rest : List Char) (k : Nat) :
    replaceName name sym (k + 1) (c :: rest) = replaceName name sym k rest := rfl
theorem replaceName_append_delim (name : List Char) (sym c : Char) (rest : List Char)
    (hne : name ≠ []) (hc : c ∉ name) :
    ∀ (w : List Char) (k : Nat), k ≤ w.length →
      replaceName name sym k (w ++ c :: rest) =
        replaceName name sym k w ++ c :: replaceName name sym 0 rest := by
  intro w
  induction w with
  | nil =>
    intro k hk
    have hk0 : k = 0 := by simpa using hk
    subst hk0
    cases name with
    | nil => exact absurd rfl hne
    | cons a t =>
      have hac : a ≠ c := fun h => hc (by simp [h])
      simp [replaceName, List.isPrefixOf, hac]
  | cons d w ih =>
    intro k hk
    cases k with
    | succ k =>
      rw [List.cons_append, replaceName_succ_cons, replaceName_succ_cons]
      exact ih k (by simpa using hk)
    | zero =>
      obtain ⟨h1, h2⟩ := isPrefixOf_append_delim c rest name (d :: w) hc
      rw [List.cons_append] at h1
      rw [List.cons_append, replaceName_zero_cons, replaceName_zero_cons, h1]
      by_cases hp : name.isPrefixOf (d :: w) = true
      · have hl := h2 hp
        simp only [List.length_cons] at hl
        rw [if_pos hp, if_pos hp, ih (name.length - 1) (by omega)]
        rfl
      · rw [if_neg hp, if_neg hp, ih 0 (Nat.zero_le _)]
        rfl
theorem replaceName_nil (name : List Char) (sym : Char) (k : Nat) :
    replaceName name sym k [] = [] := by
  cases k <;> rfl
theorem renameFunctions_nil (order : List (List Char × Char)) :
    renameFunctions order [] = [] := by
  unfold renameFunctions
  induction order with
  | nil => rfl
  | cons p order ih => simpa [List.foldl_cons, replaceName_nil] using ih
theorem renameFunctions_append_delim (order : List (List Char × Char))
    (horder : ∀ p ∈ order, p ∈ functions) (c : Char) (hc : isNameLetter c = false) :
    ∀ (w rest : List Char),
      renameFunctions order (w ++ c :: rest) =
        renameFunctions order w ++ c :: renameFunctions order rest := by
  unfold renameFunctions
  induction order with
  | nil => intro w rest; rfl
  | cons p order ih =>
    intro w rest
    have hp := horder p (by simp)
    have hcp : c ∉ p.1 := fun h => by
      have := functions_letters p hp c h
      rw [hc] at this
      cases this
    simp only [List.foldl_cons]
    rw [replaceName_append_delim p.1 p.2 c rest (functions_ne_nil p hp) hcp w 0 (Nat.zero_le _)]
    exact ih (fun q hq => horder q (by simp [hq])) _ _
theorem renameFunctions_cons_delim (order : List (List Char × Char))
    (horder : ∀ p ∈ order, p ∈ functions) (c : Char) (hc : isNameLetter c = false)
    (rest : List Char) :
    renameFunctions order (c :: rest) = c :: renameFunctions order rest := by
  have := renameFunctions_append_delim order horder c hc [] rest
  simpa [renameFunctions_nil] using this
theorem renameFunctions_snoc_delim (order : List (List Char × Char))
    (horder : ∀ p ∈ order, p ∈ functions) (c : Char) (hc : isNameLetter c = false)
    (w : List Char) :
    renameFunctions order (w ++ [c]) = renameFunctions order w ++ [c] := by
  have := renameFunctions_append_delim order horder c hc w []
  simpa [renameFunctions_nil] using this
/-! ## What `renameFunctions` leaves of a function name -/
theorem foldl_reach {α β : Type} (f : β → α → β) (T : β → Prop) (s0 : β) :
    ∀ l : List α, (∀ q ∈ l, f s0 q = s0 ∨ T (f s0 q)) → (∀ q ∈ l, ∀ s, T s → T (f s q)) →
      (∃ q ∈ l, T (f s0 q)) → T (l.foldl f s0) := by
  have hfix : ∀ l : List α, (∀ q ∈ l, ∀ s, T s → T (f s q)) → ∀ s, T s → T (l.foldl f s) := by
    intro l
    induction l with
    | nil => intro _ s hs; exact hs
    | cons q l ih =>
      intro h s hs
      rw [List.foldl_cons]
      exact ih (fun r hr => h r (by simp [hr])) _ (h q (by simp) s hs)
  intro l
  induction l with
  | nil => rintro _ _ ⟨q, hq, _⟩; simp at hq
  | cons q l ih =>
    intro h0 hT hex
    rw [List.foldl_cons]
    by_cases hq : T (f s0 q)
    · exact hfix l (fun r hr => hT r (by simp [hr])) _ hq
    · have h : f s0 q = s0 := by
        rcases h0 q (by simp) with h | h
        · exact h
        · exact absurd h hq
      rw [h]
      apply ih (fun r hr => h0 r (by simp [hr])) (fun r hr => hT r (by simp [hr]))
      obtain ⟨r, hr, hTr⟩ := hex
      simp only [List.mem_cons] at hr
      rcases hr with rfl | hr
      · exact absurd hTr hq
      · exact ⟨r, hr, hTr⟩

theorem replaceName_name_step : ∀ f ∈ functions, ∀ q ∈ functions,
    replaceName q.1 q.2 0 f.1 = f.1 ∨ replaceName q.1 q.2 0 f.1 ∈ callPrefixes := by
  decide
theorem replaceName_callPrefixes : ∀ q ∈ functions, ∀ s ∈ callPrefixes,
    replaceName q.1 q.2 0 s ∈ callPrefixes := by
  decide
theorem replaceName_name_self : ∀ f ∈ functions, replaceName f.1 f.2 0 f.1 ∈ callPrefixes := by
  decide
theorem renameFunctions_name (order : List (List Char × Char)) (horder : order.Perm functions)
    (f : List Char × Char) (hf : f ∈ functions) :
    renameFunctions order f.1 ∈ callPrefixes := by
  unfold renameFunctions
  apply foldl_reach (fun result pair => replaceName pair.1 pair.2 0 result)
    (fun s => s ∈ callPrefixes) f.1 order
  · intro q hq
    exact replaceName_name_step f hf q (horder.subset hq)
  · intro q hq s hs
    exact replaceName_callPrefixes q (horder.subset hq) s hs
  · exact ⟨f, horder.symm.subset hf, replaceName_name_self f hf⟩
theorem callPrefixes_form : ∀ s ∈ callPrefixes,
    ∃ g, isFunction g = true ∧ (s = [g] ∨ s = ['a', g]) := by
  intro s hs
  simp only [callPrefixes, List.mem_cons, List.mem_singleton, List.not_mem_nil, or_false] at hs
  rcases hs with rfl | rfl | rfl | rfl | rfl | rfl | rfl | rfl | rfl | rfl | rfl | rfl
  · exact ⟨'s', by decide, Or.inl rfl⟩
  · exact ⟨'c', by decide, Or.inl rfl⟩
  · exact ⟨'t', by decide, Or.inl rfl⟩
  · exact ⟨'i', by decide, Or.inl rfl⟩
  · exact ⟨'o', by decide, Or.inl rfl⟩
  · exact ⟨'n', by decide, Or.inl rfl⟩
  · exact ⟨'q', by decide, Or.inl rfl⟩
  · exact ⟨'l', by decide, Or.inl rfl⟩
  · exact ⟨'g', by decide, Or.inl rfl⟩
  · exact ⟨'s', by decide, Or.inr rfl⟩
  · exact ⟨'c', by decide, Or.inr rfl⟩
  · exact ⟨'t', by decide, Or.inr rfl⟩
theorem callPrefixes_no_minus : ∀ s ∈ callPrefixes, '-' ∉ s := by
  decide
theorem isNameLetter_of_isBinaryOperator {c : Char}
    (h : ModelCalculator.isBinaryOperator c = true) : isNameLetter c = false := by
  simp only [ModelCalculator.isBinaryOperator, Bool.or_eq_true, beq_iff_eq] at h
  rcases h with ((((h | h) | h) | h) | h) | h <;> subst h <;> decide
theorem isUnaryMinus_of_isBinaryOperator {c : Char}
    (h : ModelCalculator.isBinaryOperator c = true) : isUnaryMinus (some c) = true := by
  simp only [ModelCalculator.isBinaryOperator, Bool.or_eq_true, beq_iff_eq] at h
  rcases h with ((((h | h) | h) | h) | h) | h <;> subst h <;> decide
/-! ## `replaceUnaryMinus` on a concatenation -/
theorem replaceUnaryMinusFrom_split (a b : List Char) : ∀ prev : Option Char,
    replaceUnaryMinusFrom prev (a ++ b) =
      replaceUnaryMinusFrom prev a ++
        replaceUnaryMinusFrom (lastOr prev (replaceUnaryMinusFrom prev a)) b := by
  induction a with
  | nil => intro prev; rfl
  | cons c a ih =>
    intro prev
    by_cases h : (c == '-' && isUnaryMinus prev) = true
    · simp only [List.cons_append, replaceUnaryMinusFrom, h, if_true, lastOr_cons,
        List.append_eq]
      rw [ih]
    · simp only [List.cons_append, replaceUnaryMinusFrom, h, Bool.false_eq_true, if_false,
        lastOr_cons, List.append_eq]
      rw [ih]
theorem replaceUnaryMinusFrom_cons_other (prev : Option Char) (c : Char) (rest : List Char)
    (hc : c ≠ '-') :
    replaceUnaryMinusFrom prev (c :: rest) = c :: replaceUnaryMinusFrom (some c) rest := by
  simp [replaceUnaryMinusFrom, hc]
theorem replaceUnaryMinusFrom_cons_binary (prev : Option Char) (c : Char) (rest : List Char)
    (hprev : isUnaryMinus prev = false) :
    replaceUnaryMinusFrom prev (c :: rest) = c :: replaceUnaryMinusFrom (some c) rest := by
  simp [replaceUnaryMinusFrom, hprev]
theorem replaceUnaryMinusFrom_cons_unary (prev : Option Char) (rest : List Char)
    (hprev : isUnaryMinus prev = true) :
    replaceUnaryMinusFrom prev ('-' :: rest) = '~' :: replaceUnaryMinusFrom (some '~') rest := by
  simp [replaceUnaryMinusFrom, hprev]
/-! ## Numeric literals, in fixed or scientific notation -/
theorem findScientificNumber_operands (m rest token : List Char) (hasExponent : Bool)
    (hm : ∀ c ∈ m, isOperand c = true) :
    findScientificNumber (m ++ rest) token hasExponent =
      findScientificNumber rest (token ++ m) hasExponent := by
  induction m generalizing token with
  | nil => simp
  | cons c m ih =>
    have hop : isOperand c = true := hm c (by simp)
    have hce : isPartOfExponent c = false := isPartOfExponent_of_isOperand hop
    rw [List.cons_append, findScientificNumber_cons]
    simp only [hop, Bool.true_or, if_true, hce, Bool.false_and,
      Bool.false_eq_true, if_false]
    rw [ih (token ++ [c]) (fun d hd => hm d (by simp [hd]))]
    simp
theorem isOperand_of_isDigit {c : Char} (h : c.isDigit = true) : isOperand c = true := by
  simp [isOperand, h]
theorem findScientificNumber_exponent_unsigned (e : Char) (d rest token : List Char)
    (he : isPartOfExponent e = true) (hd : IsDigits d) (hrest : RunEnds rest) :
    findScientificNumber (e :: (d ++ rest)) token false = .ok (token ++ e :: d, rest) := by
  obtain ⟨d0, d1, hd01, hd0⟩ := hd.digits_head
  subst hd01
  have hs : (d0 == '+' || d0 == '-') = false := by
    cases h : (d0 == '+' || d0 == '-') with
    | false => rfl
    | true =>
      simp only [Bool.or_eq_true, beq_iff_eq] at h
      rcases h with h | h <;> subst h <;> exact absurd hd0 (by decide)
  rw [findScientificNumber_cons]
  simp only [he, Bool.or_true, if_true, Bool.not_false, Bool.and_self, List.cons_append, hs,
    Bool.false_eq_true, if_false, hd0]
  rw [findScientificNumber_run d1 rest _ true
    (fun c hc => isOperand_of_isDigit (hd.2 c (by simp [hc]))) hrest]
  simp
theorem findScientificNumber_exponent_signed (e sg : Char) (d rest token : List Char)
    (he : isPartOfExponent e = true) (hsg : sg = '+' ∨ sg = '-') (hd : IsDigits d)
    (hrest : RunEnds rest) :
    findScientificNumber (e :: sg :: (d ++ rest)) token false =
      .ok (token ++ e :: sg :: d, rest) := by
  obtain ⟨d0, d1, hd01, hd0⟩ := hd.digits_head
  subst hd01
  have hs : (sg == '+' || sg == '-') = true := by
    rcases hsg with rfl | rfl <;> rfl
  rw [findScientificNumber_cons]
  simp only [he, Bool.or_true, if_true, Bool.not_false, Bool.and_self, List.cons_append, hs, hd0]
  rw [findScientificNumber_run d1 rest _ true
    (fun c hc => isOperand_of_isDigit (hd.2 c (by simp [hc]))) hrest]
  simp
theorem isPartOfExponent_cases {e : Char} (he : isPartOfExponent e = true) :
    e = 'e' ∨ e = 'E' := by
  simpa [isPartOfExponent] using he
theorem Literal.literal_head {N : List Char} (h : Literal N) :
    ∃ c rest, N = c :: rest ∧ c.isDigit = true := by
  rcases h with ⟨v, hv⟩ | h
  · exact hv.lit_head
  · cases h with
    | unsigned m d e w hm he hd =>
      obtain ⟨c, rest, hc, hcd⟩ := hm.lit_head
      exact ⟨c, rest ++ e :: d, by simp [hc], hcd⟩
    | signed m d e sg w hm he hsg hd =>
      obtain ⟨c, rest, hc, hcd⟩ := hm.lit_head
      exact ⟨c, rest ++ e :: sg :: d, by simp [hc], hcd⟩
theorem getLast_append_digits (a d : List Char) (hd : IsDigits d) :
    ∃ c, (a ++ d).getLast? = some c ∧ c.isDigit = true := by
  obtain ⟨c, hc, hcd⟩ := hd.digits_getLast
  refine ⟨c, ?_, hcd⟩
  rw [List.getLast?_append, hc]
  rfl
theorem Literal.literal_getLast {N : List Char} (h : Literal N) :
    ∃ c, N.getLast? = some c ∧ c.isDigit = true := by
  rcases h with ⟨v, hv⟩ | h
  · exact hv.lit_getLast
  · cases h with
    | unsigned m d e w hm he hd =>
      have := getLast_append_digits (m ++ [e]) d hd
      simpa using this
    | signed m d e sg w hm he hsg hd =>
      have := getLast_append_digits (m ++ [e, sg]) d hd
      simpa using this
theorem Literal.literal_no_nameStart {N : List Char} (h : Literal N) :
    ∀ c ∈ N, isNameStart c = false := by
  rcases h with ⟨v, hv⟩ | h
  · exact hv.lit_no_nameStart
  · cases h with
    | unsigned m d e w hm he hd =>
      intro c hc
      simp only [List.mem_append, List.mem_cons] at hc
      rcases hc with h | rfl | h
      · exact hm.lit_no_nameStart c h
      · rcases isPartOfExponent_cases he with rfl | rfl <;> rfl
      · exact (NumLit.whole d hd).lit_no_nameStart c h
    | signed m d e sg w hm he hsg hd =>
      intro c hc
      simp only [List.mem_append, List.mem_cons] at hc
      rcases hc with h | rfl | rfl | h
      · exact hm.lit_no_nameStart c h
      · rcases isPartOfExponent_cases he with rfl | rfl <;> rfl
      · rcases hsg with rfl | rfl <;> rfl
      · exact (NumLit.whole d hd).lit_no_nameStart c h
theorem Literal.literal_no_space {N : List Char} (h : Literal N) :
    N ≠ [] ∧ ∀ c ∈ N, ModelCalculator.isSpace c = false := by
  constructor
  · obtain ⟨c, rest, hc, -⟩ := h.literal_head
    rw [hc]
    exact List.cons_ne_nil _ _
  rcases h with ⟨v, hv⟩ | h
  · exact hv.lit_no_space
  · cases h with
    | unsigned m d e w hm he hd =>
      intro c hc
      simp only [List.mem_append, List.mem_cons] at hc
      rcases hc with h | rfl | h
      · exact hm.lit_no_space c h
      · rcases isPartOfExponent_cases he with rfl | rfl <;> rfl
      · exact (NumLit.whole d hd).lit_no_space c h
    | signed m d e sg w hm he hsg hd =>
      intro c hc
      simp only [List.mem_append, List.mem_cons] at hc
      rcases hc with h | rfl | rfl | h
      · exact hm.lit_no_space c h
      · rcases isPartOfExponent_cases he with rfl | rfl <;> rfl
      · rcases hsg with rfl | rfl <;> rfl
      · exact (NumLit.whole d hd).lit_no_space c h
theorem Literal.literal_ne_x {N : List Char} (h : Literal N) : N ≠ ['x'] := by
  obtain ⟨c, rest, hc, hcd⟩ := h.literal_head
  intro hx
  rw [hx] at hc
  have : c = 'x' := (List.cons.inj hc).1.symm
  subst this
  exact absurd hcd (by decide)
/-- The preprocessor leaves a literal as it is: the `-` of an exponent follows `e` or `E`,
where a minus sign is not unary. -/
theorem replaceUnaryMinusFrom_literal {N : List Char} (h : Literal N) (prev : Option Char) :
    replaceUnaryMinusFrom prev N = N := by
  rcases h with ⟨v, hv⟩ | h
  · exact replaceUnaryMinusFrom_of_no_minus prev N hv.lit_no_minus
  · cases h with
    | unsigned m d e w hm he hd =>
      apply replaceUnaryMinusFrom_of_no_minus
      intro hc
      simp only [List.mem_append, List.mem_cons] at hc
      rcases hc with h | h | h
      · exact hm.lit_no_minus h
      · rcases isPartOfExponent_cases he with rfl | rfl <;> exact absurd h (by decide)
      · exact (NumLit.whole d hd).lit_no_minus h
    | signed m d e sg w hm he hsg hd =>
      have hem : e ≠ '-' := by
        rcases isPartOfExponent_cases he with rfl | rfl <;> decide
      have heu : isUnaryMinus (some e) = false := by
        rcases isPartOfExponent_cases he with rfl | rfl <;> rfl
      rw [replaceUnaryMinusFrom_append _ _ _ hm.lit_no_minus,
        replaceUnaryMinusFrom_cons_other _ e _ hem,
        replaceUnaryMinusFrom_cons_binary _ sg _ heu,
        replaceUnaryMinusFrom_of_no_minus _ _ (NumLit.whole d hd).lit_no_minus]
/-- The scan takes a literal as one token. -/
theorem scan_literal {N : List Char} (h : Literal N) (rest ops out : List Char)
    (hrest : RunEnds rest) :
    scan (N ++ rest) ⟨ops, out, []⟩ = scan rest ⟨ops, out ++ (N ++ [' ']), []⟩ := by
  have hf : findScientificNumber (N ++ rest) [] false = .ok (N, rest) := by
    rcases h with ⟨v, hv⟩ | h
    · have := findScientificNumber_run N rest [] false hv.lit_isOperand hrest
      simpa using this
    · cases h with
      | unsigned m d e w hm he hd =>
        rw [List.append_assoc, List.cons_append,
          findScientificNumber_operands m _ [] false hm.lit_isOperand,
          findScientificNumber_exponent_unsigned e d rest _ he hd hrest, List.nil_append]
      | signed m d e sg w hm he hsg hd =>
        rw [List.append_assoc, List.cons_append, List.cons_append,
          findScientificNumber_operands m _ [] false hm.lit_isOperand,
          findScientificNumber_exponent_signed e sg d rest _ he hsg hd hrest, List.nil_append]
  obtain ⟨c, N1, hc, hcd⟩ := h.literal_head
  subst hc
  rw [List.cons_append] at hf ⊢
  rw [scan_cons]
  simp [isOperandOrOperatorOrFunction, isOperand_of_isDigit hcd, handleOperand, hf, flushToken,
    processOperand]
namespace ModelCalculator
/-- The step of the evaluator on a literal, in fixed or scientific notation. -/
theorem evaluateLoop_literal_token (P : Platform) (x : ℚ) (N : List Char) (hN : Literal N)
    (rest : List (List Char)) (stack : List ℚ) :
    evaluateLoop P x (N :: rest) stack =
      match readLiteral P N with
      | .ok v => evaluateLoop P x rest (v :: stack)
      | .error e => .error e := by
  obtain ⟨c, N1, hc, hcd⟩ := hN.literal_head
  have hx : N ≠ ['x'] := hN.literal_ne_x
  have h1 : isBinaryOperator (firstChar N) = false := by
    rw [hc]
    cases hop : isBinaryOperator (firstChar (c :: N1)) with
    | false => rfl
    | true =>
      simp only [firstChar, List.headD_cons, isBinaryOperator, Bool.or_eq_true,
        beq_iff_eq] at hop
      rcases hop with ((((h1 | h1) | h1) | h1) | h1) | h1 <;> subst h1 <;>
        exact absurd hcd (by decide)
  have h2 : isUnaryOperator (firstChar N) = false := by
    rw [hc]
    cases hop : isUnaryOperator (firstChar (c :: N1)) with
    | false => rfl
    | true =>
      simp only [firstChar, List.headD_cons, isUnaryOperator, Bool.or_eq_true,
        beq_iff_eq] at hop
      rcases hop with ((((((((h1 | h1) | h1) | h1) | h1) | h1) | h1) | h1) | h1) | h1 <;>
        subst h1 <;> exact absurd hcd (by decide)
  cases hs : P.streamReadsDouble N with
  | false => simp [evaluateLoop, tokenType, isOperand, hx, hs, h1, h2, readLiteral]
  | true =>
    cases hv : P.stod N with
    | none => simp [evaluateLoop, tokenType, isOperand, hx, hs, hv, readLiteral]
    | some v => simp [evaluateLoop, tokenType, isOperand, hx, hs, hv, readLiteral]
end ModelCalculator
/-! ## The preprocessor on a valid expression -/
theorem NormalExpr.normal_getLast {E : List Char} (h : NormalExpr E) :
    ∃ c, E.getLast? = some c ∧ isUnaryMinus (some c) = false := by
  induction h with
  | literal N hN =>
    obtain ⟨c, hc, hd⟩ := hN.literal_getLast
    exact ⟨c, hc, isUnaryMinus_of_isOperand (isOperand_of_isLitChar (isLitChar_of_isDigit hd))⟩
  | var => exact ⟨'x', rfl, by decide⟩
  | group E _ _ =>
    refine ⟨')', ?_, by decide⟩
    rw [← List.cons_append, List.getLast?_append]
    rfl
  | negation E _ ih =>
    obtain ⟨c, hc, hu⟩ := ih
    refine ⟨c, ?_, hu⟩
    rw [show '~' :: E = ['~'] ++ E from rfl, List.getLast?_append, hc]
    rfl
  | call pre E _ _ _ =>
    refine ⟨')', ?_, by decide⟩
    rw [← List.cons_append, ← List.append_assoc, List.getLast?_append]
    rfl
  | binary op E1 E2 _ _ _ _ ih2 =>
    obtain ⟨c, hc, hu⟩ := ih2
    refine ⟨c, ?_, hu⟩
    rw [show E1 ++ op :: E2 = (E1 ++ [op]) ++ E2 by simp, List.getLast?_append, hc]
    rfl
theorem NormalExpr.normal_lastOr {E : List Char} (h : NormalExpr E) (prev : Option Char) :
    isUnaryMinus (lastOr prev E) = false := by
  obtain ⟨c, hc, hu⟩ := h.normal_getLast
  simp only [lastOr, hc]
  exact hu
/-- The preprocessor turns a valid expression that stands where a unary minus may stand
into a normalized one. -/
theorem normalExpr_of_validExpr (order : List (List Char × Char))
    (horder : order.Perm functions) (E : List Char) (h : ValidExpr E) :
    ∀ prev, isUnaryMinus prev = true →
      NormalExpr (replaceUnaryMinusFrom prev (renameFunctions order E)) := by
  have hsub : ∀ p ∈ order, p ∈ functions := fun p hp => horder.subset hp
  induction h with
  | literal N hN =>
    intro prev _
    rw [renameFunctions_of_no_nameStart order hsub N hN.literal_no_nameStart,
      replaceUnaryMinusFrom_literal hN prev]
    exact .literal N hN
  | var =>
    intro prev _
    rw [renameFunctions_of_no_nameStart order hsub ['x'] (by decide),
      replaceUnaryMinusFrom_of_no_minus prev ['x'] (by decide)]
    exact .var
  | group E _ ih =>
    intro prev _
    rw [renameFunctions_cons_delim order hsub '(' (by decide),
      renameFunctions_snoc_delim order hsub ')' (by decide),
      replaceUnaryMinusFrom_cons_other prev '(' _ (by decide), replaceUnaryMinusFrom_split,
      replaceUnaryMinusFrom_cons_other _ ')' _ (by decide)]
    exact .group _ (ih (some '(') (by decide))
  | negation E _ ih =>
    intro prev hprev
    rw [renameFunctions_cons_delim order hsub '-' (by decide),
      replaceUnaryMinusFrom_cons_unary prev _ hprev]
    exact .negation _ (ih (some '~') (by decide))
  | call f E hf _ ih =>
    intro prev _
    have hpre := renameFunctions_name order horder f hf
    rw [renameFunctions_append_delim order hsub '(' (by decide),
      renameFunctions_snoc_delim order hsub ')' (by decide),
      replaceUnaryMinusFrom_append prev _ _ (callPrefixes_no_minus _ hpre),
      replaceUnaryMinusFrom_cons_other _ '(' _ (by decide), replaceUnaryMinusFrom_split,
      replaceUnaryMinusFrom_cons_other _ ')' _ (by decide)]
    exact .call _ _ hpre (ih (some '(') (by decide))
  | binary op E1 E2 hop _ _ ih1 ih2 =>
    intro prev hprev
    have h1 := ih1 prev hprev
    rw [renameFunctions_append_delim order hsub op (isNameLetter_of_isBinaryOperator hop),
      replaceUnaryMinusFrom_split,
      replaceUnaryMinusFrom_cons_binary _ op _ (h1.normal_lastOr prev)]
    exact .binary op _ _ hop h1 (ih2 (some op) (isUnaryMinus_of_isBinaryOperator hop))

/-! ## Token lists -/
theorem joinTokens_append (a b : List (List Char)) :
    joinTokens (a ++ b) = joinTokens a ++ joinTokens b := by
  induction a with
  | nil => rfl
  | cons t a ih => simp [joinTokens, ih]
theorem joinTokens_symbols (cs : List Char) :
    joinTokens (cs.map (fun c => [c])) = symbolsText cs := by
  induction cs with
  | nil => rfl
  | cons c cs ih => simp [joinTokens, symbolsText, ih]
theorem splitTokens_joinTokens (ts : List (List Char))
    (hts : ∀ t ∈ ts, t ≠ [] ∧ ∀ c ∈ t, ModelCalculator.isSpace c = false) :
    splitTokens (joinTokens ts) [] = ts := by
  induction ts with
  | nil => rfl
  | cons t ts ih =>
    obtain ⟨hne, hsp⟩ := hts t (by simp)
    rw [joinTokens, splitTokens_token t _ [] hsp (by simpa using hne),
      ih (fun u hu => hts u (by simp [hu]))]
    rfl
theorem RpnToken.valid_text {t : RpnToken} (h : t.Valid) :
    t.text ≠ [] ∧ ∀ c ∈ t.text, ModelCalculator.isSpace c = false := by
  cases t with
  | operand t =>
    rcases h with rfl | hl
    · exact ⟨operandRun_x.1, operandRun_x.run_no_space⟩
    · exact hl.literal_no_space
  | symbol c =>
    refine ⟨by simp [RpnToken.text], ?_⟩
    intro d hd
    simp only [RpnToken.text, List.mem_singleton] at hd
    subst hd
    have h' : (ModelCalculator.isBinaryOperator d || ModelCalculator.isUnaryOperator d) = true := h
    rw [Bool.or_eq_true] at h'
    rcases h' with h' | h'
    · exact isSpace_of_isBinaryOperator h'
    · exact isSpace_of_isUnaryOperator h'
theorem splitTokens_rpnTokens (toks : List RpnToken) (h : ∀ t ∈ toks, t.Valid) :
    splitTokens (trim (joinTokens (toks.map RpnToken.text))) [] = toks.map RpnToken.text := by
  rw [splitTokens_trim]
  apply splitTokens_joinTokens
  intro t ht
  obtain ⟨u, hu, rfl⟩ := List.mem_map.mp ht
  exact RpnToken.valid_text (h u hu)
/-! ## Heights -/
theorem stackHeight_operand (t : List Char) (ts : List RpnToken) (h : Nat) :
    stackHeight (.operand t :: ts) h = stackHeight ts (h + 1) := rfl
theorem stackHeight_symbol (c : Char) (ts : List RpnToken) (h : Nat) :
    stackHeight (.symbol c :: ts) h =
      if ModelCalculator.isBinaryOperator c then
        if 2 ≤ h then stackHeight ts (h - 1) else none
      else if ModelCalculator.isUnaryOperator c then
        if 1 ≤ h then stackHeight ts h else none
      else none := rfl
theorem stackHeight_append (a b : List RpnToken) :
    ∀ h, stackHeight (a ++ b) h = (stackHeight a h).bind (stackHeight b) := by
  induction a with
  | nil => intro h; rfl
  | cons t a ih =>
    intro h
    cases t with
    | operand t => rw [List.cons_append, stackHeight_operand, stackHeight_operand, ih]
    | symbol c =>
      rw [List.cons_append, stackHeight_symbol, stackHeight_symbol]
      split
      · split
        · exact ih _
        · rfl
      · split
        · split
          · exact ih _
          · rfl
        · rfl
theorem applyBinaryOperator_cases (P : Platform) (c : Char) (a b : ℚ)
    (hc : isBinaryOperator c = true) :
    (∃ r, applyBinaryOperator P c a b = .ok r) ∨
      applyBinaryOperator P c a b = .error .divisionByZero := by
  simp only [isBinaryOperator, Bool.or_eq_true, beq_iff_eq] at hc
  by_cases hb : b = 0
  · rcases hc with ((((h | h) | h) | h) | h) | h <;> subst h <;>
      simp [applyBinaryOperator, hb]
  · rcases hc with ((((h | h) | h) | h) | h) | h <;> subst h <;>
      simp [applyBinaryOperator, hb]
theorem applyUnaryOperator_cases (P : Platform) (c : Char) (a : ℚ)
    (hc : isUnaryOperator c = true) :
    (∃ r, applyUnaryOperator P c a = .ok r) ∨
      applyUnaryOperator P c a = .error .negativeRoot ∨
      applyUnaryOperator P c a = .error .nonPositiveLog := by
  simp only [isUnaryOperator, Bool.or_eq_true, beq_iff_eq] at hc
  by_cases h1 : a < 0 <;> by_cases h2 : a ≤ 0 <;>
    rcases hc with ((((((((h | h) | h) | h) | h) | h) | h) | h) | h) | h <;> subst h <;>
      simp [applyUnaryOperator, h1, h2]
/-- The exception `e` is the one the evaluator throws on a literal among the tokens that is
not read: "Unknown token" when `iss >> d` rejects it, the exception of `std::stod` when
that throws. -/
theorem unread_cons (P : Platform) (t : RpnToken) (toks : List RpnToken) (e : Error)
    (h : ∃ N, RpnToken.operand N ∈ toks ∧ Literal N ∧ readLiteral P N = .error e) :
    ∃ N, RpnToken.operand N ∈ t :: toks ∧ Literal N ∧ readLiteral P N = .error e := by
  obtain ⟨N, hN, hl, hr⟩ := h
  exact ⟨N, List.mem_cons_of_mem _ hN, hl, hr⟩
/-- The evaluator on a token list of known height: it never meets a token that lacks
operands, and no unknown token other than a literal that is not read; it either stops on
such a literal or on an exception of an operation, or ends with the predicted number of
values. -/
theorem evaluateLoop_wellFormed (P : Platform) (hP : P.Basic) (x : ℚ) :
    ∀ (toks : List RpnToken), (∀ t ∈ toks, t.Valid) → ∀ (stack : List ℚ) (h1 : Nat),
      stackHeight toks stack.length = some h1 →
      (∃ stack1, evaluateLoop P x (toks.map RpnToken.text) stack = .ok stack1 ∧
          stack1.length = h1) ∨
        (∃ e, evaluateLoop P x (toks.map RpnToken.text) stack = .error e ∧
          (DomainError e ∨
            ∃ N, RpnToken.operand N ∈ toks ∧ Literal N ∧ readLiteral P N = .error e)) := by
  intro toks
  induction toks with
  | nil =>
    intro _ stack h1 h
    simp only [stackHeight, Option.some.injEq] at h
    exact Or.inl ⟨stack, rfl, h⟩
  | cons t toks ih =>
    intro hv stack h1 h
    have hv' : ∀ u ∈ toks, u.Valid := fun u hu => hv u (by simp [hu])
    have hstep : ∀ (stack2 : List ℚ), stackHeight toks stack2.length = some h1 →
        (∃ stack1, evaluateLoop P x (toks.map RpnToken.text) stack2 = .ok stack1 ∧
            stack1.length = h1) ∨
          (∃ e, evaluateLoop P x (toks.map RpnToken.text) stack2 = .error e ∧
            (DomainError e ∨
              ∃ N, RpnToken.operand N ∈ t :: toks ∧ Literal N ∧
                readLiteral P N = .error e)) := by
      intro stack2 h2
      rcases ih hv' stack2 h1 h2 with hok | ⟨e, he, hd | hu⟩
      · exact Or.inl hok
      · exact Or.inr ⟨e, he, Or.inl hd⟩
      · exact Or.inr ⟨e, he, Or.inr (unread_cons P t toks e hu)⟩
    cases t with
    | operand t =>
      simp only [List.map_cons, RpnToken.text]
      rcases hv (.operand t) (by simp) with rfl | hl
      · rw [evaluateLoop_x]
        exact hstep (x :: stack) (by simpa [stackHeight] using h)
      · rw [evaluateLoop_literal_token P x t hl]
        cases hr : readLiteral P t with
        | ok v => exact hstep (v :: stack) (by simpa [stackHeight] using h)
        | error e => exact Or.inr ⟨e, rfl, Or.inr ⟨t, by simp, hl, hr⟩⟩
    | symbol c =>
      simp only [List.map_cons, RpnToken.text]
      by_cases hb : isBinaryOperator c = true
      · simp only [stackHeight, hb, if_true] at h
        by_cases h2 : 2 ≤ stack.length
        · simp only [h2, if_true] at h
          match stack, h2, h with
          | b :: a :: stack, _, h =>
            rw [evaluateLoop_binary_basic P hP x c hb]
            rcases applyBinaryOperator_cases P c a b hb with ⟨r, hr⟩ | hr
            · rw [hr]
              exact hstep (r :: stack) (by simpa using h)
            · rw [hr]
              exact Or.inr ⟨_, rfl, Or.inl (Or.inl rfl)⟩
        · simp [h2] at h
      · have hb' : isBinaryOperator c = false := by simpa using hb
        have hu : isUnaryOperator c = true := by
          have := hv (.symbol c) (by simp)
          simpa [RpnToken.Valid, hb'] using this
        simp only [stackHeight, hb', hu, Bool.false_eq_true, if_false, if_true] at h
        by_cases h2 : 1 ≤ stack.length
        · simp only [h2, if_true] at h
          match stack, h2, h with
          | a :: stack, _, h =>
            rw [evaluateLoop_unary_basic P hP x c hu]
            rcases applyUnaryOperator_cases P c a hu with ⟨r, hr⟩ | hr | hr
            · rw [hr]
              exact hstep (r :: stack) (by simpa using h)
            · rw [hr]
              exact Or.inr ⟨_, rfl, Or.inl (Or.inr (Or.inl rfl))⟩
            · rw [hr]
              exact Or.inr ⟨_, rfl, Or.inl (Or.inr (Or.inr rfl))⟩
        · simp [h2] at h
/-- A text of valid tokens of height one evaluates to a number, or stops on an exception
of an operation or on a literal that is not read. -/
theorem evaluateRPN_wellFormed (P : Platform) (hP : P.Basic) (x : ℚ) (toks : List RpnToken)
    (hv : ∀ t ∈ toks, t.Valid) (hh : stackHeight toks 0 = some 1) :
    (∃ v, evaluateLoop P x (splitTokens (trim (joinTokens (toks.map RpnToken.text))) []) [] =
          .ok [v] ∧
        evaluateRPN P (trim (joinTokens (toks.map RpnToken.text))) x = .ok v) ∨
      (∃ e, evaluateRPN P (trim (joinTokens (toks.map RpnToken.text))) x = .error e ∧
        (DomainError e ∨
          ∃ N, RpnToken.operand N ∈ toks ∧ Literal N ∧ readLiteral P N = .error e)) := by
  unfold evaluateRPN
  rw [splitTokens_rpnTokens toks hv]
  rcases evaluateLoop_wellFormed P hP x toks hv [] 1 hh with ⟨stack1, h1, hl⟩ | ⟨e, h1, he⟩
  · match stack1, hl with
    | [v], _ =>
      rw [h1]
      exact Or.inl ⟨v, rfl, rfl⟩
  · rw [h1]
    exact Or.inr ⟨e, rfl, he⟩

/-! ## The pops of the converter on a stack segment -/
theorem isStackChar_of_pending {c : Char} (h : (isOperator c || isFunction c) = true) :
    isStackChar c = true := by
  simp only [isStackChar, h, Bool.true_or]
theorem pending_cases {c : Char} (h : (isOperator c || isFunction c) = true) :
    c ∈ ['+', '-', '*', '/', '^', '%', '~', 's', 'c', 't', 'i', 'o', 'n', 'q', 'l', 'g'] := by
  have h1 := isStackChar_cases (isStackChar_of_pending h)
  simp only [List.mem_cons, List.mem_singleton, List.not_mem_nil, or_false] at h1 ⊢
  rcases h1 with h1 | h1 | h1 | h1 | h1 | h1 | h1 | h1 | h1 | h1 | h1 | h1 | h1 | h1 | h1 | h1 | h1
  all_goals (subst h1; revert h; decide)
theorem pending_ne_open {c : Char} (h : (isOperator c || isFunction c) = true) : c ≠ '(' := by
  rintro rfl
  revert h
  decide
theorem pending_valid {c : Char} (h : (isOperator c || isFunction c) = true) :
    (RpnToken.symbol c).Valid := by
  show (ModelCalculator.isBinaryOperator c || ModelCalculator.isUnaryOperator c) = true
  have h1 := pending_cases h
  simp only [List.mem_cons, List.mem_singleton, List.not_mem_nil, or_false] at h1
  rcases h1 with h1 | h1 | h1 | h1 | h1 | h1 | h1 | h1 | h1 | h1 | h1 | h1 | h1 | h1 | h1 | h1 <;>
    subst h1 <;> decide
theorem pending_priority {c : Char} (h : (isOperator c || isFunction c) = true) :
    ∃ p, getOperatorPriority c = .ok p ∧ 1 ≤ p := by
  have h1 := pending_cases h
  simp only [List.mem_cons, List.mem_singleton, List.not_mem_nil, or_false] at h1
  rcases h1 with h1 | h1 | h1 | h1 | h1 | h1 | h1 | h1 | h1 | h1 | h1 | h1 | h1 | h1 | h1 | h1 <;>
    subst h1 <;> exact ⟨_, rfl, by decide⟩
theorem pending_of_isBinaryOperator {c : Char} (h : isBinaryOperator c = true) :
    (isOperator c || isFunction c) = true := by
  simp only [isBinaryOperator, Bool.or_eq_true, beq_iff_eq] at h
  rcases h with ((((h | h) | h) | h) | h) | h <;> subst h <;> decide
theorem popHigherPriority_cons (c topOperator : Char) (ops output : List Char) :
    popHigherPriority c (topOperator :: ops) output =
      match getOperatorPriority topOperator, getOperatorPriority c with
      | .ok topPriority, .ok currentPriority =>
        if topPriority ≥ currentPriority then
          popHigherPriority c ops (output ++ [topOperator, ' '])
        else .ok (topOperator :: ops, output)
      | .error e, _ => .error e
      | _, .error e => .error e := rfl
/-- The loop of `handleOperator` pops a top part of the segment and stops at the frame
base. -/
theorem popHigherPriority_split (c : Char) (hc : isBinaryOperator c = true) (rest : List Char)
    (hrest : FrameBase rest) :
    ∀ (above out : List Char), Pending above →
      ∃ popped kept, above = popped ++ kept ∧
        popHigherPriority c (above ++ rest) out = .ok (kept ++ rest, out ++ symbolsText popped) := by
  obtain ⟨pc, hpc, hpc1⟩ := pending_priority (pending_of_isBinaryOperator hc)
  intro above
  induction above with
  | nil =>
    intro out _
    refine ⟨[], [], rfl, ?_⟩
    cases rest with
    | nil => simp [popHigherPriority, symbolsText]
    | cons r rest =>
      have hr : r = '(' := hrest r (by simp)
      subst hr
      have h0 : getOperatorPriority '(' = .ok 0 := rfl
      rw [List.nil_append, popHigherPriority_cons, h0, hpc]
      have : ¬ (0 ≥ pc) := by omega
      simp [this, symbolsText]
  | cons t above ih =>
    intro out hp
    obtain ⟨pt, hpt, -⟩ := pending_priority (hp t (by simp))
    have hp' : Pending above := fun d hd => hp d (by simp [hd])
    rw [List.cons_append, popHigherPriority_cons, hpt, hpc]
    by_cases hge : pt ≥ pc
    · obtain ⟨popped, kept, hsplit, hpop⟩ := ih (out ++ [t, ' ']) hp'
      refine ⟨t :: popped, kept, by rw [hsplit]; rfl, ?_⟩
      simp only [hge, if_true]
      rw [hpop]
      simp [symbolsText]
    · refine ⟨[], t :: above, rfl, ?_⟩
      simp [hge, symbolsText]
theorem popToParenthesis_cons (top : Char) (ops output : List Char) :
    popToParenthesis (top :: ops) output =
      if top ≠ '(' then popToParenthesis ops (output ++ [top, ' '])
      else (top :: ops, output) := rfl
/-- The first loop of `handleParenthesis` pops the whole segment above a `(`. -/
theorem popToParenthesis_split (rest : List Char) :
    ∀ (above out : List Char), Pending above →
      popToParenthesis (above ++ '(' :: rest) out = ('(' :: rest, out ++ symbolsText above) := by
  intro above
  induction above with
  | nil => intro out _; simp [popToParenthesis, symbolsText]
  | cons t above ih =>
    intro out hp
    have ht : t ≠ '(' := pending_ne_open (hp t (by simp))
    rw [List.cons_append, popToParenthesis_cons, if_pos ht,
      ih _ (fun d hd => hp d (by simp [hd]))]
    simp [symbolsText]
/-! ## The height of the output when a segment is popped -/
theorem binCount_cons (c : Char) (ops : List Char) :
    binCount (c :: ops) = binCount ops + if isBinaryOperator c then 1 else 0 := by
  simp [binCount, List.countP_cons]
theorem binCount_append (a b : List Char) : binCount (a ++ b) = binCount a + binCount b := by
  simp [binCount, List.countP_append]
theorem pending_unary {c : Char} (h : (isOperator c || isFunction c) = true)
    (hb : isBinaryOperator c = false) : isUnaryOperator c = true := by
  have h1 := pending_cases h
  simp only [List.mem_cons, List.mem_singleton, List.not_mem_nil, or_false] at h1
  rcases h1 with h1 | h1 | h1 | h1 | h1 | h1 | h1 | h1 | h1 | h1 | h1 | h1 | h1 | h1 | h1 | h1 <;>
    subst h1 <;> revert hb <;> decide
theorem stackHeight_popped : ∀ (popped : List Char), Pending popped → ∀ h : Nat,
    binCount popped + 1 ≤ h →
      stackHeight (popped.map RpnToken.symbol) h = some (h - binCount popped) := by
  intro popped
  induction popped with
  | nil => intro _ h _; simp [stackHeight, binCount]
  | cons c popped ih =>
    intro hp h hh
    have hp' : Pending popped := fun d hd => hp d (by simp [hd])
    rw [binCount_cons] at hh ⊢
    rw [List.map_cons, stackHeight_symbol]
    by_cases hb : isBinaryOperator c = true
    · simp only [hb, if_true] at hh ⊢
      have h2 : 2 ≤ h := by omega
      rw [if_pos h2, ih hp' (h - 1) (by omega)]
      congr 1
      omega
    · have hb' : isBinaryOperator c = false := by simpa using hb
      have hu := pending_unary (hp c (by simp)) hb'
      simp only [hb', hu, Bool.false_eq_true, if_false, if_true, Nat.add_zero] at hh ⊢
      have h1 : 1 ≤ h := by omega
      rw [if_pos h1, ih hp' h hh]
theorem stackHeight_emit (toks : List RpnToken) (popped : List Char) (hp : Pending popped)
    (h : Nat) (hh : stackHeight toks 0 = some h) (hle : binCount popped + 1 ≤ h) :
    stackHeight (toks ++ popped.map RpnToken.symbol) 0 = some (h - binCount popped) := by
  rw [stackHeight_append, hh]
  exact stackHeight_popped popped hp h hle
theorem joinTokens_emit (toks : List RpnToken) (popped : List Char) :
    joinTokens ((toks ++ popped.map RpnToken.symbol).map RpnToken.text) =
      joinTokens (toks.map RpnToken.text) ++ symbolsText popped := by
  rw [List.map_append, joinTokens_append, List.map_map]
  congr 1
  exact joinTokens_symbols popped
theorem joinTokens_operand (toks : List RpnToken) (t : List Char) :
    joinTokens ((toks ++ [RpnToken.operand t]).map RpnToken.text) =
      joinTokens (toks.map RpnToken.text) ++ (t ++ [' ']) := by
  rw [List.map_append, joinTokens_append]
  simp [joinTokens, RpnToken.text]
theorem valid_emit (toks : List RpnToken) (popped : List Char) (hv : ∀ t ∈ toks, t.Valid)
    (hp : Pending popped) : ∀ t ∈ toks ++ popped.map RpnToken.symbol, t.Valid := by
  intro t ht
  rcases List.mem_append.mp ht with h | h
  · exact hv t h
  · obtain ⟨c, hc, rfl⟩ := List.mem_map.mp h
    exact pending_valid (hp c hc)

/-! ## Steps of the scan on a stack segment -/
theorem scan_close_segment (tail above rest out : List Char) (hp : Pending above) :
    scan (')' :: tail) ⟨above ++ '(' :: rest, out, []⟩ =
      scan tail ⟨rest, out ++ symbolsText above, []⟩ := by
  rw [scan_close, popToParenthesis_split rest above out hp]
  rfl
theorem scan_binary_segment (c : Char) (hc : isBinaryOperator c = true)
    (tail above rest out : List Char) (hp : Pending above) (hrest : FrameBase rest) :
    ∃ popped kept, above = popped ++ kept ∧
      scan (c :: tail) ⟨above ++ rest, out, []⟩ =
        scan tail ⟨(c :: kept) ++ rest, out ++ symbolsText popped, []⟩ := by
  obtain ⟨popped, kept, hsplit, hpop⟩ := popHigherPriority_split c hc rest hrest above out hp
  refine ⟨popped, kept, hsplit, ?_⟩
  rw [scan_binary c tail _ out hc, hpop]
  rfl
theorem scan_letter_a (rest : List Char) (st : Conv) : scan ('a' :: rest) st = scan rest st := by
  rw [scan_cons]
  rfl
theorem scan_callPrefixes (pre : List Char) (hpre : pre ∈ callPrefixes) :
    ∃ g, isFunction g = true ∧ isBinaryOperator g = false ∧
      ∀ tail ops out : List Char,
        scan (pre ++ tail) ⟨ops, out, []⟩ = scan tail ⟨g :: ops, out, []⟩ := by
  obtain ⟨g, hg, hform⟩ := callPrefixes_form pre hpre
  have hb : isBinaryOperator g = false := by
    simp only [isFunction, Bool.or_eq_true, beq_iff_eq] at hg
    rcases hg with (((((((h | h) | h) | h) | h) | h) | h) | h) | h <;> subst h <;> rfl
  refine ⟨g, hg, hb, ?_⟩
  intro tail ops out
  rcases hform with rfl | rfl
  · exact scan_function g tail ops out hg
  · rw [List.cons_append, scan_letter_a]
    exact scan_function g tail ops out hg
theorem runEnds_close (tail : List Char) : RunEnds (')' :: tail) :=
  RunEnds_cons ')' tail (by decide)
theorem frameBase_open (rest : List Char) : FrameBase ('(' :: rest) := by
  intro c hc
  simp only [List.head?_cons, Option.mem_def, Option.some.injEq] at hc
  exact hc.symm
theorem frameBase_nil : FrameBase [] := by
  intro c hc
  simp at hc
theorem pending_nil : Pending [] := by
  intro c hc
  simp at hc
theorem pending_cons {c : Char} {above : List Char}
    (hc : (isOperator c || isFunction c) = true) (h : Pending above) : Pending (c :: above) := by
  intro d hd
  simp only [List.mem_cons] at hd
  rcases hd with rfl | hd
  · exact hc
  · exact h d hd
/-- The scan of an operand token. -/
theorem scan_operandToken (t : List Char) (ht : (RpnToken.operand t).Valid)
    (tail ops : List Char) (toks : List RpnToken) (h : Nat) (htail : RunEnds tail)
    (hv : ∀ u ∈ toks, u.Valid) (hh : stackHeight toks 0 = some h) :
    scan (t ++ tail) ⟨ops, joinTokens (toks.map RpnToken.text), []⟩ =
        scan tail ⟨ops, joinTokens ((toks ++ [RpnToken.operand t]).map RpnToken.text), []⟩ ∧
      (∀ u ∈ toks ++ [RpnToken.operand t], u.Valid) ∧
      stackHeight (toks ++ [RpnToken.operand t]) 0 = some (h + 1) := by
  have hscan : scan (t ++ tail) ⟨ops, joinTokens (toks.map RpnToken.text), []⟩ =
      scan tail ⟨ops, joinTokens (toks.map RpnToken.text) ++ (t ++ [' ']), []⟩ := by
    rcases ht with rfl | hl
    · exact scan_run ['x'] tail ops _ operandRun_x.1 operandRun_x.2 htail
    · exact scan_literal hl tail ops _ htail
  refine ⟨?_, ?_, ?_⟩
  · rw [hscan, joinTokens_operand]
  · intro u hu
    rcases List.mem_append.mp hu with h1 | h1
    · exact hv u h1
    · simp only [List.mem_singleton] at h1
      subst h1
      exact ht
  · rw [stackHeight_append, hh]
    rfl
/-- The scan of a normalized expression from a state whose output has a known height: the
frame base is left as it is, the segment above it stays a segment of operators, and the
output gains one value for the expression, the binary operators still on the segment
being counted as pending. -/
theorem scan_normalExpr {E : List Char} (hE : NormalExpr E) :
    ∀ (tail above rest : List Char) (toks : List RpnToken) (h : Nat),
      RunEnds tail → Pending above → FrameBase rest → (∀ t ∈ toks, t.Valid) →
      stackHeight toks 0 = some h → binCount above ≤ h →
      ∃ above1 toks1 h1,
        scan (E ++ tail) ⟨above ++ rest, joinTokens (toks.map RpnToken.text), []⟩ =
          scan tail ⟨above1 ++ rest, joinTokens (toks1.map RpnToken.text), []⟩ ∧
        Pending above1 ∧ (∀ t ∈ toks1, t.Valid) ∧ stackHeight toks1 0 = some h1 ∧
        h1 + binCount above = h + 1 + binCount above1 := by
  induction hE with
  | literal N hN =>
    intro tail above rest toks h htail hp _ hv hh _
    obtain ⟨h1, h2, h3⟩ :=
      scan_operandToken N (Or.inr hN) tail (above ++ rest) toks h htail hv hh
    exact ⟨above, _, h + 1, h1, hp, h2, h3, by omega⟩
  | var =>
    intro tail above rest toks h htail hp _ hv hh _
    obtain ⟨h1, h2, h3⟩ :=
      scan_operandToken ['x'] (Or.inl rfl) tail (above ++ rest) toks h htail hv hh
    exact ⟨above, _, h + 1, h1, hp, h2, h3, by omega⟩
  | group E _ ih =>
    intro tail above rest toks h htail hp _ hv hh hle
    obtain ⟨above1, toks1, h1, hs, hp1, hv1, hh1, heq⟩ :=
      ih (')' :: tail) [] ('(' :: (above ++ rest)) toks h (runEnds_close tail) pending_nil
        (frameBase_open _) hv hh (Nat.zero_le _)
    have hb0 : binCount [] = 0 := rfl
    rw [hb0] at heq
    refine ⟨above, toks1 ++ above1.map RpnToken.symbol, h1 - binCount above1, ?_, hp,
      valid_emit toks1 above1 hv1 hp1, stackHeight_emit toks1 above1 hp1 h1 hh1 (by omega),
      by omega⟩
    rw [List.cons_append, List.append_assoc, scan_open]
    rw [List.nil_append] at hs
    rw [List.singleton_append, hs, scan_close_segment tail above1 (above ++ rest) _ hp1,
      joinTokens_emit]
  | negation E _ ih =>
    intro tail above rest toks h htail hp hrest hv hh hle
    have hb : binCount ('~' :: above) = binCount above := by
      rw [binCount_cons]
      rfl
    obtain ⟨above1, toks1, h1, hs, hp1, hv1, hh1, heq⟩ :=
      ih tail ('~' :: above) rest toks h htail (pending_cons (by decide) hp) hrest hv hh
        (by rw [hb]; exact hle)
    rw [hb] at heq
    refine ⟨above1, toks1, h1, ?_, hp1, hv1, hh1, heq⟩
    rw [List.cons_append, scan_unaryMinus]
    exact hs
  | call pre E hpre _ ih =>
    intro tail above rest toks h htail hp _ hv hh hle
    obtain ⟨g, hg, hgb, hscan⟩ := scan_callPrefixes pre hpre
    have hgp : (isOperator g || isFunction g) = true := by simp [hg]
    have hb : binCount (g :: above) = binCount above := by
      rw [binCount_cons, hgb]
      rfl
    obtain ⟨above1, toks1, h1, hs, hp1, hv1, hh1, heq⟩ :=
      ih (')' :: tail) [] ('(' :: g :: (above ++ rest)) toks h (runEnds_close tail)
        pending_nil (frameBase_open _) hv hh (Nat.zero_le _)
    have hb0 : binCount [] = 0 := rfl
    rw [hb0] at heq
    refine ⟨g :: above, toks1 ++ above1.map RpnToken.symbol, h1 - binCount above1, ?_,
      pending_cons hgp hp, valid_emit toks1 above1 hv1 hp1,
      stackHeight_emit toks1 above1 hp1 h1 hh1 (by omega), by rw [hb]; omega⟩
    rw [List.append_assoc, hscan, List.cons_append, List.append_assoc, scan_open]
    rw [List.nil_append] at hs
    rw [List.singleton_append, hs, scan_close_segment tail above1 _ _ hp1, joinTokens_emit]
    rfl
  | binary op E1 E2 hop _ _ ih1 ih2 =>
    intro tail above rest toks h htail hp hrest hv hh hle
    obtain ⟨above1, toks1, h1, hs1, hp1, hv1, hh1, heq1⟩ :=
      ih1 (op :: (E2 ++ tail)) above rest toks h (runEnds_of_isBinaryOperator op _ hop) hp hrest
        hv hh hle
    obtain ⟨popped, kept, hsplit, hsb⟩ :=
      scan_binary_segment op hop (E2 ++ tail) above1 rest
        (joinTokens (toks1.map RpnToken.text)) hp1 hrest
    have hpp : Pending popped := fun c hc => hp1 c (by rw [hsplit]; simp [hc])
    have hpk : Pending kept := fun c hc => hp1 c (by rw [hsplit]; simp [hc])
    have hbs : binCount above1 = binCount popped + binCount kept := by
      rw [hsplit, binCount_append]
    have hbo : binCount (op :: kept) = binCount kept + 1 := by
      rw [binCount_cons, hop]
      rfl
    have hh2 := stackHeight_emit toks1 popped hpp h1 hh1 (by omega)
    obtain ⟨above2, toks2, h2, hs2, hp2, hv2, hhh2, heq2⟩ :=
      ih2 tail (op :: kept) rest (toks1 ++ popped.map RpnToken.symbol) (h1 - binCount popped)
        htail (pending_cons (pending_of_isBinaryOperator hop) hpk) hrest
        (valid_emit toks1 popped hv1 hpp) hh2 (by rw [hbo]; omega)
    rw [hbo] at heq2
    refine ⟨above2, toks2, h2, ?_, hp2, hv2, hhh2, by omega⟩
    rw [List.append_assoc, List.cons_append, hs1, hsb, ← joinTokens_emit]
    exact hs2

/-- The conversion of a valid expression: `toRPN` returns, and its output is a text of
valid tokens that leaves exactly one value. -/
theorem toRPN_validExpr (order : List (List Char × Char)) (horder : order.Perm functions)
    (E : List Char) (hE : ValidExpr E) :
    ∃ toks : List RpnToken,
      toRPN order E = .ok (trim (joinTokens (toks.map RpnToken.text))) ∧
        (∀ t ∈ toks, t.Valid) ∧ stackHeight toks 0 = some 1 := by
  have hN : NormalExpr (processedInfix order E) :=
    normalExpr_of_validExpr order horder E hE none rfl
  obtain ⟨above1, toks1, h1, hs, hp1, hv1, hh1, heq⟩ :=
    scan_normalExpr hN [] [] [] [] 0 RunEnds_nil pending_nil frameBase_nil
      (fun t ht => by simp at ht) rfl (Nat.le_refl _)
  have hb0 : binCount [] = 0 := rfl
  rw [hb0] at heq
  simp only [List.append_nil, List.map_nil, joinTokens, scan_nil] at hs
  refine ⟨toks1 ++ above1.map RpnToken.symbol, ?_, valid_emit toks1 above1 hv1 hp1, ?_⟩
  · rw [toRPN_of_scan order E _ hs, joinTokens_emit]
    simp only [flushToken_empty, flushOperators, flushOperatorsLoop_eq]
  · rw [stackHeight_emit toks1 above1 hp1 h1 hh1 (by omega)]
    congr 1
    omega
theorem readLiteral_error_cases (P : Platform) (N : List Char) (e : Error)
    (h : readLiteral P N = .error e) :
    (e = .unknownToken N ∧ P.streamReadsDouble N = false) ∨
      (e = .stodFailed N ∧ P.streamReadsDouble N = true ∧ P.stod N = none) := by
  unfold readLiteral at h
  cases hs : P.streamReadsDouble N with
  | false =>
    rw [hs] at h
    simp only [Bool.false_eq_true, if_false, Except.error.injEq] at h
    exact Or.inl ⟨h.symm, rfl⟩
  | true =>
    rw [hs] at h
    simp only [if_true] at h
    cases hv : P.stod N with
    | none =>
      rw [hv] at h
      simp only [Except.error.injEq] at h
      exact Or.inr ⟨h.symm, rfl, rfl⟩
    | some v => rw [hv] at h; cases h
/-- The outcome of the conversion and evaluation of a valid expression. -/
theorem evaluateRPN_validExpr (P : Platform) (hP : P.Basic) (E : List Char)
    (hE : ValidExpr E) (x : ℚ) :
    ∃ rpn, toRPN P.functionOrder E = .ok rpn ∧
      ((∃ v, evaluateLoop P x (splitTokens rpn []) [] = .ok [v] ∧
          evaluateRPN P rpn x = .ok v) ∨
        (∃ e, evaluateRPN P rpn x = .error e ∧ DomainError e) ∨
        (∃ N e, Literal N ∧ N ∈ splitTokens rpn [] ∧ readLiteral P N = .error e ∧
          evaluateRPN P rpn x = .error e)) := by
  obtain ⟨toks, hrpn, hv, hh⟩ := toRPN_validExpr P.functionOrder hP.order_perm E hE
  refine ⟨_, hrpn, ?_⟩
  rw [splitTokens_rpnTokens toks hv]
  rcases evaluateRPN_wellFormed P hP x toks hv hh with ⟨v, h1, h2⟩ | ⟨e, h, hd | ⟨N, hN, hl, hr⟩⟩
  · rw [splitTokens_rpnTokens toks hv] at h1
    exact Or.inl ⟨v, h1, h2⟩
  · exact Or.inr (Or.inl ⟨e, h, hd⟩)
  · exact Or.inr (Or.inr ⟨N, e, hl, List.mem_map.mpr ⟨_, hN, rfl⟩, hr, h⟩)
/-- C11 (amended). Well-formed postfix for valid input: for every valid expression `E` of
the grammar `E ::= literal | x | (E) | -E | f(E) | E op E` (literals in fixed or scientific
notation, `f` one of the nine function names, `op` one of `+ - * / ^ %`), `toRPN` returns,
and the stack evaluation of its output at any `x` ends with exactly one value on the stack,
which `evaluateRPN` returns, or stops on an exception of an operation (division by zero, or
the domain error of `sqrt`, `ln`, `log`), or stops on a literal token of the output that is
not read; it never fails with "not enough operands", and it fails with "Unknown token"
only on a literal that `iss >> d` rejects; when every literal is read it ends with one
value or stops on an exception of an operation. -/
theorem C11_well_formed_postfix (P : Platform) (hP : P.Basic) (E : List Char)
    (hE : ValidExpr E) (x : ℚ) :
    ∃ rpn, toRPN P.functionOrder E = .ok rpn ∧
      ((∃ v, evaluateLoop P x (splitTokens rpn []) [] = .ok [v] ∧
          evaluateRPN P rpn x = .ok v) ∨
        (∃ e, evaluateRPN P rpn x = .error e ∧ DomainError e) ∨
        (∃ N e, Literal N ∧ N ∈ splitTokens rpn [] ∧ readLiteral P N = .error e ∧
          evaluateRPN P rpn x = .error e)) ∧
      evaluateRPN P rpn x ≠ .error .notEnoughOperands ∧
      (∀ token, evaluateRPN P rpn x = .error (.unknownToken token) →
        Literal token ∧ token ∈ splitTokens rpn [] ∧ P.streamReadsDouble token = false) ∧
      ((∀ N ∈ splitTokens rpn [], Literal N → ∃ v, readLiteral P N = .ok v) →
        (∃ v, evaluateLoop P x (splitTokens rpn []) [] = .ok [v] ∧
            evaluateRPN P rpn x = .ok v) ∨
          (∃ e, evaluateRPN P rpn x = .error e ∧ DomainError e)) := by
  obtain ⟨rpn, hrpn, hw⟩ := evaluateRPN_validExpr P hP E hE x
  refine ⟨rpn, hrpn, hw, ?_, ?_, ?_⟩
  · rcases hw with ⟨v, -, h⟩ | ⟨e, h, he⟩ | ⟨N, e, -, -, hr, h⟩
    · rw [h]; simp
    · rw [h]
      rcases he with rfl | rfl | rfl <;> simp
    · rw [h]
      rcases readLiteral_error_cases P N e hr with ⟨rfl, -⟩ | ⟨rfl, -, -⟩ <;> simp
  · intro token ht
    rcases hw with ⟨v, -, h⟩ | ⟨e, h, he⟩ | ⟨N, e, hl, hm, hr, h⟩
    · rw [h] at ht; cases ht
    · rw [h] at ht
      cases ht
      rcases he with he | he | he <;> cases he
    · rw [h] at ht
      cases ht
      rcases readLiteral_error_cases P N _ hr with ⟨he, hs⟩ | ⟨he, -, -⟩
      · cases he
        exact ⟨hl, hm, hs⟩
      · cases he
  · intro hall
    rcases hw with h | h | ⟨N, e, hl, hm, hr, -⟩
    · exact Or.inl h
    · exact Or.inr h
    · obtain ⟨v, hv⟩ := hall N hm hl
      rw [hv] at hr
      cases hr
/-- C11, witness: on the platform with the semantics of `double`, the valid expression
`-sin(x)^2*(3-1.5e2)` converts to `x 2 ^ s ~ 3 1.5e2 - *` and the theorem applies to it. -/
theorem C11_well_formed_postfix_witness :
    doublePlatform.Basic ∧ ValidExpr "-sin(x)^2*(3-1.5e2)".toList ∧
      toRPN doublePlatform.functionOrder "-sin(x)^2*(3-1.5e2)".toList =
        .ok "x 2 ^ s ~ 3 1.5e2 - *".toList ∧
      ∃ rpn, toRPN doublePlatform.functionOrder "-sin(x)^2*(3-1.5e2)".toList = .ok rpn ∧
        ((∃ v, evaluateLoop doublePlatform 7 (splitTokens rpn []) [] = .ok [v] ∧
            evaluateRPN doublePlatform rpn 7 = .ok v) ∨
          (∃ e, evaluateRPN doublePlatform rpn 7 = .error e ∧ DomainError e) ∨
          (∃ N e, Literal N ∧ N ∈ splitTokens rpn [] ∧
            readLiteral doublePlatform N = .error e ∧
            evaluateRPN doublePlatform rpn 7 = .error e)) ∧
        evaluateRPN doublePlatform rpn 7 ≠ .error .notEnoughOperands := by
  have h15 : Literal "1.5e2".toList :=
    Or.inr (SciLit.unsigned "1.5".toList "2".toList 'e' _
      (NumLit.fraction ['1'] ['5'] ⟨by simp, by decide⟩ ⟨by simp, by decide⟩) rfl
      ⟨by simp, by decide⟩)
  have hE : ValidExpr "-sin(x)^2*(3-1.5e2)".toList :=
    ValidExpr.negation _
      (ValidExpr.binary '*' "sin(x)^2".toList "(3-1.5e2)".toList rfl
        (ValidExpr.binary '^' "sin(x)".toList "2".toList rfl
          (ValidExpr.call ("sin".toList, 's') "x".toList (by decide) ValidExpr.var)
          (ValidExpr.literal _ (Or.inl ⟨_, numLit_of_digit '2' 2 (by decide) (by decide)⟩)))
        (ValidExpr.group "3-1.5e2".toList
          (ValidExpr.binary '-' "3".toList "1.5e2".toList rfl
            (ValidExpr.literal _ (Or.inl ⟨_, numLit_of_digit '3' 3 (by decide) (by decide)⟩))
            (ValidExpr.literal _ h15))))
  obtain ⟨rpn, h1, h2, h3, -, -⟩ :=
    C11_well_formed_postfix doublePlatform doublePlatform_basic _ hE 7
  exact ⟨doublePlatform_basic, hE, by decide, rpn, h1, h2, h3⟩
/-- C11, counterexample. The literal made of 1 and 400 zeros is a valid expression, `toRPN`
returns it as a single token, and on the platform with the semantics of `double` its stack
evaluation hits "Unknown token": the stream reader rejects the literal, which overflows
`double`. -/
theorem C11_well_formed_postfix_counterexample :
    ValidExpr hugeLiteral ∧
      toRPN doublePlatform.functionOrder hugeLiteral = .ok hugeLiteral ∧
      evaluateRPN doublePlatform hugeLiteral 0 = .error (.unknownToken hugeLiteral) :=
  ⟨ValidExpr.literal _ (Or.inl ⟨_, numLit_hugeLiteral⟩),
    toRPN_single _ doublePlatform_basic.basic_order_mem hugeLiteral numLit_hugeLiteral.lit_operandRun,
    (evaluateRPN_literal doublePlatform 0 hugeLiteral _ numLit_hugeLiteral).trans
      readLiteral_hugeLiteral⟩

/-! ## The parentheses through the preprocessor -/
theorem openDepth_cons_other (d : Nat) (c : Char) (rest : List Char) (h1 : c ≠ '(')
    (h2 : c ≠ ')') : openDepth d (c :: rest) = openDepth d rest := by
  simp [openDepth, h1, h2]
theorem openDepth_open (d : Nat) (rest : List Char) :
    openDepth d ('(' :: rest) = openDepth (d + 1) rest := by
  simp [openDepth]
theorem openDepth_close (d : Nat) (rest : List Char) :
    openDepth d (')' :: rest) = openDepth (d - 1) rest := by
  simp [openDepth]
theorem openDepth_append_plain (w rest : List Char) (hw : ∀ c ∈ w, c ≠ '(' ∧ c ≠ ')') :
    ∀ d, openDepth d (w ++ rest) = openDepth d rest := by
  induction w with
  | nil => intro d; rfl
  | cons c w ih =>
    intro d
    obtain ⟨h1, h2⟩ := hw c (by simp)
    rw [List.cons_append, openDepth_cons_other d c _ h1 h2]
    exact ih (fun e he => hw e (by simp [he])) d
theorem openDepth_replaceUnaryMinusFrom (s : List Char) : ∀ (prev : Option Char) (d : Nat),
    openDepth d (replaceUnaryMinusFrom prev s) = openDepth d s := by
  induction s with
  | nil => intro prev d; rfl
  | cons c s ih =>
    intro prev d
    by_cases h : (c == '-' && isUnaryMinus prev) = true
    · have hc : c = '-' := by
        simp only [Bool.and_eq_true, beq_iff_eq] at h
        exact h.1
      subst hc
      simp only [replaceUnaryMinusFrom, h, if_true]
      rw [openDepth_cons_other d '~' _ (by decide) (by decide),
        openDepth_cons_other d '-' _ (by decide) (by decide)]
      exact ih _ d
    · simp only [replaceUnaryMinusFrom, h, Bool.false_eq_true, if_false]
      by_cases h1 : c = '('
      · subst h1
        rw [openDepth_open, openDepth_open]
        exact ih _ _
      · by_cases h2 : c = ')'
        · subst h2
          rw [openDepth_close, openDepth_close]
          exact ih _ _
        · rw [openDepth_cons_other d c _ h1 h2, openDepth_cons_other d c _ h1 h2]
          exact ih _ d
theorem mem_renameFunctions (order : List (List Char × Char)) :
    ∀ (s : List Char), ∀ c ∈ renameFunctions order s, (∃ p ∈ order, c = p.2) ∨ c ∈ s := by
  unfold renameFunctions
  induction order with
  | nil => intro s c hc; exact Or.inr hc
  | cons p order ih =>
    intro s c hc
    rw [List.foldl_cons] at hc
    rcases ih _ c hc with ⟨q, hq, hcq⟩ | h
    · exact Or.inl ⟨q, by simp [hq], hcq⟩
    · rcases mem_replaceName p.1 p.2 0 s c h with h1 | h1
      · exact Or.inl ⟨p, by simp, h1⟩
      · exact Or.inr h1
theorem functions_symbol_ne_paren : ∀ p ∈ functions, p.2 ≠ '(' ∧ p.2 ≠ ')' := by
  decide
theorem renameFunctions_no_paren (order : List (List Char × Char))
    (horder : ∀ p ∈ order, p ∈ functions) (w : List Char) (hw : ∀ c ∈ w, c ≠ '(' ∧ c ≠ ')') :
    ∀ c ∈ renameFunctions order w, c ≠ '(' ∧ c ≠ ')' := by
  intro c hc
  rcases mem_renameFunctions order w c hc with ⟨p, hp, rfl⟩ | h
  · exact functions_symbol_ne_paren p (horder p hp)
  · exact hw c h
theorem openDepth_renameFunctions (order : List (List Char × Char))
    (horder : ∀ p ∈ order, p ∈ functions) (s : List Char) :
    ∀ (w : List Char) (d : Nat), (∀ c ∈ w, c ≠ '(' ∧ c ≠ ')') →
      openDepth d (renameFunctions order (w ++ s)) = openDepth d s := by
  induction s with
  | nil =>
    intro w d hw
    have h := openDepth_append_plain (renameFunctions order w) []
      (renameFunctions_no_paren order horder w hw) d
    simpa using h
  | cons c s ih =>
    intro w d hw
    by_cases h1 : c = '('
    · subst h1
      rw [renameFunctions_append_delim order horder '(' (by decide),
        openDepth_append_plain _ _ (renameFunctions_no_paren order horder w hw), openDepth_open,
        openDepth_open]
      exact ih [] (d + 1) (by simp)
    · by_cases h2 : c = ')'
      · subst h2
        rw [renameFunctions_append_delim order horder ')' (by decide),
          openDepth_append_plain _ _ (renameFunctions_no_paren order horder w hw),
          openDepth_close, openDepth_close]
        exact ih [] (d - 1) (by simp)
      · rw [openDepth_cons_other d c s h1 h2,
          show w ++ c :: s = (w ++ [c]) ++ s by simp]
        apply ih
        intro e he
        simp only [List.mem_append, List.mem_singleton] at he
        rcases he with he | rfl
        · exact hw e he
        · exact ⟨h1, h2⟩
theorem openDepth_processedInfix (order : List (List Char × Char))
    (horder : ∀ p ∈ order, p ∈ functions) (s : List Char) (d : Nat) :
    openDepth d (processedInfix order s) = openDepth d s := by
  unfold processedInfix replaceUnaryMinus
  rw [openDepth_replaceUnaryMinusFrom]
  exact openDepth_renameFunctions order horder s [] d (by simp)
/-! ## What an operand run consumes -/
theorem isRunChar_of_operand {c : Char} (h : (isOperand c || isPartOfExponent c) = true) :
    isRunChar c = true := by
  simp only [Bool.or_eq_true] at h
  simp only [isRunChar, Bool.or_eq_true]
  tauto
theorem isRunChar_of_sign {c : Char} (h : (c == '+' || c == '-') = true) :
    isRunChar c = true := by
  simp only [Bool.or_eq_true] at h
  simp only [isRunChar, Bool.or_eq_true]
  tauto
theorem isRunChar_of_isDigit {c : Char} (h : c.isDigit = true) : isRunChar c = true := by
  simp [isRunChar, isOperand, h]
theorem findScientificNumber_consumed : ∀ (n : Nat) (s token : List Char) (hasExponent : Bool)
    (t r : List Char), s.length = n → findScientificNumber s token hasExponent = .ok (t, r) →
      ∃ consumed, t = token ++ consumed ∧ s = consumed ++ r ∧
        ∀ c ∈ consumed, isRunChar c = true := by
  intro n
  induction n using Nat.strong_induction_on with
  | _ n ih =>
    intro s token hasExponent t r hn h
    subst hn
    cases s with
    | nil =>
      rw [findScientificNumber_nil] at h
      cases h
      exact ⟨[], by simp, rfl, by simp⟩
    | cons c rest =>
      rw [findScientificNumber_cons] at h
      by_cases hc : (isOperand c || isPartOfExponent c) = true
      · rw [if_pos hc] at h
        have hcr := isRunChar_of_operand hc
        by_cases he : (isPartOfExponent c && !hasExponent) = true
        · rw [if_pos he] at h
          cases rest with
          | nil => cases h
          | cons s rest1 =>
            simp only at h
            by_cases hs : (s == '+' || s == '-') = true
            · rw [if_pos hs] at h
              cases rest1 with
              | nil => cases h
              | cons d rest2 =>
                simp only at h
                by_cases hd : d.isDigit = true
                · rw [if_pos hd] at h
                  obtain ⟨consumed, h1, h2, h3⟩ :=
                    ih rest2.length (by simp only [List.length_cons]; omega) rest2 _ _ t r rfl h
                  refine ⟨c :: s :: d :: consumed, by simp [h1], by simp [h2], ?_⟩
                  intro e hmem
                  simp only [List.mem_cons] at hmem
                  rcases hmem with rfl | rfl | rfl | hmem
                  · exact hcr
                  · exact isRunChar_of_sign hs
                  · exact isRunChar_of_isDigit hd
                  · exact h3 e hmem
                · rw [if_neg hd] at h
                  cases h
            · rw [if_neg hs] at h
              by_cases hd : s.isDigit = true
              · rw [if_pos hd] at h
                obtain ⟨consumed, h1, h2, h3⟩ :=
                  ih rest1.length (by simp only [List.length_cons]; omega) rest1 _ _ t r rfl h
                refine ⟨c :: s :: consumed, by simp [h1], by simp [h2], ?_⟩
                intro e hmem
                simp only [List.mem_cons] at hmem
                rcases hmem with rfl | rfl | hmem
                · exact hcr
                · exact isRunChar_of_isDigit hd
                · exact h3 e hmem
              · rw [if_neg hd] at h
                cases h
        · rw [if_neg he] at h
          obtain ⟨consumed, h1, h2, h3⟩ :=
            ih rest.length (by simp only [List.length_cons]; omega) rest _ _ t r rfl h
          refine ⟨c :: consumed, by simp [h1], by simp [h2], ?_⟩
          intro e hmem
          simp only [List.mem_cons] at hmem
          rcases hmem with rfl | hmem
          · exact hcr
          · exact h3 e hmem
      · rw [if_neg hc] at h
        cases h
        exact ⟨[], by simp, rfl, by simp⟩
theorem isRunChar_props {c : Char} (h : isRunChar c = true) :
    c ≠ '(' ∧ c ≠ ')' ∧ ModelCalculator.isSpace c = false := by
  refine ⟨?_, ?_, ?_⟩
  · rintro rfl; revert h; decide
  · rintro rfl; revert h; decide
  · simp only [isRunChar, Bool.or_eq_true, beq_iff_eq] at h
    rcases h with ((h | h) | h) | h
    · exact isSpace_of_isOperand h
    · simp only [isPartOfExponent, Bool.or_eq_true, beq_iff_eq] at h
      rcases h with rfl | rfl <;> rfl
    · subst h; rfl
    · subst h; rfl

/-! ## The pops of the converter on any stack -/
theorem isBinaryOperator_priority {c : Char} (hc : isBinaryOperator c = true) :
    ∃ p, getOperatorPriority c = .ok p ∧ 1 ≤ p :=
  pending_priority (pending_of_isBinaryOperator hc)
/-- The loop of `handleOperator` pops no `(`. -/
theorem popHigherPriority_noOpen (c : Char) (hc : isBinaryOperator c = true) :
    ∀ (ops out : List Char), (∀ s ∈ ops, isStackChar s = true) →
      ∃ popped kept, ops = popped ++ kept ∧ '(' ∉ popped ∧
        (∀ s ∈ popped, isStackChar s = true) ∧
        popHigherPriority c ops out = .ok (kept, out ++ symbolsText popped) := by
  obtain ⟨pc, hpc, hpc1⟩ := isBinaryOperator_priority hc
  intro ops
  induction ops with
  | nil =>
    intro out _
    exact ⟨[], [], rfl, by simp, by simp, by simp [popHigherPriority, symbolsText]⟩
  | cons t ops ih =>
    intro out hops
    obtain ⟨pt, hpt⟩ := getOperatorPriority_of_isStackChar (hops t (by simp))
    rw [popHigherPriority_cons, hpt, hpc]
    by_cases hge : pt ≥ pc
    · obtain ⟨popped, kept, hsplit, hno, hst, hpop⟩ :=
        ih (out ++ [t, ' ']) (fun s hs => hops s (by simp [hs]))
      have ht : t ≠ '(' := by
        rintro rfl
        have h0 : getOperatorPriority '(' = .ok 0 := rfl
        rw [h0] at hpt
        cases hpt
        omega
      refine ⟨t :: popped, kept, by rw [hsplit]; rfl, ?_, ?_, ?_⟩
      · intro hmem
        simp only [List.mem_cons] at hmem
        rcases hmem with h | h
        · exact ht h.symm
        · exact hno h
      · intro s hs
        simp only [List.mem_cons] at hs
        rcases hs with rfl | hs
        · exact hops s (by simp)
        · exact hst s hs
      · simp only [hge, if_true]
        rw [hpop]
        simp [symbolsText]
    · refine ⟨[], t :: ops, rfl, by simp, by simp, ?_⟩
      simp [hge, symbolsText]
/-- The first loop of `handleParenthesis` pops up to the first `(`, or the whole stack
when it holds none. -/
theorem popToParenthesis_general : ∀ (ops out : List Char),
    ∃ popped, '(' ∉ popped ∧ (∀ s ∈ popped, s ∈ ops) ∧
      ((∃ r, ops = popped ++ '(' :: r ∧
          popToParenthesis ops out = ('(' :: r, out ++ symbolsText popped)) ∨
        (ops = popped ∧ popToParenthesis ops out = ([], out ++ symbolsText popped))) := by
  intro ops
  induction ops with
  | nil =>
    intro out
    exact ⟨[], by simp, by simp, Or.inr ⟨rfl, by simp [popToParenthesis, symbolsText]⟩⟩
  | cons t ops ih =>
    intro out
    rw [popToParenthesis_cons]
    by_cases ht : t = '('
    · subst ht
      exact ⟨[], by simp, by simp, Or.inl ⟨ops, rfl, by simp [symbolsText]⟩⟩
    · obtain ⟨popped, hno, hsub, hcase⟩ := ih (out ++ [t, ' '])
      refine ⟨t :: popped, ?_, ?_, ?_⟩
      · intro hmem
        simp only [List.mem_cons] at hmem
        rcases hmem with h | h
        · exact ht h.symm
        · exact hno h
      · intro s hs
        simp only [List.mem_cons] at hs ⊢
        rcases hs with rfl | hs
        · exact Or.inl rfl
        · exact Or.inr (hsub s hs)
      · rw [if_pos ht]
        rcases hcase with ⟨r, h1, h2⟩ | ⟨h1, h2⟩
        · refine Or.inl ⟨r, by rw [h1]; rfl, ?_⟩
          rw [h2]
          simp [symbolsText]
        · refine Or.inr ⟨by rw [h1], ?_⟩
          rw [h2]
          simp [symbolsText]
/-! ## The output as a token list, and the open parentheses on the stack -/
theorem tokenText_append {a b : List (List Char)} (ha : TokenText a) (hb : TokenText b) :
    TokenText (a ++ b) := by
  intro t ht
  rcases List.mem_append.mp ht with h | h
  · exact ha t h
  · exact hb t h
theorem tokenText_symbols (cs : List Char) (hcs : ∀ c ∈ cs, isStackChar c = true) :
    TokenText (cs.map (fun c => [c])) := by
  intro t ht
  obtain ⟨c, hc, rfl⟩ := List.mem_map.mp ht
  refine ⟨by simp, ?_⟩
  intro d hd
  simp only [List.mem_singleton] at hd
  subst hd
  exact isSpace_of_isStackChar (hcs d hc)
theorem joinTokens_snoc_symbols (toks : List (List Char)) (cs : List Char) :
    joinTokens (toks ++ cs.map (fun c => [c])) = joinTokens toks ++ symbolsText cs := by
  rw [joinTokens_append, joinTokens_symbols]
theorem count_open_append (popped kept : List Char) (h : '(' ∉ popped) :
    (popped ++ kept).count '(' = kept.count '(' := by
  rw [List.count_append, List.count_eq_zero.mpr h, Nat.zero_add]
theorem isBinaryOperator_of_isOperator {c : Char} (h : isOperator c = true) (hc : c ≠ '~') :
    isBinaryOperator c = true := by
  simp only [isOperator, Bool.or_eq_true, beq_iff_eq] at h
  rcases h with (((((h | h) | h) | h) | h) | h) | h
  all_goals first
    | exact absurd h hc
    | (subst h; rfl)
theorem scan_operand (c : Char) (hc : isOperand c = true) (rest ops out : List Char) :
    scan (c :: rest) ⟨ops, out, []⟩ =
      match findScientificNumber (c :: rest) [] false with
      | .ok (t, r) => scan r (flushToken ⟨ops, out, t⟩)
      | .error e => .error e := by
  rw [scan_cons]
  simp only [isOperandOrOperatorOrFunction, hc, if_true, handleOperand]
  cases findScientificNumber (c :: rest) [] false with
  | error e => rfl
  | ok p => rfl
theorem scan_other (c : Char) (rest : List Char) (st : Conv) (h1 : isOperand c = false)
    (h2 : isOperator c = false) (h3 : isFunction c = false) (h4 : c ≠ '(') (h5 : c ≠ ')') :
    scan (c :: rest) st = scan rest st := by
  rw [scan_cons]
  simp [isOperandOrOperatorOrFunction, h1, h2, h3, handleParenthesis, h4, h5]
/-- The invariant of the scan, for any text: the output is a sequence of tokens, each
followed by a space, and the stack holds as many `(` as the text has left open. -/
theorem scan_tokens_depth : ∀ (n : Nat) (text ops out : List Char) (toks : List (List Char))
    (st1 : Conv), text.length = n → (∀ s ∈ ops, isStackChar s = true) →
      out = joinTokens toks → TokenText toks → scan text ⟨ops, out, []⟩ = .ok st1 →
      ∃ toks1, st1.output = joinTokens toks1 ∧ TokenText toks1 ∧ ScanInv st1 ∧
        st1.operators.count '(' = openDepth (ops.count '(') text := by
  intro n
  induction n using Nat.strong_induction_on with
  | _ n ih =>
    intro text ops out toks st1 hn hops hout htoks hscan
    subst hn
    cases text with
    | nil =>
      rw [scan_nil] at hscan
      cases hscan
      exact ⟨toks, hout, htoks, ⟨rfl, hops⟩, rfl⟩
    | cons c rest =>
      have hrec : ∀ (r ops2 out2 : List Char) (toks2 : List (List Char)),
          r.length ≤ rest.length → (∀ s ∈ ops2, isStackChar s = true) →
          out2 = joinTokens toks2 → TokenText toks2 → scan r ⟨ops2, out2, []⟩ = .ok st1 →
          ∃ toks1, st1.output = joinTokens toks1 ∧ TokenText toks1 ∧ ScanInv st1 ∧
            st1.operators.count '(' = openDepth (ops2.count '(') r := by
        intro r ops2 out2 toks2 hlen h1 h2 h3 h4
        exact ih r.length (by simp only [List.length_cons]; omega) r ops2 out2 toks2 st1 rfl
          h1 h2 h3 h4
      by_cases hop : isOperand c = true
      · rw [scan_operand c hop] at hscan
        cases hf : findScientificNumber (c :: rest) [] false with
        | error e => rw [hf] at hscan; cases hscan
        | ok p =>
          obtain ⟨t, r⟩ := p
          rw [hf] at hscan
          simp only at hscan
          obtain ⟨consumed, h1, h2, h3⟩ :=
            findScientificNumber_consumed _ _ _ _ _ _ rfl hf
          rw [List.nil_append] at h1
          subst h1
          have hlen := findScientificNumber_length_cons c rest [] false t r (by simp [hop]) hf
          have hne : t ≠ [] := by
            rintro rfl
            rw [List.nil_append] at h2
            rw [← h2] at hlen
            simp at hlen
          have hnp : ∀ e ∈ t, e ≠ '(' ∧ e ≠ ')' := fun e he =>
            ⟨(isRunChar_props (h3 e he)).1, (isRunChar_props (h3 e he)).2.1⟩
          have hfl : flushToken ⟨ops, out, t⟩ = ⟨ops, out ++ (t ++ [' ']), []⟩ := by
            simp [flushToken, hne, processOperand]
          rw [hfl] at hscan
          obtain ⟨toks1, r1, r2, r3, r4⟩ := hrec r ops _ (toks ++ [t]) hlen hops
            (by rw [joinTokens_append, hout]; simp [joinTokens])
            (tokenText_append htoks (by
              intro u hu
              simp only [List.mem_singleton] at hu
              subst hu
              exact ⟨hne, fun e he => (isRunChar_props (h3 e he)).2.2⟩)) hscan
          refine ⟨toks1, r1, r2, r3, ?_⟩
          rw [r4, h2, openDepth_append_plain t r hnp]
      · have hop' : isOperand c = false := by simpa using hop
        by_cases hor : isOperator c = true
        · by_cases htl : c = '~'
          · subst htl
            rw [scan_unaryMinus] at hscan
            obtain ⟨toks1, r1, r2, r3, r4⟩ := hrec rest ('~' :: ops) out toks (Nat.le_refl _)
              (by
                intro s hs
                simp only [List.mem_cons] at hs
                rcases hs with rfl | hs
                · rfl
                · exact hops s hs) hout htoks hscan
            refine ⟨toks1, r1, r2, r3, ?_⟩
            rw [r4, openDepth_cons_other _ '~' _ (by decide) (by decide)]
            rfl
          · have hb := isBinaryOperator_of_isOperator hor htl
            rw [scan_binary c rest ops out hb] at hscan
            obtain ⟨popped, kept, hsplit, hno, hst, hpop⟩ :=
              popHigherPriority_noOpen c hb ops out hops
            rw [hpop] at hscan
            simp only at hscan
            have hcs : isStackChar c = true := by simp [isStackChar, hor]
            obtain ⟨toks1, r1, r2, r3, r4⟩ := hrec rest (c :: kept) _
              (toks ++ popped.map (fun c => [c])) (Nat.le_refl _)
              (by
                intro s hs
                simp only [List.mem_cons] at hs
                rcases hs with rfl | hs
                · exact hcs
                · exact hops s (by rw [hsplit]; simp [hs]))
              (by rw [joinTokens_snoc_symbols, hout])
              (tokenText_append htoks (tokenText_symbols popped hst)) hscan
            refine ⟨toks1, r1, r2, r3, ?_⟩
            have hc1 : c ≠ '(' := by rintro rfl; revert hor; decide
            have hc2 : c ≠ ')' := by rintro rfl; revert hor; decide
            rw [r4, openDepth_cons_other _ c _ hc1 hc2, hsplit, count_open_append _ _ hno,
              List.count_cons_of_ne hc1.symm]
        · have hor' : isOperator c = false := by simpa using hor
          by_cases hfn : isFunction c = true
          · rw [scan_function c rest ops out hfn] at hscan
            have hc1 : c ≠ '(' := by rintro rfl; revert hfn; decide
            have hc2 : c ≠ ')' := by rintro rfl; revert hfn; decide
            obtain ⟨toks1, r1, r2, r3, r4⟩ := hrec rest (c :: ops) out toks (Nat.le_refl _)
              (by
                intro s hs
                simp only [List.mem_cons] at hs
                rcases hs with rfl | hs
                · simp [isStackChar, hfn]
                · exact hops s hs) hout htoks hscan
            refine ⟨toks1, r1, r2, r3, ?_⟩
            rw [r4, openDepth_cons_other _ c _ hc1 hc2, List.count_cons_of_ne hc1.symm]
          · have hfn' : isFunction c = false := by simpa using hfn
            by_cases h1 : c = '('
            · subst h1
              rw [scan_open] at hscan
              obtain ⟨toks1, r1, r2, r3, r4⟩ := hrec rest ('(' :: ops) out toks (Nat.le_refl _)
                (by
                  intro s hs
                  simp only [List.mem_cons] at hs
                  rcases hs with rfl | hs
                  · rfl
                  · exact hops s hs) hout htoks hscan
              refine ⟨toks1, r1, r2, r3, ?_⟩
              rw [r4, openDepth_open, List.count_cons_self]
            · by_cases h2 : c = ')'
              · subst h2
                rw [scan_close] at hscan
                obtain ⟨popped, hno, hsub, hcase⟩ := popToParenthesis_general ops out
                have hst : ∀ s ∈ popped, isStackChar s = true := fun s hs => hops s (hsub s hs)
                rcases hcase with ⟨r, hsplit, hpop⟩ | ⟨hsplit, hpop⟩
                · rw [hpop] at hscan
                  simp only at hscan
                  obtain ⟨toks1, r1, r2, r3, r4⟩ := hrec rest r _
                    (toks ++ popped.map (fun c => [c])) (Nat.le_refl _)
                    (fun s hs => hops s (by rw [hsplit]; simp [hs]))
                    (by rw [joinTokens_snoc_symbols, hout])
                    (tokenText_append htoks (tokenText_symbols popped hst)) hscan
                  refine ⟨toks1, r1, r2, r3, ?_⟩
                  rw [r4, openDepth_close, hsplit, count_open_append _ _ hno,
                    List.count_cons_self]
                  rfl
                · rw [hpop] at hscan
                  simp only at hscan
                  obtain ⟨toks1, r1, r2, r3, r4⟩ := hrec rest [] _
                    (toks ++ popped.map (fun c => [c])) (Nat.le_refl _)
                    (by simp)
                    (by rw [joinTokens_snoc_symbols, hout])
                    (tokenText_append htoks (tokenText_symbols popped hst)) hscan
                  refine ⟨toks1, r1, r2, r3, ?_⟩
                  rw [r4, openDepth_close, hsplit, List.count_eq_zero.mpr hno]
                  rfl
              · rw [scan_other c rest _ hop' hor' hfn' h1 h2] at hscan
                obtain ⟨toks1, r1, r2, r3, r4⟩ := hrec rest ops out toks (Nat.le_refl _) hops
                  hout htoks hscan
                refine ⟨toks1, r1, r2, r3, ?_⟩
                rw [r4, openDepth_cons_other _ c _ h1 h2]

/-! ## Three operands and two operators -/
theorem processedInfix_binary2 (order : List (List Char × Char))
    (horder : ∀ p ∈ order, p ∈ functions) (a b c : List Char) (o1 o2 : Char)
    (ha : OperandRun a) (hb : OperandRun b) (hc : OperandRun c)
    (h1 : ModelCalculator.isBinaryOperator o1 = true)
    (h2 : ModelCalculator.isBinaryOperator o2 = true) :
    processedInfix order (a ++ o1 :: (b ++ o2 :: c)) = a ++ o1 :: (b ++ o2 :: c) := by
  unfold processedInfix replaceUnaryMinus
  rw [renameFunctions_of_no_nameStart order horder]
  · rw [replaceUnaryMinusFrom_append _ _ _ ha.run_no_minus,
      replaceUnaryMinusFrom_binary _ _ _ (ha.run_lastOr none),
      replaceUnaryMinusFrom_append _ _ _ hb.run_no_minus,
      replaceUnaryMinusFrom_binary _ _ _ (hb.run_lastOr _),
      replaceUnaryMinusFrom_of_no_minus _ _ hc.run_no_minus]
  · intro d hd
    simp only [List.mem_append, List.mem_cons] at hd
    rcases hd with h | rfl | h | rfl | h
    · exact ha.run_no_nameStart d h
    · exact isNameStart_of_isBinaryOperator h1
    · exact hb.run_no_nameStart d h
    · exact isNameStart_of_isBinaryOperator h2
    · exact hc.run_no_nameStart d h
theorem popHigherPriority_single_pop (c t : Char) (out : List Char) (pt pc : Nat)
    (ht : getOperatorPriority t = .ok pt) (hc : getOperatorPriority c = .ok pc)
    (hge : pt ≥ pc) : popHigherPriority c [t] out = .ok ([], out ++ [t, ' ']) := by
  rw [popHigherPriority_cons, ht, hc]
  simp only [hge, if_true]
  rfl
theorem popHigherPriority_single_keep (c t : Char) (out : List Char) (pt pc : Nat)
    (ht : getOperatorPriority t = .ok pt) (hc : getOperatorPriority c = .ok pc)
    (hlt : pt < pc) : popHigherPriority c [t] out = .ok ([t], out) := by
  rw [popHigherPriority_cons, ht, hc]
  have : ¬ (pt ≥ pc) := by omega
  simp only [this, if_false]
theorem trim_tokens_symbol (a rest : List Char) (o : Char) (ha : OperandRun a) (ho : o ≠ ' ') :
    trim (a ++ rest ++ [o, ' ']) = a ++ rest ++ [o] := by
  have e : a ++ rest ++ [o, ' '] = (a ++ rest) ++ [o] ++ [' '] := by simp
  rw [e, trim_snoc_space _ _ _ ho]
  rw [List.append_assoc]
  exact ha.run_head_ne_space _
/-- Two binary operators of which the first has at least the priority of the second: the
first is applied first. -/
theorem toRPN_leftAssoc (order : List (List Char × Char)) (horder : ∀ p ∈ order, p ∈ functions)
    (a b c : List Char) (o1 o2 : Char) (p1 p2 : Nat)
    (ha : OperandRun a) (hb : OperandRun b) (hc : OperandRun c)
    (h1 : ModelCalculator.isBinaryOperator o1 = true)
    (h2 : ModelCalculator.isBinaryOperator o2 = true)
    (hp1 : getOperatorPriority o1 = .ok p1) (hp2 : getOperatorPriority o2 = .ok p2)
    (hge : p1 ≥ p2) :
    toRPN order (a ++ o1 :: (b ++ o2 :: c)) =
      .ok (a ++ ' ' :: (b ++ ' ' :: o1 :: ' ' :: (c ++ [' ', o2]))) := by
  rw [toRPN_eq, processedInfix_binary2 order horder a b c o1 o2 ha hb hc h1 h2,
    scan_run a _ _ _ ha.1 ha.2 (runEnds_of_isBinaryOperator o1 _ h1),
    scan_binary o1 _ _ _ h1, popHigherPriority_nil]
  simp only
  rw [scan_run b _ _ _ hb.1 hb.2 (runEnds_of_isBinaryOperator o2 _ h2),
    scan_binary o2 _ _ _ h2, popHigherPriority_single_pop o2 o1 _ p1 p2 hp1 hp2 hge]
  simp only
  rw [scan_run_end c _ _ hc.1 hc.2]
  simp only [flushToken_empty, flushOperators, flushOperatorsLoop]
  have e : [] ++ (a ++ [' ']) ++ (b ++ [' ']) ++ [o1, ' '] ++ (c ++ [' ']) ++ [o2, ' '] =
      a ++ (' ' :: (b ++ ' ' :: o1 :: ' ' :: (c ++ [' ']))) ++ [o2, ' '] := by simp
  rw [e, trim_tokens_symbol a _ o2 ha (ne_space_of_isBinaryOperator h2)]
  simp
namespace ModelCalculator
theorem evaluateRPN_leftAssoc (P : Platform) (hP : P.Conforming) (x : ℚ) (a b c : List Char)
    (va vb vc : ℚ) (o1 o2 : Char) (ha : OperandValue x a va) (hb : OperandValue x b vb)
    (hc : OperandValue x c vc) (h1 : isBinaryOperator o1 = true)
    (h2 : isBinaryOperator o2 = true) :
    evaluateRPN P (a ++ ' ' :: (b ++ ' ' :: o1 :: ' ' :: (c ++ [' ', o2]))) x =
      match applyBinaryOperator P o1 va vb with
      | .ok r => applyBinaryOperator P o2 r vc
      | .error e => .error e := by
  unfold evaluateRPN
  rw [splitTokens_token a _ [] ha.value_operandRun.run_no_space (by simpa using ha.value_operandRun.1),
    splitTokens_token b _ [] hb.value_operandRun.run_no_space (by simpa using hb.value_operandRun.1),
    show o1 :: ' ' :: (c ++ [' ', o2]) = [o1] ++ ' ' :: (c ++ ' ' :: [o2]) from rfl,
    splitTokens_token [o1] _ [] (by
      intro d hd
      simp only [List.mem_singleton] at hd
      subst hd
      exact isSpace_of_isBinaryOperator h1) (by simp),
    splitTokens_token c _ [] hc.value_operandRun.run_no_space (by simpa using hc.value_operandRun.1),
    splitTokens_symbol o2 (isSpace_of_isBinaryOperator h2)]
  simp only [List.nil_append]
  rw [evaluateLoop_operand P hP x a va ha, evaluateLoop_operand P hP x b vb hb,
    evaluateLoop_binary P hP x o1 h1]
  cases h : applyBinaryOperator P o1 va vb with
  | error e => rfl
  | ok r =>
    simp only
    rw [evaluateLoop_operand P hP x c vc hc, evaluateLoop_binary P hP x o2 h2]
    cases applyBinaryOperator P o2 r vc <;> rfl
theorem evaluateRPN_leftAssoc_read (P : Platform) (hP : P.Basic) (x : ℚ) (a b c : List Char)
    (o1 o2 : Char) (ha : IsOperandText a) (hb : IsOperandText b) (hc : IsOperandText c)
    (h1 : isBinaryOperator o1 = true) (h2 : isBinaryOperator o2 = true) :
    evaluateRPN P (a ++ ' ' :: (b ++ ' ' :: o1 :: ' ' :: (c ++ [' ', o2]))) x =
      (readOperand P x a).bind fun va => (readOperand P x b).bind fun vb =>
        (applyBinaryOperator P o1 va vb).bind fun r =>
          (readOperand P x c).bind fun vc => applyBinaryOperator P o2 r vc := by
  unfold evaluateRPN
  rw [splitTokens_token a _ [] (operandText_run ha).run_no_space
      (by simpa using (operandText_run ha).1),
    splitTokens_token b _ [] (operandText_run hb).run_no_space
      (by simpa using (operandText_run hb).1),
    show o1 :: ' ' :: (c ++ [' ', o2]) = [o1] ++ ' ' :: (c ++ ' ' :: [o2]) from rfl,
    splitTokens_token [o1] _ [] (by
      intro d hd
      simp only [List.mem_singleton] at hd
      subst hd
      exact isSpace_of_isBinaryOperator h1) (by simp),
    splitTokens_token c _ [] (operandText_run hc).run_no_space
      (by simpa using (operandText_run hc).1),
    splitTokens_symbol o2 (isSpace_of_isBinaryOperator h2)]
  simp only [List.nil_append]
  rw [evaluateLoop_readOperand P x a ha]
  cases readOperand P x a with
  | error e => rfl
  | ok va =>
    simp only [Except.bind]
    rw [evaluateLoop_readOperand P x b hb]
    cases readOperand P x b with
    | error e => rfl
    | ok vb =>
      simp only
      rw [evaluateLoop_binary_basic P hP x o1 h1]
      cases applyBinaryOperator P o1 va vb with
      | error e => rfl
      | ok r =>
        simp only
        rw [evaluateLoop_readOperand P x c hc]
        cases readOperand P x c with
        | error e => rfl
        | ok vc =>
          simp only
          rw [evaluateLoop_binary_basic P hP x o2 h2]
          cases applyBinaryOperator P o2 r vc <;> rfl

theorem calculate_leftAssoc (P : Platform) (hP : P.Basic) (self : ModelCalculator)
    (x : ℚ) (a b c : List Char) (ha : IsOperandText a) (hb : IsOperandText b)
    (hc : IsOperandText c) (o1 o2 : Char) (h1 : isBinaryOperator o1 = true)
    (h2 : isBinaryOperator o2 = true) (heq : getOperatorPriority o1 = getOperatorPriority o2) :
    toRPN P.functionOrder (a ++ o1 :: (b ++ o2 :: c)) =
        .ok (a ++ ' ' :: (b ++ ' ' :: o1 :: ' ' :: (c ++ [' ', o2]))) ∧
      (calculate P self (a ++ o1 :: (b ++ o2 :: c)) x).1 =
        ((readOperand P x a).bind fun va => (readOperand P x b).bind fun vb =>
          (applyBinaryOperator P o1 va vb).bind fun r =>
            (readOperand P x c).bind fun vc => applyBinaryOperator P o2 r vc) := by
  obtain ⟨p1, hp1, -⟩ := isBinaryOperator_priority h1
  have hp2 : getOperatorPriority o2 = .ok p1 := by rw [← heq, hp1]
  have ht := toRPN_leftAssoc P.functionOrder hP.basic_order_mem a b c o1 o2 p1 p1
    (operandText_run ha) (operandText_run hb) (operandText_run hc) h1 h2 hp1 hp2 (Nat.le_refl _)
  refine ⟨ht, ?_⟩
  rw [calculate_of_toRPN P self _ _ x ht]
  exact evaluateRPN_leftAssoc_read P hP x a b c o1 o2 ha hb hc h1 h2
end ModelCalculator

/-- C22 (amended). Equal-priority binary operators associate left to right, exponentiation
included: for all operands `a`, `b`, `c` (literals or `x`) and binary operators `o1`, `o2`
of equal priority, `toRPN` of `a o1 b o2 c` is `a b o1 c o2`, and `calculate` reads `a` and
`b`, applies `o1` to them, reads `c` and applies `o2` to the result and `c`, throwing at the
first operand that is not read (a literal that `iss >> d` rejects is an unknown token); so
`a-b-c` is `fl (fl (va - vb) - vc)` and `a^b^c` is `pow(pow(va, vb), vc)`, where `va`, `vb`,
`vc` are the values read and `fl` rounds a result to `double`. -/
theorem C22_left_associativity (P : Platform) (hP : P.Basic) (self : ModelCalculator)
    (x : ℚ) (a b c : List Char) (ha : IsOperandText a) (hb : IsOperandText b)
    (hc : IsOperandText c) :
    (∀ o1 o2 : Char, isBinaryOperator o1 = true → isBinaryOperator o2 = true →
        getOperatorPriority o1 = getOperatorPriority o2 →
        toRPN P.functionOrder (a ++ o1 :: (b ++ o2 :: c)) =
            .ok (a ++ ' ' :: (b ++ ' ' :: o1 :: ' ' :: (c ++ [' ', o2]))) ∧
          (calculate P self (a ++ o1 :: (b ++ o2 :: c)) x).1 =
            ((readOperand P x a).bind fun va => (readOperand P x b).bind fun vb =>
              (applyBinaryOperator P o1 va vb).bind fun r =>
                (readOperand P x c).bind fun vc => applyBinaryOperator P o2 r vc)) ∧
      (calculate P self (a ++ '-' :: (b ++ '-' :: c)) x).1 =
        ((readOperand P x a).bind fun va => (readOperand P x b).bind fun vb =>
          (readOperand P x c).bind fun vc => .ok (P.fl (P.fl (va - vb) - vc))) ∧
      (calculate P self (a ++ '^' :: (b ++ '^' :: c)) x).1 =
        ((readOperand P x a).bind fun va => (readOperand P x b).bind fun vb =>
          (readOperand P x c).bind fun vc => .ok (P.pow (P.pow va vb) vc)) := by
  refine ⟨fun o1 o2 h1 h2 heq => calculate_leftAssoc P hP self x a b c ha hb hc o1 o2 h1 h2 heq,
    ?_, ?_⟩
  · rw [(calculate_leftAssoc P hP self x a b c ha hb hc '-' '-' (by decide) (by decide) rfl).2]
    cases readOperand P x a <;> cases readOperand P x b <;> cases readOperand P x c <;>
      simp [Except.bind, applyBinaryOperator]
  · rw [(calculate_leftAssoc P hP self x a b c ha hb hc '^' '^' (by decide) (by decide) rfl).2]
    cases readOperand P x a <;> cases readOperand P x b <;> cases readOperand P x c <;>
      simp [Except.bind, applyBinaryOperator]
theorem readOperand_double_2 : readOperand doublePlatform 0 "2".toList = .ok 2 :=
  (readOperand_literal doublePlatform 0 "2".toList 2
    (numLit_of_digit '2' 2 (by decide) (by decide))).trans readLiteral_double_2
theorem readOperand_double_3 : readOperand doublePlatform 0 "3".toList = .ok 3 :=
  (readOperand_literal doublePlatform 0 "3".toList 3
    (numLit_of_digit '3' 3 (by decide) (by decide))).trans readLiteral_double_3
theorem readOperand_double_1 : readOperand doublePlatform 0 "1".toList = .ok 1 :=
  (readOperand_literal doublePlatform 0 "1".toList 1
    (numLit_of_digit '1' 1 (by decide) (by decide))).trans readLiteral_double_1
theorem readOperand_double_0_1 :
    readOperand doublePlatform 0 "0.1".toList = .ok (3602879701896397 / 2 ^ 55) :=
  (readOperand_literal doublePlatform 0 "0.1".toList _ numLit_0_1).trans readLiteral_double_0_1
theorem readOperand_double_0_3 :
    readOperand doublePlatform 0 "0.3".toList = .ok (5404319552844595 / 2 ^ 54) :=
  (readOperand_literal doublePlatform 0 "0.3".toList _ numLit_0_3).trans readLiteral_double_0_3
theorem readOperand_hugeLiteral :
    readOperand doublePlatform 0 hugeLiteral = .error (.unknownToken hugeLiteral) :=
  (readOperand_literal doublePlatform 0 hugeLiteral _ numLit_hugeLiteral).trans
    readLiteral_hugeLiteral
/-- C22, witness: on the platform with the semantics of `double`, `2^3^2` converts to
`2 3 ^ 2 ^` and evaluates to `(2^3)^2 = 64`, and `2-3-2` evaluates to `(2-3)-2 = -3`. -/
theorem C22_left_associativity_witness :
    doublePlatform.Basic ∧ IsOperandText "2".toList ∧ IsOperandText "3".toList ∧
      toRPN doublePlatform.functionOrder "2^3^2".toList = .ok "2 3 ^ 2 ^".toList ∧
      (calculate doublePlatform ⟨0⟩ "2^3^2".toList 0).1 = .ok 64 ∧
      (calculate doublePlatform ⟨0⟩ "2-3-2".toList 0).1 = .ok (-3) := by
  have h2 : IsOperandText "2".toList :=
    Or.inr ⟨2, numLit_of_digit '2' 2 (by decide) (by decide)⟩
  have h3 : IsOperandText "3".toList :=
    Or.inr ⟨3, numLit_of_digit '3' 3 (by decide) (by decide)⟩
  have h := C22_left_associativity doublePlatform doublePlatform_basic ⟨0⟩ 0
    "2".toList "3".toList "2".toList h2 h3 h2
  refine ⟨doublePlatform_basic, h2, h3, (h.1 '^' '^' (by decide) (by decide) rfl).1, ?_, ?_⟩
  · have h4 := h.2.2
    rw [readOperand_double_2, readOperand_double_3] at h4
    refine h4.trans ?_
    show Except.ok (samplePlatform.pow (samplePlatform.pow 2 3) 2) = Except.ok 64
    have hp : samplePlatform.pow (samplePlatform.pow 2 3) 2 = 64 := by
      simp [samplePlatform]
      norm_num
    rw [hp]
  · have h4 := h.2.1
    rw [readOperand_double_2, readOperand_double_3] at h4
    refine h4.trans ?_
    show Except.ok (roundToDouble (roundToDouble (2 - 3) - 2)) = Except.ok (-3)
    have h5 : roundToDouble (2 - 3) = -1 := by
      rw [roundToDouble_eq (2 - 3) 0 (-4503599627370496) (by norm_num)
        (by norm_num [abs_of_neg]) (by norm_num [abs_of_neg])
        (roundHalfEven_of_lt _ _ (by norm_num) (by norm_num))]
      norm_num
    have h6 : roundToDouble (-1 - 2) = -3 := by
      rw [roundToDouble_eq (-1 - 2) 1 (-6755399441055744) (by norm_num)
        (by norm_num [abs_of_neg]) (by norm_num [abs_of_neg])
        (roundHalfEven_of_lt _ _ (by norm_num) (by norm_num))]
      norm_num
    rw [h5, h6]
/-- C22, counterexample. On the platform with the semantics of `double`, with `a` the digit
1 followed by 400 zeros, `calculate` on `a-1-1` does not return `(a-1)-1`: the stream reader
rejects `a` and "Unknown token" is thrown. And `0.3-0.1-0.1` evaluates to the `double`
0.09999999999999998, which is not the number `(0.3 - 0.1) - 0.1`. -/
theorem C22_left_associativity_counterexample :
    NumLit hugeLiteral (10 ^ 400) ∧
      (calculate doublePlatform ⟨0⟩ (hugeLiteral ++ "-1-1".toList) 0).1 =
        .error (.unknownToken hugeLiteral) ∧
      NumLit "0.3".toList (3 / 10) ∧ NumLit "0.1".toList (1 / 10) ∧
      (calculate doublePlatform ⟨0⟩ "0.3-0.1-0.1".toList 0).1 = .ok (900719925474099 / 2 ^ 53) ∧
      (900719925474099 / 2 ^ 53 : ℚ) ≠ 3 / 10 - 1 / 10 - 1 / 10 := by
  have h1 : IsOperandText "1".toList :=
    Or.inr ⟨1, numLit_of_digit '1' 1 (by decide) (by decide)⟩
  refine ⟨numLit_hugeLiteral, ?_, numLit_0_3, numLit_0_1, ?_, by norm_num⟩
  · have h := (calculate_leftAssoc doublePlatform doublePlatform_basic ⟨0⟩ 0 hugeLiteral
      "1".toList "1".toList (Or.inr ⟨_, numLit_hugeLiteral⟩) h1 h1 '-' '-' (by decide)
      (by decide) rfl).2
    rw [readOperand_hugeLiteral] at h
    exact h
  · have h := (calculate_leftAssoc doublePlatform doublePlatform_basic ⟨0⟩ 0 "0.3".toList
      "0.1".toList "0.1".toList (Or.inr ⟨_, numLit_0_3⟩) (Or.inr ⟨_, numLit_0_1⟩)
      (Or.inr ⟨_, numLit_0_1⟩) '-' '-' (by decide) (by decide) rfl).2
    rw [readOperand_double_0_3, readOperand_double_0_1] at h
    refine h.trans ?_
    show Except.ok (roundToDouble (roundToDouble (5404319552844595 / 2 ^ 54 - 3602879701896397 / 2 ^ 55) - 3602879701896397 / 2 ^ 55)) = _
    have h5 : roundToDouble (5404319552844595 / 2 ^ 54 - 3602879701896397 / 2 ^ 55) = 7205759403792793 / 2 ^ 55 := by
      rw [roundToDouble_eq (5404319552844595 / 2 ^ 54 - 3602879701896397 / 2 ^ 55) (-3) 7205759403792793 (by norm_num)
        (by norm_num [abs_of_pos]) (by norm_num [abs_of_pos])
        (roundHalfEven_of_lt _ _ (by norm_num) (by norm_num))]
      norm_num
    have h6 : roundToDouble (7205759403792793 / 2 ^ 55 - 3602879701896397 / 2 ^ 55) = 900719925474099 / 2 ^ 53 := by
      rw [roundToDouble_eq (7205759403792793 / 2 ^ 55 - 3602879701896397 / 2 ^ 55) (-4) 7205759403792792 (by norm_num)
        (by norm_num [abs_of_pos]) (by norm_num [abs_of_pos])
        (roundHalfEven_of_lt _ _ (by norm_num) (by norm_num))]
      norm_num
    rw [h5, h6]

namespace ModelCalculator
end ModelCalculator
theorem calculate_binary (P : Platform) (hP : P.Basic) (self : ModelCalculator) (x : ℚ)
    (a b : List Char) (wa wb : ℚ) (ha : NumLit a wa) (hb : NumLit b wb) (o : Char)
    (ho : isBinaryOperator o = true) :
    (calculate P self (a ++ o :: b) x).1 =
      ((readLiteral P a).bind fun va => (readLiteral P b).bind fun vb =>
        applyBinaryOperator P o va vb) := by
  rw [calculate_of_toRPN P self _ _ x
      (toRPN_binary P.functionOrder hP.basic_order_mem a b o ha.lit_operandRun hb.lit_operandRun ho),
    evaluateRPN_binary_read P hP x a b o (Or.inr ⟨wa, ha⟩) (Or.inr ⟨wb, hb⟩) ho,
    readOperand_literal P x a wa ha, readOperand_literal P x b wb hb]
/-- C28 (amended). Binary operand order: the evaluator applies a binary operator to the
first-pushed value as left operand and the second-pushed as right operand, so for all
numeric literals `a` and `b`, read in this order with the values `va` and `vb` that
`std::stod` returns (a literal that is not read stops the evaluation: "Unknown token" when
`iss >> d` rejects it), `calculate` of `a-b` is `fl (va - vb)`, `calculate` of `a/b` is
`fl (va / vb)` and `calculate` of `a%b` is `fmod(va, vb)` when `vb` is not zero, and both
throw "Division by zero" when `vb` is zero; `fl` rounds a result to `double`. -/
theorem C28_binary_operand_order (P : Platform) (hP : P.Basic) (self : ModelCalculator)
    (x : ℚ) (a b : List Char) (wa wb : ℚ) (ha : NumLit a wa) (hb : NumLit b wb) :
    (∀ o : Char, isBinaryOperator o = true →
        evaluateLoop P x [a, b, [o]] [] =
          ((readLiteral P a).bind fun va => (readLiteral P b).bind fun vb =>
            (applyBinaryOperator P o va vb).bind fun r => .ok [r])) ∧
      (calculate P self (a ++ '-' :: b) x).1 =
        ((readLiteral P a).bind fun va => (readLiteral P b).bind fun vb =>
          .ok (P.fl (va - vb))) ∧
      (calculate P self (a ++ '/' :: b) x).1 =
        ((readLiteral P a).bind fun va => (readLiteral P b).bind fun vb =>
          if vb = 0 then .error .divisionByZero else .ok (P.fl (va / vb))) ∧
      (calculate P self (a ++ '%' :: b) x).1 =
        ((readLiteral P a).bind fun va => (readLiteral P b).bind fun vb =>
          if vb = 0 then .error .divisionByZero else .ok (fmod va vb)) := by
  refine ⟨?_, ?_, ?_, ?_⟩
  · intro o ho
    rw [evaluateLoop_readLiteral P x a wa ha]
    cases readLiteral P a with
    | error e => rfl
    | ok va =>
      simp only [Except.bind]
      rw [evaluateLoop_readLiteral P x b wb hb]
      cases readLiteral P b with
      | error e => rfl
      | ok vb =>
        simp only
        rw [evaluateLoop_binary_basic P hP x o ho]
        cases applyBinaryOperator P o va vb <;> rfl
  · rw [calculate_binary P hP self x a b wa wb ha hb '-' (by decide)]
    cases readLiteral P a <;> cases readLiteral P b <;> simp [Except.bind, applyBinaryOperator]
  · rw [calculate_binary P hP self x a b wa wb ha hb '/' (by decide)]
    cases readLiteral P a <;> cases readLiteral P b <;> simp [Except.bind, applyBinaryOperator]
  · rw [calculate_binary P hP self x a b wa wb ha hb '%' (by decide)]
    cases readLiteral P a <;> cases readLiteral P b <;> simp [Except.bind, applyBinaryOperator]
theorem numLit_12 : NumLit "12".toList 12 := by
  have h := NumLit.whole ['1', '2'] ⟨by simp, by decide⟩
  have hn : natOfDigits ['1', '2'] = 12 := by decide
  rw [hn] at h
  exact_mod_cast h
theorem roundToDouble_12 : roundToDouble (12) = 12 := by
  rw [roundToDouble_eq (12) 3 6755399441055744 (by norm_num) (by norm_num [abs_of_pos])
    (by norm_num [abs_of_pos]) (roundHalfEven_of_lt _ _ (by norm_num) (by norm_num))]
  norm_num
theorem readLiteral_double_12 : readLiteral doublePlatform "12".toList = .ok 12 :=
  readLiteral_double _ _ _ numLit_12 (by norm_num) (by norm_num) roundToDouble_12
/-- C28, witness: on the platform with the semantics of `double`, `12-2` evaluates to 10 and
`12/2` to 6. -/
theorem C28_binary_operand_order_witness :
    doublePlatform.Basic ∧ NumLit "12".toList 12 ∧ NumLit "2".toList 2 ∧
      (calculate doublePlatform ⟨0⟩ "12-2".toList 7).1 = .ok 10 ∧
      (calculate doublePlatform ⟨0⟩ "12/2".toList 7).1 = .ok 6 := by
  have h2 : NumLit "2".toList 2 := numLit_of_digit '2' 2 (by decide) (by decide)
  have h := C28_binary_operand_order doublePlatform doublePlatform_basic ⟨0⟩ 7
    "12".toList "2".toList 12 2 numLit_12 h2
  refine ⟨doublePlatform_basic, numLit_12, h2, ?_, ?_⟩
  · have h4 := h.2.1
    rw [readLiteral_double_12, readLiteral_double_2] at h4
    refine h4.trans ?_
    show Except.ok (roundToDouble (12 - 2)) = Except.ok 10
    have h5 : roundToDouble (12 - 2) = 10 := by
      rw [roundToDouble_eq (12 - 2) 3 5629499534213120 (by norm_num)
        (by norm_num [abs_of_pos]) (by norm_num [abs_of_pos])
        (roundHalfEven_of_lt _ _ (by norm_num) (by norm_num))]
      norm_num
    rw [h5]
  · have h4 := h.2.2.1
    rw [readLiteral_double_12, readLiteral_double_2] at h4
    refine h4.trans ?_
    show (if (2 : ℚ) = 0 then Except.error Error.divisionByZero
      else Except.ok (roundToDouble (12 / 2))) = Except.ok 6
    have h5 : roundToDouble (12 / 2) = 6 := by
      rw [roundToDouble_eq (12 / 2) 2 6755399441055744 (by norm_num)
        (by norm_num [abs_of_pos]) (by norm_num [abs_of_pos])
        (roundHalfEven_of_lt _ _ (by norm_num) (by norm_num))]
      norm_num
    rw [if_neg (by norm_num), h5]
/-- C28, counterexample. On the platform with the semantics of `double`: with `a` the digit
1 followed by 400 zeros, `calculate` on `a-2` does not return `a - 2` but throws "Unknown
token", the stream reader rejecting `a`; `1%0.1` evaluates to 0.09999999999999995 although
the remainder of 1 by one tenth is 0; and `0.3-0.1` evaluates to the `double`
0.19999999999999998, which is not `0.3 - 0.1`. -/
theorem C28_binary_operand_order_counterexample :
    NumLit hugeLiteral (10 ^ 400) ∧ NumLit "2".toList 2 ∧
      (calculate doublePlatform ⟨0⟩ (hugeLiteral ++ "-2".toList) 0).1 =
        .error (.unknownToken hugeLiteral) ∧
      NumLit "1".toList 1 ∧ NumLit "0.1".toList (1 / 10) ∧ fmod 1 (1 / 10) = 0 ∧
      (calculate doublePlatform ⟨0⟩ "1%0.1".toList 0).1 = .ok (3602879701896395 / 2 ^ 55) ∧
      NumLit "0.3".toList (3 / 10) ∧
      (calculate doublePlatform ⟨0⟩ "0.3-0.1".toList 0).1 = .ok (7205759403792793 / 2 ^ 55) ∧
      (7205759403792793 / 2 ^ 55 : ℚ) ≠ 3 / 10 - 1 / 10 := by
  have h2 : NumLit "2".toList 2 := numLit_of_digit '2' 2 (by decide) (by decide)
  have h1 : NumLit "1".toList 1 := numLit_of_digit '1' 1 (by decide) (by decide)
  refine ⟨numLit_hugeLiteral, h2, ?_, h1, numLit_0_1, ?_, ?_, numLit_0_3, ?_, by norm_num⟩
  · have h := calculate_binary doublePlatform doublePlatform_basic ⟨0⟩ 0 hugeLiteral
      "2".toList _ 2 numLit_hugeLiteral h2 '-' (by decide)
    rw [readLiteral_hugeLiteral] at h
    exact h
  · have hf : ⌊((1 : ℚ) / (1 / 10))⌋ = 10 := by
      rw [Int.floor_eq_iff]
      constructor <;> norm_num
    unfold fmod truncate
    rw [if_pos (by norm_num), hf]
    norm_num
  · have h := calculate_binary doublePlatform doublePlatform_basic ⟨0⟩ 0 "1".toList
      "0.1".toList 1 _ h1 numLit_0_1 '%' (by decide)
    rw [readLiteral_double_1, readLiteral_double_0_1] at h
    refine h.trans ?_
    have hf : ⌊((1 : ℚ) / (3602879701896397 / 2 ^ 55))⌋ = 9 := by
      rw [Int.floor_eq_iff]
      constructor <;> norm_num
    show applyBinaryOperator doublePlatform '%' 1 (3602879701896397 / 2 ^ 55) = _
    unfold applyBinaryOperator
    rw [if_neg (by decide), if_neg (by decide), if_neg (by decide), if_neg (by decide),
      if_neg (by decide), if_pos rfl, if_neg (by norm_num)]
    unfold fmod truncate
    rw [if_pos (by norm_num), hf]
    norm_num
  · have h := calculate_binary doublePlatform doublePlatform_basic ⟨0⟩ 0 "0.3".toList
      "0.1".toList _ _ numLit_0_3 numLit_0_1 '-' (by decide)
    rw [readLiteral_double_0_3, readLiteral_double_0_1] at h
    refine h.trans ?_
    show Except.ok (roundToDouble (5404319552844595 / 2 ^ 54 - 3602879701896397 / 2 ^ 55)) = _
    have h5 : roundToDouble (5404319552844595 / 2 ^ 54 - 3602879701896397 / 2 ^ 55) = 7205759403792793 / 2 ^ 55 := by
      rw [roundToDouble_eq (5404319552844595 / 2 ^ 54 - 3602879701896397 / 2 ^ 55) (-3) 7205759403792793 (by norm_num)
        (by norm_num [abs_of_pos]) (by norm_num [abs_of_pos])
        (roundHalfEven_of_lt _ _ (by norm_num) (by norm_num))]
      norm_num
    rw [h5]
/-! ## Folding of a name, in any traversal that visits the longer names first -/
theorem renameFunctions_plain_name (order : List (List Char × Char))
    (horder : order.Perm functions) (p : List Char × Char) (hp : p ∈ plainFunctions) :
    renameFunctions order p.1 = [p.2] := by
  have hsub : ∀ q ∈ order, q ∈ functions := fun q hq => horder.subset hq
  have h1 := renameFunctions_call order horder p hp [] (by simp)
  rw [renameFunctions_append_delim order hsub '(' (by decide), renameFunctions_nil] at h1
  have h2 := congrArg List.dropLast h1
  simpa using h2
theorem visitedBefore_split (a b : List Char × Char) :
    ∀ order : List (List Char × Char), visitedBefore a b order = true →
      ∃ l1 l2, order = l1 ++ a :: l2 ∧ a ∉ l1 ∧ b ∉ l1 := by
  intro order
  induction order with
  | nil => intro h; simp [visitedBefore] at h
  | cons p rest ih =>
    intro h
    unfold visitedBefore at h
    by_cases hpa : p = a
    · subst hpa
      exact ⟨[], rest, rfl, by simp, by simp⟩
    · rw [if_neg hpa] at h
      by_cases hpb : p = b
      · rw [if_pos hpb] at h
        cases h
      · rw [if_neg hpb] at h
        obtain ⟨l1, l2, he, ha, hb⟩ := ih h
        refine ⟨p :: l1, l2, by rw [he]; rfl, ?_, ?_⟩
        · simp only [List.mem_cons, not_or]
          exact ⟨fun h => hpa h.symm, ha⟩
        · simp only [List.mem_cons, not_or]
          exact ⟨fun h => hpb h.symm, hb⟩
theorem foldl_fixed {α β : Type} (f : β → α → β) (s : β) :
    ∀ l : List α, (∀ q ∈ l, f s q = s) → l.foldl f s = s := by
  intro l
  induction l with
  | nil => intro _; rfl
  | cons q l ih =>
    intro h
    rw [List.foldl_cons, h q (by simp)]
    exact ih (fun r hr => h r (by simp [hr]))
/-- A name `a` that contains the name `b` folds to its own symbol when it is visited before
`b`. -/
theorem renameFunctions_longer_name (order : List (List Char × Char))
    (horder : ∀ q ∈ order, q ∈ functions) (a b : List Char × Char)
    (hab : visitedBefore a b order = true)
    (h0 : ∀ q ∈ functions, q ≠ a → q ≠ b → replaceName q.1 q.2 0 a.1 = a.1)
    (h01 : replaceName a.1 a.2 0 a.1 = [a.2])
    (h1 : ∀ q ∈ functions, replaceName q.1 q.2 0 [a.2] = [a.2]) :
    renameFunctions order a.1 = [a.2] := by
  obtain ⟨l1, l2, he, ha, hb⟩ := visitedBefore_split a b order hab
  subst he
  unfold renameFunctions
  rw [List.foldl_append, List.foldl_cons,
    foldl_fixed (fun result pair => replaceName pair.1 pair.2 0 result) a.1 l1
      (fun q hq => h0 q (horder q (by simp [hq])) (fun h => ha (h ▸ hq)) (fun h => hb (h ▸ hq))),
    h01]
  exact foldl_fixed _ _ l2 (fun q hq => h1 q (horder q (by simp [hq])))
/-- In a traversal that visits `asin`, `acos`, `atan` before `sin`, `cos`, `tan`, each of
the nine names folds to its own symbol. -/
theorem renameFunctions_own_symbol (order : List (List Char × Char))
    (horder : order.Perm functions) (p : List Char × Char) (hp : p ∈ functions)
    (hfold : p ∈ plainFunctions ∨ InverseFirst order) :
    renameFunctions order p.1 = [p.2] := by
  rcases hfold with hpl | hinv
  · exact renameFunctions_plain_name order horder p hpl
  have hsub : ∀ q ∈ order, q ∈ functions := fun q hq => horder.subset hq
  simp only [functions, List.mem_cons, List.mem_singleton, List.not_mem_nil, or_false] at hp
  rcases hp with rfl | rfl | rfl | rfl | rfl | rfl | rfl | rfl | rfl
  · exact renameFunctions_plain_name order horder _ (by decide)
  · exact renameFunctions_plain_name order horder _ (by decide)
  · exact renameFunctions_plain_name order horder _ (by decide)
  · exact renameFunctions_longer_name order hsub _ _ hinv.1 (by decide) (by decide) (by decide)
  · exact renameFunctions_longer_name order hsub _ _ hinv.2.1 (by decide) (by decide)
      (by decide)
  · exact renameFunctions_longer_name order hsub _ _ hinv.2.2 (by decide) (by decide)
      (by decide)
  · exact renameFunctions_plain_name order horder _ (by decide)
  · exact renameFunctions_plain_name order horder _ (by decide)
  · exact renameFunctions_plain_name order horder _ (by decide)
theorem renameFunctions_call_own (order : List (List Char × Char))
    (horder : order.Perm functions) (p : List Char × Char) (hp : p ∈ functions)
    (hfold : p ∈ plainFunctions ∨ InverseFirst order) (rest : List Char) :
    renameFunctions order (p.1 ++ '(' :: rest) = p.2 :: '(' :: renameFunctions order rest := by
  have hsub : ∀ q ∈ order, q ∈ functions := fun q hq => horder.subset hq
  rw [renameFunctions_append_delim order hsub '(' (by decide),
    renameFunctions_own_symbol order horder p hp hfold]
  rfl
theorem functions_symbol_facts (p : List Char × Char) (hp : p ∈ functions) :
    isFunction p.2 = true ∧ isUnaryOperator p.2 = true ∧ p.2 ≠ '-' ∧ p.2 ≠ ' ' ∧
      getOperatorPriority p.2 = .ok 3 := by
  simp only [functions, List.mem_cons, List.mem_singleton, List.not_mem_nil, or_false] at hp
  rcases hp with rfl | rfl | rfl | rfl | rfl | rfl | rfl | rfl | rfl <;>
    exact ⟨by decide, by decide, by decide, by decide, rfl⟩
theorem toRPN_call_own (order : List (List Char × Char)) (horder : order.Perm functions)
    (p : List Char × Char) (hp : p ∈ functions)
    (hfold : p ∈ plainFunctions ∨ InverseFirst order) (N : List Char) (hN : OperandRun N) :
    toRPN order (p.1 ++ '(' :: (N ++ [')'])) = .ok (N ++ [' ', p.2]) := by
  obtain ⟨hf, _, hm, hs, -⟩ := functions_symbol_facts p hp
  have hsub : ∀ q ∈ order, q ∈ functions := fun q hq => horder.subset hq
  have htail : ∀ c ∈ N ++ [')'], isNameStart c = false := by
    intro c hc
    simp only [List.mem_append, List.mem_singleton] at hc
    rcases hc with h | rfl
    · exact hN.run_no_nameStart c h
    · rfl
  have hpi : processedInfix order (p.1 ++ '(' :: (N ++ [')'])) = p.2 :: '(' :: (N ++ [')']) := by
    unfold processedInfix replaceUnaryMinus
    rw [renameFunctions_call_own order horder p hp hfold,
      renameFunctions_of_no_nameStart order hsub _ htail]
    apply replaceUnaryMinusFrom_of_no_minus
    intro h
    simp only [List.mem_cons, List.mem_append, List.mem_singleton] at h
    rcases h with h | h | h | h
    · exact hm h.symm
    · exact absurd h (by decide)
    · exact hN.run_no_minus h
    · exact absurd h (by decide)
  rw [toRPN_eq, hpi, scan_function _ _ _ _ hf, scan_open,
    scan_run N _ _ _ hN.1 hN.2 (RunEnds_cons _ _ (by decide)), scan_close]
  simp only [popToParenthesis, ne_eq, Char.reduceEq, not_false_eq_true, not_true_eq_false,
    if_true, if_false, scan_nil, flushToken_empty, flushOperators, flushOperatorsLoop]
  have e : [] ++ (N ++ [' ']) ++ [p.2, ' '] = (N ++ [' ']) ++ [p.2] ++ [' '] := by simp
  rw [e, trim_snoc_space _ _ (by rw [List.append_assoc]; exact hN.run_head_ne_space _) hs]
  simp
/-! ## A call followed by a binary operator -/
theorem toRPN_call_binary (order : List (List Char × Char)) (horder : order.Perm functions)
    (p : List Char × Char) (hp : p ∈ functions)
    (hfold : p ∈ plainFunctions ∨ InverseFirst order) (a b : List Char) (o : Char)
    (ha : OperandRun a) (hb : OperandRun b) (ho : isBinaryOperator o = true) :
    toRPN order (p.1 ++ '(' :: (a ++ ')' :: o :: b)) =
      match popHigherPriority o [p.2] (a ++ [' ']) with
      | .ok (ops1, out1) =>
        .ok (trim (flushOperatorsLoop (o :: ops1) (out1 ++ (b ++ [' ']))))
      | .error e => .error e := by
  obtain ⟨hf, _, hm, hs, -⟩ := functions_symbol_facts p hp
  have hsub : ∀ q ∈ order, q ∈ functions := fun q hq => horder.subset hq
  have htail : ∀ c ∈ a ++ ')' :: o :: b, isNameStart c = false := by
    intro c hc
    simp only [List.mem_append, List.mem_cons] at hc
    rcases hc with h | rfl | rfl | h
    · exact ha.run_no_nameStart c h
    · rfl
    · exact isNameStart_of_isBinaryOperator ho
    · exact hb.run_no_nameStart c h
  have hpi : processedInfix order (p.1 ++ '(' :: (a ++ ')' :: o :: b)) =
      p.2 :: '(' :: (a ++ ')' :: o :: b) := by
    unfold processedInfix replaceUnaryMinus
    rw [renameFunctions_call_own order horder p hp hfold,
      renameFunctions_of_no_nameStart order hsub _ htail,
      replaceUnaryMinusFrom_cons_other _ _ _ hm,
      replaceUnaryMinusFrom_cons_other _ '(' _ (by decide),
      replaceUnaryMinusFrom_append _ _ _ ha.run_no_minus,
      replaceUnaryMinusFrom_cons_other _ ')' _ (by decide),
      replaceUnaryMinusFrom_binary _ _ _ (by decide),
      replaceUnaryMinusFrom_of_no_minus _ _ hb.run_no_minus]
  rw [toRPN_eq, hpi, scan_function _ _ _ _ hf, scan_open,
    scan_run a _ _ _ ha.1 ha.2 (runEnds_close _),
    show ('(' :: [p.2] : List Char) = [] ++ '(' :: [p.2] from rfl,
    scan_close_segment _ [] [p.2] _ pending_nil, scan_binary o _ _ _ ho]
  simp only [symbolsText, List.append_nil, List.nil_append]
  cases hpop : popHigherPriority o [p.2] (a ++ [' ']) with
  | error e => rfl
  | ok r =>
    obtain ⟨ops1, out1⟩ := r
    simp only
    rw [scan_run_end b _ _ hb.1 hb.2]
    simp only [flushToken_empty, flushOperators]
theorem isBinaryOperator_priority_low {o : Char} (ho : isBinaryOperator o = true)
    (hne : o ≠ '^') : ∃ q, getOperatorPriority o = .ok q ∧ q ≤ 3 := by
  simp only [isBinaryOperator, Bool.or_eq_true, beq_iff_eq] at ho
  rcases ho with ((((h | h) | h) | h) | h) | h
  all_goals first
    | exact absurd h hne
    | (subst h; exact ⟨_, rfl, by decide⟩)
/-- C21, counterexample. The claim fails for `^`: the symbol of a function has priority 3,
below the 4 of `^`, so `handleOperator` leaves it on the stack; in the observed traversal
order `sin(x)^2` converts to `x 2 ^ s`, the sine of the square, and `asin(x)^2` to
`x 2 ^ i`. -/
theorem C21_function_power_counterexample :
    toRPN observedOrder "sin(x)^2".toList = .ok "x 2 ^ s".toList ∧
      toRPN observedOrder "sin(x)^2".toList ≠ .ok "x s 2 ^".toList ∧
      toRPN observedOrder "asin(x)^2".toList = .ok "x 2 ^ i".toList ∧
      toRPN observedOrder "asin(x)^2".toList ≠ .ok "x i 2 ^".toList := by
  refine ⟨?_, ?_, ?_, ?_⟩ <;> decide
/-- C21 (amended). A function binds to the parenthesized group that follows it with
respect to `+ - * / %`: for every function name `f` with symbol `F` (for `asin`, `acos`,
`atan`: when the traversal of the function table visits them before `sin`, `cos`, `tan`, as
the observed one does), every binary operator `op` other than `^` and all operands `a`,
`b`, `toRPN` of `f(a) op b` is `a F b op`; with `op = ^` it is `a b ^ F`, the function being
applied to the power. -/
theorem C21_function_binding (order : List (List Char × Char)) (horder : order.Perm functions)
    (p : List Char × Char) (hp : p ∈ functions)
    (hfold : p ∈ plainFunctions ∨ InverseFirst order) (a b : List Char) (ha : OperandRun a)
    (hb : OperandRun b) :
    (∀ o : Char, isBinaryOperator o = true → o ≠ '^' →
        toRPN order (p.1 ++ '(' :: (a ++ ')' :: o :: b)) =
          .ok (a ++ ' ' :: p.2 :: ' ' :: (b ++ [' ', o]))) ∧
      toRPN order (p.1 ++ '(' :: (a ++ ')' :: '^' :: b)) =
        .ok (a ++ ' ' :: (b ++ [' ', '^', ' ', p.2])) := by
  obtain ⟨-, _, -, hs, hpr⟩ := functions_symbol_facts p hp
  constructor
  · intro o ho hne
    obtain ⟨q, hq, hq3⟩ := isBinaryOperator_priority_low ho hne
    rw [toRPN_call_binary order horder p hp hfold a b o ha hb ho,
      popHigherPriority_single_pop o p.2 _ 3 q hpr hq hq3]
    simp only [flushOperatorsLoop]
    have e : a ++ [' '] ++ [p.2, ' '] ++ (b ++ [' ']) ++ [o, ' '] =
        a ++ (' ' :: p.2 :: ' ' :: (b ++ [' '])) ++ [o, ' '] := by simp
    rw [e, trim_tokens_symbol a _ o ha (ne_space_of_isBinaryOperator ho)]
    simp
  · rw [toRPN_call_binary order horder p hp hfold a b '^' ha hb (by decide),
      popHigherPriority_single_keep '^' p.2 _ 3 4 hpr rfl (by decide)]
    simp only [flushOperatorsLoop]
    have e : a ++ [' '] ++ (b ++ [' ']) ++ ['^', ' '] ++ [p.2, ' '] =
        a ++ (' ' :: (b ++ [' ', '^', ' '])) ++ [p.2, ' '] := by simp
    rw [e, trim_tokens_symbol a _ p.2 ha hs]
    simp
/-- C21, witness: in the observed traversal order, `asin(x)*2` converts to `x i 2 *` and
`asin(x)^2` to `x 2 ^ i`. -/
theorem C21_function_binding_witness :
    observedOrder.Perm functions ∧ (("asin".toList, 'i') : List Char × Char) ∈ functions ∧
      InverseFirst observedOrder ∧ OperandRun "x".toList ∧ OperandRun "2".toList ∧
      toRPN observedOrder "asin(x)*2".toList = .ok "x i 2 *".toList ∧
      toRPN observedOrder "asin(x)^2".toList = .ok "x 2 ^ i".toList := by
  have hx : OperandRun "x".toList := operandRun_x
  have h2 : OperandRun "2".toList :=
    (numLit_of_digit '2' 2 (by decide) (by decide)).lit_operandRun
  have hperm : observedOrder.Perm functions := by decide
  have hinv : InverseFirst observedOrder := ⟨by decide, by decide, by decide⟩
  have h := C21_function_binding observedOrder hperm ("asin".toList, 'i') (by decide)
    (Or.inr hinv) "x".toList "2".toList hx h2
  exact ⟨hperm, by decide, hinv, hx, h2, h.1 '*' (by decide) (by decide), h.2⟩

/-! ## `replaceUnaryMinus`, index by index -/
theorem isUnaryMinus_some_iff (p : Char) :
    isUnaryMinus (some p) = true ↔ p ∈ ['(', '+', '-', '*', '/', '^', '%', '~'] := by
  simp only [isUnaryMinus, isOperator, Bool.or_eq_true, Bool.and_eq_true, beq_iff_eq,
    bne_iff_ne, ne_eq, List.mem_cons, List.mem_singleton, List.not_mem_nil, or_false]
  constructor
  · rintro (h | ⟨⟨h, -⟩, -⟩)
    · exact Or.inl h
    · rcases h with (((((h | h) | h) | h) | h) | h) | h <;> simp [h]
  · rintro (h | h | h | h | h | h | h | h)
    · exact Or.inl h
    all_goals (subst h; exact Or.inr (by decide))
theorem replaceUnaryMinusFrom_length (s : List Char) : ∀ prev : Option Char,
    (replaceUnaryMinusFrom prev s).length = s.length := by
  induction s with
  | nil => intro prev; rfl
  | cons c s ih =>
    intro prev
    by_cases h : (c == '-' && isUnaryMinus prev) = true
    · simp only [replaceUnaryMinusFrom, h, if_true, List.length_cons, ih]
    · simp only [replaceUnaryMinusFrom, h, Bool.false_eq_true, if_false, List.length_cons, ih]
theorem replaceUnaryMinusFrom_congr (s : List Char) (p q : Option Char)
    (h : isUnaryMinus p = isUnaryMinus q) :
    replaceUnaryMinusFrom p s = replaceUnaryMinusFrom q s := by
  cases s with
  | nil => rfl
  | cons c s => simp only [replaceUnaryMinusFrom, h]
theorem replaceUnaryMinusFrom_cons_input (prev : Option Char) (c : Char) (s : List Char) :
    replaceUnaryMinusFrom prev (c :: s) =
      (if c == '-' && isUnaryMinus prev then '~' else c) :: replaceUnaryMinusFrom (some c) s := by
  by_cases h : (c == '-' && isUnaryMinus prev) = true
  · have hc : c = '-' := by
      simp only [Bool.and_eq_true, beq_iff_eq] at h
      exact h.1
    subst hc
    simp only [replaceUnaryMinusFrom, h, if_true]
    rw [replaceUnaryMinusFrom_congr s (some '~') (some '-') rfl]
  · simp only [replaceUnaryMinusFrom, h, Bool.false_eq_true, if_false]
/-- The character at index `i` after `replaceUnaryMinus`, from the characters of the input
at `i` and `i - 1`. -/
theorem replaceUnaryMinusFrom_getElem (s : List Char) : ∀ (prev : Option Char) (i : Nat) (c : Char),
    s[i]? = some c →
      (replaceUnaryMinusFrom prev s)[i]? =
        some (if c == '-' && isUnaryMinus (if i = 0 then prev else s[i - 1]?) then '~' else c) := by
  induction s with
  | nil => intro prev i c h; simp at h
  | cons d s ih =>
    intro prev i c h
    rw [replaceUnaryMinusFrom_cons_input]
    cases i with
    | zero =>
      simp only [List.getElem?_cons_zero, Option.some.injEq] at h
      subst h
      simp
    | succ j =>
      simp only [List.getElem?_cons_succ] at h
      rw [List.getElem?_cons_succ, ih (some d) j c h]
      cases j with
      | zero => simp
      | succ k => simp
theorem unaryPosition_iff (s : List Char) (i : Nat) (hi : i < s.length) :
    isUnaryMinus (if i = 0 then none else s[i - 1]?) = true ↔ UnaryPosition s i := by
  unfold UnaryPosition
  by_cases h0 : i = 0
  · simp [h0, isUnaryMinus]
  · simp only [h0, if_false, false_or]
    have hlt : i - 1 < s.length := by omega
    rw [List.getElem?_eq_getElem hlt, isUnaryMinus_some_iff]
    constructor
    · intro hp
      exact ⟨_, rfl, hp⟩
    · rintro ⟨q, hq, hmem⟩
      cases hq
      exact hmem
theorem replaceUnaryMinus_getElem (s : List Char) (i : Nat) (c : Char) (h : s[i]? = some c) :
    (c = '-' ∧ UnaryPosition s i → (replaceUnaryMinus s)[i]? = some '~') ∧
      (¬ (c = '-' ∧ UnaryPosition s i) → (replaceUnaryMinus s)[i]? = some c) := by
  have hi : i < s.length := by
    by_contra hcon
    rw [List.getElem?_eq_none (by omega)] at h
    cases h
  have hg := replaceUnaryMinusFrom_getElem s none i c h
  have hu := unaryPosition_iff s i hi
  unfold replaceUnaryMinus
  constructor
  · rintro ⟨rfl, hpos⟩
    rw [hg, hu.mpr hpos]
    rfl
  · intro hn
    rw [hg]
    by_cases hc : c = '-'
    · have hnp : ¬ UnaryPosition s i := fun hp => hn ⟨hc, hp⟩
      have hf : isUnaryMinus (if i = 0 then none else s[i - 1]?) = false := by
        cases hb : isUnaryMinus (if i = 0 then none else s[i - 1]?) with
        | false => rfl
        | true => exact absurd (hu.mp hb) hnp
      rw [hf]
      simp
    · have : (c == '-') = false := by simpa using hc
      rw [this]
      simp
/-- C24, as stated, fails on a text that already holds `~`: the output of
`replaceUnaryMinus` on `~` has `~` at index 0, where the input has no `-`. -/
theorem C24_reserved_symbol_counterexample :
    replaceUnaryMinus ['~'] = ['~'] ∧
      ¬ (∀ (s : List Char) (i : Nat),
        (replaceUnaryMinus s)[i]? = some '~' ↔ (s[i]? = some '-' ∧ UnaryPosition s i)) := by
  refine ⟨rfl, ?_⟩
  intro h
  have h0 := (h ['~'] 0).mp rfl
  exact absurd h0.1 (by decide)
/-- C24 (amended). Unary-minus tagging: `replaceUnaryMinus` preserves the length of its
input and changes only `-` characters, each into `~`; the character at index `i` of the
output is `~` if and only if the input has `~` at `i`, or has `-` at `i` and either
`i = 0` or the input character at `i - 1` is `(` or one of `+ - * / ^ % ~`; every other
`-` stays `-`; on an input without `~` the output has `~` exactly at the unary
positions of `-`. -/
theorem C24_unary_minus_tagging (s : List Char) :
    (replaceUnaryMinus s).length = s.length ∧
      (∀ i : Nat, (replaceUnaryMinus s)[i]? ≠ s[i]? →
        s[i]? = some '-' ∧ (replaceUnaryMinus s)[i]? = some '~') ∧
      (∀ i : Nat, (replaceUnaryMinus s)[i]? = some '~' ↔
        (s[i]? = some '~' ∨ (s[i]? = some '-' ∧ UnaryPosition s i))) ∧
      (∀ i : Nat, s[i]? = some '-' → ¬ UnaryPosition s i →
        (replaceUnaryMinus s)[i]? = some '-') ∧
      ('~' ∉ s → ∀ i : Nat, (replaceUnaryMinus s)[i]? = some '~' ↔
        (s[i]? = some '-' ∧ UnaryPosition s i)) := by
  have hlen : (replaceUnaryMinus s).length = s.length := replaceUnaryMinusFrom_length s none
  have hnone : ∀ i : Nat, s[i]? = none → (replaceUnaryMinus s)[i]? = none := by
    intro i hi
    rw [List.getElem?_eq_none_iff] at hi ⊢
    omega
  have hiff : ∀ i : Nat, (replaceUnaryMinus s)[i]? = some '~' ↔
      (s[i]? = some '~' ∨ (s[i]? = some '-' ∧ UnaryPosition s i)) := by
    intro i
    cases hs : s[i]? with
    | none =>
      rw [hnone i hs]
      simp
    | some c =>
      obtain ⟨h1, h2⟩ := replaceUnaryMinus_getElem s i c hs
      by_cases hc : c = '-' ∧ UnaryPosition s i
      · rw [h1 hc, hc.1]
        simp [hc.2]
      · rw [h2 hc]
        constructor
        · intro h
          exact Or.inl h
        · rintro (h | ⟨h, hp⟩)
          · exact h
          · simp only [Option.some.injEq] at h
            exact absurd ⟨h, hp⟩ hc
  refine ⟨hlen, ?_, hiff, ?_, ?_⟩
  · intro i hne
    cases hs : s[i]? with
    | none => rw [hs, hnone i hs] at hne; exact absurd rfl hne
    | some c =>
      obtain ⟨h1, h2⟩ := replaceUnaryMinus_getElem s i c hs
      by_cases hc : c = '-' ∧ UnaryPosition s i
      · rw [h1 hc, hc.1]
        exact ⟨rfl, rfl⟩
      · rw [hs, h2 hc] at hne
        exact absurd rfl hne
  · intro i hs hnp
    exact (replaceUnaryMinus_getElem s i '-' hs).2 (fun h => hnp h.2)
  · intro hno i
    rw [hiff i]
    constructor
    · rintro (h | h)
      · exact absurd (List.getElem?_mem h) hno
      · exact h
    · intro h
      exact Or.inr h
theorem C24_unary_minus_tagging_witness :
    replaceUnaryMinus "-2-(-x*-3)".toList = "~2-(~x*~3)".toList ∧
      '~' ∉ "-2-(-x*-3)".toList ∧
      ((replaceUnaryMinus "-2-(-x*-3)".toList)[4]? = some '~' ↔
        ("-2-(-x*-3)".toList[4]? = some '-' ∧ UnaryPosition "-2-(-x*-3)".toList 4)) ∧
      (replaceUnaryMinus "1e-5".toList)[2]? = some '-' := by
  have h := C24_unary_minus_tagging "-2-(-x*-3)".toList
  have h2 := C24_unary_minus_tagging "1e-5".toList
  refine ⟨by decide, by decide, h.2.2.2.2 (by decide) 4, h2.2.2.2.1 2 (by decide) ?_⟩
  rintro (h0 | ⟨p, hp, hmem⟩)
  · cases h0
  · have hp2 : p = 'e' := by
      have : "1e-5".toList[2 - 1]? = some 'e' := by decide
      rw [this] at hp
      cases hp
      rfl
    subst hp2
    revert hmem
    decide

/-! ## A literal with a signed exponent -/
theorem IsDigits.digits_operandRun {ds : List Char} (h : IsDigits ds) : OperandRun ds :=
  (NumLit.whole ds h).lit_operandRun
theorem scan_token (c : Char) (hc : isOperand c = true) (rest ops out t r : List Char)
    (hf : findScientificNumber (c :: rest) [] false = .ok (t, r)) (hne : t ≠ []) :
    scan (c :: rest) ⟨ops, out, []⟩ = scan r ⟨ops, out ++ (t ++ [' ']), []⟩ := by
  rw [scan_operand c hc, hf]
  simp [flushToken, hne, processOperand]
theorem findScientificNumber_digits (m rest token : List Char) (hasExponent : Bool)
    (hm : ∀ c ∈ m, c.isDigit = true) :
    findScientificNumber (m ++ rest) token hasExponent =
      findScientificNumber rest (token ++ m) hasExponent := by
  induction m generalizing token with
  | nil => simp
  | cons c m ih =>
    have hc : c.isDigit = true := hm c (by simp)
    have hop : isOperand c = true := by simp [isOperand, hc]
    have hce : isPartOfExponent c = false := isPartOfExponent_of_isOperand hop
    rw [List.cons_append, findScientificNumber_cons]
    simp only [hop, Bool.true_or, if_true, hce, Bool.false_and,
      Bool.false_eq_true, if_false]
    rw [ih (token ++ [c]) (fun d hd => hm d (by simp [hd]))]
    simp
theorem findScientificNumber_signed (e sg : Char) (d rest token : List Char)
    (he : isPartOfExponent e = true) (hsg : sg = '+' ∨ sg = '-') (hd : IsDigits d)
    (hrest : RunEnds rest) :
    findScientificNumber (e :: sg :: (d ++ rest)) token false =
      .ok (token ++ e :: sg :: d, rest) := by
  obtain ⟨d0, d1, hd01, hd0⟩ := hd.digits_head
  subst hd01
  have hs : (sg == '+' || sg == '-') = true := by
    rcases hsg with rfl | rfl <;> rfl
  rw [findScientificNumber_cons]
  simp only [he, Bool.or_true, if_true, Bool.not_false, Bool.and_self, List.cons_append, hs, hd0]
  rw [findScientificNumber_run d1 rest _ true
    (fun c hc => by
      have := hd.2 c (by simp [hc])
      simp [isOperand, this]) hrest]
  simp
theorem findScientificNumber_scientific (m d rest : List Char) (e sg : Char)
    (hm : IsDigits m) (hd : IsDigits d) (he : isPartOfExponent e = true)
    (hsg : sg = '+' ∨ sg = '-') (hrest : RunEnds rest) :
    findScientificNumber (m ++ e :: sg :: (d ++ rest)) [] false =
      .ok (m ++ e :: sg :: d, rest) := by
  rw [findScientificNumber_digits m _ [] false hm.2,
    findScientificNumber_signed e sg d rest _ he hsg hd hrest, List.nil_append]
theorem scan_scientific (m d rest ops out : List Char) (e sg : Char)
    (hm : IsDigits m) (hd : IsDigits d) (he : isPartOfExponent e = true)
    (hsg : sg = '+' ∨ sg = '-') (hrest : RunEnds rest) :
    scan (m ++ e :: sg :: (d ++ rest)) ⟨ops, out, []⟩ =
      scan rest ⟨ops, out ++ ((m ++ e :: sg :: d) ++ [' ']), []⟩ := by
  have hf := findScientificNumber_scientific m d rest e sg hm hd he hsg hrest
  obtain ⟨m0, m1, hm01, hm0⟩ := hm.digits_head
  subst hm01
  exact scan_token m0 (by simp [isOperand, hm0]) _ ops out _ rest hf (by simp)
theorem processedInfix_scientific (order : List (List Char × Char))
    (horder : ∀ p ∈ order, p ∈ functions) (m d tail : List Char) (e sg : Char)
    (hm : IsDigits m) (hd : IsDigits d) (he : isPartOfExponent e = true)
    (hsg : sg = '+' ∨ sg = '-')
    (htail : tail = [] ∨ ∃ n, IsDigits n ∧ tail = '-' :: n) :
    processedInfix order (m ++ e :: sg :: (d ++ tail)) = m ++ e :: sg :: (d ++ tail) := by
  have hrm := hm.digits_operandRun
  have hrd := hd.digits_operandRun
  have hee : e = 'e' ∨ e = 'E' := by
    simpa [isPartOfExponent] using he
  have hen : isNameStart e = false := by
    rcases hee with rfl | rfl <;> rfl
  have hsn : isNameStart sg = false := by
    rcases hsg with rfl | rfl <;> rfl
  have heu : isUnaryMinus (some e) = false := by
    rcases hee with rfl | rfl <;> rfl
  have hem : e ≠ '-' := by
    rcases hee with rfl | rfl <;> decide
  unfold processedInfix replaceUnaryMinus
  rw [renameFunctions_of_no_nameStart order horder]
  · rw [replaceUnaryMinusFrom_append _ _ _ hrm.run_no_minus,
      replaceUnaryMinusFrom_cons_other _ e _ hem,
      replaceUnaryMinusFrom_cons_binary _ sg _ heu,
      replaceUnaryMinusFrom_append _ _ _ hrd.run_no_minus]
    rcases htail with rfl | ⟨n, hn, rfl⟩
    · rfl
    · rw [replaceUnaryMinusFrom_cons_binary _ '-' _ (by
          obtain ⟨l, hl, hop⟩ := hrd.run_getLast
          simp only [lastOr, hl]
          exact isUnaryMinus_of_isOperand hop),
        replaceUnaryMinusFrom_of_no_minus _ _ hn.digits_operandRun.run_no_minus]
  · intro c hc
    simp only [List.mem_append, List.mem_cons] at hc
    rcases hc with h | rfl | rfl | h | h
    · exact hrm.run_no_nameStart c h
    · exact hen
    · exact hsn
    · exact hrd.run_no_nameStart c h
    · rcases htail with rfl | ⟨n, hn, rfl⟩
      · simp at h
      · simp only [List.mem_cons] at h
        rcases h with rfl | h
        · rfl
        · exact hn.digits_operandRun.run_no_nameStart c h
/-- C25. A signed exponent is part of the literal, not an operator: for all non-empty
digit strings `m`, `d`, `n`, either exponent marker `e`/`E` and either sign, `toRPN` of
`m e sign d` is that text as a single token, and `toRPN` of `m e sign d - n` is the token
`m e sign d`, the token `n` and the operator `-`: only the `-` after `d` is emitted as a
subtraction. -/
theorem C25_signed_exponent (order : List (List Char × Char))
    (horder : ∀ p ∈ order, p ∈ functions) (m d n : List Char) (e sg : Char)
    (hm : IsDigits m) (hd : IsDigits d) (hn : IsDigits n) (he : isPartOfExponent e = true)
    (hsg : sg = '+' ∨ sg = '-') :
    toRPN order (m ++ e :: sg :: d) = .ok (m ++ e :: sg :: d) ∧
      toRPN order (m ++ e :: sg :: (d ++ '-' :: n)) =
        .ok ((m ++ e :: sg :: d) ++ ' ' :: (n ++ [' ', '-'])) := by
  have hrm := hm.digits_operandRun
  have hrn := hn.digits_operandRun
  obtain ⟨l, hl, hld⟩ := hd.digits_getLast
  constructor
  · have hpi := processedInfix_scientific order horder m d [] e sg hm hd he hsg (Or.inl rfl)
    have hsc := scan_scientific m d [] [] [] e sg hm hd he hsg RunEnds_nil
    rw [List.append_nil] at hpi hsc
    rw [toRPN_eq, hpi, hsc, scan_nil]
    simp only [flushToken_empty, flushOperators, flushOperatorsLoop, List.nil_append]
    have ht : trim ((m ++ e :: sg :: d) ++ [' ']) = m ++ e :: sg :: d := by
      apply trim_append_space
      · exact hrm.run_head_ne_space _
      · intro c hc
        rw [show m ++ e :: sg :: d = (m ++ [e, sg]) ++ d by simp, List.getLast?_append, hl] at hc
        simp only [Option.or_some, Option.mem_def, Option.some.injEq] at hc
        subst hc
        exact ne_of_isOperand (by simp [isOperand, hld]) (by decide)
    rw [ht]
  · rw [toRPN_eq,
      processedInfix_scientific order horder m d _ e sg hm hd he hsg (Or.inr ⟨n, hn, rfl⟩),
      scan_scientific m d _ [] [] e sg hm hd he hsg
        (runEnds_of_isBinaryOperator '-' _ (by decide)),
      scan_binary '-' _ _ _ (by decide), popHigherPriority_nil]
    simp only
    rw [scan_run_end n _ _ hrn.1 hrn.2]
    simp only [flushToken_empty, flushOperators, flushOperatorsLoop]
    have e1 : [] ++ ((m ++ e :: sg :: d) ++ [' ']) ++ (n ++ [' ']) ++ ['-', ' '] =
        m ++ (e :: sg :: d ++ ' ' :: (n ++ [' '])) ++ ['-', ' '] := by simp
    rw [e1, trim_tokens_symbol m _ '-' hrm (by decide)]
    simp
theorem C25_signed_exponent_witness :
    IsDigits "1".toList ∧ IsDigits "5".toList ∧ IsDigits "3".toList ∧
      toRPN functions "1e-5".toList = .ok "1e-5".toList ∧
      toRPN functions "1e-5-3".toList = .ok "1e-5 3 -".toList ∧
      toRPN functions "1E+5".toList = .ok "1E+5".toList := by
  have h1 : IsDigits "1".toList := ⟨by simp, by decide⟩
  have h5 : IsDigits "5".toList := ⟨by simp, by decide⟩
  have h3 : IsDigits "3".toList := ⟨by simp, by decide⟩
  have h := C25_signed_exponent functions (fun p hp => hp) "1".toList "5".toList "3".toList
    'e' '-' h1 h5 h3 rfl (Or.inr rfl)
  have hE := C25_signed_exponent functions (fun p hp => hp) "1".toList "5".toList "3".toList
    'E' '+' h1 h5 h3 rfl (Or.inl rfl)
  exact ⟨h1, h5, h3, h.1, h.2, hE.1⟩

/-- C27, counterexample. The result depends on the order in which the function table is
traversed: in the order of the initializer list, which visits `sin` before `asin`, `sin` is
replaced inside `asin`, `renameFunctions` leaves `as(x)`, the scan drops the `a` and `toRPN`
returns `x s` (likewise `x c`, `x t`), whereas in the observed order it returns `x i`; both
orders are traversals of the table. -/
theorem C27_folding_order_counterexample :
    functions.Perm functions ∧ observedOrder.Perm functions ∧
      renameFunctions functions "asin(x)".toList = "as(x)".toList ∧
      toRPN functions "asin(x)".toList = .ok "x s".toList ∧
      toRPN functions "acos(x)".toList = .ok "x c".toList ∧
      toRPN functions "atan(x)".toList = .ok "x t".toList ∧
      toRPN observedOrder "asin(x)".toList = .ok "x i".toList ∧
      toRPN functions "asin(x)".toList ≠ toRPN observedOrder "asin(x)".toList := by
  refine ⟨List.Perm.refl _, ?_, ?_, ?_, ?_, ?_, ?_, ?_⟩ <;> decide
/-- C27 (amended). Function-name folding replaces each whole name by its own symbol in every
traversal of the function table that visits `asin`, `acos`, `atan` before `sin`, `cos`,
`tan` (the observed order does): `renameFunctions` maps each of the nine names, at the start
of the text or after a character that is in no name, and followed by `(`, to its single
symbol, and goes on with the rest of the text; so `toRPN` turns `asin(x)` into `x i`,
`acos(x)` into `x o` and `atan(x)` into `x n`, and every `f(a)` into `a F`. -/
theorem C27_function_folding (order : List (List Char × Char)) (horder : order.Perm functions)
    (hinv : InverseFirst order) :
    (∀ p ∈ functions, ∀ rest : List Char,
        renameFunctions order (p.1 ++ '(' :: rest) = p.2 :: '(' :: renameFunctions order rest ∧
        ∀ (w : List Char) (c : Char), isNameLetter c = false →
          renameFunctions order (w ++ c :: (p.1 ++ '(' :: rest)) =
            renameFunctions order w ++ c :: p.2 :: '(' :: renameFunctions order rest) ∧
      (∀ p ∈ functions, ∀ a : List Char, OperandRun a →
        toRPN order (p.1 ++ '(' :: (a ++ [')'])) = .ok (a ++ [' ', p.2])) ∧
      toRPN order "asin(x)".toList = .ok "x i".toList ∧
      toRPN order "acos(x)".toList = .ok "x o".toList ∧
      toRPN order "atan(x)".toList = .ok "x n".toList := by
  have hsub : ∀ q ∈ order, q ∈ functions := fun q hq => horder.subset hq
  refine ⟨?_, ?_, ?_, ?_, ?_⟩
  · intro p hp rest
    refine ⟨renameFunctions_call_own order horder p hp (Or.inr hinv) rest, ?_⟩
    intro w c hc
    rw [renameFunctions_append_delim order hsub c hc,
      renameFunctions_call_own order horder p hp (Or.inr hinv) rest]
  · intro p hp a ha
    exact toRPN_call_own order horder p hp (Or.inr hinv) a ha
  · exact toRPN_call_own order horder ("asin".toList, 'i') (by decide) (Or.inr hinv) ['x']
      operandRun_x
  · exact toRPN_call_own order horder ("acos".toList, 'o') (by decide) (Or.inr hinv) ['x']
      operandRun_x
  · exact toRPN_call_own order horder ("atan".toList, 'n') (by decide) (Or.inr hinv) ['x']
      operandRun_x
/-- C27, witness: the observed traversal order visits the longer names first, and there
`asin(x)`, `acos(x)`, `atan(x)` convert to `x i`, `x o`, `x n`. -/
theorem C27_function_folding_witness :
    observedOrder.Perm functions ∧ InverseFirst observedOrder ∧
      renameFunctions observedOrder "asin(x)".toList = "i(x)".toList ∧
      toRPN observedOrder "asin(x)".toList = .ok "x i".toList ∧
      toRPN observedOrder "acos(x)".toList = .ok "x o".toList ∧
      toRPN observedOrder "atan(x)".toList = .ok "x n".toList := by
  have hperm : observedOrder.Perm functions := by decide
  have hinv : InverseFirst observedOrder := ⟨by decide, by decide, by decide⟩
  have h := C27_function_folding observedOrder hperm hinv
  exact ⟨hperm, hinv, by decide, h.2.2.1, h.2.2.2.1, h.2.2.2.2⟩
/-! ## Tokens that begin with a number -/
theorem readLeadingNumber_whole (ds : List Char) (h : IsDigits ds) :
    readLeadingNumber ds = some (natOfDigits ds : ℚ) := by
  have h1 : ds.takeWhile Char.isDigit = ds := List.takeWhile_eq_self_iff.mpr h.2
  have h2 : ds.dropWhile Char.isDigit = [] := List.dropWhile_eq_nil_iff.mpr h.2
  simp [readLeadingNumber, h1, h2, h.1]
theorem readLeadingNumber_fraction (ds fs : List Char) (hd : IsDigits ds) (hf : IsDigits fs) :
    readLeadingNumber (ds ++ '.' :: fs) =
      some ((natOfDigits ds : ℚ) + (natOfDigits fs : ℚ) / 10 ^ fs.length) := by
  have h1 : (ds ++ '.' :: fs).takeWhile Char.isDigit = ds := by
    rw [List.takeWhile_append_of_pos hd.2]
    simp [List.takeWhile_cons]
  have h2 : (ds ++ '.' :: fs).dropWhile Char.isDigit = '.' :: fs := by
    rw [List.dropWhile_append_of_pos hd.2]
    simp [List.dropWhile_cons]
  have h3 : fs.takeWhile Char.isDigit = fs := List.takeWhile_eq_self_iff.mpr hf.2
  simp only [readLeadingNumber, h1, h2, h3]
  simp [hd.1]
theorem readLeadingNumber_symbol (c : Char) (h : c.isDigit = false) :
    readLeadingNumber [c] = none := by
  simp [readLeadingNumber, List.takeWhile_cons, h]
theorem prefixPlatform_conforming : prefixPlatform.Conforming where
  order_perm := by decide
  reads_literal := fun N v h => by
    have hr : readLeadingNumber N = some v := by
      cases h with
      | whole _ hd => exact readLeadingNumber_whole _ hd
      | fraction ds fs hd hf => exact readLeadingNumber_fraction ds fs hd hf
    simp [prefixPlatform, hr]
  rejects_symbol := fun c h => by
    simp [prefixPlatform, readLeadingNumber_symbol c h]
namespace ModelCalculator
theorem evaluateRPN_accepted (P : Platform) (x v : ℚ) (t : List Char) (hne : t ≠ [])
    (hsp : ∀ c ∈ t, isSpace c = false) (hx : t ≠ ['x'])
    (hread : P.streamReadsDouble t = true) (hstod : P.stod t = some v) :
    evaluateRPN P t x = .ok v := by
  unfold evaluateRPN
  rw [splitTokens_last t [] hsp (by simpa using hne), List.nil_append, evaluateLoop_cons]
  have htt : tokenType P t = .TYPE_OPERAND := by
    simp [tokenType, isOperand, hx, hread]
  rw [htt]
  simp only [hx, if_false, hstod]
  rfl
end ModelCalculator
theorem toRPN_marked_twice (order : List (List Char × Char))
    (horder : ∀ p ∈ order, p ∈ functions) :
    toRPN order "1e2e".toList = .ok "1e2e".toList := by
  rw [toRPN_eq, processedInfix_of_plain order horder _ (by decide) (by decide)]
  rfl
/-- C26. The evaluator pushes every token that the library reader accepts, and the reader
is not asked whether it consumed the whole token: each of `2x`, `1.2.3`, `1e2e` (and every
token of digits, `.` and `x` other than `x` itself) is converted by `toRPN` to itself as a
single token, and when `iss >> d` succeeds on it and `std::stod` returns `v`, which they
do on a numeric prefix, `calculate` returns `v` instead of failing. -/
theorem C26_numeric_prefix_accepted (P : Platform)
    (horder : ∀ p ∈ P.functionOrder, p ∈ functions) (self : ModelCalculator) (x v : ℚ)
    (t : List Char) (ht : OperandRun t ∨ t = "1e2e".toList) (hx : t ≠ ['x'])
    (hread : P.streamReadsDouble t = true) (hstod : P.stod t = some v) :
    toRPN P.functionOrder t = .ok t ∧ (calculate P self t x).1 = .ok v := by
  have hrpn : toRPN P.functionOrder t = .ok t := by
    rcases ht with h | rfl
    · exact toRPN_single P.functionOrder horder t h
    · exact toRPN_marked_twice P.functionOrder horder
  have hne : t ≠ [] := by
    rcases ht with h | rfl
    · exact h.1
    · decide
  have hsp : ∀ c ∈ t, isSpace c = false := by
    rcases ht with h | rfl
    · exact h.run_no_space
    · decide
  refine ⟨hrpn, ?_⟩
  rw [calculate_of_toRPN P self t t x hrpn]
  exact evaluateRPN_accepted P x v t hne hsp hx hread hstod
theorem C26_numeric_prefix_accepted_witness :
    prefixPlatform.Conforming ∧ OperandRun "1.2.3".toList ∧ OperandRun "2x".toList ∧
      (calculate prefixPlatform ⟨0⟩ "1.2.3".toList 0).1 = .ok (6 / 5) ∧
      (calculate prefixPlatform ⟨0⟩ "2x".toList 0).1 = .ok 2 := by
  have h1 : OperandRun "1.2.3".toList := ⟨by decide, by decide⟩
  have h2 : OperandRun "2x".toList := ⟨by decide, by decide⟩
  have hs1 : readLeadingNumber "1.2.3".toList = some (6 / 5) := by
    have e : "1.2.3".toList = ['1'] ++ '.' :: ['2', '.', '3'] := rfl
    have ht : (['1'] ++ '.' :: ['2', '.', '3']).takeWhile Char.isDigit = ['1'] := by decide
    have hd : (['1'] ++ '.' :: ['2', '.', '3']).dropWhile Char.isDigit = '.' :: ['2', '.', '3'] := by
      decide
    have hf : ['2', '.', '3'].takeWhile Char.isDigit = ['2'] := by decide
    rw [e]
    simp only [readLeadingNumber, ht, hd, hf]
    have n1 : natOfDigits ['1'] = 1 := by decide
    have n2 : natOfDigits ['2'] = 2 := by decide
    simp only [n1, n2]
    norm_num
  have hs2 : readLeadingNumber "2x".toList = some 2 := by
    have ht : "2x".toList.takeWhile Char.isDigit = ['2'] := by decide
    have hd : "2x".toList.dropWhile Char.isDigit = ['x'] := by decide
    have n2 : natOfDigits ['2'] = 2 := by decide
    simp only [readLeadingNumber, ht, hd, n2]
    norm_num
    rfl
  refine ⟨prefixPlatform_conforming, h1, h2, ?_, ?_⟩
  · exact (C26_numeric_prefix_accepted prefixPlatform prefixPlatform_conforming.order_mem ⟨0⟩ 0 (6 / 5)
      "1.2.3".toList (Or.inl h1) (by decide)
      (by show (readLeadingNumber "1.2.3".toList).isSome = true; rw [hs1]; rfl) hs1).2
  · exact (C26_numeric_prefix_accepted prefixPlatform prefixPlatform_conforming.order_mem ⟨0⟩ 0 2
      "2x".toList (Or.inl h2) (by decide)
      (by show (readLeadingNumber "2x".toList).isSome = true; rw [hs2]; rfl) hs2).2

/-! ## The preprocessor on a text between or before parentheses -/
theorem replaceUnaryMinusFrom_snoc_close (prev : Option Char) (s : List Char) :
    replaceUnaryMinusFrom prev (s ++ [')']) = replaceUnaryMinusFrom prev s ++ [')'] := by
  rw [replaceUnaryMinusFrom_split, replaceUnaryMinusFrom_cons_other _ ')' _ (by decide)]
  rfl
theorem processedInfix_snoc_close (order : List (List Char × Char))
    (horder : ∀ p ∈ order, p ∈ functions) (E : List Char) :
    processedInfix order (E ++ [')']) = processedInfix order E ++ [')'] := by
  unfold processedInfix replaceUnaryMinus
  rw [renameFunctions_snoc_delim order horder ')' (by decide), replaceUnaryMinusFrom_snoc_close]
/-! ## The scan of a text followed by a text that breaks the operand run -/
theorem runBreak_head {b : Char} {B : List Char} (h : RunBreak (b :: B)) :
    (isOperand b || isPartOfExponent b) = false ∧ (b == '+' || b == '-') = false ∧
      b.isDigit = false := by
  have hb : isRunChar b = false := h b (by simp)
  simp only [isRunChar, Bool.or_eq_false_iff] at hb
  obtain ⟨⟨⟨h1, h2⟩, h3⟩, h4⟩ := hb
  refine ⟨by simp [h1, h2], by simp [h3, h4], ?_⟩
  simp only [isOperand, Bool.or_eq_false_iff] at h1
  exact h1.1.1
theorem findScientificNumber_append (B : List Char) (hB : RunBreak B) :
    ∀ (n : Nat) (s token : List Char) (hasExponent : Bool), s.length = n →
      findScientificNumber (s ++ B) token hasExponent =
        match findScientificNumber s token hasExponent with
        | .ok (t, r) => .ok (t, r ++ B)
        | .error e => .error e := by
  intro n
  induction n using Nat.strong_induction_on with
  | _ n ih =>
    intro s token hasExponent hn
    subst hn
    cases s with
    | nil =>
      rw [findScientificNumber_nil, List.nil_append]
      cases B with
      | nil => rfl
      | cons b B =>
        obtain ⟨h1, -, -⟩ := runBreak_head hB
        rw [findScientificNumber_cons, if_neg (by simp [h1])]
        rfl
    | cons c rest =>
      rw [List.cons_append, findScientificNumber_cons, findScientificNumber_cons]
      by_cases hc : (isOperand c || isPartOfExponent c) = true
      · rw [if_pos hc, if_pos hc]
        by_cases he : (isPartOfExponent c && !hasExponent) = true
        · rw [if_pos he, if_pos he]
          cases rest with
          | nil =>
            rw [List.nil_append]
            cases B with
            | nil => rfl
            | cons b B =>
              obtain ⟨-, h2, h3⟩ := runBreak_head hB
              simp only [h2, h3, Bool.false_eq_true, if_false]
          | cons s rest1 =>
            simp only [List.cons_append]
            by_cases hs : (s == '+' || s == '-') = true
            · rw [if_pos hs, if_pos hs]
              cases rest1 with
              | nil =>
                rw [List.nil_append]
                cases B with
                | nil => rfl
                | cons b B =>
                  obtain ⟨-, -, h3⟩ := runBreak_head hB
                  simp only [h3, Bool.false_eq_true, if_false]
              | cons d rest2 =>
                simp only [List.cons_append]
                by_cases hd : d.isDigit = true
                · rw [if_pos hd, if_pos hd]
                  exact ih rest2.length (by simp only [List.length_cons]; omega) rest2 _ _ rfl
                · rw [if_neg hd, if_neg hd]
            · rw [if_neg hs, if_neg hs]
              by_cases hd : s.isDigit = true
              · rw [if_pos hd, if_pos hd]
                exact ih rest1.length (by simp only [List.length_cons]; omega) rest1 _ _ rfl
              · rw [if_neg hd, if_neg hd]
        · rw [if_neg he, if_neg he]
          exact ih rest.length (by simp only [List.length_cons]; omega) rest _ _ rfl
      · rw [if_neg hc, if_neg hc]
        rfl
/-- The scan of `A ++ B` is the scan of `A` followed by the scan of `B`, when `B` cannot
continue an operand run of `A`. -/
theorem scan_append (B : List Char) (hB : RunBreak B) :
    ∀ (n : Nat) (A : List Char) (st : Conv), A.length = n →
      scan (A ++ B) st =
        match scan A st with
        | .ok st1 => scan B st1
        | .error e => .error e := by
  intro n
  induction n using Nat.strong_induction_on with
  | _ n ih =>
    intro A st hn
    subst hn
    cases A with
    | nil => rw [List.nil_append, scan_nil]
    | cons c rest =>
      have hrec : ∀ (r : List Char) (st2 : Conv), r.length ≤ rest.length →
          scan (r ++ B) st2 =
            match scan r st2 with
            | .ok st1 => scan B st1
            | .error e => .error e := fun r st2 hlen =>
        ih r.length (by simp only [List.length_cons]; omega) r st2 rfl
      rw [List.cons_append, scan_cons, scan_cons]
      cases hcl : isOperandOrOperatorOrFunction c with
      | OPERAND =>
        simp only
        have hop : isOperand c = true := by
          by_contra hcon
          simp only [isOperandOrOperatorOrFunction, hcon, Bool.false_eq_true, if_false] at hcl
          split at hcl
          · cases hcl
          · split at hcl <;> cases hcl
        simp only [handleOperand, hop, if_true]
        have hf := findScientificNumber_append B hB _ (c :: rest) st.token false rfl
        rw [List.cons_append] at hf
        rw [hf]
        cases hfs : findScientificNumber (c :: rest) st.token false with
        | error e => rfl
        | ok p =>
          obtain ⟨t, r⟩ := p
          simp only
          exact hrec r _ (findScientificNumber_length_cons c rest _ _ t r (by simp [hop]) hfs)
      | OPERATOR =>
        simp only
        by_cases ht : (c == '~') = true
        · rw [if_pos ht, if_pos ht]
          exact hrec rest _ (Nat.le_refl _)
        · rw [if_neg ht, if_neg ht]
          cases handleOperator st c with
          | error e => rfl
          | ok st1 =>
            simp only
            exact hrec rest _ (Nat.le_refl _)
      | FUNCTION =>
        simp only
        exact hrec rest _ (Nat.le_refl _)
      | BRACKETS =>
        simp only
        exact hrec rest _ (Nat.le_refl _)

theorem popToParenthesis_noOpen_all :
    ∀ (ops out : List Char), '(' ∉ ops →
      popToParenthesis ops out = ([], out ++ symbolsText ops) := by
  intro ops
  induction ops with
  | nil => intro out _; simp [popToParenthesis, symbolsText]
  | cons t ops ih =>
    intro out hno
    have ht : t ≠ '(' := fun h => hno (by simp [h])
    rw [popToParenthesis_cons, if_pos ht, ih _ (fun h => hno (by simp [h]))]
    simp [symbolsText]
theorem isStackChar_cons {c : Char} {ops : List Char} (hc : isStackChar c = true)
    (h : ∀ s ∈ ops, isStackChar s = true) : ∀ s ∈ c :: ops, isStackChar s = true := by
  intro s hs
  simp only [List.mem_cons] at hs
  rcases hs with rfl | hs
  · exact hc
  · exact h s hs
/-! ## A balanced text between parentheses, or before a closing parenthesis -/
theorem runBreak_close (tail : List Char) : RunBreak (')' :: tail) := by
  intro d hd
  simp only [List.head?_cons, Option.mem_def, Option.some.injEq] at hd
  subst hd
  rfl
/-- The state after the scan of a text that leaves no `(` open. -/
theorem scan_balanced (order : List (List Char × Char)) (horder : ∀ p ∈ order, p ∈ functions)
    (E : List Char) (hE : openDepth 0 E = 0) (st1 : Conv)
    (hs : scan (processedInfix order E) ⟨[], [], []⟩ = .ok st1) :
    st1.token = [] ∧ '(' ∉ st1.operators := by
  obtain ⟨toks1, -, -, h3, h4⟩ :=
    scan_tokens_depth _ (processedInfix order E) [] [] [] st1 rfl (by simp) rfl
      (by intro t ht; simp at ht) hs
  rw [openDepth_processedInfix order horder] at h4
  simp only [List.count_nil, hE] at h4
  exact ⟨h3.1, List.count_eq_zero.mp h4⟩
theorem scan_close_final (ops out : List Char) (hno : '(' ∉ ops) :
    scan [')'] ⟨ops, out, []⟩ = .ok ⟨[], out ++ symbolsText ops, []⟩ := by
  rw [scan_close, popToParenthesis_noOpen_all ops out hno]
  rfl
theorem toRPN_snoc_close (order : List (List Char × Char))
    (horder : ∀ p ∈ order, p ∈ functions) (E : List Char) (hE : openDepth 0 E = 0) :
    toRPN order (E ++ [')']) = toRPN order E := by
  rw [toRPN_eq, toRPN_eq, processedInfix_snoc_close order horder,
    scan_append [')'] (runBreak_close []) _ _ _ rfl]
  cases hs : scan (processedInfix order E) ⟨[], [], []⟩ with
  | error e => rfl
  | ok st1 =>
    obtain ⟨ht, hno⟩ := scan_balanced order horder E hE st1 hs
    obtain ⟨ops, out, token⟩ := st1
    simp only at ht hno
    subst ht
    simp only
    rw [scan_close_final ops out hno]
    simp only [flushToken_empty, flushOperators, flushOperatorsLoop_eq, symbolsText,
      List.append_nil]
namespace ModelCalculator
end ModelCalculator
/-- C30. Unmatched closing parenthesis tolerance: a `)` met with no `(` on the operator
stack empties the stack to the output and discards nothing, so for every text `E` with
balanced parentheses `toRPN` of `E)` and `toRPN` of `E` are the same outcome, the same
postfix string or the same exception. -/
theorem C30_unmatched_close_tolerated (order : List (List Char × Char))
    (horder : ∀ p ∈ order, p ∈ functions) (E : List Char) (hE : Balanced E) :
    (∀ ops out : List Char, '(' ∉ ops →
        handleParenthesis ⟨ops, out, []⟩ ')' = ⟨[], out ++ symbolsText ops, []⟩) ∧
      toRPN order (E ++ [')']) = toRPN order E := by
  refine ⟨?_, toRPN_snoc_close order horder E hE.1⟩
  intro ops out hno
  simp only [handleParenthesis, beq_iff_eq, Char.reduceEq, if_false, if_true, flushToken_empty,
    popToParenthesis_noOpen_all ops out hno]
theorem C30_unmatched_close_tolerated_witness :
    Balanced "1+2".toList ∧
      toRPN functions "1+2)".toList = toRPN functions "1+2".toList ∧
      toRPN functions "1+2)".toList = .ok "1 2 +".toList := by
  have hb : Balanced "1+2".toList := ⟨by decide, by decide⟩
  exact ⟨hb, (C30_unmatched_close_tolerated functions (fun p hp => hp) "1+2".toList hb).2,
    by decide⟩

/-! ## The calendar helpers of the credit and deposit models -/
theorem tmod_eq_zero_iff (a b : ℤ) : a.tmod b = 0 ↔ b ∣ a :=
  ⟨Int.dvd_of_tmod_eq_zero, Int.tmod_eq_zero_of_dvd⟩
theorem creditLeap_iff (year : ℤ) : CreditModel.isLeapYear year = true ↔ GregorianLeap year := by
  simp only [CreditModel.isLeapYear, GregorianLeap, Bool.or_eq_true, Bool.and_eq_true,
    beq_iff_eq, bne_iff_ne, ne_eq, tmod_eq_zero_iff]
theorem depositLeap_iff (year : ℤ) :
    DepositModel.isLeapYear year = true ↔ GregorianLeap year := by
  simp only [DepositModel.isLeapYear, GregorianLeap, Bool.or_eq_true, Bool.and_eq_true,
    beq_iff_eq, bne_iff_ne, ne_eq, tmod_eq_zero_iff]
  constructor
  · rintro ⟨h4, h | h⟩
    · exact Or.inl ⟨h4, h⟩
    · exact Or.inr h
  · rintro (⟨h4, h⟩ | h)
    · exact ⟨h4, Or.inl h⟩
    · exact ⟨Dvd.dvd.trans (by norm_num) h, Or.inr h⟩
theorem isLeapYear_agree (year : ℤ) :
    CreditModel.isLeapYear year = DepositModel.isLeapYear year := by
  rw [Bool.eq_iff_iff, creditLeap_iff, depositLeap_iff]
/-- C39. The two leap-year predicates agree: for every integer year
`CreditModel::isLeapYear` and `DepositModel::isLeapYear` return the same value, both are
true exactly under the Gregorian rule (divisible by 4 and not by 100, or divisible by
400), and the two `getDaysInMonth` return the same value for every month and year. -/
theorem C39_leap_year_predicates_agree (year : ℤ) :
    CreditModel.isLeapYear year = DepositModel.isLeapYear year ∧
      (CreditModel.isLeapYear year = true ↔ GregorianLeap year) ∧
      (DepositModel.isLeapYear year = true ↔ GregorianLeap year) ∧
      ∀ month : ℤ, CreditModel.getDaysInMonth month year =
        DepositModel.getDaysInMonth month year := by
  refine ⟨isLeapYear_agree year, creditLeap_iff year, depositLeap_iff year, ?_⟩
  intro month
  simp only [CreditModel.getDaysInMonth, DepositModel.getDaysInMonth, isLeapYear_agree year]
/-! ## The annuity payment -/
theorem floor_of_bounds (q : ℚ) (n : ℤ) (h1 : (n : ℚ) ≤ q) (h2 : q < n + 1) : ⌊q⌋ = n :=
  Int.floor_eq_iff.mpr ⟨h1, h2⟩
theorem roundHalfAway_of_bounds (q : ℚ) (n : ℤ) (h0 : 0 ≤ q) (h1 : (n : ℚ) - 1 / 2 ≤ q)
    (h2 : q < n + 1 / 2) : roundHalfAway q = n := by
  unfold roundHalfAway
  rw [if_pos h0]
  apply floor_of_bounds
  · linarith
  · linarith
theorem annuity_sample :
    CreditModel.calculateAnnuity samplePlatform ⟨1000000, 12, 10⟩ =
      (8791589 / 100, ⟨105499068 / 100, 5499068 / 100⟩) := by
  have hp : samplePlatform.pow (1 + 10 / 1200) (-((12 : ℤ) : ℚ)) = (120 / 121) ^ 12 := by
    have e : (-((12 : ℤ) : ℚ)) = ((-12 : ℤ) : ℚ) := by norm_num
    rw [e]
    simp only [samplePlatform, Rat.intCast_den, if_true, Rat.intCast_num]
    norm_num
  have hr : roundHalfAway ((1000000 : ℚ) * (10 / 1200) / (1 - (120 / 121) ^ 12) * 100) =
      8791589 := by
    apply roundHalfAway_of_bounds
    · norm_num
    · norm_num
    · norm_num
  simp only [CreditModel.calculateAnnuity, hp, hr]
  norm_num
/-- C36. Annuity totals: for every input, `calculateCredit` with type `ANNUITY` sets
`monthly_pay` to `credit * r / (1 - (1 + r)^(-term))` with `r = rate / 1200`, rounded to
two decimals, `out.total` to `monthly_pay * term` and `out.overpayment` to
`out.total - credit`, and leaves the payments vector unchanged; credit 1000000, term 12,
rate 10 give 87915.89, 1054990.68 and 54990.68. -/
theorem C36_annuity_totals (P : Platform) (today : ℤ × ℤ × ℤ) (inp : CrInput)
    (refs : CreditRefs) :
    (CreditModel.calculateCredit P today .ANNUITY inp refs).monthly_pay =
        (roundHalfAway (inp.credit * (inp.rate / 1200) /
          (1 - P.pow (1 + inp.rate / 1200) (-(inp.term : ℚ))) * 100) : ℚ) / 100 ∧
      (CreditModel.calculateCredit P today .ANNUITY inp refs).out.total =
        (CreditModel.calculateCredit P today .ANNUITY inp refs).monthly_pay * (inp.term : ℚ) ∧
      (CreditModel.calculateCredit P today .ANNUITY inp refs).out.overpayment =
        (CreditModel.calculateCredit P today .ANNUITY inp refs).out.total - inp.credit ∧
      (CreditModel.calculateCredit P today .ANNUITY inp refs).payments = refs.payments ∧
      (CreditModel.calculateCredit samplePlatform today .ANNUITY ⟨1000000, 12, 10⟩
          refs).monthly_pay = 87915.89 ∧
      (CreditModel.calculateCredit samplePlatform today .ANNUITY ⟨1000000, 12, 10⟩
          refs).out.total = 1054990.68 ∧
      (CreditModel.calculateCredit samplePlatform today .ANNUITY ⟨1000000, 12, 10⟩
          refs).out.overpayment = 54990.68 := by
  refine ⟨rfl, rfl, rfl, rfl, ?_, ?_, ?_⟩
  · show (CreditModel.calculateAnnuity samplePlatform ⟨1000000, 12, 10⟩).1 = _
    rw [annuity_sample]
    norm_num
  · show (CreditModel.calculateAnnuity samplePlatform ⟨1000000, 12, 10⟩).2.total = _
    rw [annuity_sample]
    norm_num
  · show (CreditModel.calculateAnnuity samplePlatform ⟨1000000, 12, 10⟩).2.overpayment = _
    rw [annuity_sample]
    norm_num

/-! ## The differential schedule -/
theorem calculateDifferentialLoop_succ (c r : ℚ) (k : Nat) (st : DifferentialLoop) :
    CreditModel.calculateDifferentialLoop c r (k + 1) st =
      CreditModel.calculateDifferentialLoop c r k
        { total_reminder := st.total_reminder - c
          out := { st.out with total := st.out.total + (c + st.total_reminder * r) }
          payments := st.payments ++
            [⟨c + st.total_reminder * r, st.total_reminder * r,
              CreditModel.formatDate st.current_day st.current_month st.current_year,
              st.total_reminder - c, c⟩]
          current_day :=
            (CreditModel.incrementMonthAndYear st.current_day st.current_month
              st.current_year).1
          current_month :=
            (CreditModel.incrementMonthAndYear st.current_day st.current_month
              st.current_year).2.1
          current_year :=
            (CreditModel.incrementMonthAndYear st.current_day st.current_month
              st.current_year).2.2 } := rfl
/-- The numbers of the payments the loop appends, entry by entry: monthly payment, interest
part, remainder after the payment and principal part. -/
theorem calculateDifferentialLoop_payments (c r : ℚ) :
    ∀ (k : Nat) (st : DifferentialLoop),
      (CreditModel.calculateDifferentialLoop c r k st).payments.map
          (fun p => (p.monthly_pay, p.interest_pay, p.total_reminder, p.const_payment)) =
        st.payments.map
            (fun p => (p.monthly_pay, p.interest_pay, p.total_reminder, p.const_payment)) ++
          (List.range k).map (fun i : Nat =>
            (c + (st.total_reminder - (i : ℚ) * c) * r, (st.total_reminder - (i : ℚ) * c) * r,
              st.total_reminder - ((i : ℚ) + 1) * c, c)) := by
  intro k
  induction k with
  | zero => intro st; simp [CreditModel.calculateDifferentialLoop]
  | succ k ih =>
    intro st
    rw [calculateDifferentialLoop_succ, ih, List.range_succ_eq_map]
    simp only [List.map_append, List.map_cons, List.map_nil, List.append_assoc,
      List.singleton_append, List.map_map, Nat.cast_zero, zero_mul, sub_zero, zero_add, one_mul]
    congr 2
    · apply List.map_congr_left
      intro i _
      simp only [Function.comp]
      refine Prod.ext ?_ (Prod.ext ?_ (Prod.ext ?_ rfl))
      · show c + (st.total_reminder - c - (i : ℚ) * c) * r =
          c + (st.total_reminder - ((i + 1 : ℕ) : ℚ) * c) * r
        push_cast
        ring
      · show (st.total_reminder - c - (i : ℚ) * c) * r =
          (st.total_reminder - ((i + 1 : ℕ) : ℚ) * c) * r
        push_cast
        ring
      · show st.total_reminder - c - ((i : ℚ) + 1) * c =
          st.total_reminder - (((i + 1 : ℕ) : ℚ) + 1) * c
        push_cast
        ring
theorem calculateDifferentialLoop_total (c r : ℚ) :
    ∀ (k : Nat) (st : DifferentialLoop),
      (CreditModel.calculateDifferentialLoop c r k st).out.total =
          st.out.total + (k : ℚ) * c +
            r * ((k : ℚ) * st.total_reminder - c * ((k : ℚ) * ((k : ℚ) - 1) / 2)) ∧
        (CreditModel.calculateDifferentialLoop c r k st).out.overpayment =
          st.out.overpayment := by
  intro k
  induction k with
  | zero => intro st; simp [CreditModel.calculateDifferentialLoop]
  | succ k ih =>
    intro st
    rw [calculateDifferentialLoop_succ]
    refine ⟨?_, (ih _).2⟩
    rw [(ih _).1]
    push_cast
    ring
theorem interest_sum (c r R : ℚ) (k : Nat) :
    ((List.range k).map (fun i : Nat => (R - (i : ℚ) * c) * r)).sum =
      r * ((k : ℚ) * R - c * ((k : ℚ) * ((k : ℚ) - 1) / 2)) := by
  induction k with
  | zero => simp
  | succ k ih =>
    rw [List.range_succ, List.map_append, List.sum_append, ih]
    simp only [List.map_cons, List.map_nil, List.sum_cons, List.sum_nil]
    push_cast
    ring
theorem interestPart_eq (credit rate : ℚ) (n i : Nat) :
    interestPart credit rate n i = (credit - (i : ℚ) * (credit / (n : ℚ))) * (rate / 12 / 100) := by
  unfold interestPart
  ring
theorem calculateDifferential_payments (today : ℤ × ℤ × ℤ) (inp : CrInput) (out : CrOutput) :
    (CreditModel.calculateDifferential today inp out).1.map
        (fun p => (p.monthly_pay, p.interest_pay, p.total_reminder, p.const_payment)) =
      (List.range inp.term.toNat).map (fun i : Nat =>
        (inp.credit / (inp.term : ℚ) +
            (inp.credit - (i : ℚ) * (inp.credit / (inp.term : ℚ))) * (inp.rate / 12 / 100),
          (inp.credit - (i : ℚ) * (inp.credit / (inp.term : ℚ))) * (inp.rate / 12 / 100),
          inp.credit - ((i : ℚ) + 1) * (inp.credit / (inp.term : ℚ)),
          inp.credit / (inp.term : ℚ))) := by
  simp only [CreditModel.calculateDifferential]
  rw [calculateDifferentialLoop_payments]
  simp
theorem calculateDifferential_total (today : ℤ × ℤ × ℤ) (inp : CrInput) (out : CrOutput)
    (h : 1 ≤ inp.term) :
    (CreditModel.calculateDifferential today inp out).2.2.total =
        inp.credit + inp.credit * (inp.rate / 1200) * ((inp.term : ℚ) + 1) / 2 ∧
      (CreditModel.calculateDifferential today inp out).2.2.overpayment =
        inp.credit * (inp.rate / 1200) * ((inp.term : ℚ) + 1) / 2 := by
  have hn : ((inp.term.toNat : ℕ) : ℚ) = (inp.term : ℚ) := by
    have : ((inp.term.toNat : ℕ) : ℤ) = inp.term := Int.toNat_of_nonneg (by omega)
    exact_mod_cast this
  have hpos : (inp.term : ℚ) ≠ 0 := by
    have : (1 : ℚ) ≤ (inp.term : ℚ) := by exact_mod_cast h
    linarith
  have ht : (CreditModel.calculateDifferential today inp out).2.2.total =
      inp.credit + inp.credit * (inp.rate / 1200) * ((inp.term : ℚ) + 1) / 2 := by
    simp only [CreditModel.calculateDifferential]
    rw [(calculateDifferentialLoop_total _ _ _ _).1, hn]
    field_simp
    ring
  refine ⟨ht, ?_⟩
  have ho : (CreditModel.calculateDifferential today inp out).2.2.overpayment =
      (CreditModel.calculateDifferential today inp out).2.2.total - inp.credit := rfl
  rw [ho, ht]
  ring

theorem toNat_cast_of_one_le (term : ℤ) (h : 1 ≤ term) : ((term.toNat : ℕ) : ℚ) = (term : ℚ) := by
  have : ((term.toNat : ℕ) : ℤ) = term := Int.toNat_of_nonneg (by omega)
  exact_mod_cast this
theorem calculateDifferential_interest (today : ℤ × ℤ × ℤ) (inp : CrInput) (out : CrOutput) :
    (CreditModel.calculateDifferential today inp out).1.map Payment.interest_pay =
      (List.range inp.term.toNat).map (fun i : Nat =>
        (inp.credit - (i : ℚ) * (inp.credit / (inp.term : ℚ))) * (inp.rate / 12 / 100)) := by
  have h := congrArg (List.map (fun q : ℚ × ℚ × ℚ × ℚ => q.2.1))
    (calculateDifferential_payments today inp out)
  simp only [List.map_map] at h
  exact h
/-- C37. Differential totals in closed form: for every credit, rate and term `n ≥ 1`,
`calculateCredit` with type `DIFFERENTIAL` sets `out.overpayment` to the sum of the
interest parts of the schedule, the part of month `i` being
`(credit - i * credit / n) * rate / 1200`; that sum is `credit * (rate / 1200) * (n + 1) / 2`,
and `out.total` is `credit + out.overpayment`. -/
theorem C37_differential_totals (P : Platform) (today : ℤ × ℤ × ℤ) (inp : CrInput)
    (refs : CreditRefs) (h : 1 ≤ inp.term) :
    (CreditModel.calculateCredit P today .DIFFERENTIAL inp refs).out.overpayment =
        ((CreditModel.calculateCredit P today .DIFFERENTIAL inp refs).payments.map
          Payment.interest_pay).sum ∧
      (CreditModel.calculateCredit P today .DIFFERENTIAL inp refs).payments.map
          Payment.interest_pay =
        (List.range inp.term.toNat).map (interestPart inp.credit inp.rate inp.term.toNat) ∧
      (CreditModel.calculateCredit P today .DIFFERENTIAL inp refs).out.overpayment =
        inp.credit * (inp.rate / 1200) * ((inp.term : ℚ) + 1) / 2 ∧
      (CreditModel.calculateCredit P today .DIFFERENTIAL inp refs).out.total =
        inp.credit +
          (CreditModel.calculateCredit P today .DIFFERENTIAL inp refs).out.overpayment := by
  have hn := toNat_cast_of_one_le inp.term h
  have hpos : (inp.term : ℚ) ≠ 0 := by
    have : (1 : ℚ) ≤ (inp.term : ℚ) := by exact_mod_cast h
    linarith
  obtain ⟨ht, ho⟩ := calculateDifferential_total today inp refs.out h
  have hi := calculateDifferential_interest today inp refs.out
  have hpay : (CreditModel.calculateCredit P today .DIFFERENTIAL inp refs).payments =
      (CreditModel.calculateDifferential today inp refs.out).1 := rfl
  have hout : (CreditModel.calculateCredit P today .DIFFERENTIAL inp refs).out =
      (CreditModel.calculateDifferential today inp refs.out).2.2 := rfl
  rw [hpay, hout]
  refine ⟨?_, ?_, ho, ?_⟩
  · rw [ho, hi, interest_sum, hn]
    field_simp
    ring
  · rw [hi]
    apply List.map_congr_left
    intro i _
    rw [interestPart_eq, hn]
  · rw [ht, ho]
theorem C37_differential_totals_witness :
    (1 : ℤ) ≤ (⟨1000000, 12, 10⟩ : CrInput).term ∧
      (CreditModel.calculateCredit samplePlatform (30, 10, 2026) .DIFFERENTIAL
          ⟨1000000, 12, 10⟩ ⟨0, ⟨0, 0⟩, []⟩).out.overpayment = 162500 / 3 ∧
      (CreditModel.calculateCredit samplePlatform (30, 10, 2026) .DIFFERENTIAL
          ⟨1000000, 12, 10⟩ ⟨0, ⟨0, 0⟩, []⟩).out.total = 3162500 / 3 ∧
      ((roundHalfAway ((162500 : ℚ) / 3 * 100) : ℚ) / 100 = 54166.67) ∧
      ((roundHalfAway ((3162500 : ℚ) / 3 * 100) : ℚ) / 100 = 1054166.67) := by
  have h1 : (1 : ℤ) ≤ (⟨1000000, 12, 10⟩ : CrInput).term := by decide
  have h := C37_differential_totals samplePlatform (30, 10, 2026) ⟨1000000, 12, 10⟩
    ⟨0, ⟨0, 0⟩, []⟩ h1
  have ho : (CreditModel.calculateCredit samplePlatform (30, 10, 2026) .DIFFERENTIAL
      ⟨1000000, 12, 10⟩ ⟨0, ⟨0, 0⟩, []⟩).out.overpayment = 162500 / 3 := by
    rw [h.2.2.1]
    norm_num
  refine ⟨h1, ho, ?_, ?_, ?_⟩
  · rw [h.2.2.2, ho]
    norm_num
  · have hr : roundHalfAway ((162500 : ℚ) / 3 * 100) = 5416667 := by
      apply roundHalfAway_of_bounds <;> norm_num
    rw [hr]
    norm_num
  · have hr : roundHalfAway ((3162500 : ℚ) / 3 * 100) = 105416667 := by
      apply roundHalfAway_of_bounds <;> norm_num
    rw [hr]
    norm_num
/-- C38. Differential schedule shape: for a term `n ≥ 1` the schedule returned through
`payments` has exactly `n` entries; entry `i` has `const_payment = credit / n`,
`interest_pay = (credit - i * credit / n) * rate / 1200`,
`monthly_pay = const_payment + interest_pay` and
`total_reminder = credit - (i + 1) * credit / n`; the last remainder is 0; and the reported
first-month payment is the `monthly_pay` of entry 0. -/
theorem C38_differential_schedule (P : Platform) (today : ℤ × ℤ × ℤ) (inp : CrInput)
    (refs : CreditRefs) (h : 1 ≤ inp.term) :
    (CreditModel.calculateCredit P today .DIFFERENTIAL inp refs).payments.length =
        inp.term.toNat ∧
      (∀ i : Nat, i < inp.term.toNat →
        ∃ p, (CreditModel.calculateCredit P today .DIFFERENTIAL inp refs).payments[i]? = some p ∧
          p.const_payment = inp.credit / (inp.term : ℚ) ∧
          p.interest_pay =
            (inp.credit - (i : ℚ) * inp.credit / (inp.term : ℚ)) * inp.rate / 1200 ∧
          p.monthly_pay = p.const_payment + p.interest_pay ∧
          p.total_reminder = inp.credit - ((i : ℚ) + 1) * inp.credit / (inp.term : ℚ)) ∧
      (∃ p, (CreditModel.calculateCredit P today .DIFFERENTIAL inp refs).payments.getLast? =
          some p ∧ p.total_reminder = 0) ∧
      ∃ p, (CreditModel.calculateCredit P today .DIFFERENTIAL inp refs).payments[0]? = some p ∧
        (CreditModel.calculateCredit P today .DIFFERENTIAL inp refs).monthly_pay =
          p.monthly_pay := by
  have hn := toNat_cast_of_one_le inp.term h
  have hpos : (inp.term : ℚ) ≠ 0 := by
    have : (1 : ℚ) ≤ (inp.term : ℚ) := by exact_mod_cast h
    linarith
  have hpay : (CreditModel.calculateCredit P today .DIFFERENTIAL inp refs).payments =
      (CreditModel.calculateDifferential today inp refs.out).1 := rfl
  have hfirst : (CreditModel.calculateCredit P today .DIFFERENTIAL inp refs).monthly_pay =
      inp.credit / (inp.term : ℚ) + inp.credit * (inp.rate / 12 / 100) := rfl
  have hmap := calculateDifferential_payments today inp refs.out
  have hlen : (CreditModel.calculateDifferential today inp refs.out).1.length =
      inp.term.toNat := by
    have := congrArg List.length hmap
    simpa using this
  have hentry : ∀ i : Nat, i < inp.term.toNat →
      ∃ p, (CreditModel.calculateDifferential today inp refs.out).1[i]? = some p ∧
        (p.monthly_pay, p.interest_pay, p.total_reminder, p.const_payment) =
          (inp.credit / (inp.term : ℚ) +
              (inp.credit - (i : ℚ) * (inp.credit / (inp.term : ℚ))) * (inp.rate / 12 / 100),
            (inp.credit - (i : ℚ) * (inp.credit / (inp.term : ℚ))) * (inp.rate / 12 / 100),
            inp.credit - ((i : ℚ) + 1) * (inp.credit / (inp.term : ℚ)),
            inp.credit / (inp.term : ℚ)) := by
    intro i hi
    have hget := congrArg (fun l => l[i]?) hmap
    simp only [List.getElem?_map, List.getElem?_range hi, Option.map_some'] at hget
    cases hp : (CreditModel.calculateDifferential today inp refs.out).1[i]? with
    | none => rw [hp] at hget; simp at hget
    | some p =>
      rw [hp] at hget
      simp only [Option.map_some', Option.some.injEq] at hget
      exact ⟨p, rfl, hget⟩
  rw [hpay]
  refine ⟨hlen, ?_, ?_, ?_⟩
  · intro i hi
    obtain ⟨p, hp, he⟩ := hentry i hi
    simp only [Prod.mk.injEq] at he
    obtain ⟨e1, e2, e3, e4⟩ := he
    refine ⟨p, hp, e4, ?_, ?_, ?_⟩
    · rw [e2]; ring
    · rw [e1, e2, e4]
    · rw [e3]; ring
  · have hlt : inp.term.toNat - 1 < inp.term.toNat := by omega
    obtain ⟨p, hp, he⟩ := hentry (inp.term.toNat - 1) hlt
    simp only [Prod.mk.injEq] at he
    refine ⟨p, ?_, ?_⟩
    · rw [List.getLast?_eq_getElem?, hlen]
      exact hp
    · rw [he.2.2.1]
      have hc : (((inp.term.toNat - 1 : ℕ) : ℚ) + 1) = (inp.term : ℚ) := by
        rw [← hn]
        have : 1 ≤ inp.term.toNat := by omega
        push_cast [this]
        ring
      rw [hc]
      field_simp
  · have h0 : 0 < inp.term.toNat := by omega
    obtain ⟨p, hp, he⟩ := hentry 0 h0
    simp only [Prod.mk.injEq] at he
    refine ⟨p, hp, ?_⟩
    rw [hfirst, he.1]
    simp
theorem C38_differential_schedule_witness :
    (1 : ℤ) ≤ (⟨1000000, 12, 10⟩ : CrInput).term ∧
      (CreditModel.calculateCredit samplePlatform (30, 10, 2026) .DIFFERENTIAL
          ⟨1000000, 12, 10⟩ ⟨0, ⟨0, 0⟩, []⟩).payments.length = 12 ∧
      ∃ p, (CreditModel.calculateCredit samplePlatform (30, 10, 2026) .DIFFERENTIAL
          ⟨1000000, 12, 10⟩ ⟨0, ⟨0, 0⟩, []⟩).payments[0]? = some p ∧
        p.const_payment = 250000 / 3 ∧ p.interest_pay = 25000 / 3 ∧
        p.monthly_pay = 275000 / 3 ∧ p.total_reminder = 2750000 / 3 := by
  have h1 : (1 : ℤ) ≤ (⟨1000000, 12, 10⟩ : CrInput).term := by decide
  have h := C38_differential_schedule samplePlatform (30, 10, 2026) ⟨1000000, 12, 10⟩
    ⟨0, ⟨0, 0⟩, []⟩ h1
  refine ⟨h1, h.1, ?_⟩
  obtain ⟨p, hp, e1, e2, e3, e4⟩ := h.2.1 0 (by decide)
  refine ⟨p, hp, ?_, ?_, ?_, ?_⟩
  · rw [e1]; norm_num
  · rw [e2]; norm_num
  · rw [e3, e1, e2]; norm_num
  · rw [e4]; norm_num

/-! ## The operand runs of a text and `findScientificNumber` -/
theorem operandRunsFrom_outside_cons (c : Char) (rest : List Char) :
    operandRunsFrom .outside (c :: rest) =
      if isOperand c then operandRunsFrom (.inRun [c] false) rest
      else operandRunsFrom .outside rest := rfl
theorem operandRunsFrom_inRun_cons (cur : List Char) (marked : Bool) (c : Char)
    (rest : List Char) :
    operandRunsFrom (.inRun cur marked) (c :: rest) =
      if isPartOfExponent c then
        if marked then operandRunsFrom (.inRun (cur ++ [c]) true) rest
        else operandRunsFrom (.afterMarker (cur ++ [c])) rest
      else if isOperand c then operandRunsFrom (.inRun (cur ++ [c]) marked) rest
      else cur :: operandRunsFrom .outside rest := rfl
theorem operandRunsFrom_afterMarker_cons (cur : List Char) (c : Char) (rest : List Char) :
    operandRunsFrom (.afterMarker cur) (c :: rest) =
      if c == '+' || c == '-' then operandRunsFrom (.afterSign (cur ++ [c])) rest
      else if isOperand c || isPartOfExponent c then
        operandRunsFrom (.inRun (cur ++ [c]) true) rest
      else cur :: operandRunsFrom .outside rest := rfl
theorem operandRunsFrom_afterSign_cons (cur : List Char) (c : Char) (rest : List Char) :
    operandRunsFrom (.afterSign cur) (c :: rest) =
      if c.isDigit then operandRunsFrom (.inRun (cur ++ [c]) true) rest
      else if isOperand c then cur :: operandRunsFrom (.inRun [c] false) rest
      else cur :: operandRunsFrom .outside rest := rfl
/-- The token that `findScientificNumber` returns is the operand run that begins where it
is called, and the text it returns is where the reading goes on outside a run. -/
theorem operandRunsFrom_findScientificNumber : ∀ (n : Nat) (s token : List Char)
    (hasExponent : Bool) (t r : List Char), s.length = n →
      findScientificNumber s token hasExponent = .ok (t, r) →
      operandRunsFrom (.inRun token hasExponent) s = t :: operandRunsFrom .outside r := by
  intro n
  induction n using Nat.strong_induction_on with
  | _ n ih =>
    intro s token hasExponent t r hn h
    subst hn
    cases s with
    | nil =>
      rw [findScientificNumber_nil] at h
      cases h
      rfl
    | cons c rest =>
      rw [findScientificNumber_cons] at h
      rw [operandRunsFrom_inRun_cons]
      by_cases hc : (isOperand c || isPartOfExponent c) = true
      · rw [if_pos hc] at h
        by_cases he : (isPartOfExponent c && !hasExponent) = true
        · rw [if_pos he] at h
          simp only [Bool.and_eq_true, Bool.not_eq_true'] at he
          obtain ⟨he1, he2⟩ := he
          subst he2
          rw [if_pos he1]
          simp only [Bool.false_eq_true, if_false]
          cases rest with
          | nil => cases h
          | cons s rest1 =>
            simp only at h
            rw [operandRunsFrom_afterMarker_cons]
            by_cases hs : (s == '+' || s == '-') = true
            · rw [if_pos hs] at h
              rw [if_pos hs]
              cases rest1 with
              | nil => cases h
              | cons d rest2 =>
                simp only at h
                rw [operandRunsFrom_afterSign_cons]
                by_cases hd : d.isDigit = true
                · rw [if_pos hd] at h
                  rw [if_pos hd]
                  exact ih rest2.length (by simp only [List.length_cons]; omega) rest2 _ _ t r
                    rfl h
                · rw [if_neg hd] at h
                  cases h
            · rw [if_neg hs] at h
              rw [if_neg hs]
              by_cases hd : s.isDigit = true
              · rw [if_pos hd] at h
                have hso : (isOperand s || isPartOfExponent s) = true := by
                  simp [isOperand, hd]
                rw [if_pos hso]
                exact ih rest1.length (by simp only [List.length_cons]; omega) rest1 _ _ t r
                  rfl h
              · rw [if_neg hd] at h
                cases h
        · rw [if_neg he] at h
          have hrec := ih rest.length (by simp only [List.length_cons]; omega) rest _ _ t r
            rfl h
          by_cases he1 : isPartOfExponent c = true
          · rw [if_pos he1]
            have hm : hasExponent = true := by
              cases hasExponent with
              | true => rfl
              | false => simp [he1] at he
            subst hm
            simp only [if_true]
            exact hrec
          · rw [if_neg he1]
            have hop : isOperand c = true := by
              simp only [Bool.or_eq_true] at hc
              rcases hc with hc | hc
              · exact hc
              · exact absurd hc he1
            rw [if_pos hop]
            exact hrec
      · rw [if_neg hc] at h
        cases h
        simp only [Bool.or_eq_true, not_or] at hc
        rw [if_neg hc.2, if_neg hc.1, operandRunsFrom_outside_cons, if_neg hc.1]
theorem operandRuns_operand (c : Char) (rest t r : List Char) (hc : isOperand c = true)
    (h : findScientificNumber (c :: rest) [] false = .ok (t, r)) :
    operandRuns (c :: rest) = t :: operandRuns r := by
  have hne : isPartOfExponent c = false := by
    cases hp : isPartOfExponent c with
    | false => rfl
    | true =>
      simp only [isPartOfExponent, Bool.or_eq_true, beq_iff_eq] at hp
      rcases hp with rfl | rfl <;> revert hc <;> decide
  have h1 : findScientificNumber rest [c] false = .ok (t, r) := by
    rw [findScientificNumber_cons] at h
    simpa [hc, hne] using h
  unfold operandRuns
  rw [operandRunsFrom_outside_cons, if_pos hc]
  exact operandRunsFrom_findScientificNumber _ rest [c] false t r rfl h1
theorem operandRuns_other (c : Char) (rest : List Char) (hc : isOperand c = false) :
    operandRuns (c :: rest) = operandRuns rest := by
  unfold operandRuns
  rw [operandRunsFrom_outside_cons, hc]
  rfl

/-! ## What the scan conserves: operand runs and symbols -/
theorem isOperatorOrFunction_of_stackChar {c : Char} (h : isStackChar c = true) (hc : c ≠ '(') :
    isOperatorOrFunction c = true := by
  simp only [isStackChar, Bool.or_eq_true, beq_iff_eq] at h
  simp only [isOperatorOrFunction, Bool.or_eq_true]
  rcases h with h | h
  · exact h
  · exact absurd h hc
theorem isOperatorOrFunction_props {c : Char} (h : isOperatorOrFunction c = true) :
    c ≠ ' ' ∧ c ≠ '(' ∧ c ≠ ')' ∧ isOperand c = false ∧ isStackChar c = true := by
  simp only [isOperatorOrFunction, isOperator, isFunction, Bool.or_eq_true, beq_iff_eq] at h
  rcases h with ((((((h | h) | h) | h) | h) | h) | h) | ((((((((h | h) | h) | h) | h) | h) | h) | h) | h)
  all_goals (subst h; decide)
theorem count_symbolsText (c : Char) (hc : c ≠ ' ') (cs : List Char) :
    (symbolsText cs).count c = cs.count c := by
  induction cs with
  | nil => rfl
  | cons d cs ih =>
    simp only [symbolsText, List.count_cons, ih]
    have : ((' ' : Char) == c) = false := by
      simp only [beq_eq_false_iff_ne, ne_eq]
      exact fun h => hc h.symm
    simp [this]
theorem count_joinTokens_single (c : Char) (hc : c ≠ ' ') (t : List Char) :
    (joinTokens [t]).count c = t.count c := by
  simp only [joinTokens, List.count_append, List.count_cons, List.count_nil]
  have : ((' ' : Char) == c) = false := by
    simp only [beq_eq_false_iff_ne, ne_eq]
    exact fun h => hc h.symm
  simp [this]
theorem filter_symbols_operandToken (cs : List Char)
    (h : ∀ c ∈ cs, isOperatorOrFunction c = true) :
    (cs.map (fun c => [c])).filter isOperandToken = [] := by
  rw [List.filter_eq_nil_iff]
  intro t ht
  simp only [List.mem_map] at ht
  obtain ⟨c, hc, rfl⟩ := ht
  simp [isOperandToken, (isOperatorOrFunction_props (h c hc)).2.2.2.1]
/-- One step of the proof of `scan_trace`: the tokens `new` are written, then the scan
goes on at `r` with the stack `ops2`. -/
theorem trace_step (text r ops ops2 out : List Char) (new : List (List Char)) (st1 : Conv)
    (hnew : ∀ t ∈ new, (isOperandToken t = true ∧ ∀ c ∈ t, isRunChar c = true) ∨
      ∃ c, t = [c] ∧ isOperatorOrFunction c = true)
    (hruns : new.filter isOperandToken ++ operandRuns r = operandRuns text)
    (hcount : ∀ c, isOperatorOrFunction c = true →
      (joinTokens new).count c + (r.count c + ops2.count c) = text.count c + ops.count c)
    (hrec : ∃ toks : List (List Char),
      st1.output = (out ++ joinTokens new) ++ joinTokens toks ∧
      (∀ t ∈ toks, (isOperandToken t = true ∧ ∀ c ∈ t, isRunChar c = true) ∨
        ∃ c, t = [c] ∧ isOperatorOrFunction c = true) ∧
      toks.filter isOperandToken = operandRuns r ∧ ScanInv st1 ∧
      ∀ c, isOperatorOrFunction c = true →
        (joinTokens toks).count c + st1.operators.count c = r.count c + ops2.count c) :
    ∃ toks : List (List Char),
      st1.output = out ++ joinTokens toks ∧
      (∀ t ∈ toks, (isOperandToken t = true ∧ ∀ c ∈ t, isRunChar c = true) ∨
        ∃ c, t = [c] ∧ isOperatorOrFunction c = true) ∧
      toks.filter isOperandToken = operandRuns text ∧ ScanInv st1 ∧
      ∀ c, isOperatorOrFunction c = true →
        (joinTokens toks).count c + st1.operators.count c = text.count c + ops.count c := by
  obtain ⟨toks, h1, h2, h3, h4, h5⟩ := hrec
  refine ⟨new ++ toks, ?_, ?_, ?_, h4, ?_⟩
  · rw [h1, joinTokens_append, List.append_assoc]
  · intro t ht
    rcases List.mem_append.mp ht with ht | ht
    · exact hnew t ht
    · exact h2 t ht
  · rw [List.filter_append, h3, hruns]
  · intro c hc
    rw [joinTokens_append, List.count_append, Nat.add_assoc, h5 c hc, hcount c hc]
/-- What the scan of `toRPN` writes, for any text: a sequence of tokens, each an operand
run of the text or an operator or function symbol (never a parenthesis); the operand
tokens are the operand runs of the text in their order, and every operator or function
symbol of the text is in the output or still on the stack. -/
theorem scan_trace : ∀ (n : Nat) (text ops out : List Char) (st1 : Conv),
    text.length = n → (∀ s ∈ ops, isStackChar s = true) →
    scan text ⟨ops, out, []⟩ = .ok st1 →
    ∃ toks : List (List Char),
      st1.output = out ++ joinTokens toks ∧
      (∀ t ∈ toks, (isOperandToken t = true ∧ ∀ c ∈ t, isRunChar c = true) ∨
        ∃ c, t = [c] ∧ isOperatorOrFunction c = true) ∧
      toks.filter isOperandToken = operandRuns text ∧ ScanInv st1 ∧
      ∀ c, isOperatorOrFunction c = true →
        (joinTokens toks).count c + st1.operators.count c = text.count c + ops.count c := by
  intro n
  induction n using Nat.strong_induction_on with
  | _ n ih =>
    intro text ops out st1 hn hops hscan
    subst hn
    cases text with
    | nil =>
      rw [scan_nil] at hscan
      cases hscan
      exact ⟨[], by simp [joinTokens], by simp, rfl, ⟨rfl, hops⟩, by simp [joinTokens]⟩
    | cons c rest =>
      have hrec : ∀ (r ops2 out2 : List Char), r.length ≤ rest.length →
          (∀ s ∈ ops2, isStackChar s = true) → scan r ⟨ops2, out2, []⟩ = .ok st1 →
          ∃ toks : List (List Char),
            st1.output = out2 ++ joinTokens toks ∧
            (∀ t ∈ toks, (isOperandToken t = true ∧ ∀ c ∈ t, isRunChar c = true) ∨
              ∃ c, t = [c] ∧ isOperatorOrFunction c = true) ∧
            toks.filter isOperandToken = operandRuns r ∧ ScanInv st1 ∧
            ∀ c, isOperatorOrFunction c = true →
              (joinTokens toks).count c + st1.operators.count c = r.count c + ops2.count c := by
        intro r ops2 out2 hlen h1 h2
        exact ih r.length (by simp only [List.length_cons]; omega) r ops2 out2 st1 rfl h1 h2
      by_cases hop : isOperand c = true
      · rw [scan_operand c hop] at hscan
        cases hf : findScientificNumber (c :: rest) [] false with
        | error e => rw [hf] at hscan; cases hscan
        | ok p =>
          obtain ⟨t, r⟩ := p
          rw [hf] at hscan
          simp only at hscan
          obtain ⟨consumed, h1, h2, h3⟩ :=
            findScientificNumber_consumed _ _ _ _ _ _ rfl hf
          rw [List.nil_append] at h1
          subst h1
          have hlen := findScientificNumber_length_cons c rest [] false t r (by simp [hop]) hf
          have hne : t ≠ [] := by
            rintro rfl
            rw [List.nil_append] at h2
            rw [← h2] at hlen
            simp at hlen
          have hhead : isOperandToken t = true := by
            cases t with
            | nil => exact absurd rfl hne
            | cons d t1 =>
              simp only [List.cons_append, List.cons.injEq] at h2
              rw [← h2.1]
              exact hop
          have hfl : flushToken ⟨ops, out, t⟩ = ⟨ops, out ++ joinTokens [t], []⟩ := by
            simp [flushToken, hne, processOperand, joinTokens]
          rw [hfl] at hscan
          apply trace_step (c :: rest) r ops ops out [t] st1
          · intro u hu
            simp only [List.mem_singleton] at hu
            subst hu
            exact Or.inl ⟨hhead, h3⟩
          · simp only [List.filter_cons, hhead, if_true, List.filter_nil, List.singleton_append]
            exact (operandRuns_operand c rest t r hop hf).symm
          · intro d hd
            rw [count_joinTokens_single d (isOperatorOrFunction_props hd).1, h2,
              List.count_append]
            omega
          · exact hrec r ops _ hlen hops hscan
      · have hop' : isOperand c = false := by simpa using hop
        have hruns : operandRuns rest = operandRuns (c :: rest) :=
          (operandRuns_other c rest hop').symm
        by_cases hor : isOperator c = true
        · have hcf : isOperatorOrFunction c = true := by simp [isOperatorOrFunction, hor]
          by_cases htl : c = '~'
          · subst htl
            rw [scan_unaryMinus] at hscan
            apply trace_step ('~' :: rest) rest ops ('~' :: ops) out [] st1
            · simp
            · simpa using hruns
            · intro d hd
              simp only [joinTokens, List.count_nil, List.count_cons]
              omega
            · simpa [joinTokens] using hrec rest ('~' :: ops) out (Nat.le_refl _)
                (isStackChar_cons (by decide) hops) hscan
          · have hbin := isBinaryOperator_of_isOperator hor htl
            rw [scan_binary c rest ops out hbin] at hscan
            obtain ⟨popped, kept, hsplit, hno, hst, hpop⟩ :=
              popHigherPriority_noOpen c hbin ops out hops
            rw [hpop] at hscan
            simp only at hscan
            have hkept : ∀ s ∈ kept, isStackChar s = true := fun s hs =>
              hops s (by rw [hsplit]; exact List.mem_append_right _ hs)
            have hpf : ∀ s ∈ popped, isOperatorOrFunction s = true := fun s hs =>
              isOperatorOrFunction_of_stackChar (hst s hs) (fun h => hno (h ▸ hs))
            apply trace_step (c :: rest) rest ops (c :: kept) out (popped.map (fun c => [c])) st1
            · intro u hu
              simp only [List.mem_map] at hu
              obtain ⟨s, hs, rfl⟩ := hu
              exact Or.inr ⟨s, rfl, hpf s hs⟩
            · rw [filter_symbols_operandToken popped hpf, List.nil_append]
              exact hruns
            · intro d hd
              have e : joinTokens (popped.map (fun c => [c])) = symbolsText popped := by
                have := joinTokens_snoc_symbols [] popped
                simpa [joinTokens] using this
              rw [e, count_symbolsText d (isOperatorOrFunction_props hd).1, hsplit,
                List.count_append, List.count_cons, List.count_cons]
              omega
            · have e : joinTokens (popped.map (fun c => [c])) = symbolsText popped := by
                have := joinTokens_snoc_symbols [] popped
                simpa [joinTokens] using this
              rw [e]
              exact hrec rest (c :: kept) _ (Nat.le_refl _)
                (isStackChar_cons (by simp [isStackChar, hor]) hkept) hscan
        · have hor' : isOperator c = false := by simpa using hor
          by_cases hfn : isFunction c = true
          · rw [scan_function c rest ops out hfn] at hscan
            apply trace_step (c :: rest) rest ops (c :: ops) out [] st1
            · simp
            · simpa using hruns
            · intro d hd
              simp only [joinTokens, List.count_nil, List.count_cons]
              omega
            · simpa [joinTokens] using hrec rest (c :: ops) out (Nat.le_refl _)
                (isStackChar_cons (by simp [isStackChar, hfn]) hops) hscan
          · have hfn' : isFunction c = false := by simpa using hfn
            by_cases h1 : c = '('
            · subst h1
              rw [scan_open] at hscan
              apply trace_step ('(' :: rest) rest ops ('(' :: ops) out [] st1
              · simp
              · simpa using hruns
              · intro d hd
                simp only [joinTokens, List.count_nil, List.count_cons]
                omega
              · simpa [joinTokens] using hrec rest ('(' :: ops) out (Nat.le_refl _)
                  (isStackChar_cons (by decide) hops) hscan
            · by_cases h2 : c = ')'
              · subst h2
                rw [scan_close] at hscan
                obtain ⟨popped, hno, hsub, hcase⟩ := popToParenthesis_general ops out
                have hpf : ∀ s ∈ popped, isOperatorOrFunction s = true := fun s hs =>
                  isOperatorOrFunction_of_stackChar (hops s (hsub s hs)) (fun h => hno (h ▸ hs))
                have e : joinTokens (popped.map (fun c => [c])) = symbolsText popped := by
                  have := joinTokens_snoc_symbols [] popped
                  simpa [joinTokens] using this
                rcases hcase with ⟨r, hsplit, hpop⟩ | ⟨hsplit, hpop⟩
                · rw [hpop] at hscan
                  simp only at hscan
                  apply trace_step (')' :: rest) rest ops r out (popped.map (fun c => [c])) st1
                  · intro u hu
                    simp only [List.mem_map] at hu
                    obtain ⟨s, hs, rfl⟩ := hu
                    exact Or.inr ⟨s, rfl, hpf s hs⟩
                  · rw [filter_symbols_operandToken popped hpf, List.nil_append]
                    exact hruns
                  · intro d hd
                    have hd1 := (isOperatorOrFunction_props hd)
                    rw [e, count_symbolsText d hd1.1, hsplit, List.count_append,
                      List.count_cons, List.count_cons]
                    have n1 : (('(' : Char) == d) = false := by
                      simp only [beq_eq_false_iff_ne, ne_eq]
                      exact fun h => hd1.2.1 h.symm
                    have n2 : ((')' : Char) == d) = false := by
                      simp only [beq_eq_false_iff_ne, ne_eq]
                      exact fun h => hd1.2.2.1 h.symm
                    simp only [n1, n2, Bool.false_eq_true, if_false]
                    omega
                  · rw [e]
                    exact hrec rest r _ (Nat.le_refl _)
                      (fun s hs => hops s (by rw [hsplit]; simp [hs])) hscan
                · rw [hpop] at hscan
                  simp only at hscan
                  apply trace_step (')' :: rest) rest ops [] out (popped.map (fun c => [c])) st1
                  · intro u hu
                    simp only [List.mem_map] at hu
                    obtain ⟨s, hs, rfl⟩ := hu
                    exact Or.inr ⟨s, rfl, hpf s hs⟩
                  · rw [filter_symbols_operandToken popped hpf, List.nil_append]
                    exact hruns
                  · intro d hd
                    have hd1 := (isOperatorOrFunction_props hd)
                    rw [e, count_symbolsText d hd1.1, hsplit, List.count_cons]
                    have n2 : ((')' : Char) == d) = false := by
                      simp only [beq_eq_false_iff_ne, ne_eq]
                      exact fun h => hd1.2.2.1 h.symm
                    simp only [n2, Bool.false_eq_true, if_false, List.count_nil]
                    omega
                  · rw [e]
                    exact hrec rest [] _ (Nat.le_refl _) (by simp) hscan
              · rw [scan_other c rest _ hop' hor' hfn' h1 h2] at hscan
                apply trace_step (c :: rest) rest ops ops out [] st1
                · simp
                · simpa using hruns
                · intro d hd
                  have hne : c ≠ d := by
                    rintro rfl
                    simp [isOperatorOrFunction, hor', hfn'] at hd
                  have n1 : (c == d) = false := by
                    simp only [beq_eq_false_iff_ne, ne_eq]
                    exact hne
                  simp only [joinTokens, List.count_nil, List.count_cons, n1,
                    Bool.false_eq_true, if_false]
                  omega
                · simpa [joinTokens] using hrec rest ops out (Nat.le_refl _) hops hscan

/-! ## What `toRPN` returns, token by token -/
theorem count_dropWhile_space (c : Char) (hc : c ≠ ' ') (l : List Char) :
    (l.dropWhile (· == ' ')).count c = l.count c := by
  induction l with
  | nil => rfl
  | cons d l ih =>
    by_cases hd : d = ' '
    · subst hd
      have n1 : ((' ' : Char) == c) = false := by
        simp only [beq_eq_false_iff_ne, ne_eq]
        exact fun h => hc h.symm
      rw [List.dropWhile_cons_of_pos (by simp), ih, List.count_cons, n1]
      simp
    · rw [List.dropWhile_cons_of_neg (by simpa using hd)]
theorem count_trim (c : Char) (hc : c ≠ ' ') (s : List Char) : (trim s).count c = s.count c := by
  unfold trim
  rw [List.count_reverse, count_dropWhile_space c hc, List.count_reverse,
    count_dropWhile_space c hc]
theorem count_map_single (c : Char) (cs : List Char) :
    (cs.map (fun d => [d])).count [c] = cs.count c := by
  induction cs with
  | nil => rfl
  | cons d cs ih =>
    rw [List.map_cons, List.count_cons, List.count_cons, ih]
    by_cases h : d = c
    · subst h
      simp
    · have n1 : (d == c) = false := by simpa using h
      have n2 : (([d] : List Char) == [c]) = false := by
        simp only [beq_eq_false_iff_ne, ne_eq, List.cons.injEq, and_true]
        exact h
      rw [n1, n2]
theorem filter_stack_operandToken (cs : List Char) (h : ∀ c ∈ cs, isStackChar c = true) :
    (cs.map (fun c => [c])).filter isOperandToken = [] := by
  rw [List.filter_eq_nil_iff]
  intro t ht
  simp only [List.mem_map] at ht
  obtain ⟨c, hc, rfl⟩ := ht
  have hs := h c hc
  by_cases h1 : c = '('
  · subst h1
    decide
  · simp [isOperandToken, (isOperatorOrFunction_props (isOperatorOrFunction_of_stackChar hs h1)).2.2.2.1]
theorem count_joinTokens_symbol (c : Char) (hc : isOperatorOrFunction c = true)
    (h1 : c ≠ '+') (h2 : c ≠ '-') :
    ∀ toks : List (List Char),
      (∀ t ∈ toks, (isOperandToken t = true ∧ ∀ d ∈ t, isRunChar d = true) ∨
        ∃ d, t = [d] ∧ isOperatorOrFunction d = true) →
      (joinTokens toks).count c = toks.count [c] := by
  have hp := isOperatorOrFunction_props hc
  have hnr : isRunChar c = false := by
    cases hr : isRunChar c with
    | false => rfl
    | true =>
      simp only [isRunChar, Bool.or_eq_true, beq_iff_eq] at hr
      rcases hr with ((hr | hr) | hr) | hr
      · rw [hp.2.2.2.1] at hr
        cases hr
      · simp only [isPartOfExponent, Bool.or_eq_true, beq_iff_eq] at hr
        rcases hr with rfl | rfl <;> revert hc <;> decide
      · exact absurd hr h1
      · exact absurd hr h2
  have nsp : ((' ' : Char) == c) = false := by
    simp only [beq_eq_false_iff_ne, ne_eq]
    exact fun h => hp.1 h.symm
  intro toks
  induction toks with
  | nil => intro _; rfl
  | cons t ts ih =>
    intro hk
    have hrec := ih (fun u hu => hk u (List.mem_cons_of_mem _ hu))
    simp only [joinTokens, List.count_append, List.count_cons, hrec, nsp]
    rcases hk t (List.mem_cons_self _ _) with ⟨ho, hr⟩ | ⟨d, rfl, hd⟩
    · have hz : t.count c = 0 := by
        rw [List.count_eq_zero]
        intro hm
        rw [hr c hm] at hnr
        cases hnr
      have hne : (t == [c]) = false := by
        simp only [beq_eq_false_iff_ne, ne_eq]
        rintro rfl
        simp [isOperandToken, hp.2.2.2.1] at ho
      rw [hz, hne]
      simp
    · by_cases hdc : d = c
      · subst hdc
        simp
        omega
      · have n1 : (d == c) = false := by simpa using hdc
        have n2 : (([d] : List Char) == [c]) = false := by
          simp only [beq_eq_false_iff_ne, ne_eq, List.cons.injEq, and_true]
          exact hdc
        simp [n1, n2, List.count_cons]
/-- The text that `toRPN` returns: the tokens written by the scan, then the symbols left
on the stack, top first. -/
theorem toRPN_trace (order : List (List Char × Char)) (s r : List Char)
    (h : toRPN order s = .ok r) :
    ∃ (toks : List (List Char)) (ops : List Char),
      r = trim (joinTokens (toks ++ ops.map (fun c => [c]))) ∧
      splitTokens r [] = toks ++ ops.map (fun c => [c]) ∧
      (∀ t ∈ toks, (isOperandToken t = true ∧ ∀ c ∈ t, isRunChar c = true) ∨
        ∃ c, t = [c] ∧ isOperatorOrFunction c = true) ∧
      toks.filter isOperandToken = operandRuns (processedInfix order s) ∧
      (∀ c ∈ ops, isStackChar c = true) ∧
      (∀ c, isOperatorOrFunction c = true →
        (joinTokens toks).count c + ops.count c = (processedInfix order s).count c) ∧
      ops.count '(' = openDepth 0 (processedInfix order s) := by
  rw [toRPN_eq] at h
  cases hsc : scan (processedInfix order s) ⟨[], [], []⟩ with
  | error e => rw [hsc] at h; cases h
  | ok st1 =>
    rw [hsc] at h
    simp only [Except.ok.injEq] at h
    obtain ⟨toks, h1, h2, h3, h4, h5⟩ :=
      scan_trace _ (processedInfix order s) [] [] st1 rfl (by simp) hsc
    obtain ⟨toks0, g1, g2, -, g4⟩ :=
      scan_tokens_depth _ (processedInfix order s) [] [] [] st1 rfl (by simp) rfl
        (by intro t ht; simp at ht) hsc
    rw [List.nil_append] at h1
    have htt : TokenText toks := by
      have e : toks = toks0 := by
        have := congrArg (fun l => splitTokens l []) (h1.symm.trans g1)
        simp only at this
        rw [splitTokens_joinTokens toks0 g2] at this
        rw [← this]
        clear this
        symm
        apply splitTokens_joinTokens
        intro t ht
        rcases h2 t ht with ⟨ho, hr⟩ | ⟨c, rfl, hc⟩
        · refine ⟨?_, fun c hc => (isRunChar_props (hr c hc)).2.2⟩
          rintro rfl
          simp [isOperandToken] at ho
        · refine ⟨by simp, ?_⟩
          intro d hd
          simp only [List.mem_singleton] at hd
          subst hd
          have hp := isOperatorOrFunction_props hc
          exact (tokenText_symbols [d] (by simpa using hp.2.2.2.2) [d] (by simp)).2 d (by simp)
      rw [e]
      exact g2
    have hout : (flushOperators (flushToken st1)).output =
        joinTokens (toks ++ st1.operators.map (fun c => [c])) := by
      rw [h4.inv_flushToken, joinTokens_snoc_symbols, ← h1]
      simp only [flushOperators, flushOperatorsLoop_eq]
    rw [hout] at h
    refine ⟨toks, st1.operators, h.symm, ?_, h2, h3, h4.2, ?_, ?_⟩
    · rw [← h, splitTokens_trim]
      exact splitTokens_joinTokens _ (tokenText_append htt (tokenText_symbols _ h4.2))
    · intro c hc
      have := h5 c hc
      simpa using this
    · simpa using g4
/-- C33. Operand order is preserved by the conversion: for every text on which `toRPN`
succeeds, the operand tokens of the postfix output, read left to right, are exactly the
operand runs of the normalized infix text in their left-to-right order, and every other
token of the output is a one-character symbol. -/
theorem C33_operand_order_preserved (order : List (List Char × Char)) (s r : List Char)
    (h : toRPN order s = .ok r) :
    operandTokens r = operandRuns (processedInfix order s) ∧
      ∀ t ∈ splitTokens r [], isOperandToken t = false → ∃ c, t = [c] ∧ isStackChar c = true := by
  obtain ⟨toks, ops, -, h2, h3, h4, h5, -, -⟩ := toRPN_trace order s r h
  constructor
  · unfold operandTokens
    rw [h2, List.filter_append, h4, filter_stack_operandToken ops h5, List.append_nil]
  · intro t ht hno
    rw [h2] at ht
    rcases List.mem_append.mp ht with hm | hm
    · rcases h3 _ hm with ⟨ho, -⟩ | ⟨c, hc, hcf⟩
      · rw [ho] at hno
        cases hno
      · exact ⟨c, hc, (isOperatorOrFunction_props hcf).2.2.2.2⟩
    · simp only [List.mem_map] at hm
      obtain ⟨c, hc, rfl⟩ := hm
      exact ⟨c, rfl, h5 c hc⟩
theorem C33_operand_order_preserved_witness :
    toRPN functions "12.5*(x-3e-2)+sin(7)".toList = .ok "12.5 x 3e-2 - * 7 s +".toList ∧
      operandTokens "12.5 x 3e-2 - * 7 s +".toList =
        ["12.5".toList, "x".toList, "3e-2".toList, "7".toList] ∧
      operandRuns (processedInfix functions "12.5*(x-3e-2)+sin(7)".toList) =
        ["12.5".toList, "x".toList, "3e-2".toList, "7".toList] := by
  have ht : toRPN functions "12.5*(x-3e-2)+sin(7)".toList =
      .ok "12.5 x 3e-2 - * 7 s +".toList := by decide
  have h := (C33_operand_order_preserved functions _ _ ht).1
  have ho : operandTokens "12.5 x 3e-2 - * 7 s +".toList =
      ["12.5".toList, "x".toList, "3e-2".toList, "7".toList] := by decide
  refine ⟨ht, ho, ?_⟩
  rw [← h, ho]
/-- C34. Operators are conserved by the conversion: for every text on which `toRPN`
succeeds, each operator symbol `+ - * / ^ % ~` and each function symbol occurs in the
postfix output exactly as many times as in the normalized infix text (for the symbols
other than `+` and `-`, which a literal may hold after its exponent marker, as many
times as a token), and the number of `(` tokens of the output is the number of `(` of the
text that no later `)` closes. -/
theorem C34_operators_conserved (order : List (List Char × Char)) (s r : List Char)
    (h : toRPN order s = .ok r) :
    (∀ c, isOperatorOrFunction c = true → r.count c = (processedInfix order s).count c) ∧
      (∀ c, isOperatorOrFunction c = true → c ≠ '+' → c ≠ '-' →
        (splitTokens r []).count [c] = (processedInfix order s).count c) ∧
      (splitTokens r []).count ['('] = openDepth 0 (processedInfix order s) ∧
      ((∀ p ∈ order, p ∈ functions) → (splitTokens r []).count ['('] = openDepth 0 s) := by
  obtain ⟨toks, ops, h1, h2, h3, -, h5, h6, h7⟩ := toRPN_trace order s r h
  have hopen : (splitTokens r []).count ['('] = openDepth 0 (processedInfix order s) := by
    rw [h2, List.count_append, count_map_single, h7]
    have hz : toks.count ['('] = 0 := by
      rw [List.count_eq_zero]
      intro hm
      rcases h3 _ hm with ⟨ho, -⟩ | ⟨c, hc, hcf⟩
      · revert ho
        decide
      · simp only [List.cons.injEq, and_true] at hc
        subst hc
        revert hcf
        decide
    rw [hz, Nat.zero_add]
  refine ⟨?_, ?_, hopen, ?_⟩
  · intro c hc
    rw [h1, count_trim c (isOperatorOrFunction_props hc).1, joinTokens_snoc_symbols,
      List.count_append, count_symbolsText c (isOperatorOrFunction_props hc).1]
    exact h6 c hc
  · intro c hc hplus hminus
    rw [h2, List.count_append, count_map_single, ← count_joinTokens_symbol c hc hplus hminus toks h3]
    exact h6 c hc
  · intro horder
    rw [hopen, openDepth_processedInfix order horder]
theorem C34_operators_conserved_witness :
    toRPN functions "-sin(2-x)*(1e-3+(4".toList = .ok "2 x - s ~ 1e-3 4 ( + ( *".toList ∧
      processedInfix functions "-sin(2-x)*(1e-3+(4".toList = "~s(2-x)*(1e-3+(4".toList ∧
      "2 x - s ~ 1e-3 4 ( + ( *".toList.count '-' = 2 ∧
      "~s(2-x)*(1e-3+(4".toList.count '-' = 2 ∧
      (splitTokens "2 x - s ~ 1e-3 4 ( + ( *".toList []).count ['('] = 2 ∧
      openDepth 0 "-sin(2-x)*(1e-3+(4".toList = 2 := by
  have ht : toRPN functions "-sin(2-x)*(1e-3+(4".toList =
      .ok "2 x - s ~ 1e-3 4 ( + ( *".toList := by decide
  have h := C34_operators_conserved functions _ _ ht
  have hp : processedInfix functions "-sin(2-x)*(1e-3+(4".toList =
      "~s(2-x)*(1e-3+(4".toList := by decide
  have h1 := h.1 '-' (by decide)
  rw [hp] at h1
  have h2 := h.2.2.2 (fun p hp => hp)
  refine ⟨ht, hp, h1.trans (by decide), by decide, ?_, by decide⟩
  rw [h2]
  decide

/-! ## The plot view and the length of the sampler's output -/
theorem calculateGraf_window_sample :
    calculateGraf samplePlatform (0, 4) (1, 2) 4 "x".toList =
      .ok ([some 1, some 2], [some 1, some 2]) := by
  have hev : ∀ v : ℚ, evaluateRPN samplePlatform "x".toList v = .ok v := fun v =>
    evaluateRPN_single samplePlatform samplePlatform_conforming v "x".toList v (Or.inl ⟨rfl, rfl⟩)
  rw [calculateGraf_eq samplePlatform (0, 4) (1, 2) 4 "x".toList "x".toList
    (by norm_num) (by norm_num) (by decide)]
  have hr : List.range 4 = [0, 1, 2, 3] := by decide
  have hg : graphPairs samplePlatform "x".toList (0, 4) (1, 2) 4 =
      [(some 1, some 1), (some 2, some 2)] := by
    simp only [graphPairs, hr, List.flatMap_cons, List.flatMap_nil, samplePairs, hev,
      sampleAbscissa_exact samplePlatform (fun _ => rfl), formulaAbscissa, List.append_nil]
    norm_num
  rw [hg]
  simp
theorem copyLoop_short (answer : List (Option ℚ) × List (Option ℚ)) :
    ∀ (remaining i : Nat) (xy : List (Option ℚ) × List (Option ℚ)),
      i ≤ answer.1.length → answer.1.length < i + remaining →
      GraphView.copyLoop answer remaining i xy = none := by
  intro remaining
  induction remaining with
  | zero =>
    intro i xy h0 h
    exact absurd h (by omega)
  | succ k ih =>
    intro i xy h0 h
    unfold GraphView.copyLoop
    cases h1 : answer.1[i]? with
    | none => rfl
    | some a =>
      cases h2 : answer.2[i]? with
      | none => rfl
      | some b =>
        simp only
        have hi : i < answer.1.length := by
          by_contra hge
          rw [List.getElem?_eq_none (by omega)] at h1
          cases h1
        exact ih (i + 1) _ (by omega) (by omega)
theorem flatMap_length_eq_iff {α β : Type} (f : α → List β) (h : ∀ a, (f a).length ≤ 1) :
    ∀ l : List α, (l.flatMap f).length = l.length ↔ ∀ a ∈ l, (f a).length = 1 := by
  intro l
  induction l with
  | nil => simp
  | cons a l ih =>
    rw [List.flatMap_cons, List.length_append, List.length_cons]
    have h1 := h a
    have h2 := flatMap_length_le f h l
    constructor
    · intro he
      have e1 : (f a).length = 1 := by omega
      have e2 : (l.flatMap f).length = l.length := by omega
      intro b hb
      simp only [List.mem_cons] at hb
      rcases hb with rfl | hb
      · exact e1
      · exact ih.mp e2 b hb
    · intro hall
      have e1 := hall a (by simp)
      have e2 := ih.mpr (fun b hb => hall b (by simp [hb]))
      omega
theorem samplePairs_length_one_iff (P : Platform) (rpn : List Char) (yRange : ℚ × ℚ)
    (vX : ℚ) :
    (samplePairs P rpn yRange vX).length = 1 ↔
      ∀ vY, evaluateRPN P rpn vX = .ok vY → yRange.1 ≤ vY ∧ vY ≤ yRange.2 := by
  unfold samplePairs
  cases he : evaluateRPN P rpn vX with
  | error e => simp
  | ok vY =>
    by_cases hw : yRange.1 ≤ vY ∧ vY ≤ yRange.2
    · simp [hw]
    · simp only [hw, if_false, List.length_nil, Except.ok.injEq]
      constructor
      · intro h
        cases h
      · intro h
        exact absurd (h vY rfl) hw
/-- C35, as stated, fails: `calculateGraf` drops the samples whose value is outside the
window, so the sequences it returns can be shorter than `pAmount`; for the window `[1, 2]`,
the range `[0, 4]`, 4 points and the text `x` each sequence has 2 elements, and the loop
of `GraphView::build_graf`, which reads the indices `0 .. 3` of both, reads past their
end, as it does whenever a returned sequence is shorter than `pAmount`. -/
theorem C35_plot_view_reads_past_end :
    calculateGraf samplePlatform (0, 4) (1, 2) 4 "x".toList =
        .ok ([some 1, some 2], [some 1, some 2]) ∧
      ([some 1, some 2] : List (Option ℚ)).length < 4 ∧
      ([some 1, some 2] : List (Option ℚ))[2]? = none ∧
      GraphView.build_graf samplePlatform 0 4 1 2 4 "x".toList = none ∧
      ∀ (P : Platform) (vXMin vXMax vYMin vYMax : ℚ) (points : Nat) (text : List Char)
        (xs ys : List (Option ℚ)), text ≠ [] →
        calculateGraf P (vXMin, vXMax) (vYMin, vYMax) points text = .ok (xs, ys) →
        xs.length < points →
        GraphView.build_graf P vXMin vXMax vYMin vYMax points text = none := by
  refine ⟨calculateGraf_window_sample, by decide, by decide, ?_, ?_⟩
  · unfold GraphView.build_graf
    rw [if_pos (by decide), calculateGraf_window_sample]
    rfl
  · intro P vXMin vXMax vYMin vYMax points text xs ys hne h hlt
    unfold GraphView.build_graf
    rw [if_pos hne, h]
    exact copyLoop_short (xs, ys) points 0 _ (Nat.zero_le _) (by simpa using hlt)
/-- C35 (amended). The length of the sampler's output: whenever `calculateGraf` returns,
its two sequences have the same length `n` with `n ≤ pAmount`, and `n = pAmount` exactly
when none of the `pAmount` samples evaluates to a value outside the window; the indices
`0 .. n - 1` of both sequences are in bounds. -/
theorem C35_sampler_length (P : Platform) (xRange yRange : ℚ × ℚ) (pAmount : Nat)
    (infixText rpn : List Char) (xs ys : List (Option ℚ))
    (hrpn : toRPN P.functionOrder infixText = .ok rpn)
    (h : calculateGraf P xRange yRange pAmount infixText = .ok (xs, ys)) :
    xs.length = ys.length ∧ xs.length ≤ pAmount ∧
      (xs.length = pAmount ↔
        ∀ i : Nat, i < pAmount → ∀ vY,
          evaluateRPN P rpn (sampleAbscissa P xRange pAmount i) = .ok vY →
          yRange.1 ≤ vY ∧ vY ≤ yRange.2) ∧
      ∀ i : Nat, i < xs.length → ∃ a b, xs[i]? = some a ∧ ys[i]? = some b := by
  obtain ⟨-, -, rpn1, hrpn1, -, hxs, hys⟩ :=
    calculateGraf_ok P xRange yRange pAmount infixText xs ys h
  rw [hrpn] at hrpn1
  cases hrpn1
  have hlx : xs.length = (graphPairs P rpn xRange yRange pAmount).length := by
    rw [hxs, List.length_map]
  have hly : ys.length = (graphPairs P rpn xRange yRange pAmount).length := by
    rw [hys, List.length_map]
  refine ⟨by rw [hlx, hly], by rw [hlx]; exact graphPairs_length_le P rpn xRange yRange pAmount,
    ?_, ?_⟩
  · rw [hlx]
    have hiff := flatMap_length_eq_iff
      (fun i => samplePairs P rpn yRange (sampleAbscissa P xRange pAmount i))
      (fun i => samplePairs_length_le P rpn yRange _) (List.range pAmount)
    rw [List.length_range] at hiff
    unfold graphPairs
    rw [hiff]
    constructor
    · intro hall i hi
      exact (samplePairs_length_one_iff P rpn yRange _).mp (hall i (List.mem_range.mpr hi))
    · intro hall i hi
      exact (samplePairs_length_one_iff P rpn yRange _).mpr (hall i (List.mem_range.mp hi))
  · intro i hi
    have hiy : i < ys.length := by rw [hly, ← hlx]; exact hi
    exact ⟨xs[i], ys[i], List.getElem?_eq_getElem hi, List.getElem?_eq_getElem hiy⟩
theorem C35_sampler_length_witness :
    toRPN samplePlatform.functionOrder "x".toList = .ok "x".toList ∧
      calculateGraf samplePlatform (0, 4) (1, 2) 4 "x".toList =
        .ok ([some 1, some 2], [some 1, some 2]) ∧
      ([some 1, some 2] : List (Option ℚ)).length ≤ 4 ∧
      ¬ (∀ i : Nat, i < 4 → ∀ vY,
          evaluateRPN samplePlatform "x".toList (sampleAbscissa samplePlatform (0, 4) 4 i) = .ok vY →
          ((1 : ℚ), (2 : ℚ)).1 ≤ vY ∧ vY ≤ ((1 : ℚ), (2 : ℚ)).2) := by
  have hr : toRPN samplePlatform.functionOrder "x".toList = .ok "x".toList := by decide
  have h := C35_sampler_length samplePlatform (0, 4) (1, 2) 4 "x".toList "x".toList _ _ hr
    calculateGraf_window_sample
  refine ⟨hr, calculateGraf_window_sample, h.2.1, ?_⟩
  intro hall
  have := h.2.2.1.mpr hall
  revert this
  decide

theorem functionName_plain (f : FunctionName) (h1 : f ≠ .asin) (h2 : f ≠ .acos)
    (h3 : f ≠ .atan) : (f.text, f.symbol) ∈ plainFunctions := by
  cases f <;> first | decide | exact absurd rfl h1 | exact absurd rfl h2 | exact absurd rfl h3
end SmartCalc
